import Mathlib

/-!
# gosh-darnit: profanity detection and censoring

A shallow embedding of `goshdarnit.go`, `normalize.go` and `aho_corasick.go`.

* A Go `string` is a list of bytes (`Str`); byte offsets are natural numbers.
* A Go `rune` is a natural number (its code point).
* Run-time panics (index or slice out of range, nil dereference) and the
  exhaustion of the fuel of a loop are explicit faults of type `Fault`.
* The Go standard library (`unicode/utf8`, `unicode`) is embedded from its
  documented behaviour; the Unicode tables beyond Latin-1 and the NFKC
  routine of `golang.org/x/text` are parameters (`Unicode`).
* The dictionary `profanityList` is a parameter of `init`.
-/

namespace GoshDarnit

/-! ## Strings, runes and UTF-8 (`unicode/utf8`) -/

/-- A Go string: its bytes, each below 256. -/
abbrev Str := List Nat

/-- The faults a run can end in. -/
inductive Fault where
  | outOfRange
  | nilDeref
  | outOfFuel
  deriving DecidableEq, Repr

instance {α : Type} [DecidableEq α] : DecidableEq (Except Fault α) := fun a b =>
  match a, b with
  | .ok x, .ok y => if h : x = y then isTrue (by rw [h]) else isFalse (fun e => h (by cases e; rfl))
  | .error x, .error y =>
    if h : x = y then isTrue (by rw [h]) else isFalse (fun e => h (by cases e; rfl))
  | .ok _, .error _ => isFalse (fun e => by cases e)
  | .error _, .ok _ => isFalse (fun e => by cases e)

/-- The replacement rune `utf8.RuneError`, U+FFFD. -/
def RuneError : Nat := 0xFFFD

/-- The predicate `utf8.ValidRune`: a code point that is no surrogate half. -/
def ValidRune (r : Nat) : Bool :=
  r < 0xD800 || (0xDFFF < r && r ≤ 0x10FFFF)

/-- The function `utf8.RuneLen` on the runes it is called on. Go answers -1 for a
surrogate half or a value above U+10FFFF; every caller passes a rune that a
`range` loop decoded, which is always valid (`decodeRune_valid`), and the
value 0 stands for that answer here. -/
def RuneLen (r : Nat) : Nat :=
  if r < 0x80 then 1
  else if r < 0x800 then 2
  else if 0xD800 ≤ r ∧ r ≤ 0xDFFF then 0
  else if r < 0x10000 then 3
  else if r ≤ 0x10FFFF then 4
  else 0

/-- The bytes `utf8.EncodeRune` writes; an invalid rune is written as
`RuneError`. Also the conversion `string(r)` of a single rune. -/
def encodeRune (r : Nat) : Str :=
  if r < 0x80 then [r]
  else if r < 0x800 then [0xC0 + r / 64, 0x80 + r % 64]
  else if 0x10FFFF < r ∨ (0xD800 ≤ r ∧ r ≤ 0xDFFF) then [0xEF, 0xBF, 0xBD]
  else if r < 0x10000 then [0xE0 + r / 4096, 0x80 + r / 64 % 64, 0x80 + r % 64]
  else [0xF0 + r / 262144, 0x80 + r / 4096 % 64, 0x80 + r / 64 % 64, 0x80 + r % 64]

/-- A continuation byte `10xxxxxx`. -/
def isCont (b : Nat) : Bool := 0x80 ≤ b && b ≤ 0xBF

/-- The function `utf8.DecodeRuneInString`: the first rune of `s` and its width in
bytes; `(RuneError, 0)` on the empty string and `(RuneError, 1)` on an
encoding that is invalid, over-long, a surrogate half, or out of range. -/
def decodeRune : Str → Nat × Nat
  | [] => (RuneError, 0)
  | b0 :: rest =>
    if b0 < 0x80 then (b0, 1)
    else if 0xC2 ≤ b0 ∧ b0 ≤ 0xDF then
      match rest with
      | b1 :: _ =>
        if isCont b1 then ((b0 - 0xC0) * 64 + (b1 - 0x80), 2) else (RuneError, 1)
      | _ => (RuneError, 1)
    else if 0xE0 ≤ b0 ∧ b0 ≤ 0xEF then
      match rest with
      | b1 :: b2 :: _ =>
        let lo := if b0 = 0xE0 then 0xA0 else 0x80
        let hi := if b0 = 0xED then 0x9F else 0xBF
        if lo ≤ b1 ∧ b1 ≤ hi ∧ isCont b2 then
          ((b0 - 0xE0) * 4096 + (b1 - 0x80) * 64 + (b2 - 0x80), 3)
        else (RuneError, 1)
      | _ => (RuneError, 1)
    else if 0xF0 ≤ b0 ∧ b0 ≤ 0xF4 then
      match rest with
      | b1 :: b2 :: b3 :: _ =>
        let lo := if b0 = 0xF0 then 0x90 else 0x80
        let hi := if b0 = 0xF4 then 0x8F else 0xBF
        if lo ≤ b1 ∧ b1 ≤ hi ∧ isCont b2 ∧ isCont b3 then
          ((b0 - 0xF0) * 262144 + (b1 - 0x80) * 4096 + (b2 - 0x80) * 64 + (b3 - 0x80), 4)
        else (RuneError, 1)
      | _ => (RuneError, 1)
    else (RuneError, 1)

/-- The predicate `utf8.RuneStart`: the byte is not a continuation byte. -/
def RuneStart (b : Nat) : Bool := !isCont b

/-- The backward scan of `utf8.DecodeLastRuneInString`: from `start`, step down
while `start ≥ lim` and the byte there is no rune start. The result is the
final `start` as Go leaves it, shifted by one so that 0 stands for -1. -/
def scanBack (s : Str) (lim : Nat) : Nat → Nat
  | 0 => 0
  | start + 1 =>
    if start < lim then start + 1
    else if RuneStart (s.getD start 0) then start + 1
    else scanBack s lim start

/-- The function `utf8.DecodeLastRuneInString`: the last rune of `s` and its width. -/
def decodeLastRune (s : Str) : Nat × Nat :=
  let stop := s.length
  if stop = 0 then (RuneError, 0)
  else
    let r := s.getD (stop - 1) 0
    if r < 0x80 then (r, 1)
    else
      let lim := stop - 4
      let start := scanBack s lim (stop - 1) - 1
      let d := decodeRune (s.drop start)
      if start + d.2 ≠ stop then (RuneError, 1) else d

/-- The loop `for i, r := range s`: the pairs `(i, r)` of byte offset and
rune, in order. The fuel is the number of bytes left, which bounds the
number of runes. -/
def rangeAux : Nat → Nat → Str → List (Nat × Nat)
  | 0, _, _ => []
  | fuel + 1, i, s =>
    match s with
    | [] => []
    | _ :: _ =>
      let d := decodeRune s
      (i, d.1) :: rangeAux fuel (i + d.2) (s.drop d.2)

/-- The loop `for i, r := range s` over a whole string. -/
def rangeStr (s : Str) : List (Nat × Nat) := rangeAux s.length 0 s

/-- The conversion `[]rune(s)`. -/
def runesOf (s : Str) : List Nat := (rangeStr s).map Prod.snd

/-- The conversion `string(runes)` of a rune slice. -/
def stringOfRunes (rs : List Nat) : Str := rs.flatMap encodeRune

/-- The predicate `utf8.ValidString`: decoding never meets an invalid encoding. -/
def validAux : Nat → Str → Bool
  | 0, s => s.isEmpty
  | fuel + 1, s =>
    match s with
    | [] => true
    | _ :: _ =>
      let d := decodeRune s
      if d.1 = RuneError ∧ d.2 = 1 then false else validAux fuel (s.drop d.2)

/-- The predicate `utf8.ValidString`. -/
def ValidString (s : Str) : Bool := validAux s.length s

/-! ## Unicode tables (`unicode`, `golang.org/x/text/unicode/norm`) -/

/-- The parts of the Unicode data that are not embedded: the NFKC routine
`norm.NFKC.String`, and the tables that `unicode.ToLower`, `unicode.IsLetter`
and `unicode.IsDigit` consult above ASCII resp. Latin-1. -/
structure Unicode where
  nfkc : Str → Str
  lowerTable : Nat → Nat
  letterTable : Nat → Bool
  digitTable : Nat → Bool

/-- The function `unicode.ToLower`: ASCII is handled directly, the rest by table. -/
def ToLower (U : Unicode) (r : Nat) : Nat :=
  if r ≤ 0x7F then
    if 0x41 ≤ r ∧ r ≤ 0x5A then r + 0x20 else r
  else U.lowerTable r

/-- The function `unicode.IsLetter`: Latin-1 is handled by the built-in property
table, the rest by the range tables. -/
def IsLetter (U : Unicode) (r : Nat) : Bool :=
  if r ≤ 0xFF then
    (0x41 ≤ r && r ≤ 0x5A) || (0x61 ≤ r && r ≤ 0x7A) || r == 0xAA || r == 0xB5 ||
      r == 0xBA || (0xC0 ≤ r && r ≤ 0xD6) || (0xD8 ≤ r && r ≤ 0xF6) || 0xF8 ≤ r
  else U.letterTable r

/-- The function `unicode.IsDigit`: Latin-1 is handled directly, the rest by the
range tables. -/
def IsDigit (U : Unicode) (r : Nat) : Bool :=
  if r ≤ 0xFF then 0x30 ≤ r && r ≤ 0x39 else U.digitTable r

/-! ## `normalize.go`: tables -/

/-- The set `zeroWidthChars` of invisible runes that are stripped. -/
def zeroWidthChars : List Nat :=
  [0x200B, 0x200C, 0x200D, 0xFEFF, 0x00AD, 0x200E, 0x200F, 0x2060, 0x2061, 0x2062, 0x2063, 0x2064, 0x180E, 0x034F]

/-- The table `leetspeakMap`, as an association list in source order. -/
def leetspeakMap : List (Nat × Nat) :=
  [
  (0x0040, 0x61), (0x0034, 0x61), (0x0038, 0x62), (0x0033, 0x65), (0x0021, 0x69), (0x0031, 0x69), (0x007C, 0x69),
  (0x0030, 0x6F), (0x0024, 0x73), (0x0035, 0x73), (0x0037, 0x74), (0x002B, 0x74), (0x0076, 0x75), (0x0056, 0x75)
  ]

/-- The table `homoglyphMap`, as an association list in source order. -/
def homoglyphMap : List (Nat × Nat) :=
  [
  (0x0430, 0x61), (0x0410, 0x61), (0x0435, 0x65), (0x0415, 0x65), (0x0451, 0x65), (0x0401, 0x65),
  (0x043E, 0x6F), (0x041E, 0x6F), (0x0440, 0x70), (0x0420, 0x70), (0x0441, 0x63), (0x0421, 0x63),
  (0x0443, 0x79), (0x0423, 0x79), (0x0445, 0x78), (0x0425, 0x78), (0x0456, 0x69), (0x0406, 0x69),
  (0x0457, 0x69), (0x0407, 0x69), (0x0458, 0x6A), (0x0408, 0x6A), (0x04CF, 0x6C), (0x04C0, 0x6C),
  (0x041A, 0x6B), (0x043A, 0x6B), (0x041C, 0x6D), (0x043C, 0x6D), (0x041D, 0x68), (0x0422, 0x74),
  (0x0442, 0x74), (0x0412, 0x62), (0x0432, 0x62), (0x0405, 0x73), (0x0455, 0x73), (0x0500, 0x64),
  (0x0501, 0x64), (0x0391, 0x61), (0x03B1, 0x61), (0x0392, 0x62), (0x03B2, 0x62), (0x0395, 0x65),
  (0x03B5, 0x65), (0x0397, 0x68), (0x03B7, 0x6E), (0x0399, 0x69), (0x03B9, 0x69), (0x039A, 0x6B),
  (0x03BA, 0x6B), (0x039C, 0x6D), (0x03BC, 0x75), (0x039D, 0x6E), (0x03BD, 0x76), (0x039F, 0x6F),
  (0x03BF, 0x6F), (0x03A1, 0x70), (0x03C1, 0x70), (0x03A4, 0x74), (0x03C4, 0x74), (0x03A5, 0x79),
  (0x03C5, 0x75), (0x03A7, 0x78), (0x03C7, 0x78), (0xFF21, 0x61), (0xFF41, 0x61), (0xFF22, 0x62),
  (0xFF42, 0x62), (0xFF23, 0x63), (0xFF43, 0x63), (0xFF24, 0x64), (0xFF44, 0x64), (0xFF25, 0x65),
  (0xFF45, 0x65), (0xFF26, 0x66), (0xFF46, 0x66), (0xFF27, 0x67), (0xFF47, 0x67), (0xFF28, 0x68),
  (0xFF48, 0x68), (0xFF29, 0x69), (0xFF49, 0x69), (0xFF2A, 0x6A), (0xFF4A, 0x6A), (0xFF2B, 0x6B),
  (0xFF4B, 0x6B), (0xFF2C, 0x6C), (0xFF4C, 0x6C), (0xFF2D, 0x6D), (0xFF4D, 0x6D), (0xFF2E, 0x6E),
  (0xFF4E, 0x6E), (0xFF2F, 0x6F), (0xFF4F, 0x6F), (0xFF30, 0x70), (0xFF50, 0x70), (0xFF31, 0x71),
  (0xFF51, 0x71), (0xFF32, 0x72), (0xFF52, 0x72), (0xFF33, 0x73), (0xFF53, 0x73), (0xFF34, 0x74),
  (0xFF54, 0x74), (0xFF35, 0x75), (0xFF55, 0x75), (0xFF36, 0x76), (0xFF56, 0x76), (0xFF37, 0x77),
  (0xFF57, 0x77), (0xFF38, 0x78), (0xFF58, 0x78), (0xFF39, 0x79), (0xFF59, 0x79), (0xFF3A, 0x7A),
  (0xFF5A, 0x7A), (0xFF10, 0x6F), (0xFF11, 0x69), (0xFF12, 0x7A), (0xFF13, 0x65), (0xFF14, 0x61),
  (0xFF15, 0x73), (0xFF16, 0x62), (0xFF17, 0x74), (0xFF18, 0x62), (0xFF19, 0x67), (0x2113, 0x6C),
  (0x2112, 0x6C), (0x2110, 0x69), (0x2111, 0x69), (0x210A, 0x67), (0x210B, 0x68), (0x210C, 0x68),
  (0x210D, 0x68), (0x2115, 0x6E), (0x2119, 0x70), (0x211A, 0x71), (0x211B, 0x72), (0x211C, 0x72),
  (0x211D, 0x72), (0x2124, 0x7A), (0x2128, 0x7A), (0x212C, 0x62), (0x212D, 0x63), (0x2130, 0x65),
  (0x2131, 0x66), (0x2133, 0x6D), (0x24B6, 0x61), (0x24D0, 0x61), (0x24B7, 0x62), (0x24D1, 0x62),
  (0x24B8, 0x63), (0x24D2, 0x63), (0x24B9, 0x64), (0x24D3, 0x64), (0x24BA, 0x65), (0x24D4, 0x65),
  (0x24BB, 0x66), (0x24D5, 0x66), (0x24BC, 0x67), (0x24D6, 0x67), (0x24BD, 0x68), (0x24D7, 0x68),
  (0x24BE, 0x69), (0x24D8, 0x69), (0x24BF, 0x6A), (0x24D9, 0x6A), (0x24C0, 0x6B), (0x24DA, 0x6B),
  (0x24C1, 0x6C), (0x24DB, 0x6C), (0x24C2, 0x6D), (0x24DC, 0x6D), (0x24C3, 0x6E), (0x24DD, 0x6E),
  (0x24C4, 0x6F), (0x24DE, 0x6F), (0x24C5, 0x70), (0x24DF, 0x70), (0x24C6, 0x71), (0x24E0, 0x71),
  (0x24C7, 0x72), (0x24E1, 0x72), (0x24C8, 0x73), (0x24E2, 0x73), (0x24C9, 0x74), (0x24E3, 0x74),
  (0x24CA, 0x75), (0x24E4, 0x75), (0x24CB, 0x76), (0x24E5, 0x76), (0x24CC, 0x77), (0x24E6, 0x77),
  (0x24CD, 0x78), (0x24E7, 0x78), (0x24CE, 0x79), (0x24E8, 0x79), (0x24CF, 0x7A), (0x24E9, 0x7A)
  ]

/-! ## `normalize.go`: normalization -/

/-- The result of text normalization; `posMap` maps normalized byte positions
to byte positions of the NFKC form. -/
structure normalizedText where
  original : Str
  normalized : Str
  posMap : List Nat
  deriving DecidableEq, Repr

/-- The body of the loop of `normalizeText` over the runes of the NFKC form,
from byte position `origPos` on: the bytes appended to `result` and the
entries appended to `posMap`. -/
def normalizeLoop (U : Unicode) : Nat → List Nat → Str × List Nat
  | _, [] => ([], [])
  | origPos, r :: rs =>
    let runeLen := RuneLen r
    let startPos := origPos
    if r ∈ zeroWidthChars then normalizeLoop U (origPos + runeLen) rs
    else
      let r := ToLower U r
      let r := (homoglyphMap.lookup r).getD r
      let r := (leetspeakMap.lookup r).getD r
      let buf := encodeRune r
      let rest := normalizeLoop U (origPos + runeLen) rs
      (buf ++ rest.1, List.replicate buf.length startPos ++ rest.2)

/-- The function `normalizeText`. -/
def normalizeText (U : Unicode) (text : Str) : normalizedText :=
  let nfkc := U.nfkc text
  let out := normalizeLoop U 0 (runesOf nfkc)
  { original := text, normalized := out.1, posMap := out.2 }

/-! ## `normalize.go`: collapsing repeats -/

/-- Position maps of the collapsed text into the text it was collapsed from. -/
structure collapsedPosInfo where
  startPos : List Nat
  endPos : List Nat
  deriving DecidableEq, Repr

/-- The local variables of the loop of `collapseRepeats`. -/
structure collapseState where
  result : Str
  startPos : List Nat
  endPos : List Nat
  lastRune : Nat
  lastRuneSet : Bool
  bytePos : Nat
  lastCharEndPos : Nat
  deriving DecidableEq, Repr

/-- The loop `for i := len(endPos) - lastRuneLen; i < len(endPos); i++
\x7b endPos[i] = v \x7d`: the last `lastRuneLen` entries become `v`. The
entries of the last kept rune were appended before, so the first index is
never negative. -/
def fillEnd (endPos : List Nat) (lastRuneLen v : Nat) : List Nat :=
  endPos.take (endPos.length - lastRuneLen) ++
    List.replicate (endPos.length - (endPos.length - lastRuneLen)) v

/-- The back-fill `if lastRuneSet && len(endPos) > 0` of `collapseRepeats`. -/
def backFill (st : collapseState) : List Nat :=
  if st.lastRuneSet ∧ st.endPos.length > 0 then
    fillEnd st.endPos (RuneLen st.lastRune) st.lastCharEndPos
  else st.endPos

/-- One iteration of the loop of `collapseRepeats` on the rune `r`. -/
def collapseStep (st : collapseState) (r : Nat) : collapseState :=
  let runeLen := RuneLen r
  let nextPos := st.bytePos + runeLen
  if st.lastRuneSet ∧ r = st.lastRune then
    { st with lastCharEndPos := nextPos, bytePos := nextPos }
  else
    let endPos := backFill st
    let buf := encodeRune r
    { result := st.result ++ buf
      startPos := st.startPos ++ List.replicate buf.length st.bytePos
      endPos := endPos ++ List.replicate buf.length nextPos
      lastRune := r
      lastRuneSet := true
      lastCharEndPos := nextPos
      bytePos := nextPos }

/-- The state of `collapseRepeats` before the loop. -/
def collapseInit : collapseState :=
  { result := [], startPos := [], endPos := [], lastRune := 0, lastRuneSet := false,
    bytePos := 0, lastCharEndPos := 0 }

/-- The function `collapseRepeats`. -/
def collapseRepeats (text : Str) : Str × collapsedPosInfo :=
  if text.length = 0 then ([], { startPos := [], endPos := [] })
  else
    let st := (runesOf text).foldl collapseStep collapseInit
    (st.result, { startPos := st.startPos, endPos := backFill st })

/-! ## Indexing and slicing, with Go's range checks -/

/-- The slice expression `s[lo:hi]`; it panics unless `lo ≤ hi ≤ len(s)`. -/
def slice (s : Str) (lo hi : Nat) : Except Fault Str :=
  if lo ≤ hi ∧ hi ≤ s.length then .ok ((s.take hi).drop lo) else .error .outOfRange

/-- The index expression `xs[i]` for a natural index. -/
def index (xs : List Nat) (i : Nat) : Except Fault Nat :=
  match xs[i]? with
  | some x => .ok x
  | none => .error .outOfRange

/-- The index expression `xs[i]` for an integer index, negative ones included. -/
def indexInt (xs : List Nat) (i : Int) : Except Fault Nat :=
  if i < 0 then .error .outOfRange else index xs i.toNat

/-! ## `normalize.go`: word boundaries, masks, shape validation -/

/-- The function `isWordChar`. -/
def isWordChar (U : Unicode) (r : Nat) : Bool := IsLetter U r || IsDigit U r

/-- The function `isWordBoundaryBefore`. -/
def isWordBoundaryBefore (U : Unicode) (text : Str) (pos : Nat) : Except Fault Bool :=
  if pos ≤ 0 then .ok true
  else do
    let pre ← slice text 0 pos
    pure (!isWordChar U (decodeLastRune pre).1)

/-- The function `isWordBoundaryAfter`. -/
def isWordBoundaryAfter (U : Unicode) (text : Str) (pos : Nat) : Except Fault Bool :=
  if pos ≥ text.length then .ok true
  else do
    let post ← slice text pos text.length
    pure (!isWordChar U (decodeRune post).1)

/-- The rune `'*'`. -/
def asterisk : Nat := 0x2A

/-- The function `buildAsteriskMask`. -/
def buildAsteriskMask (originalSegment : Str) (mode : Int) : Str :=
  let runes := runesOf originalSegment
  let length := runes.length
  if length = 0 then []
  else
    let result := List.replicate length asterisk
    let result :=
      if mode = 1 then
        if length ≥ 1 then result.set 0 (runes.getD 0 0) else result
      else if mode = 2 then
        let result := if length ≥ 1 then result.set 0 (runes.getD 0 0) else result
        if length ≥ 2 then result.set (length - 1) (runes.getD (length - 1) 0) else result
      else result
    stringOfRunes result

/-- A profanity match in the text. -/
structure matchInfo where
  origStart : Nat
  origEnd : Nat
  pattern : Str
  deriving DecidableEq, Repr

/-- The loop of `isValidMatch`, with `patternRunes[pi:]` and `segmentRunes[si:]`
as arguments; its result is the final `pi == len(patternRunes) && si ==
len(segmentRunes)`, or false where the loop returns false. -/
def validLoop : List Nat → List Nat → Bool
  | [], seg => seg.isEmpty
  | _ :: _, [] => false
  | p :: ps, c :: cs =>
    if c = p then validLoop ps (cs.dropWhile (fun x => x == c)) else false

/-- The function `isValidMatch`. -/
def isValidMatch (normalizedSegment pattern : Str) : Bool :=
  if normalizedSegment.length < pattern.length then false
  else if normalizedSegment = pattern then true
  else validLoop (runesOf pattern) (runesOf normalizedSegment)

/-! ## `aho_corasick.go` -/

/-- A node of the automaton. Nodes live in a heap (a list), a `*acNode` is the
index of the node in it, and the nil pointer is `none`. `children` is the
map `map[rune]*acNode` as an association list in insertion order. -/
structure acNode where
  children : List (Nat × Nat)
  fail : Option Nat
  output : List Nat
  depth : Nat
  isTerminal : Bool
  deriving DecidableEq, Repr

/-- The automaton: its heap of nodes, whose entry 0 is `root`, and the patterns. -/
structure ahoCorasick where
  nodes : List acNode
  patterns : List Str
  deriving DecidableEq, Repr

/-- A match found by the automaton; `start` is `end - len(pattern)` as Go
computes it, an integer. -/
structure acMatch where
  patternIndex : Nat
  start : Int
  end_ : Nat
  deriving DecidableEq, Repr

/-- The function `newACNode`. -/
def newACNode (depth : Nat) : acNode :=
  { children := [], fail := none, output := [], depth := depth, isTerminal := false }

/-- The node a pointer points to. -/
def getNode (nodes : List acNode) (p : Nat) : acNode := nodes.getD p (newACNode 0)

/-- The pointer to `root`. -/
def root : Nat := 0

/-- One iteration of the inner loop of `buildTrie`: from `node`, follow or
create the child on rune `r`. -/
def trieStep (st : List acNode × Nat) (r : Nat) : List acNode × Nat :=
  let nodes := st.1
  let node := st.2
  let n := getNode nodes node
  match n.children.lookup r with
  | some next => (nodes, next)
  | none =>
    let fresh := nodes.length
    ((nodes.set node { n with children := n.children ++ [(r, fresh)] }) ++
      [newACNode (n.depth + 1)], fresh)

/-- The body of the outer loop of `buildTrie` for pattern number `i`. -/
def insertPattern (nodes : List acNode) (i : Nat) (pattern : Str) : List acNode :=
  let st := (runesOf pattern).foldl trieStep (nodes, root)
  let n := getNode st.1 st.2
  st.1.set st.2 { n with isTerminal := true, output := n.output ++ [i] }

/-- The outer loop of `buildTrie` over the patterns from number `i` on. -/
def insertAll : Nat → List Str → List acNode → List acNode
  | _, [], nodes => nodes
  | i, p :: ps, nodes => insertAll (i + 1) ps (insertPattern nodes i p)

/-- The function `buildTrie`, on the heap that holds only the root. -/
def buildTrie (patterns : List Str) : List acNode :=
  insertAll 0 patterns [newACNode 0]

/-- The loop `for failNode != nil` of `buildFailLinks` for the rune `r`:
the node assigned to `child.fail`, or `none` when the loop ends at nil
without an assignment. The fuel bounds the length of the fail chain. -/
def walkFail (nodes : List acNode) (r : Nat) : Nat → Option Nat → Except Fault (Option Nat)
  | _, none => .ok none
  | 0, some _ => .error .outOfFuel
  | fuel + 1, some failNode =>
    match (getNode nodes failNode).children.lookup r with
    | some next => .ok (some next)
    | none => walkFail nodes r fuel (getNode nodes failNode).fail

/-- The body of the loop `for r, child := range current.children` of
`buildFailLinks`, on the heap and the queue. -/
def linkChild (current : Nat) (st : List acNode × List Nat) (rc : Nat × Nat) :
    Except Fault (List acNode × List Nat) := do
  let nodes := st.1
  let child := rc.2
  let queue := st.2 ++ [child]
  let found ← walkFail nodes rc.1 nodes.length (getNode nodes current).fail
  let c := getNode nodes child
  let fail := match found with
    | some next => some next
    | none => c.fail
  let fail := match fail with
    | some f => f
    | none => root
  let merged := (getNode nodes fail).output
  let output := if merged ≠ [] then c.output ++ merged else c.output
  pure (nodes.set child { c with fail := some fail, output := output }, queue)

/-- The order in which a `range` loop visits the entries of a map
`map[rune]*acNode`. Go leaves it open, so the construction of the automaton
takes it as a parameter: a rearrangement of the entries. -/
abbrev MapOrder := List (Nat × Nat) → List (Nat × Nat)

/-- The order that visits the entries as they were inserted. -/
def insertionOrder : MapOrder := fun entries => entries

/-- The loop `for len(queue) > 0` of `buildFailLinks`. Every node enters the
queue once, so the number of nodes is enough fuel. The children of a node
are visited in the order `ord`. -/
def bfs (ord : MapOrder) : Nat → List Nat → List acNode → Except Fault (List acNode)
  | _, [], nodes => .ok nodes
  | 0, _ :: _, _ => .error .outOfFuel
  | fuel + 1, current :: queue, nodes => do
    let st ← (ord (getNode nodes current).children).foldlM (linkChild current) (nodes, queue)
    bfs ord fuel st.2 st.1

/-- The first loop of `buildFailLinks`: the children of the root fail to the
root and enter the queue. -/
def linkRootChild (st : List acNode × List Nat) (rc : Nat × Nat) : List acNode × List Nat :=
  (st.1.set rc.2 { getNode st.1 rc.2 with fail := some root }, st.2 ++ [rc.2])

/-- The function `buildFailLinks`. -/
def buildFailLinks (ord : MapOrder) (nodes : List acNode) : Except Fault (List acNode) :=
  let st := (ord (getNode nodes root).children).foldl linkRootChild (nodes, [])
  bfs ord nodes.length st.2 st.1

/-- The function `newAhoCorasick`. -/
def newAhoCorasick (ord : MapOrder) (patterns : List Str) : Except Fault ahoCorasick := do
  let nodes ← buildFailLinks ord (buildTrie patterns)
  pure { nodes := nodes, patterns := patterns }

/-- The loop `for node != ac.root` of `Search`: follow fail links until the
node has a child on `r` or is the root. Following a nil link is a nil
dereference at the next test. The fuel bounds the length of the fail chain. -/
def walkToChild (nodes : List acNode) (r : Nat) : Nat → Nat → Except Fault Nat
  | fuel, node =>
    if node = root then .ok node
    else
      match fuel with
      | 0 => .error .outOfFuel
      | fuel + 1 =>
        match (getNode nodes node).children.lookup r with
        | some _ => .ok node
        | none =>
          match (getNode nodes node).fail with
          | none => .error .nilDeref
          | some f => walkToChild nodes r fuel f

/-- The index expression `ac.patterns[i]`. -/
def patternAt (ac : ahoCorasick) (i : Nat) : Except Fault Str :=
  match ac.patterns[i]? with
  | some p => .ok p
  | none => .error .outOfRange

/-- The loop `for _, patternIdx := range node.output` of `Search`. The callback
is a function on the state `σ` of its closure; the flag returned is false
when the callback has stopped the search. -/
def emit {σ : Type} (ac : ahoCorasick) (callback : acMatch → σ → σ × Bool) (endPos : Nat) :
    List Nat → σ → Except Fault (σ × Bool)
  | [], s => .ok (s, true)
  | patternIdx :: rest, s =>
    match patternAt ac patternIdx with
    | .error e => .error e
    | .ok pattern =>
      let patternLen := pattern.length
      let startPos : Int := (endPos : Int) - (patternLen : Int)
      let m : acMatch := { patternIndex := patternIdx, start := startPos, end_ := endPos }
      let res := callback m s
      if res.2 then emit ac callback endPos rest res.1 else .ok (res.1, false)

/-- The loop `for i, r := range text` of `Search`, from the node `node`. -/
def searchLoop {σ : Type} (ac : ahoCorasick) (callback : acMatch → σ → σ × Bool) :
    List (Nat × Nat) → Nat → σ → Except Fault σ
  | [], _, s => .ok s
  | (i, r) :: rest, node, s => do
    let node ← walkToChild ac.nodes r ac.nodes.length node
    let node := match (getNode ac.nodes node).children.lookup r with
      | some next => next
      | none => root
    let output := (getNode ac.nodes node).output
    if output.length > 0 then
      let runeLen := (encodeRune r).length
      let endPos := i + runeLen
      let res ← emit ac callback endPos output s
      if res.2 then searchLoop ac callback rest node res.1 else pure res.1
    else searchLoop ac callback rest node s

/-- The method `Search`; the result is the final state of the callback's closure. -/
def Search {σ : Type} (ac : ahoCorasick) (text : Str) (callback : acMatch → σ → σ × Bool)
    (s : σ) : Except Fault σ :=
  searchLoop ac callback (rangeStr text) root s

/-- The method `SearchAll`. -/
def SearchAll (ac : ahoCorasick) (text : Str) : Except Fault (List acMatch) :=
  Search ac text (fun m found => (found ++ [m], true)) []

/-- The method `HasMatch`. -/
def HasMatch (ac : ahoCorasick) (text : Str) : Except Fault Bool :=
  Search ac text (fun _ _ => (true, false)) false

/-! ## `normalize.go`: `findMatches` -/

/-- The variable `normalizedStart` of the loop body of `findMatches`. -/
def normalizedStart (collapsedPos : collapsedPosInfo) (m : acMatch) : Except Fault Nat :=
  if m.start < (collapsedPos.startPos.length : Int) then indexInt collapsedPos.startPos m.start
  else pure 0

/-- The variable `normalizedEnd` of the loop body of `findMatches`; both branches
that do not index assign `len(nt.normalized)`. -/
def normalizedEnd (nt : normalizedText) (collapsedPos : collapsedPosInfo) (m : acMatch) :
    Except Fault Nat :=
  if m.end_ > 0 ∧ m.end_ ≤ collapsedPos.endPos.length then
    index collapsedPos.endPos (m.end_ - 1)
  else pure nt.normalized.length

/-- The first step of the loop body of `findMatches`, "map from collapsed
position back to normalized position": `normalizedStart` and `normalizedEnd`. -/
def normalizedRange (nt : normalizedText) (collapsedPos : collapsedPosInfo) (m : acMatch) :
    Except Fault (Nat × Nat) := do
  let s ← normalizedStart collapsedPos m
  let e ← normalizedEnd nt collapsedPos m
  pure (s, e)

/-- The variable `origStart` of the loop body of `findMatches`, before the clamp. -/
def origStart (nt : normalizedText) (normalizedStart : Nat) : Except Fault Nat :=
  if normalizedStart < nt.posMap.length then index nt.posMap normalizedStart
  else pure 0

/-- The step "add the length of the last rune in original" of `findMatches`. -/
def addLastRune (nt : normalizedText) (origEnd : Nat) : Except Fault Nat :=
  if origEnd < nt.original.length then do
    let tail ← slice nt.original origEnd nt.original.length
    pure (origEnd + (decodeRune tail).2)
  else pure origEnd

/-- The variable `origEnd` of the loop body of `findMatches`, before the clamp. -/
def origEnd (text : Str) (nt : normalizedText) (normalizedEnd : Nat) : Except Fault Nat :=
  if normalizedEnd > 0 ∧ normalizedEnd ≤ nt.posMap.length then do
    let origEnd ← index nt.posMap (normalizedEnd - 1)
    addLastRune nt origEnd
  else if normalizedEnd ≥ nt.posMap.length then pure nt.original.length
  else pure text.length

/-- The clamp `if pos > len(text) then len(text)` under `nt.original != text`. -/
def clamp (text : Str) (nt : normalizedText) (pos : Nat) : Nat :=
  if nt.original ≠ text ∧ pos > text.length then text.length else pos

/-- The second step of the loop body of `findMatches`, "map back to original
text positions", with the clamp under `nt.original != text`: `origStart` and
`origEnd`. -/
def originalRange (text : Str) (nt : normalizedText) (normalizedStart normalizedEnd : Nat) :
    Except Fault (Nat × Nat) := do
  let s ← origStart nt normalizedStart
  let e ← origEnd text nt normalizedEnd
  pure (clamp text nt s, clamp text nt e)

/-- The last step of the loop body of `findMatches`: the word-boundary checks on
the original text and the shape validation; `none` where the loop continues
without appending. `c2o` is the global map `collapsedToOriginal`. -/
def acceptMatch (U : Unicode) (c2o : List (Str × Str)) (ac : ahoCorasick) (text : Str)
    (nt : normalizedText) (m : acMatch) (normalizedStart normalizedEnd origStart origEnd : Nat) :
    Except Fault (Option matchInfo) := do
  let before ← isWordBoundaryBefore U text origStart
  if !before then pure none
  else
    let after ← isWordBoundaryAfter U text origEnd
    if !after then pure none
    else
      let collapsedPattern ← patternAt ac m.patternIndex
      let normalizedSegment ← slice nt.normalized normalizedStart normalizedEnd
      let originalPattern := (c2o.lookup collapsedPattern).getD collapsedPattern
      if !isValidMatch normalizedSegment originalPattern then pure none
      else pure (some { origStart := origStart, origEnd := origEnd, pattern := collapsedPattern })

/-- The body of the loop `for _, m := range matches` of `findMatches`: the
`matchInfo` appended to `results`, or `none` where the loop continues without
appending. -/
def projectMatch (U : Unicode) (c2o : List (Str × Str)) (ac : ahoCorasick) (text : Str)
    (nt : normalizedText) (collapsedPos : collapsedPosInfo) (m : acMatch) :
    Except Fault (Option matchInfo) := do
  let n ← normalizedRange nt collapsedPos m
  let o ← originalRange text nt n.1 n.2
  acceptMatch U c2o ac text nt m n.1 n.2 o.1 o.2

/-- The loop `for _, m := range matches` of `findMatches`. -/
def projectAll (U : Unicode) (c2o : List (Str × Str)) (ac : ahoCorasick) (text : Str)
    (nt : normalizedText) (collapsedPos : collapsedPosInfo) :
    List acMatch → Except Fault (List matchInfo)
  | [] => .ok []
  | m :: rest => do
    let r ← projectMatch U c2o ac text nt collapsedPos m
    let rs ← projectAll U c2o ac text nt collapsedPos rest
    pure (match r with
      | some mi => mi :: rs
      | none => rs)

/-- The function `findMatches`; a nil result is the empty list. -/
def findMatches (U : Unicode) (c2o : List (Str × Str)) (text : Str) (ac : ahoCorasick) :
    Except Fault (List matchInfo) :=
  if text.length = 0 then .ok []
  else do
    let nt := normalizeText U text
    let collapsed := collapseRepeats nt.normalized
    let found ← SearchAll ac collapsed.1
    if found.length = 0 then pure []
    else projectAll U c2o ac text nt collapsed.2 found

/-! ## `goshdarnit.go` -/

/-- The package-level variables `profanityMatcher` and `collapsedToOriginal`. -/
structure Globals where
  profanityMatcher : ahoCorasick
  collapsedToOriginal : List (Str × Str)
  deriving DecidableEq, Repr

/-- The loop of `init` over `profanityList`: the collapsed patterns and the map
`collapsedToOriginal`, given what was built so far. The set `seen` holds
exactly the collapsed patterns. -/
def initLoop : List Str → List Str × List (Str × Str) → List Str × List (Str × Str)
  | [], acc => acc
  | pattern :: rest, acc =>
    let collapsed := (collapseRepeats pattern).1
    if collapsed ∈ acc.1 then initLoop rest acc
    else initLoop rest (acc.1 ++ [collapsed], acc.2 ++ [(collapsed, pattern)])

/-- The function `init`, for the dictionary `profanityList`; `ord` is the order
in which the maps of the automaton are visited while it is built. -/
def init (ord : MapOrder) (profanityList : List Str) : Except Fault Globals := do
  let built := initLoop profanityList ([], [])
  let ac ← newAhoCorasick ord built.1
  pure { profanityMatcher := ac, collapsedToOriginal := built.2 }

/-- The package variables after `init` has run on the dictionary; the empty
state stands in where `init` faults (it never does, `init_total`). -/
def globalsOf (ord : MapOrder) (profanityList : List Str) : Globals :=
  match init ord profanityList with
  | .ok g => g
  | .error _ => { profanityMatcher := { nodes := [], patterns := [] }, collapsedToOriginal := [] }

/-- The function `IsProfane`. -/
def IsProfane (U : Unicode) (g : Globals) (text : Str) : Except Fault Bool :=
  if text.length = 0 then .ok false
  else do
    let found ← findMatches U g.collapsedToOriginal text g.profanityMatcher
    pure (decide (found.length > 0))

/-- The inner loop of the insertion sort of `mergeOverlapping`: the element `x`
at index `j` is swapped down while `x.origStart < matches[j-1].origStart`.
The second argument lists the elements before `x`, the nearest first, and
so does the result, with `x` in its place. -/
def bubbleDown (x : matchInfo) : List matchInfo → List matchInfo
  | [] => [x]
  | y :: ys => if x.origStart < y.origStart then y :: bubbleDown x ys else x :: y :: ys

/-- The insertion sort of `mergeOverlapping`. -/
def insertionSort (ms : List matchInfo) : List matchInfo :=
  (ms.foldl (fun sorted x => bubbleDown x sorted) []).reverse

/-- The merge loop of `mergeOverlapping`, with `current` and `matches[i:]`. -/
def mergeLoop (current : matchInfo) : List matchInfo → List matchInfo
  | [] => [current]
  | m :: rest =>
    if m.origStart ≤ current.origEnd then
      mergeLoop (if m.origEnd > current.origEnd then { current with origEnd := m.origEnd }
        else current) rest
    else current :: mergeLoop m rest

/-- The function `mergeOverlapping`. -/
def mergeOverlapping (ms : List matchInfo) : List matchInfo :=
  if ms.length ≤ 1 then ms
  else
    match insertionSort ms with
    | [] => []
    | current :: rest => mergeLoop current rest

/-- The step "add text before this match" of the loop of `Censor`: the new `result`. -/
def gapBefore (text : Str) (st : Str × Nat) (m : matchInfo) : Except Fault Str :=
  if m.origStart > st.2 then do
    let gap ← slice text st.2 m.origStart
    pure (st.1 ++ gap)
  else pure st.1

/-- The loop `for _, m := range matches` of `Censor`, on `result` and `lastEnd`. -/
def censorLoop (text : Str) (mode : Int) :
    List matchInfo → Str × Nat → Except Fault (Str × Nat)
  | [], st => .ok st
  | m :: rest, st => do
    let result ← gapBefore text st m
    let segment ← slice text m.origStart m.origEnd
    let mask := buildAsteriskMask segment mode
    censorLoop text mode rest (result ++ mask, m.origEnd)

/-- The step "add any remaining text" of `Censor`: the final `result`. -/
def censorTail (text : Str) (st : Str × Nat) : Except Fault Str :=
  if st.2 < text.length then do
    let tail ← slice text st.2 text.length
    pure (st.1 ++ tail)
  else pure st.1

/-- The function `Censor`; `mode` is the integer behind `CensorMode`. -/
def Censor (U : Unicode) (g : Globals) (text : Str) (mode : Int) : Except Fault Str :=
  if text.length = 0 then .ok text
  else do
    let found ← findMatches U g.collapsedToOriginal text g.profanityMatcher
    if found.length = 0 then pure text
    else do
      let merged := mergeOverlapping found
      let st ← censorLoop text mode merged ([], 0)
      censorTail text st

/-- The constants `CensorAll`, `CensorKeepFirst`, `CensorKeepFirstLast`. -/
def CensorAll : Int := 0

/-- The constant `CensorKeepFirst`. -/
def CensorKeepFirst : Int := 1

/-- The constant `CensorKeepFirstLast`. -/
def CensorKeepFirstLast : Int := 2

/-- The function `CensorWithDefault`. -/
def CensorWithDefault (U : Unicode) (g : Globals) (text : Str) : Except Fault Str :=
  Censor U g text CensorAll

/-- The loop of `FindProfanity` over the matches: the originals not yet in
`result`, appended in order. The set `seen` holds exactly the entries of
`result`. -/
def collectOriginals (c2o : List (Str × Str)) : List matchInfo → List Str → List Str
  | [], result => result
  | m :: rest, result =>
    let original := (c2o.lookup m.pattern).getD m.pattern
    if original ∈ result then collectOriginals c2o rest result
    else collectOriginals c2o rest (result ++ [original])

/-- The function `FindProfanity`; a nil result is the empty list. -/
def FindProfanity (U : Unicode) (g : Globals) (text : Str) : Except Fault (List Str) :=
  if text.length = 0 then .ok []
  else do
    let found ← findMatches U g.collapsedToOriginal text g.profanityMatcher
    if found.length = 0 then pure []
    else pure (collectOriginals g.collapsedToOriginal found [])

/-! ## Sample data for the concrete checks -/

/-- The NFKC form on texts whose runes are ASCII, U+3000 IDEOGRAPHIC SPACE
(compatibility form U+0020) or U+00BD VULGAR FRACTION ONE HALF
(compatibility form U+0031 U+2044 U+0032), or have no decomposition and do
not compose with a neighbour. -/
def nfkcSample (text : Str) : Str :=
  (runesOf text).flatMap fun r =>
    if r = 0x3000 then [0x20]
    else if r = 0xBD then [0x31, 0xE2, 0x81, 0x84, 0x32]
    else encodeRune r

/-- Unicode data for the concrete checks: `nfkcSample`, lower-casing that
leaves the non-ASCII runes of the checks alone, and no letter or digit
above Latin-1 (the checks consult the tables at U+FFFD only). -/
def unicodeSample : Unicode :=
  { nfkc := nfkcSample, lowerTable := id, letterTable := fun _ => false,
    digitTable := fun _ => false }

/-- The dictionary `["ass"]`. -/
def dictAss : List Str := [[0x61, 0x73, 0x73]]

/-- The dictionary `["fuck", "shit", "ass"]`. -/
def dictSample : List Str :=
  [[0x66, 0x75, 0x63, 0x6B], [0x73, 0x68, 0x69, 0x74], [0x61, 0x73, 0x73]]

/-- The text of two U+3000 IDEOGRAPHIC SPACE followed by "ass". -/
def textIdeo : Str := [0xE3, 0x80, 0x80, 0xE3, 0x80, 0x80, 0x61, 0x73, 0x73]

/-- The text "½½ ass": two U+00BD, a space and "ass". -/
def textHalves : Str := [0xC2, 0xBD, 0xC2, 0xBD, 0x20, 0x61, 0x73, 0x73]

/-- The text "½½ass...": two U+00BD, "ass" and three full stops. -/
def textHalvesDots : Str := [0xC2, 0xBD, 0xC2, 0xBD, 0x61, 0x73, 0x73, 0x2E, 0x2E, 0x2E]

/-- The text "fuck$hit". -/
def textDollar : Str := [0x66, 0x75, 0x63, 0x6B, 0x24, 0x68, 0x69, 0x74]

/-- The text "****$hit". -/
def textDollarMasked : Str := [0x2A, 0x2A, 0x2A, 0x2A, 0x24, 0x68, 0x69, 0x74]

/-- The text "fuсk off" whose third letter is U+0441 CYRILLIC SMALL LETTER ES. -/
def textCyrillic : Str := [0x66, 0x75, 0xD1, 0x81, 0x6B, 0x20, 0x6F, 0x66, 0x66]

/-- The dictionary whose only entry is the empty string. -/
def dictEmpty : List Str := [[]]

/-- The text "a", U+200B ZERO WIDTH SPACE, "b". -/
def textZeroWidth : Str := [0x61, 0xE2, 0x80, 0x8B, 0x62]

/-- The package variables for the dictionary `["ass"]`. -/
def globalsAss : Globals := globalsOf insertionOrder dictAss

/-- The package variables for the dictionary `["fuck", "shit", "ass"]`. -/
def globalsSample : Globals := globalsOf insertionOrder dictSample

/-- The package variables for the dictionary `[""]`. -/
def globalsEmpty : Globals := globalsOf insertionOrder dictEmpty

/-- The text "shit fuck shit". -/
def textShitFuckShit : Str :=
  [0x73, 0x68, 0x69, 0x74, 0x20, 0x66, 0x75, 0x63, 0x6B, 0x20, 0x73, 0x68, 0x69, 0x74]

/-- The text "what an assss". -/
def textAssss : Str :=
  [0x77, 0x68, 0x61, 0x74, 0x20, 0x61, 0x6E, 0x20, 0x61, 0x73, 0x73, 0x73, 0x73]

/-- The text "What the FuCk". -/
def textMixedCase : Str :=
  [0x57, 0x68, 0x61, 0x74, 0x20, 0x74, 0x68, 0x65, 0x20, 0x46, 0x75, 0x43, 0x6B]

/-- The text "what the fuck". -/
def textLowerCase : Str :=
  [0x77, 0x68, 0x61, 0x74, 0x20, 0x74, 0x68, 0x65, 0x20, 0x66, 0x75, 0x63, 0x6B]

/-- The word "fuck". -/
def wordFuck : Str := [0x66, 0x75, 0x63, 0x6B]

/-- The text "fuuuck". -/
def textStretched : Str := [0x66, 0x75, 0x75, 0x75, 0x63, 0x6B]

/-- The text "fu", U+200B ZERO WIDTH SPACE, "ck". -/
def textInjected : Str := [0x66, 0x75, 0xE2, 0x80, 0x8B, 0x63, 0x6B]

/-- The word "sat". -/
def wordSat : Str := [0x73, 0x61, 0x74]

/-- The dictionary `["sat"]`. -/
def dictSat : List Str := [wordSat]

/-- The package variables for the dictionary `["sat"]`. -/
def globalsSat : Globals := globalsOf insertionOrder dictSat

/-- The text "sat+x". -/
def textSatPlus : Str := [0x73, 0x61, 0x74, 0x2B, 0x78]

/-- The text "oh, fuck!". -/
def textOhFuck : Str := [0x6F, 0x68, 0x2C, 0x20, 0x66, 0x75, 0x63, 0x6B, 0x21]

/-- The patterns `["he", "she", "his", "hers"]`. -/
def patternsHe : List Str :=
  [[0x68, 0x65], [0x73, 0x68, 0x65], [0x68, 0x69, 0x73], [0x68, 0x65, 0x72, 0x73]]

/-- The text "she". -/
def textShe : Str := [0x73, 0x68, 0x65]

/-- The text "he said she said his hers". -/
def textHeSaid : Str :=
  [0x68, 0x65, 0x20, 0x73, 0x61, 0x69, 0x64, 0x20, 0x73, 0x68, 0x65, 0x20, 0x73, 0x61, 0x69,
    0x64, 0x20, 0x68, 0x69, 0x73, 0x20, 0x68, 0x65, 0x72, 0x73]

/-- The patterns `["foo", "foobar", "bar"]`. -/
def patternsFoo : List Str :=
  [[0x66, 0x6F, 0x6F], [0x66, 0x6F, 0x6F, 0x62, 0x61, 0x72], [0x62, 0x61, 0x72]]

/-- The text "foobar". -/
def textFoobar : Str := [0x66, 0x6F, 0x6F, 0x62, 0x61, 0x72]

/-- The text "fuuuuck". -/
def textFuuuuck : Str := [0x66, 0x75, 0x75, 0x75, 0x75, 0x63, 0x6B]

/-- The text "aé": `a` and U+00E9 LATIN SMALL LETTER E WITH ACUTE. -/
def textAe : Str := [0x61, 0xC3, 0xA9]

/-- The intervals `[0, 5)`, `[3, 8)`, `[10, 15)` with the pattern "x". -/
def intervalsSample : List matchInfo :=
  [{ origStart := 3, origEnd := 8, pattern := [0x78] },
    { origStart := 10, origEnd := 15, pattern := [0x78] },
    { origStart := 0, origEnd := 5, pattern := [0x78] }]

/-! ## Specification-side definitions -/

/-- The pairs a `range` loop yields over the string that encodes the runes `rs`,
when the first byte offset is `i`. -/
def rangeSpec : Nat → List Nat → List (Nat × Nat)
  | _, [] => []
  | i, r :: rs => (i, r) :: rangeSpec (i + (encodeRune r).length) rs

/-- A list of runes that are all valid code points. -/
def ValidRunes (rs : List Nat) : Prop := ∀ r ∈ rs, ValidRune r = true

/-- A byte offset of `s` at which a rune starts, or the length of `s`. -/
def IsRuneBoundary (s : Str) (i : Nat) : Prop :=
  i = s.length ∨ i ∈ (rangeStr s).map Prod.fst

instance (s : Str) (i : Nat) : Decidable (IsRuneBoundary s i) := by
  unfold IsRuneBoundary
  infer_instance

/-- A text of ASCII bytes only. -/
def IsAscii (s : Str) : Prop := ∀ b ∈ s, b < 0x80

/-- The bytes `s[lo:hi]` of a slice that is within range. -/
def sub (s : Str) (lo hi : Nat) : Str := (s.take hi).drop lo

/-- The output the specification gives for `Censor`, for the intervals `ms`
in order and the text from byte `last` on: the text up to the next interval,
the mask of that interval, and so on, and the text after the last interval. -/
def assemble (text : Str) (mode : Int) : Nat → List matchInfo → Str
  | last, [] => sub text last text.length
  | last, m :: rest =>
    sub text last m.origStart ++ buildAsteriskMask (sub text m.origStart m.origEnd) mode ++
      assemble text mode m.origEnd rest

/-- Every interval is a range of the text: `origStart ≤ origEnd ≤ len(text)`. -/
def InRange (text : Str) (ms : List matchInfo) : Prop :=
  ∀ m ∈ ms, m.origStart ≤ m.origEnd ∧ m.origEnd ≤ text.length

instance (text : Str) (ms : List matchInfo) : Decidable (InRange text ms) := by
  unfold InRange
  infer_instance

/-- Consecutive intervals neither overlap nor touch. -/
def Separated (ms : List matchInfo) : Prop :=
  List.Chain' (fun a b : matchInfo => a.origEnd < b.origStart) ms

/-- The total length of the masks of the intervals that end at or before byte `i`. -/
def maskedBefore (text : Str) (mode : Int) : List matchInfo → Nat → Nat
  | [], _ => 0
  | m :: rest, i =>
    (if m.origEnd ≤ i then (buildAsteriskMask (sub text m.origStart m.origEnd) mode).length
      else 0) + maskedBefore text mode rest i

/-- The total length of the intervals that end at or before byte `i`. -/
def coveredBefore : List matchInfo → Nat → Nat
  | [], _ => 0
  | m :: rest, i => (if m.origEnd ≤ i then m.origEnd - m.origStart else 0) + coveredBefore rest i

/-- Byte `i` lies outside every interval. -/
def Outside (ms : List matchInfo) (i : Nat) : Prop :=
  ∀ m ∈ ms, ¬ (m.origStart ≤ i ∧ i < m.origEnd)

/-! ### Invariants of the automaton

A labelling `L` gives every node the string of runes that leads to it from
the root. -/

/-- The shape of the trie: the children of a node carry its label extended by
one rune, have larger indices, and every node but the root is the child of
exactly one node. -/
structure Shape (nodes : List acNode) (L : Nat → List Nat) : Prop where
  pos : 0 < nodes.length
  root : L 0 = []
  edge : ∀ p r c, (r, c) ∈ (getNode nodes p).children →
    p < c ∧ c < nodes.length ∧ L c = L p ++ [r]
  parent : ∀ c, 0 < c → c < nodes.length → ∃ p r, (r, c) ∈ (getNode nodes p).children
  uniq : ∀ p p' r r' c, (r, c) ∈ (getNode nodes p).children →
    (r', c) ∈ (getNode nodes p').children → p = p'
  nodupChildren : ∀ p, ((getNode nodes p).children.map Prod.snd).Nodup

/-- Soundness of the links and outputs: a fail link leads to a node whose label
is a shorter suffix, and every pattern in an output list is a suffix of the
label of the node. -/
structure Sound (nodes : List acNode) (L : Nat → List Nat) (patterns : List Str) : Prop where
  fail : ∀ n f, (getNode nodes n).fail = some f →
    f < nodes.length ∧ L f <:+ L n ∧ (L f).length < (L n).length
  out : ∀ n i, i ∈ (getNode nodes n).output →
    ∃ pat, patterns[i]? = some pat ∧ runesOf pat <:+ L n

/-- The trie after the first `k` patterns have been inserted, before any fail
link is set: an output list holds the patterns that spell the label. -/
structure TrieInv (nodes : List acNode) (L : Nat → List Nat) (patterns : List Str) (k : Nat) :
    Prop where
  shape : Shape nodes L
  noFail : ∀ n, (getNode nodes n).fail = none
  out : ∀ n i, i ∈ (getNode nodes n).output →
    i < k ∧ ∃ pat, patterns[i]? = some pat ∧ runesOf pat = L n

/-- Two heaps with the same nodes up to fail links and outputs. -/
def SameShape (nodes nodes' : List acNode) : Prop :=
  nodes'.length = nodes.length ∧
    ∀ p, (getNode nodes' p).children = (getNode nodes p).children

/-- The automaton is well formed: sound, and every node but the root has a
fail link. -/
def ACInv (ac : ahoCorasick) : Prop :=
  ∃ L, Shape ac.nodes L ∧ Sound ac.nodes L ac.patterns ∧
    ∀ n, 0 < n → n < ac.nodes.length → (getNode ac.nodes n).fail ≠ none

/-- An order of visit is a rearrangement: it visits every entry of the map
once. -/
def IsMapOrder (ord : MapOrder) : Prop := ∀ entries, (ord entries).Perm entries

/-- The invariant of the breadth-first loop of `buildFailLinks`: `done` lists
the nodes taken from the queue so far. Every node enters the queue once, as
a child of the root or of a node taken from the queue before. -/
structure BInv (nodes : List acNode) (L : Nat → List Nat) (patterns : List Str)
    (done queue : List Nat) : Prop where
  shape : Shape nodes L
  sound : Sound nodes L patterns
  nodup : (done ++ queue).Nodup
  range : ∀ n ∈ done ++ queue, 0 < n ∧ n < nodes.length
  linked : ∀ n ∈ done ++ queue, (getNode nodes n).fail ≠ none
  fromParent : ∀ n ∈ done ++ queue,
    ∃ p r, (r, n) ∈ (getNode nodes p).children ∧ (p = 0 ∨ p ∈ done)
  closed : ∀ p, (p = 0 ∨ p ∈ done) → ∀ rc ∈ (getNode nodes p).children, rc.2 ∈ done ++ queue

/-- What a match reported during a scan of the runes `runes` stands for: its
pattern ends with the `k`-th rune, `end` is the byte offset after that rune
and `start` is `end` minus the byte length of the pattern. -/
def MatchAt (ac : ahoCorasick) (runes : List Nat) (m : acMatch) : Prop :=
  ∃ pat k, ac.patterns[m.patternIndex]? = some pat ∧
    m.start = (m.end_ : Int) - (pat.length : Int) ∧ k ≤ runes.length ∧
    m.end_ = (stringOfRunes (runes.take k)).length ∧ runesOf pat <:+ runes.take k

/-- The invariant of the loop of `collapseRepeats`: the position arrays run
parallel to the bytes kept, every span is non-empty and ends at or before
the byte position reached, and the start offsets never decrease. -/
structure CollapseInv (st : collapseState) : Prop where
  lenStart : st.startPos.length = st.result.length
  lenEnd : st.endPos.length = st.result.length
  endEq : st.lastCharEndPos = st.bytePos
  span : ∀ (j a b : Nat), st.startPos[j]? = some a → st.endPos[j]? = some b → a < b ∧ b ≤ st.bytePos
  mono : st.startPos.Pairwise (fun a b => a ≤ b)
  kept : ∃ kept, st.result = stringOfRunes kept ∧ ValidRunes kept

/-- The byte offset at which rune number `k` of the text that encodes `rs`
starts; for `k = len(rs)` the length of the text. -/
def offset (rs : List Nat) (k : Nat) : Nat := (stringOfRunes (rs.take k)).length

/-- A byte offset on a rune boundary of the text that encodes `rs`. -/
def IsOffset (rs : List Nat) (x : Nat) : Prop := ∃ k, k ≤ rs.length ∧ x = offset rs k

/-- The rune `r`, or `RuneError` where `r` is no valid code point: the rune
that decoding the bytes of `encodeRune r` gives back. -/
def fixRune (r : Nat) : Nat := if ValidRune r = true then r else RuneError

/-! ## Vocabulary of the statements on detection -/

/-- The list `xs` without every element that already occurred earlier in it. -/
def firstOccurrences (xs : List Str) : List Str :=
  (List.range xs.length).filterMap fun i =>
    if xs.getD i [] ∈ xs.take i then none else some (xs.getD i [])

/-- No two adjacent runes of `rs` are equal. -/
def NoAdjacentEqual (rs : List Nat) : Prop := rs.Chain' (fun a b => a ≠ b)

instance (rs : List Nat) : Decidable (NoAdjacentEqual rs) := by
  unfold NoAdjacentEqual
  infer_instance

/-- Two adjacent runes of `rs` are equal. -/
def HasAdjacentEqual (rs : List Nat) : Prop := ∃ pre r post, rs = pre ++ r :: r :: post

/-- The runes `seg` are the runes `p` with every rune replaced by one or more
copies of itself: `counts` gives the number of copies of each rune. -/
def Stretched (p seg : List Nat) : Prop :=
  ∃ counts : List Nat, counts.length = p.length ∧ (∀ c ∈ counts, 1 ≤ c) ∧
    seg = (List.zip p counts).flatMap (fun rc => List.replicate rc.2 rc.1)

/-- The lower-case form of an ASCII byte: `A`..`Z` become `a`..`z`. -/
def lowerAscii (b : Nat) : Nat := if 0x41 ≤ b ∧ b ≤ 0x5A then b + 0x20 else b

/-- The leetspeak table as the specification lists it: `4`, `@` to `a`; `8` to
`b`; `3` to `e`; `!`, `1`, `|` to `i`; `0` to `o`; `$`, `5` to `s`; `7`, `+`
to `t`; `v` to `u`; the identity elsewhere. -/
def leetAscii (b : Nat) : Nat :=
  if b = 0x34 ∨ b = 0x40 then 0x61
  else if b = 0x38 then 0x62
  else if b = 0x33 then 0x65
  else if b = 0x21 ∨ b = 0x31 ∨ b = 0x7C then 0x69
  else if b = 0x30 then 0x6F
  else if b = 0x24 ∨ b = 0x35 then 0x73
  else if b = 0x37 ∨ b = 0x2B then 0x74
  else if b = 0x76 then 0x75
  else b

/-- A word of lower-case ASCII letters other than `v`, the letter that the
leetspeak table rewrites. -/
def IsPlainWord (P : Str) : Prop := ∀ c ∈ P, 0x61 ≤ c ∧ c ≤ 0x7A ∧ c ≠ 0x76

instance (P : Str) : Decidable (IsPlainWord P) := by
  unfold IsPlainWord
  infer_instance

/-- The word `P` is the first entry of the dictionary whose collapsed form is `P`. -/
def FirstCollapsing (dict : List Str) (P : Str) : Prop :=
  dict.find? (fun q => decide ((collapseRepeats q).1 = P)) = some P

instance (dict : List Str) (P : Str) : Decidable (FirstCollapsing dict P) := by
  unfold FirstCollapsing
  infer_instance

/-! ### Completeness of the automaton -/

/-- The node reached from the node `n` along the runes `w`, if the trie has
that path. -/
def descend (nodes : List acNode) : Nat → List Nat → Option Nat
  | n, [] => some n
  | n, r :: rs =>
    match (getNode nodes n).children.lookup r with
    | some c => descend nodes c rs
    | none => none

/-- The keys of every children map are distinct. -/
def KeysNodup (nodes : List acNode) : Prop :=
  ∀ p, ((getNode nodes p).children.map Prod.fst).Nodup

/-- The heap `b` extends the heap `a`: every entry of a children map and every
entry of an output list of `a` is still there in `b`. -/
def Extends (a b : List acNode) : Prop :=
  ∀ p, (∀ r c, (getNode a p).children.lookup r = some c →
      (getNode b p).children.lookup r = some c) ∧
    ∀ i ∈ (getNode a p).output, i ∈ (getNode b p).output

/-- Each of the first `k` patterns has its path in the trie, and the node at
the end of the path lists the pattern. -/
def OwnOutputs (nodes : List acNode) (patterns : List Str) (k : Nat) : Prop :=
  ∀ (i : Nat) (pat : Str), i < k → patterns[i]? = some pat →
    ∃ n, descend nodes root (runesOf pat) = some n ∧ i ∈ (getNode nodes n).output

/-- The label of `f` is the longest proper suffix of the label of `n` that is
the label of a node. -/
def LongestSuffix (nodes : List acNode) (L : Nat → List Nat) (n f : Nat) : Prop :=
  f < nodes.length ∧ L f <:+ L n ∧ (L f).length < (L n).length ∧
    ∀ m, m < nodes.length → L m <:+ L n → (L m).length < (L n).length →
      (L m).length ≤ (L f).length

/-- The node `n` is completely linked: its fail link leads to the longest proper
suffix, and its output lists every non-empty pattern that is a suffix of its
label. -/
def LinkedAt (nodes : List acNode) (L : Nat → List Nat) (patterns : List Str) (n : Nat) :
    Prop :=
  (∃ f, (getNode nodes n).fail = some f ∧ LongestSuffix nodes L n f) ∧
    ∀ (i : Nat) (pat : Str), patterns[i]? = some pat → runesOf pat ≠ [] →
      runesOf pat <:+ L n →
      i ∈ (getNode nodes n).output

/-- Completeness of the automaton: distinct keys, a node for every pattern, no
fail link at the root, and every other node completely linked. -/
structure Complete (nodes : List acNode) (L : Nat → List Nat) (patterns : List Str) :
    Prop where
  keys : KeysNodup nodes
  own : ∀ (i : Nat) (pat : Str), patterns[i]? = some pat →
    ∃ n, n < nodes.length ∧ L n = runesOf pat
  rootFail : (getNode nodes root).fail = none
  linked : ∀ n, 0 < n → n < nodes.length → LinkedAt nodes L patterns n

/-- The automaton is well formed and complete. -/
def ACFull (ac : ahoCorasick) : Prop :=
  ∃ L, Shape ac.nodes L ∧ Sound ac.nodes L ac.patterns ∧ Complete ac.nodes L ac.patterns

/-- The invariant of `buildFailLinks` for completeness, over the trie `trie` it
started from: the nodes of `S` are completely linked, and the others are as
the trie had them. -/
structure LInv (trie nodes : List acNode) (L : Nat → List Nat) (patterns : List Str)
    (S : List Nat) : Prop where
  same : SameShape trie nodes
  fresh : ∀ n, n ∉ S → getNode nodes n = getNode trie n
  ok : ∀ n ∈ S, LinkedAt nodes L patterns n

/-- The state of the scan after the runes `pre`: the node whose label is the
longest suffix of `pre` that is the label of a node. -/
def IsState (nodes : List acNode) (L : Nat → List Nat) (pre : List Nat) (node : Nat) : Prop :=
  node < nodes.length ∧ L node <:+ pre ∧
    ∀ m, m < nodes.length → L m <:+ pre → (L m).length ≤ (L node).length

/-- The label of the node `u` is a suffix of `w`, and `u` has a child on the rune
`r`. -/
def HasChildOn (nodes : List acNode) (L : Nat → List Nat) (w : List Nat) (r u : Nat) : Prop :=
  u < nodes.length ∧ L u <:+ w ∧ (getNode nodes u).children.lookup r ≠ none

/-! ### Runs of equal runes -/

/-- The runs of `r :: rs`, given the runs of `rs`: the rune `r` extends the first
run or starts a run of its own. -/
def consRun (r : Nat) : List (Nat × Nat) → List (Nat × Nat)
  | [] => [(r, 1)]
  | (r2, c) :: rest => if r = r2 then (r2, c + 1) :: rest else (r, 1) :: (r2, c) :: rest

/-- The maximal runs of equal runes of `rs`, each as its rune and its length. -/
def runsOf : List Nat → List (Nat × Nat)
  | [] => []
  | r :: rs => consRun r (runsOf rs)

/-- The runs of `rs ++ [x]`, given the runs of `rs`: the rune `x` extends the
last run or starts a run of its own. -/
def snocRun : List (Nat × Nat) → Nat → List (Nat × Nat)
  | [], x => [(x, 1)]
  | [(r, c)], x => if r = x then [(r, c + 1)] else [(r, c), (x, 1)]
  | p :: q :: rest, x => p :: snocRun (q :: rest) x

/-- The number of bytes of the text that the runs stand for. -/
def runBytes (runs : List (Nat × Nat)) : Nat := (runs.map (fun x => x.2 * RuneLen x.1)).sum

/-- The byte spans of the runs in a text where they start at the offset `pos`:
for every run its rune, the offset of its first byte and the offset after
its last byte. -/
def spansFrom (pos : Nat) : List (Nat × Nat) → List (Nat × Nat × Nat)
  | [] => []
  | (r, c) :: rest => (r, pos, pos + c * RuneLen r) :: spansFrom (pos + c * RuneLen r) rest

/-- The start offsets of the spans, one entry for every byte of the rune of a
span. -/
def startsOf (spans : List (Nat × Nat × Nat)) : List Nat :=
  spans.flatMap (fun x => List.replicate (RuneLen x.1) x.2.1)

/-- The end offsets of the spans, one entry for every byte of the rune of a
span. -/
def endsOf (spans : List (Nat × Nat × Nat)) : List Nat :=
  spans.flatMap (fun x => List.replicate (RuneLen x.1) x.2.2)

/-- The state of the loop of `collapseRepeats` after the runs `init ++ [(r, c)]`:
the end offsets of the last run are not yet filled in. -/
structure RunsState (init : List (Nat × Nat)) (r c : Nat) (st : collapseState) : Prop where
  result : st.result = stringOfRunes ((init ++ [(r, c)]).map Prod.fst)
  startPos : st.startPos = startsOf (spansFrom 0 (init ++ [(r, c)]))
  endPos : ∃ stale, st.endPos = endsOf (spansFrom 0 init) ++ stale ∧ stale.length = RuneLen r
  lastRune : st.lastRune = r
  lastRuneSet : st.lastRuneSet = true
  bytePos : st.bytePos = runBytes (init ++ [(r, c)])
  lastEnd : st.lastCharEndPos = st.bytePos

/-! ## Vocabulary of the statements on masks, merging and the matcher -/

/-- Rune `i` of the mask of a segment with the runes `runes`, as the
specification gives it: the rune of the segment at the revealed indices, an
asterisk elsewhere. -/
def maskRuneSpec (runes : List Nat) (mode : Int) (i : Nat) : Nat :=
  if (mode = 1 ∧ i = 0) ∨ (mode = 2 ∧ (i = 0 ∨ i = runes.length - 1)) then runes.getD i 0
  else asterisk

/-- Byte position `x` lies in one of the half-open intervals `[origStart, origEnd)`
of `ms`. -/
def Covered (ms : List matchInfo) (x : Nat) : Prop :=
  ∃ m ∈ ms, m.origStart ≤ x ∧ x < m.origEnd

/-- The interval that stands for a group of intervals, the first one and those
it absorbed: it starts where the first one starts and ends at the maximum
`origEnd` of the group. -/
def groupSpan (g : matchInfo × List matchInfo) : matchInfo :=
  { g.1 with origEnd := (g.2.map (fun m => m.origEnd)).foldl max g.1.origEnd }

/-- No output list of the automaton holds a pattern index twice. -/
def ONodup (nodes : List acNode) : Prop := ∀ n, (getNode nodes n).output.Nodup

/-- The occurrences of the patterns in the text: the pairs `(i, s)` of a pattern
index and a byte offset with `text[s : s+len(patterns[i])] == patterns[i]`. -/
def occurrences (patterns : List Str) (text : Str) : List (Nat × Nat) :=
  (List.range patterns.length).flatMap fun i =>
    (List.range (text.length + 1)).filterMap fun s =>
      if sub text s (s + (patterns.getD i []).length) = patterns.getD i [] then some (i, s)
      else none

/-- The state of a callback's closure after the matches `ms` have been offered to
it in order, until it returns false. -/
def feed {σ : Type} (cb : acMatch → σ → σ × Bool) : List acMatch → σ → σ
  | [], s => s
  | m :: ms, s => if (cb m s).2 then feed cb ms (cb m s).1 else (cb m s).1

/-- The shortest prefix of `ms` that ends with the first match on which the
callback returns false; the whole list if it never returns false. -/
def passed {σ : Type} (cb : acMatch → σ → σ × Bool) : List acMatch → σ → List acMatch
  | [], _ => []
  | m :: ms, s => m :: (if (cb m s).2 then passed cb ms (cb m s).1 else [])

/-- The callback `cb` with a log of the matches it is invoked on. -/
def track {σ : Type} (cb : acMatch → σ → σ × Bool) (m : acMatch) (st : σ × List acMatch) :
    (σ × List acMatch) × Bool :=
  (((cb m st.1).1, st.2 ++ [m]), (cb m st.1).2)

/-- The callback returns true on every match of `ms` offered to it in order. -/
def goesOn {σ : Type} (cb : acMatch → σ → σ × Bool) : List acMatch → σ → Bool
  | [], _ => true
  | m :: ms, s => (cb m s).2 && goesOn cb ms (cb m s).1

/-- The match that `Search` reports for the pattern index `i` at the end
position `endPos`. -/
def matchOf (ac : ahoCorasick) (endPos i : Nat) : acMatch :=
  { patternIndex := i, start := (endPos : Int) - ((ac.patterns.getD i []).length : Int),
    end_ := endPos }

/-! ## Specification-side definitions: position maps and the order of matches -/

/-- The keys of `leetspeakMap`: the runes `@ 4 8 3 ! 1 | 0 $ 5 7 + v V`. -/
def leetKeys : List Nat :=
  [0x40, 0x34, 0x38, 0x33, 0x21, 0x31, 0x7C, 0x30, 0x24, 0x35, 0x37, 0x2B, 0x76, 0x56]

/-- The rune that one iteration of the loop of `normalizeText` writes for the
rune `r` that is not invisible: `unicode.ToLower`, then `homoglyphMap`, then
`leetspeakMap`. -/
def mapRune (U : Unicode) (r : Nat) : Nat :=
  (leetspeakMap.lookup ((homoglyphMap.lookup (ToLower U r)).getD (ToLower U r))).getD
    ((homoglyphMap.lookup (ToLower U r)).getD (ToLower U r))

/-- The bytes of the normalized text that the rune `r` generates: none for an
invisible rune, the encoding of the mapped rune otherwise. -/
def generated (U : Unicode) (r : Nat) : Str :=
  if r ∈ zeroWidthChars then [] else encodeRune (mapRune U r)

/-- The table `unicode.ToLower` consults above ASCII never yields an invisible
rune for a rune that is not invisible. -/
def LowerKeepsVisible (U : Unicode) : Prop :=
  ∀ r, r ∉ zeroWidthChars → U.lowerTable r ∉ zeroWidthChars

/-- In every output list of the automaton the patterns come in strictly
decreasing number of runes. -/
def OSorted (nodes : List acNode) (patterns : List Str) : Prop :=
  ∀ n, (getNode nodes n).output.Pairwise (fun i j =>
    (runesOf (patterns.getD j [])).length < (runesOf (patterns.getD i [])).length)

/-- The order of two matches of one scan: the end offset grows, or it stays
and the relation `Q` holds of the pattern indices. -/
def Before (Q : Nat → Nat → Prop) (a b : acMatch) : Prop :=
  a.end_ < b.end_ ∨ (a.end_ = b.end_ ∧ Q a.patternIndex b.patternIndex)

/-- The patterns `["a", "aaa"]`. -/
def patternsAAaa : List Str := [[0x61], [0x61, 0x61, 0x61]]

/-- The text "aaa". -/
def textAaa : Str := [0x61, 0x61, 0x61]

/-- The patterns `["a", "a"]`. -/
def patternsAA : List Str := [[0x61], [0x61]]

/-- The text "a". -/
def textA : Str := [0x61]

/-- The string of the single byte `0xFF`, which is not UTF-8. -/
def wordIllFormed : Str := [0xFF]

/-- The encoding of U+FFFD REPLACEMENT CHARACTER. -/
def wordReplacement : Str := [0xEF, 0xBF, 0xBD]

/-- The dictionary `["heaven", "as", "ass"]`. -/
def dictHeaven : List Str :=
  [[0x68, 0x65, 0x61, 0x76, 0x65, 0x6E], [0x61, 0x73], [0x61, 0x73, 0x73]]

/-- The text "aabbbc". -/
def textAabbbc : Str := [0x61, 0x61, 0x62, 0x62, 0x62, 0x63]

/-- The text "heaven as". -/
def textHeaven : Str := [0x68, 0x65, 0x61, 0x76, 0x65, 0x6E, 0x20, 0x61, 0x73]

/-! # Theorems -/

/-! ## UTF-8 -/

theorem encodeRune_length_pos (r : Nat) : 0 < (encodeRune r).length := by
  unfold encodeRune
  split_ifs <;> simp

theorem encodeRune_length_le (r : Nat) : (encodeRune r).length ≤ 4 := by
  unfold encodeRune
  split_ifs <;> simp

theorem encodeRune_length_valid {r : Nat} (h : ValidRune r = true) :
    (encodeRune r).length = RuneLen r := by
  unfold ValidRune at h
  simp only [Bool.or_eq_true, Bool.and_eq_true, decide_eq_true_eq] at h
  unfold encodeRune RuneLen
  split_ifs <;> simp <;> omega

theorem RuneLen_pos {r : Nat} (h : ValidRune r = true) : 0 < RuneLen r := by
  rw [← encodeRune_length_valid h]
  exact encodeRune_length_pos r

theorem validRune_RuneError : ValidRune RuneError = true := by decide

theorem decodeRune_encodeRune {r : Nat} (h : ValidRune r = true) (rest : Str) :
    decodeRune (encodeRune r ++ rest) = (r, (encodeRune r).length) := by
  unfold ValidRune at h
  simp only [Bool.or_eq_true, Bool.and_eq_true, decide_eq_true_eq] at h
  unfold encodeRune
  split_ifs with h1 h2 h3 h4
  · simp [decodeRune, h1]
  · have a1 : ¬ (0xC0 + r / 64 < 0x80) := by omega
    have a2 : 0xC2 ≤ 0xC0 + r / 64 ∧ 0xC0 + r / 64 ≤ 0xDF := by omega
    have a3 : isCont (0x80 + r % 64) = true := by
      simp only [isCont, Bool.and_eq_true, decide_eq_true_eq]; omega
    simp only [List.cons_append, List.nil_append, decodeRune, a1, a2, a3, if_true, if_false,
      and_self, List.length_cons, List.length_nil, Prod.mk.injEq, and_true, Nat.reduceAdd]
    omega
  · omega
  · have a1 : ¬ (0xE0 + r / 4096 < 0x80) := by omega
    have a2 : ¬ (0xC2 ≤ 0xE0 + r / 4096 ∧ 0xE0 + r / 4096 ≤ 0xDF) := by omega
    have a3 : 0xE0 ≤ 0xE0 + r / 4096 ∧ 0xE0 + r / 4096 ≤ 0xEF := by omega
    have a4 : isCont (0x80 + r % 64) = true := by
      simp only [isCont, Bool.and_eq_true, decide_eq_true_eq]; omega
    have a5 : ((if 0xE0 + r / 4096 = 0xE0 then 0xA0 else 0x80) ≤ 0x80 + r / 64 % 64 ∧
        0x80 + r / 64 % 64 ≤ (if 0xE0 + r / 4096 = 0xED then 0x9F else 0xBF) ∧
        isCont (0x80 + r % 64) = true) := by
      refine ⟨?_, ?_, a4⟩
      · split_ifs <;> omega
      · split_ifs <;> omega
    simp only [List.cons_append, List.nil_append, decodeRune, a1, a2, a3, a5, if_true, if_false,
      and_self, List.length_cons, List.length_nil, Prod.mk.injEq, and_true, Nat.reduceAdd]
    omega
  · have a1 : ¬ (0xF0 + r / 262144 < 0x80) := by omega
    have a2 : ¬ (0xC2 ≤ 0xF0 + r / 262144 ∧ 0xF0 + r / 262144 ≤ 0xDF) := by omega
    have a3 : ¬ (0xE0 ≤ 0xF0 + r / 262144 ∧ 0xF0 + r / 262144 ≤ 0xEF) := by omega
    have a4 : 0xF0 ≤ 0xF0 + r / 262144 ∧ 0xF0 + r / 262144 ≤ 0xF4 := by omega
    have a5 : isCont (0x80 + r % 64) = true := by
      simp only [isCont, Bool.and_eq_true, decide_eq_true_eq]; omega
    have a6 : isCont (0x80 + r / 64 % 64) = true := by
      simp only [isCont, Bool.and_eq_true, decide_eq_true_eq]; omega
    have a7 : ((if 0xF0 + r / 262144 = 0xF0 then 0x90 else 0x80) ≤ 0x80 + r / 4096 % 64 ∧
        0x80 + r / 4096 % 64 ≤ (if 0xF0 + r / 262144 = 0xF4 then 0x8F else 0xBF) ∧
        isCont (0x80 + r / 64 % 64) = true ∧ isCont (0x80 + r % 64) = true) := by
      refine ⟨?_, ?_, a6, a5⟩
      · split_ifs <;> omega
      · split_ifs <;> omega
    simp only [List.cons_append, List.nil_append, decodeRune, a1, a2, a3, a4, a7, if_true,
      if_false, and_self, List.length_cons, List.length_nil, Prod.mk.injEq, and_true, Nat.reduceAdd]
    omega

theorem encodeRune_two {b0 b1 : Nat} (h0 : 0xC2 ≤ b0 ∧ b0 ≤ 0xDF) (h1 : isCont b1 = true) :
    encodeRune ((b0 - 0xC0) * 64 + (b1 - 0x80)) = [b0, b1] ∧
      ValidRune ((b0 - 0xC0) * 64 + (b1 - 0x80)) = true := by
  simp only [isCont, Bool.and_eq_true, decide_eq_true_eq] at h1
  have hr1 : ¬ ((b0 - 0xC0) * 64 + (b1 - 0x80) < 0x80) := by omega
  have hr2 : (b0 - 0xC0) * 64 + (b1 - 0x80) < 0x800 := by omega
  constructor
  · simp only [encodeRune, hr1, hr2, if_true, if_false, List.cons.injEq, and_true]
    omega
  · simp only [ValidRune, Bool.or_eq_true, Bool.and_eq_true, decide_eq_true_eq]
    omega

theorem encodeRune_three {b0 b1 b2 : Nat} (h0 : 0xE0 ≤ b0 ∧ b0 ≤ 0xEF)
    (h1 : (if b0 = 0xE0 then 0xA0 else 0x80) ≤ b1 ∧ b1 ≤ (if b0 = 0xED then 0x9F else 0xBF))
    (h2 : isCont b2 = true) :
    encodeRune ((b0 - 0xE0) * 4096 + (b1 - 0x80) * 64 + (b2 - 0x80)) = [b0, b1, b2] ∧
      ValidRune ((b0 - 0xE0) * 4096 + (b1 - 0x80) * 64 + (b2 - 0x80)) = true := by
  simp only [isCont, Bool.and_eq_true, decide_eq_true_eq] at h2
  have g1 : 0x80 ≤ b1 ∧ b1 ≤ 0xBF := by
    constructor
    · have := h1.1; split_ifs at this <;> omega
    · have := h1.2; split_ifs at this <;> omega
  have g2 : b0 = 0xE0 → 0xA0 ≤ b1 := by
    intro e; have := h1.1; rw [if_pos e] at this; exact this
  have g3 : b0 = 0xED → b1 ≤ 0x9F := by
    intro e; have := h1.2; rw [if_pos e] at this; exact this
  have hr1 : ¬ ((b0 - 0xE0) * 4096 + (b1 - 0x80) * 64 + (b2 - 0x80) < 0x80) := by omega
  have hr2 : ¬ ((b0 - 0xE0) * 4096 + (b1 - 0x80) * 64 + (b2 - 0x80) < 0x800) := by omega
  have hr3 : ¬ (0x10FFFF < (b0 - 0xE0) * 4096 + (b1 - 0x80) * 64 + (b2 - 0x80) ∨
      (0xD800 ≤ (b0 - 0xE0) * 4096 + (b1 - 0x80) * 64 + (b2 - 0x80) ∧
        (b0 - 0xE0) * 4096 + (b1 - 0x80) * 64 + (b2 - 0x80) ≤ 0xDFFF)) := by omega
  have hr4 : (b0 - 0xE0) * 4096 + (b1 - 0x80) * 64 + (b2 - 0x80) < 0x10000 := by omega
  constructor
  · simp only [encodeRune, hr1, hr2, hr3, hr4, if_true, if_false, List.cons.injEq, and_true]
    omega
  · simp only [ValidRune, Bool.or_eq_true, Bool.and_eq_true, decide_eq_true_eq]
    omega

theorem encodeRune_four {b0 b1 b2 b3 : Nat} (h0 : 0xF0 ≤ b0 ∧ b0 ≤ 0xF4)
    (h1 : (if b0 = 0xF0 then 0x90 else 0x80) ≤ b1 ∧ b1 ≤ (if b0 = 0xF4 then 0x8F else 0xBF))
    (h2 : isCont b2 = true) (h3 : isCont b3 = true) :
    encodeRune ((b0 - 0xF0) * 262144 + (b1 - 0x80) * 4096 + (b2 - 0x80) * 64 + (b3 - 0x80)) =
        [b0, b1, b2, b3] ∧
      ValidRune ((b0 - 0xF0) * 262144 + (b1 - 0x80) * 4096 + (b2 - 0x80) * 64 + (b3 - 0x80)) =
        true := by
  simp only [isCont, Bool.and_eq_true, decide_eq_true_eq] at h2 h3
  have g1 : 0x80 ≤ b1 ∧ b1 ≤ 0xBF := by
    constructor
    · have := h1.1; split_ifs at this <;> omega
    · have := h1.2; split_ifs at this <;> omega
  have g2 : b0 = 0xF0 → 0x90 ≤ b1 := by
    intro e; have := h1.1; rw [if_pos e] at this; exact this
  have g3 : b0 = 0xF4 → b1 ≤ 0x8F := by
    intro e; have := h1.2; rw [if_pos e] at this; exact this
  generalize hr : (b0 - 0xF0) * 262144 + (b1 - 0x80) * 4096 + (b2 - 0x80) * 64 + (b3 - 0x80) = r
  have hr1 : ¬ (r < 0x80) := by omega
  have hr2 : ¬ (r < 0x800) := by omega
  have hr3 : ¬ (0x10FFFF < r ∨ (0xD800 ≤ r ∧ r ≤ 0xDFFF)) := by omega
  have hr4 : ¬ (r < 0x10000) := by omega
  constructor
  · simp only [encodeRune, hr1, hr2, hr3, hr4, if_true, if_false, List.cons.injEq, and_true]
    omega
  · simp only [ValidRune, Bool.or_eq_true, Bool.and_eq_true, decide_eq_true_eq]
    omega

/-- What `decodeRune` returns on a non-empty string: either the error pair
`(RuneError, 1)`, or a valid rune whose encoding is the prefix consumed. -/
theorem decodeRune_cases (s : Str) (hs : s ≠ []) :
    decodeRune s = (RuneError, 1) ∨
      (ValidRune (decodeRune s).1 = true ∧
        s = encodeRune (decodeRune s).1 ++ s.drop (decodeRune s).2 ∧
        (decodeRune s).2 = (encodeRune (decodeRune s).1).length) := by
  rcases s with _ | ⟨b0, rest⟩
  · exact absurd rfl hs
  by_cases c1 : b0 < 0x80
  · right
    have e : decodeRune (b0 :: rest) = (b0, 1) := by simp [decodeRune, c1]
    have v : ValidRune b0 = true := by
      simp only [ValidRune, Bool.or_eq_true, Bool.and_eq_true, decide_eq_true_eq]; omega
    rw [e]
    simp [encodeRune, c1, v]
  by_cases c2 : 0xC2 ≤ b0 ∧ b0 ≤ 0xDF
  · rcases rest with _ | ⟨b1, rest⟩
    · left; simp [decodeRune, c1, c2]
    by_cases c3 : isCont b1 = true
    · right
      have e : decodeRune (b0 :: b1 :: rest) = ((b0 - 0xC0) * 64 + (b1 - 0x80), 2) := by
        simp [decodeRune, c1, c2, c3]
      obtain ⟨k1, k2⟩ := encodeRune_two c2 c3
      rw [e]
      simp [k1, k2]
    · left; simp [decodeRune, c1, c2, c3]
  by_cases c4 : 0xE0 ≤ b0 ∧ b0 ≤ 0xEF
  · rcases rest with _ | ⟨b1, _ | ⟨b2, rest⟩⟩
    · left; simp [decodeRune, c1, c2, c4]
    · left; simp [decodeRune, c1, c2, c4]
    by_cases c5 : ((if b0 = 0xE0 then 0xA0 else 0x80) ≤ b1 ∧
        b1 ≤ (if b0 = 0xED then 0x9F else 0xBF) ∧ isCont b2 = true)
    · right
      have e : decodeRune (b0 :: b1 :: b2 :: rest) =
          ((b0 - 0xE0) * 4096 + (b1 - 0x80) * 64 + (b2 - 0x80), 3) := by
        simp only [decodeRune, c1, c2, c4, c5, if_true, if_false, and_self]
      obtain ⟨k1, k2⟩ := encodeRune_three c4 ⟨c5.1, c5.2.1⟩ c5.2.2
      rw [e]
      simp [k1, k2]
    · left; simp only [decodeRune, c1, c2, c4, c5, if_true, if_false, and_self]
  by_cases c6 : 0xF0 ≤ b0 ∧ b0 ≤ 0xF4
  · rcases rest with _ | ⟨b1, _ | ⟨b2, _ | ⟨b3, rest⟩⟩⟩
    · left; simp [decodeRune, c1, c2, c4, c6]
    · left; simp [decodeRune, c1, c2, c4, c6]
    · left; simp [decodeRune, c1, c2, c4, c6]
    by_cases c7 : ((if b0 = 0xF0 then 0x90 else 0x80) ≤ b1 ∧
        b1 ≤ (if b0 = 0xF4 then 0x8F else 0xBF) ∧ isCont b2 = true ∧ isCont b3 = true)
    · right
      have e : decodeRune (b0 :: b1 :: b2 :: b3 :: rest) =
          ((b0 - 0xF0) * 262144 + (b1 - 0x80) * 4096 + (b2 - 0x80) * 64 + (b3 - 0x80), 4) := by
        simp only [decodeRune, c1, c2, c4, c6, c7, if_true, if_false, and_self]
      obtain ⟨k1, k2⟩ := encodeRune_four c6 ⟨c7.1, c7.2.1⟩ c7.2.2.1 c7.2.2.2
      rw [e]
      simp [k1, k2]
    · left; simp only [decodeRune, c1, c2, c4, c6, c7, if_true, if_false, and_self]
  · left; simp [decodeRune, c1, c2, c4, c6]

theorem decodeRune_valid (s : Str) : ValidRune (decodeRune s).1 = true := by
  rcases s with _ | ⟨b, rest⟩
  · exact validRune_RuneError
  · rcases decodeRune_cases (b :: rest) (by simp) with h | h
    · rw [h]; exact validRune_RuneError
    · exact h.1

theorem decodeRune_width (s : Str) (hs : s ≠ []) :
    1 ≤ (decodeRune s).2 ∧ (decodeRune s).2 ≤ s.length ∧
      (decodeRune s).2 ≤ (encodeRune (decodeRune s).1).length := by
  rcases decodeRune_cases s hs with h | ⟨_, h2, h3⟩
  · rw [h]
    refine ⟨le_refl _, ?_, ?_⟩
    · exact List.length_pos.mpr hs
    · exact encodeRune_length_pos _
  · refine ⟨?_, ?_, le_of_eq h3⟩
    · rw [h3]; exact encodeRune_length_pos _
    · have := congrArg List.length h2
      rw [List.length_append, ← h3] at this
      omega

/-- The number of bytes is enough fuel for the loop `range s`: with more fuel the
loop does the same. -/
theorem rangeAux_fuel :
    ∀ (fuel fuel2 i : Nat) (s : Str), s.length ≤ fuel → s.length ≤ fuel2 →
      rangeAux fuel i s = rangeAux fuel2 i s := by
  intro fuel
  induction fuel with
  | zero =>
    intro fuel2 i s h _
    have : s = [] := List.length_eq_zero.mp (Nat.le_zero.mp h)
    subst this
    cases fuel2 <;> rfl
  | succ fuel ih =>
    intro fuel2 i s h h2
    rcases s with _ | ⟨b, rest⟩
    · cases fuel2 <;> rfl
    · cases fuel2 with
      | zero => simp at h2
      | succ fuel2 =>
        have hw := decodeRune_width (b :: rest) (by simp)
        simp only [rangeAux]
        congr 1
        apply ih
        · rw [List.length_drop]; omega
        · rw [List.length_drop]; omega

/-- The number of bytes is enough fuel for `utf8.ValidString`. -/
theorem validAux_fuel :
    ∀ (fuel fuel2 : Nat) (s : Str), s.length ≤ fuel → s.length ≤ fuel2 →
      validAux fuel s = validAux fuel2 s := by
  intro fuel
  induction fuel with
  | zero =>
    intro fuel2 s h _
    have : s = [] := List.length_eq_zero.mp (Nat.le_zero.mp h)
    subst this
    cases fuel2 <;> rfl
  | succ fuel ih =>
    intro fuel2 s h h2
    rcases s with _ | ⟨b, rest⟩
    · cases fuel2 <;> rfl
    · cases fuel2 with
      | zero => simp at h2
      | succ fuel2 =>
        have hw := decodeRune_width (b :: rest) (by simp)
        simp only [validAux]
        split_ifs
        · rfl
        · apply ih
          · rw [List.length_drop]; omega
          · rw [List.length_drop]; omega

theorem stringOfRunes_nil : stringOfRunes [] = [] := rfl

theorem stringOfRunes_cons (r : Nat) (rs : List Nat) :
    stringOfRunes (r :: rs) = encodeRune r ++ stringOfRunes rs := by
  simp [stringOfRunes, List.flatMap_cons]

theorem stringOfRunes_append (xs ys : List Nat) :
    stringOfRunes (xs ++ ys) = stringOfRunes xs ++ stringOfRunes ys := by
  simp [stringOfRunes]

theorem rangeAux_stringOfRunes (rs : List Nat) (hv : ValidRunes rs) :
    ∀ (fuel i : Nat), (stringOfRunes rs).length ≤ fuel →
      rangeAux fuel i (stringOfRunes rs) = rangeSpec i rs := by
  induction rs with
  | nil =>
    intro fuel i _
    cases fuel <;> simp [rangeAux, rangeSpec, stringOfRunes]
  | cons r rs ih =>
    intro fuel i hf
    have hr : ValidRune r = true := hv r (List.mem_cons_self _ _)
    have hrs : ValidRunes rs := fun x hx => hv x (List.mem_cons_of_mem _ hx)
    rw [stringOfRunes_cons] at hf ⊢
    have hpos := encodeRune_length_pos r
    rw [List.length_append] at hf
    cases fuel with
    | zero => omega
    | succ fuel =>
      have hne : encodeRune r ++ stringOfRunes rs ≠ [] := by
        intro h
        have := congrArg List.length h
        rw [List.length_append, List.length_nil] at this
        omega
      obtain ⟨b, tl, hbt⟩ := List.exists_cons_of_ne_nil hne
      have hd := decodeRune_encodeRune hr (stringOfRunes rs)
      rw [hbt] at hd ⊢
      simp only [rangeAux, hd, rangeSpec]
      rw [← hbt, List.drop_left, ih hrs fuel _ (by omega)]

theorem rangeStr_stringOfRunes (rs : List Nat) (hv : ValidRunes rs) :
    rangeStr (stringOfRunes rs) = rangeSpec 0 rs :=
  rangeAux_stringOfRunes rs hv _ _ (le_refl _)

theorem rangeSpec_map_snd (i : Nat) (rs : List Nat) : (rangeSpec i rs).map Prod.snd = rs := by
  induction rs generalizing i with
  | nil => rfl
  | cons r rs ih => simp [rangeSpec, ih]

theorem runesOf_stringOfRunes (rs : List Nat) (hv : ValidRunes rs) :
    runesOf (stringOfRunes rs) = rs := by
  rw [runesOf, rangeStr_stringOfRunes rs hv, rangeSpec_map_snd]

theorem rangeAux_valid (fuel i : Nat) (s : Str) :
    ∀ p ∈ rangeAux fuel i s, ValidRune p.2 = true := by
  induction fuel generalizing i s with
  | zero => intro p hp; simp [rangeAux] at hp
  | succ fuel ih =>
    intro p hp
    rcases s with _ | ⟨b, tl⟩
    · simp [rangeAux] at hp
    · simp only [rangeAux, List.mem_cons] at hp
      rcases hp with rfl | hp
      · exact decodeRune_valid _
      · exact ih _ _ p hp

theorem runesOf_valid (s : Str) : ValidRunes (runesOf s) := by
  intro r hr
  simp only [runesOf, rangeStr, List.mem_map] at hr
  obtain ⟨p, hp, rfl⟩ := hr
  exact rangeAux_valid _ _ _ p hp

theorem stringOfRunes_ascii (s : Str) (h : IsAscii s) : stringOfRunes s = s := by
  induction s with
  | nil => rfl
  | cons b s ih =>
    have hb : b < 0x80 := h b (List.mem_cons_self _ _)
    rw [stringOfRunes_cons, ih (fun x hx => h x (List.mem_cons_of_mem _ hx))]
    simp [encodeRune, hb]

theorem validRunes_ascii (s : Str) (h : IsAscii s) : ValidRunes s := by
  intro r hr
  have := h r hr
  simp only [ValidRune, Bool.or_eq_true, Bool.and_eq_true, decide_eq_true_eq]
  omega

theorem runesOf_ascii (s : Str) (h : IsAscii s) : runesOf s = s := by
  have := runesOf_stringOfRunes s (validRunes_ascii s h)
  rwa [stringOfRunes_ascii s h] at this


/-! ## The fault monad -/

theorem bind_ok {α β : Type} (a : α) (f : α → Except Fault β) :
    (Except.ok a >>= f) = f a := rfl

theorem bind_error {α β : Type} (e : Fault) (f : α → Except Fault β) :
    ((Except.error e : Except Fault α) >>= f) = Except.error e := rfl

theorem pure_eq_ok {α : Type} (a : α) : (pure a : Except Fault α) = Except.ok a := rfl

theorem throw_eq_error {α : Type} (e : Fault) : (throw e : Except Fault α) = Except.error e := rfl

theorem bind_eq_ok {α β : Type} {x : Except Fault α} {f : α → Except Fault β} {b : β}
    (h : (x >>= f) = Except.ok b) : ∃ a, x = Except.ok a ∧ f a = Except.ok b := by
  cases x with
  | error e => simp [bind_error] at h
  | ok a => exact ⟨a, rfl, h⟩

theorem slice_ok {s : Str} {lo hi : Nat} {r : Str} (h : slice s lo hi = .ok r) :
    lo ≤ hi ∧ hi ≤ s.length ∧ r = (s.take hi).drop lo := by
  unfold slice at h
  split_ifs at h with c
  · simp only [Except.ok.injEq] at h
    exact ⟨c.1, c.2, h.symm⟩

theorem slice_eq_ok {s : Str} {lo hi : Nat} (h1 : lo ≤ hi) (h2 : hi ≤ s.length) :
    slice s lo hi = .ok ((s.take hi).drop lo) := by
  unfold slice
  rw [if_pos ⟨h1, h2⟩]

theorem slice_eq_error {s : Str} {lo hi : Nat} (h : ¬ (lo ≤ hi ∧ hi ≤ s.length)) :
    slice s lo hi = .error .outOfRange := by
  unfold slice
  rw [if_neg h]

theorem index_ok {xs : List Nat} {i x : Nat} (h : index xs i = .ok x) : xs[i]? = some x := by
  unfold index at h
  split at h
  · simp only [Except.ok.injEq] at h; subst h; assumption
  · simp at h

theorem index_eq_ok {xs : List Nat} {i x : Nat} (h : xs[i]? = some x) : index xs i = .ok x := by
  unfold index
  rw [h]


/-! ## The public operations on clean text -/

/-- C1. Clean idempotence: if `IsProfane(T)` returns false then `Censor(T, m)`
returns `T` for every mode `m` and `FindProfanity(T)` returns nil, for every
state of the package variables (hence for every dictionary). -/
theorem clean_idempotence (U : Unicode) (g : Globals) (T : Str) (mode : Int)
    (h : IsProfane U g T = .ok false) :
    Censor U g T mode = .ok T ∧ FindProfanity U g T = .ok [] := by
  unfold IsProfane at h
  unfold Censor FindProfanity
  by_cases h0 : T.length = 0
  · have hT : T = [] := List.length_eq_zero.mp h0
    simp [h0, hT]
  · simp only [h0, if_false] at h ⊢
    cases hfm : findMatches U g.collapsedToOriginal T g.profanityMatcher with
    | error e => simp [hfm, bind, Except.bind] at h
    | ok found =>
      simp only [hfm, bind, Except.bind, pure, Except.pure, Except.ok.injEq,
        decide_eq_false_iff_not, not_lt, Nat.le_zero_eq] at h
      simp [bind, Except.bind, pure, Except.pure, h]

/-- The witness of `clean_idempotence`: "bass" with the dictionary `["ass"]`. -/
theorem clean_idempotence_witness :
    IsProfane unicodeSample globalsAss [0x62, 0x61, 0x73, 0x73] = .ok false ∧
      (Censor unicodeSample globalsAss [0x62, 0x61, 0x73, 0x73] 2
          = .ok [0x62, 0x61, 0x73, 0x73] ∧
        FindProfanity unicodeSample globalsAss [0x62, 0x61, 0x73, 0x73] = .ok []) :=
  ⟨rfl, clean_idempotence unicodeSample globalsAss [0x62, 0x61, 0x73, 0x73] 2 rfl⟩

/-! ## What an accepted match has passed -/

theorem acceptMatch_some {U : Unicode} {c2o : List (Str × Str)} {ac : ahoCorasick} {text : Str}
    {nt : normalizedText} {m : acMatch} {ns ne os oe : Nat} {mi : matchInfo}
    (h : acceptMatch U c2o ac text nt m ns ne os oe = .ok (some mi)) :
    isWordBoundaryBefore U text os = .ok true ∧ isWordBoundaryAfter U text oe = .ok true ∧
      mi.origStart = os ∧ mi.origEnd = oe ∧
      ∃ p seg, ac.patterns[m.patternIndex]? = some p ∧ mi.pattern = p ∧
        slice nt.normalized ns ne = .ok seg ∧
        isValidMatch seg ((c2o.lookup p).getD p) = true := by
  unfold acceptMatch at h
  obtain ⟨before, hb, h⟩ := bind_eq_ok h
  cases before with
  | false => simp [pure_eq_ok] at h
  | true =>
    simp only [Bool.not_true, Bool.false_eq_true, if_false] at h
    obtain ⟨after, ha, h⟩ := bind_eq_ok h
    cases after with
    | false => simp [pure_eq_ok] at h
    | true =>
      simp only [Bool.not_true, Bool.false_eq_true, if_false] at h
      obtain ⟨p, hp, h⟩ := bind_eq_ok h
      obtain ⟨seg, hseg, h⟩ := bind_eq_ok h
      have hp' : ac.patterns[m.patternIndex]? = some p := by
        unfold patternAt at hp
        split at hp
        · simp only [Except.ok.injEq] at hp; subst hp; assumption
        · simp at hp
      by_cases hv : isValidMatch seg ((c2o.lookup p).getD p) = true
      · simp only [hv, Bool.not_true, Bool.false_eq_true, if_false, pure_eq_ok,
          Except.ok.injEq, Option.some.injEq] at h
        subst h
        exact ⟨hb, ha, rfl, rfl, p, seg, hp', rfl, hseg, hv⟩
      · simp [hv, pure_eq_ok] at h

theorem projectMatch_some {U : Unicode} {c2o : List (Str × Str)} {ac : ahoCorasick} {text : Str}
    {nt : normalizedText} {cp : collapsedPosInfo} {m : acMatch} {mi : matchInfo}
    (h : projectMatch U c2o ac text nt cp m = .ok (some mi)) :
    ∃ ns ne os oe, normalizedRange nt cp m = .ok (ns, ne) ∧
      originalRange text nt ns ne = .ok (os, oe) ∧
      acceptMatch U c2o ac text nt m ns ne os oe = .ok (some mi) := by
  unfold projectMatch at h
  obtain ⟨n, hn, h⟩ := bind_eq_ok h
  obtain ⟨o, ho, h⟩ := bind_eq_ok h
  exact ⟨n.1, n.2, o.1, o.2, hn, ho, h⟩

theorem projectAll_mem {U : Unicode} {c2o : List (Str × Str)} {ac : ahoCorasick} {text : Str}
    {nt : normalizedText} {cp : collapsedPosInfo} :
    ∀ {found : List acMatch} {out : List matchInfo},
      projectAll U c2o ac text nt cp found = .ok out → ∀ mi ∈ out,
        ∃ m ∈ found, projectMatch U c2o ac text nt cp m = .ok (some mi) := by
  intro found
  induction found with
  | nil =>
    intro out h mi hmi
    simp only [projectAll, Except.ok.injEq] at h
    subst h
    simp at hmi
  | cons m rest ih =>
    intro out h mi hmi
    simp only [projectAll] at h
    obtain ⟨r, hr, h⟩ := bind_eq_ok h
    obtain ⟨rs, hrs, h⟩ := bind_eq_ok h
    simp only [pure_eq_ok, Except.ok.injEq] at h
    subst h
    cases r with
    | none =>
      obtain ⟨m', hm', hp⟩ := ih hrs mi hmi
      exact ⟨m', List.mem_cons_of_mem _ hm', hp⟩
    | some mi' =>
      simp only [List.mem_cons] at hmi
      rcases hmi with rfl | hmi
      · exact ⟨m, List.mem_cons_self _ _, hr⟩
      · obtain ⟨m', hm', hp⟩ := ih hrs mi hmi
        exact ⟨m', List.mem_cons_of_mem _ hm', hp⟩

theorem findMatches_mem {U : Unicode} {c2o : List (Str × Str)} {ac : ahoCorasick} {text : Str}
    {out : List matchInfo} (h : findMatches U c2o text ac = .ok out) :
    ∀ mi ∈ out, ∃ found, SearchAll ac (collapseRepeats (normalizeText U text).normalized).1
        = .ok found ∧
      ∃ m ∈ found, projectMatch U c2o ac text (normalizeText U text)
        (collapseRepeats (normalizeText U text).normalized).2 m = .ok (some mi) := by
  intro mi hmi
  unfold findMatches at h
  split_ifs at h with h0
  · simp only [Except.ok.injEq] at h; subst h; simp at hmi
  · obtain ⟨found, hf, h⟩ := bind_eq_ok h
    split_ifs at h with h1
    · simp only [pure_eq_ok, Except.ok.injEq] at h; subst h; simp at hmi
    · obtain ⟨m, hm, hp⟩ := projectAll_mem h mi hmi
      exact ⟨found, hf, m, hm, hp⟩

/-- C10. Word boundary correctness: every match returned by `findMatches(T)`
starts at offset 0 or right after a rune of the raw text `T` that is neither
a letter nor a digit, and ends at or beyond `len(T)` or right before such a
rune; the runes inspected are decoded from the raw text `T` itself. -/
theorem word_boundary_correct (U : Unicode) (c2o : List (Str × Str)) (ac : ahoCorasick)
    (T : Str) (out : List matchInfo) (h : findMatches U c2o T ac = .ok out)
    (m : matchInfo) (hm : m ∈ out) :
    (m.origStart = 0 ∨
        (IsLetter U (decodeLastRune (T.take m.origStart)).1 = false ∧
          IsDigit U (decodeLastRune (T.take m.origStart)).1 = false)) ∧
      (m.origEnd ≥ T.length ∨
        (IsLetter U (decodeRune (T.drop m.origEnd)).1 = false ∧
          IsDigit U (decodeRune (T.drop m.origEnd)).1 = false)) := by
  obtain ⟨found, _, am, _, hp⟩ := findMatches_mem h m hm
  obtain ⟨ns, ne, os, oe, _, _, ha⟩ := projectMatch_some hp
  obtain ⟨hb, hafter, e1, e2, _⟩ := acceptMatch_some ha
  subst e1 e2
  constructor
  · unfold isWordBoundaryBefore at hb
    split_ifs at hb with c
    · left; omega
    · right
      obtain ⟨pre, hpre, hb⟩ := bind_eq_ok hb
      obtain ⟨_, _, rfl⟩ := slice_ok hpre
      simp only [pure_eq_ok, Except.ok.injEq, Bool.not_eq_true', isWordChar,
        Bool.or_eq_false_iff, List.drop_zero] at hb
      exact hb
  · unfold isWordBoundaryAfter at hafter
    split_ifs at hafter with c
    · left; exact c
    · right
      obtain ⟨post, hpost, hafter⟩ := bind_eq_ok hafter
      obtain ⟨_, _, rfl⟩ := slice_ok hpost
      simp only [pure_eq_ok, Except.ok.injEq, Bool.not_eq_true', isWordChar,
        Bool.or_eq_false_iff, List.take_length] at hafter
      exact hafter


/-! ## Concrete runs -/

/-- C3, refuted as stated. On the well-formed text U+3000 U+3000 "ass" (5 runes), whose
NFKC form is two spaces and "ass", with the dictionary `["ass"]`, `Censor`
with `CensorAll` returns a string of 9 runes: the match is projected to the
bytes 2..5, which cut both ideographic spaces in two. And with a dictionary
that holds the empty string, `Censor` returns nothing on "a", U+200B, "b". -/
theorem censor_changes_rune_count :
    init insertionOrder dictAss = .ok globalsAss ∧ ValidString textIdeo = true ∧
      unicodeSample.nfkc textIdeo = [0x20, 0x20, 0x61, 0x73, 0x73] ∧
      Censor unicodeSample globalsAss textIdeo CensorAll =
        .ok [0xE3, 0x80, 0x2A, 0x2A, 0x2A, 0x80, 0x61, 0x73, 0x73] ∧
      (runesOf textIdeo).length = 5 ∧
      (runesOf [0xE3, 0x80, 0x2A, 0x2A, 0x2A, 0x80, 0x61, 0x73, 0x73]).length = 9 ∧
      init insertionOrder dictEmpty = .ok globalsEmpty ∧ ValidString textZeroWidth = true ∧
      unicodeSample.nfkc textZeroWidth = textZeroWidth ∧
      Censor unicodeSample globalsEmpty textZeroWidth CensorAll =
        .error .outOfRange := by
  decide!

/-- C5, refuted as stated. On the well-formed text U+3000 U+3000 "ass" with the
dictionary `["ass"]`, `Censor` returns a string that is not valid UTF-8, in
mode `CensorAll` as in mode `CensorKeepFirstLast`. And with a dictionary
that holds the empty string, `Censor` returns nothing on "a", U+200B, "b". -/
theorem censor_output_invalid_utf8 :
    ValidString textIdeo = true ∧
      Censor unicodeSample globalsAss textIdeo CensorAll =
        .ok [0xE3, 0x80, 0x2A, 0x2A, 0x2A, 0x80, 0x61, 0x73, 0x73] ∧
      ValidString [0xE3, 0x80, 0x2A, 0x2A, 0x2A, 0x80, 0x61, 0x73, 0x73] = false ∧
      Censor unicodeSample globalsAss textIdeo CensorKeepFirstLast =
        .ok [0xE3, 0x80, 0xEF, 0xBF, 0xBD, 0x2A, 0xEF, 0xBF, 0xBD, 0x80, 0x61, 0x73, 0x73] ∧
      ValidString [0xE3, 0x80, 0xEF, 0xBF, 0xBD, 0x2A, 0xEF, 0xBF, 0xBD, 0x80, 0x61, 0x73, 0x73]
        = false ∧
      ValidString textZeroWidth = true ∧
      unicodeSample.nfkc textZeroWidth = textZeroWidth ∧
      Censor unicodeSample globalsEmpty textZeroWidth CensorKeepFirst =
        .error .outOfRange := by
  decide!

/-- C6. With the dictionary `["fuck", "shit", "ass"]`, `Censor("fuck$hit",
CensorAll)` is "****$hit", and `IsProfane` of that is true: the asterisk
before `$hit` is a word boundary that the `k` of the input was not. -/
theorem censored_text_still_profane :
    init insertionOrder dictSample = .ok globalsSample ∧
      Censor unicodeSample globalsSample textDollar CensorAll = .ok textDollarMasked ∧
      IsProfane unicodeSample globalsSample textDollarMasked = .ok true := by
  decide!

/-- C7. On the well-formed text "½½ ass" (8 bytes, NFKC form of 14 bytes) with the
dictionary `["ass"]`, the search itself succeeds, and `findMatches`,
`IsProfane`, `FindProfanity` and `Censor` all panic: `isWordBoundaryBefore`
slices `text[:11]`. -/
theorem pipeline_panics_on_longer_nfkc :
    ValidString textHalves = true ∧ textHalves.length = 8 ∧
      (unicodeSample.nfkc textHalves).length = 14 ∧
      SearchAll globalsAss.profanityMatcher
          (collapseRepeats (normalizeText unicodeSample textHalves).normalized).1 =
        .ok [{ patternIndex := 0, start := 11, end_ := 13 }] ∧
      isWordBoundaryBefore unicodeSample textHalves 11 = .error .outOfRange ∧
      findMatches unicodeSample globalsAss.collapsedToOriginal textHalves
          globalsAss.profanityMatcher = .error .outOfRange ∧
      IsProfane unicodeSample globalsAss textHalves = .error .outOfRange ∧
      FindProfanity unicodeSample globalsAss textHalves = .error .outOfRange ∧
      Censor unicodeSample globalsAss textHalves CensorAll = .error .outOfRange := by
  decide!

/-- C8, refuted as stated. With the dictionary `["ass"]`, `findMatches` on U+3000
U+3000 "ass" returns the range 2..5, neither end of which is a rune boundary
of the text, and on "½½ass..." (10 bytes) it returns the range 10..12, which
ends beyond the text: no offset is clamped. And with a dictionary that holds
the empty string, `findMatches` on "a", U+200B, "b" returns a match with
`origStart = 4` and `origEnd = 1`. -/
theorem match_not_well_formed :
    findMatches unicodeSample globalsAss.collapsedToOriginal textIdeo
        globalsAss.profanityMatcher =
        .ok [{ origStart := 2, origEnd := 5, pattern := [0x61, 0x73] }] ∧
      ¬ IsRuneBoundary textIdeo 2 ∧ ¬ IsRuneBoundary textIdeo 5 ∧
      findMatches unicodeSample globalsAss.collapsedToOriginal textHalvesDots
        globalsAss.profanityMatcher =
        .ok [{ origStart := 10, origEnd := 12, pattern := [0x61, 0x73] }] ∧
      textHalvesDots.length = 10 ∧
      unicodeSample.nfkc textZeroWidth = textZeroWidth ∧
      findMatches unicodeSample globalsEmpty.collapsedToOriginal textZeroWidth
        globalsEmpty.profanityMatcher =
        .ok [{ origStart := 4, origEnd := 1, pattern := [] }] := by
  decide!

/-- C4, refuted as stated. With the dictionary `["fuck", "shit", "ass"]` and the text
"fuсk off" (Cyrillic es), the only merged interval is 0..5, byte 5 of the
text lies outside it, and byte 5 of `Censor(T, CensorAll)` = "**** off" is
`o` while byte 5 of the text is the space. -/
theorem censor_shifts_bytes :
    findMatches unicodeSample globalsSample.collapsedToOriginal textCyrillic
        globalsSample.profanityMatcher =
        .ok [{ origStart := 0, origEnd := 5, pattern := [0x66, 0x75, 0x63, 0x6B] }] ∧
      mergeOverlapping [{ origStart := 0, origEnd := 5, pattern := [0x66, 0x75, 0x63, 0x6B] }] =
        [{ origStart := 0, origEnd := 5, pattern := [0x66, 0x75, 0x63, 0x6B] }] ∧
      Censor unicodeSample globalsSample textCyrillic CensorAll =
        .ok [0x2A, 0x2A, 0x2A, 0x2A, 0x20, 0x6F, 0x66, 0x66] ∧
      textCyrillic[5]? = some 0x20 ∧
      [0x2A, 0x2A, 0x2A, 0x2A, 0x20, 0x6F, 0x66, 0x66][5]? = some 0x6F := by
  decide!

/-- The witness of `word_boundary_correct`: "an ass." with the dictionary `["ass"]`. -/
theorem word_boundary_correct_witness :
    findMatches unicodeSample globalsAss.collapsedToOriginal
        [0x61, 0x6E, 0x20, 0x61, 0x73, 0x73, 0x2E] globalsAss.profanityMatcher =
        .ok [{ origStart := 3, origEnd := 6, pattern := [0x61, 0x73] }] ∧
      ((3 = 0 ∨
          (IsLetter unicodeSample (decodeLastRune
              (([0x61, 0x6E, 0x20, 0x61, 0x73, 0x73, 0x2E] : Str).take 3)).1 = false ∧
            IsDigit unicodeSample (decodeLastRune
              (([0x61, 0x6E, 0x20, 0x61, 0x73, 0x73, 0x2E] : Str).take 3)).1 = false)) ∧
        (6 ≥ ([0x61, 0x6E, 0x20, 0x61, 0x73, 0x73, 0x2E] : Str).length ∨
          (IsLetter unicodeSample (decodeRune
              (([0x61, 0x6E, 0x20, 0x61, 0x73, 0x73, 0x2E] : Str).drop 6)).1 = false ∧
            IsDigit unicodeSample (decodeRune
              (([0x61, 0x6E, 0x20, 0x61, 0x73, 0x73, 0x2E] : Str).drop 6)).1 = false))) :=
  ⟨by decide!,
    word_boundary_correct unicodeSample globalsAss.collapsedToOriginal
      globalsAss.profanityMatcher [0x61, 0x6E, 0x20, 0x61, 0x73, 0x73, 0x2E]
      [{ origStart := 3, origEnd := 6, pattern := [0x61, 0x73] }] (by decide!)
      { origStart := 3, origEnd := 6, pattern := [0x61, 0x73] } (List.mem_singleton.mpr rfl)⟩


/-! ## `mergeOverlapping` and `Censor` -/

theorem mergeLoop_ne_nil (current : matchInfo) (rest : List matchInfo) :
    mergeLoop current rest ≠ [] := by
  induction rest generalizing current with
  | nil => simp [mergeLoop]
  | cons m rest ih =>
    simp only [mergeLoop]
    split_ifs
    · exact ih _
    · exact ih _
    · simp

theorem mergeLoop_head (current : matchInfo) (rest : List matchInfo) :
    ∀ x ∈ (mergeLoop current rest).head?, x.origStart = current.origStart := by
  induction rest generalizing current with
  | nil => simp [mergeLoop]
  | cons m rest ih =>
    simp only [mergeLoop]
    split_ifs with h1 h2
    · intro x hx
      have := ih { current with origEnd := m.origEnd } x hx
      exact this
    · intro x hx; exact ih current x hx
    · simp

theorem mergeLoop_separated (current : matchInfo) (rest : List matchInfo) :
    Separated (mergeLoop current rest) := by
  induction rest generalizing current with
  | nil => simp [mergeLoop, Separated]
  | cons m rest ih =>
    simp only [mergeLoop]
    split_ifs with h1 h2
    · exact ih _
    · exact ih _
    · unfold Separated
      rw [List.chain'_cons']
      refine ⟨?_, ih m⟩
      intro y hy
      rw [mergeLoop_head m rest y hy]
      omega

theorem mergeOverlapping_separated (ms : List matchInfo) : Separated (mergeOverlapping ms) := by
  unfold mergeOverlapping
  split_ifs with h
  · rcases ms with _ | ⟨a, _ | ⟨b, tl⟩⟩
    · simp [Separated]
    · simp [Separated]
    · simp at h
  · split
    · simp [Separated]
    · exact mergeLoop_separated _ _

theorem sub_nil_of_le (s : Str) {lo hi : Nat} (h : hi ≤ lo) : sub s lo hi = [] := by
  unfold sub
  apply List.drop_eq_nil_of_le
  rw [List.length_take]
  omega

theorem slice_sub {s : Str} {lo hi : Nat} (h1 : lo ≤ hi) (h2 : hi ≤ s.length) :
    slice s lo hi = .ok (sub s lo hi) := slice_eq_ok h1 h2

theorem censorTail_eq (text : Str) (st : Str × Nat) :
    censorTail text st = .ok (st.1 ++ sub text st.2 text.length) := by
  unfold censorTail
  split_ifs with h
  · rw [slice_sub (le_of_lt h) (le_refl _), bind_ok, pure_eq_ok]
  · rw [sub_nil_of_le text (not_lt.mp h), List.append_nil, pure_eq_ok]

theorem gapBefore_eq (text : Str) (st : Str × Nat) (m : matchInfo) (h1 : st.2 ≤ m.origStart)
    (h2 : m.origStart ≤ text.length) :
    gapBefore text st m = .ok (st.1 ++ sub text st.2 m.origStart) := by
  unfold gapBefore
  split_ifs with c
  · rw [slice_sub h1 h2, bind_ok, pure_eq_ok]
  · rw [sub_nil_of_le text (by omega), List.append_nil, pure_eq_ok]

theorem gapBefore_cases (text : Str) (st : Str × Nat) (m : matchInfo) :
    (∃ r, gapBefore text st m = .ok r) ∨
      (gapBefore text st m = .error .outOfRange ∧ text.length < m.origStart) := by
  unfold gapBefore
  split_ifs with c
  · by_cases c2 : m.origStart ≤ text.length
    · left; rw [slice_sub (le_of_lt c) c2, bind_ok, pure_eq_ok]; exact ⟨_, rfl⟩
    · right; rw [slice_eq_error (by omega), bind_error]; exact ⟨rfl, by omega⟩
  · left; exact ⟨_, rfl⟩

theorem censorLoop_ok (text : Str) (mode : Int) :
    ∀ (ms : List matchInfo) (st : Str × Nat), InRange text ms → Separated ms →
      (∀ m ∈ ms.head?, st.2 ≤ m.origStart) →
      ∃ st', censorLoop text mode ms st = .ok st' ∧
        st'.1 ++ sub text st'.2 text.length = st.1 ++ assemble text mode st.2 ms := by
  intro ms
  induction ms with
  | nil =>
    intro st _ _ _
    exact ⟨st, rfl, rfl⟩
  | cons m rest ih =>
    intro st hr hs hl
    have hm := hr m (List.mem_cons_self _ _)
    have hlast : st.2 ≤ m.origStart := hl m (by simp)
    have hrest : InRange text rest := fun x hx => hr x (List.mem_cons_of_mem _ hx)
    have hs' : Separated rest := List.Chain'.tail hs
    have hl' : ∀ x ∈ rest.head?, m.origEnd ≤ x.origStart := by
      intro x hx
      unfold Separated at hs
      rw [List.chain'_cons'] at hs
      exact le_of_lt (hs.1 x hx)
    obtain ⟨st', h1, h2⟩ := ih (st.1 ++ sub text st.2 m.origStart ++
      buildAsteriskMask (sub text m.origStart m.origEnd) mode, m.origEnd) hrest hs' hl'
    refine ⟨st', ?_, ?_⟩
    · rw [censorLoop, gapBefore_eq text st m hlast (by omega), bind_ok, slice_sub hm.1 hm.2,
        bind_ok]
      exact h1
    · rw [h2]
      simp only [assemble, List.append_assoc]

theorem censorLoop_error (text : Str) (mode : Int) :
    ∀ (ms : List matchInfo) (st : Str × Nat), ¬ InRange text ms →
      censorLoop text mode ms st = .error .outOfRange := by
  intro ms
  induction ms with
  | nil => intro st h; exact absurd (fun m hm => by simp at hm) h
  | cons m rest ih =>
    intro st h
    rw [censorLoop]
    rcases gapBefore_cases text st m with ⟨r, hg⟩ | ⟨hg, _⟩
    · rw [hg, bind_ok]
      by_cases hm : m.origStart ≤ m.origEnd ∧ m.origEnd ≤ text.length
      · have hrest : ¬ InRange text rest := by
          intro hr
          apply h
          intro x hx
          rcases List.mem_cons.mp hx with rfl | hx
          · exact hm
          · exact hr x hx
        rw [slice_sub hm.1 hm.2, bind_ok]
        exact ih _ hrest
      · rw [slice_eq_error hm, bind_error]
    · rw [hg, bind_error]

/-- C2. Censor assembly: for a text `T` with at least one match, with
`[s1,e1), ..., [sk,ek)` the result of `mergeOverlapping(findMatches(T))`,
`Censor(T, m)` is `T[0:s1] ++ mask(T[s1:e1]) ++ T[e1:s2] ++ ... ++
mask(T[sk:ek]) ++ T[ek:]` whenever every interval is a range of `T`, and
panics on the first slice otherwise. -/
theorem censor_assembly (U : Unicode) (g : Globals) (T : Str) (mode : Int)
    (found : List matchInfo)
    (h : findMatches U g.collapsedToOriginal T g.profanityMatcher = .ok found)
    (hne : found ≠ []) :
    Censor U g T mode =
      if InRange T (mergeOverlapping found) then
        .ok (assemble T mode 0 (mergeOverlapping found))
      else .error .outOfRange := by
  have hT : ¬ T.length = 0 := by
    intro h0
    have : findMatches U g.collapsedToOriginal T g.profanityMatcher = .ok [] := by
      unfold findMatches
      rw [if_pos h0]
    rw [this] at h
    simp only [Except.ok.injEq] at h
    exact hne h.symm
  have hlen : ¬ found.length = 0 := fun h0 => hne (List.length_eq_zero.mp h0)
  unfold Censor
  rw [if_neg hT, h, bind_ok, if_neg hlen]
  show (censorLoop T mode (mergeOverlapping found) ([], 0) >>= fun st => censorTail T st) = _
  split_ifs with hr
  · obtain ⟨st, h1, h2⟩ := censorLoop_ok T mode (mergeOverlapping found) ([], 0) hr
      (mergeOverlapping_separated found) (fun m _ => Nat.zero_le _)
    rw [h1, bind_ok, censorTail_eq, h2, List.nil_append]
  · rw [censorLoop_error T mode _ _ hr, bind_error]

/-- The witness of `censor_assembly`: "an ass." with the dictionary `["ass"]`. -/
theorem censor_assembly_witness :
    findMatches unicodeSample globalsAss.collapsedToOriginal
        [0x61, 0x6E, 0x20, 0x61, 0x73, 0x73, 0x2E] globalsAss.profanityMatcher =
        .ok [{ origStart := 3, origEnd := 6, pattern := [0x61, 0x73] }] ∧
      ([{ origStart := 3, origEnd := 6, pattern := [0x61, 0x73] }] : List matchInfo) ≠ [] ∧
      Censor unicodeSample globalsAss [0x61, 0x6E, 0x20, 0x61, 0x73, 0x73, 0x2E] 1 =
        if InRange [0x61, 0x6E, 0x20, 0x61, 0x73, 0x73, 0x2E]
            (mergeOverlapping [{ origStart := 3, origEnd := 6, pattern := [0x61, 0x73] }]) then
          .ok (assemble [0x61, 0x6E, 0x20, 0x61, 0x73, 0x73, 0x2E] 1 0
            (mergeOverlapping [{ origStart := 3, origEnd := 6, pattern := [0x61, 0x73] }]))
        else .error .outOfRange :=
  ⟨by decide!, by simp,
    censor_assembly unicodeSample globalsAss [0x61, 0x6E, 0x20, 0x61, 0x73, 0x73, 0x2E]
      1 [{ origStart := 3, origEnd := 6, pattern := [0x61, 0x73] }] (by decide!) (by simp)⟩

theorem sub_length (s : Str) {lo hi : Nat} (h : hi ≤ s.length) :
    (sub s lo hi).length = hi - lo := by
  unfold sub
  rw [List.length_drop, List.length_take]
  omega

theorem sub_getElem? (s : Str) {lo hi k : Nat} (h : lo + k < hi) :
    (sub s lo hi)[k]? = s[lo + k]? := by
  unfold sub
  rw [List.getElem?_drop, List.getElem?_take_of_lt h]

theorem coveredBefore_zero (ms : List matchInfo) (i : Nat) (h : ∀ m ∈ ms, i < m.origEnd) :
    coveredBefore ms i = 0 := by
  induction ms with
  | nil => rfl
  | cons m rest ih =>
    have := h m (List.mem_cons_self _ _)
    simp only [coveredBefore, if_neg (not_le.mpr this), zero_add]
    exact ih (fun x hx => h x (List.mem_cons_of_mem _ hx))

theorem maskedBefore_zero (text : Str) (mode : Int) (ms : List matchInfo) (i : Nat)
    (h : ∀ m ∈ ms, i < m.origEnd) : maskedBefore text mode ms i = 0 := by
  induction ms with
  | nil => rfl
  | cons m rest ih =>
    have := h m (List.mem_cons_self _ _)
    simp only [maskedBefore, if_neg (not_le.mpr this), zero_add]
    exact ih (fun x hx => h x (List.mem_cons_of_mem _ hx))

/-- In a separated list of ranges, every interval starts at or after the
start of the first one. -/
theorem separated_start_le {text : Str} :
    ∀ (ms : List matchInfo) (lo : Nat), InRange text ms → Separated ms →
      (∀ m ∈ ms.head?, lo ≤ m.origStart) → ∀ x ∈ ms, lo ≤ x.origStart := by
  intro ms
  induction ms with
  | nil => intro lo _ _ _ x hx; simp at hx
  | cons m rest ih =>
    intro lo hr hs hl x hx
    have hm := hr m (List.mem_cons_self _ _)
    have hlo : lo ≤ m.origStart := hl m (by simp)
    rcases List.mem_cons.mp hx with rfl | hx
    · exact hlo
    · have hrest : InRange text rest := fun y hy => hr y (List.mem_cons_of_mem _ hy)
      have hl' : ∀ y ∈ rest.head?, m.origEnd ≤ y.origStart := by
        intro y hy
        unfold Separated at hs
        rw [List.chain'_cons'] at hs
        exact le_of_lt (hs.1 y hy)
      have := ih m.origEnd hrest (List.Chain'.tail hs) hl' x hx
      omega

theorem assemble_getElem? (text : Str) (mode : Int) :
    ∀ (ms : List matchInfo) (last i : Nat), InRange text ms → Separated ms →
      (∀ m ∈ ms.head?, last ≤ m.origStart) → last ≤ i → i < text.length → Outside ms i →
      coveredBefore ms i ≤ i - last ∧
        (assemble text mode last ms)[i + maskedBefore text mode ms i - coveredBefore ms i - last]?
          = text[i]? := by
  intro ms
  induction ms with
  | nil =>
    intro last i _ _ _ hli hi _
    refine ⟨Nat.zero_le _, ?_⟩
    simp only [assemble, maskedBefore, coveredBefore, Nat.add_zero, Nat.sub_zero]
    rw [sub_getElem? text (by omega)]
    congr 1
    omega
  | cons m rest ih =>
    intro last i hr hs hl hli hi ho
    have hm := hr m (List.mem_cons_self _ _)
    have hlast : last ≤ m.origStart := hl m (by simp)
    have hrest : InRange text rest := fun x hx => hr x (List.mem_cons_of_mem _ hx)
    have hs' : Separated rest := List.Chain'.tail hs
    have hl' : ∀ x ∈ rest.head?, m.origEnd ≤ x.origStart := by
      intro x hx
      unfold Separated at hs
      rw [List.chain'_cons'] at hs
      exact le_of_lt (hs.1 x hx)
    have ho' : Outside rest i := fun x hx => ho x (List.mem_cons_of_mem _ hx)
    have hom := ho m (List.mem_cons_self _ _)
    by_cases c : i < m.origStart
    · have hall : ∀ x ∈ m :: rest, i < x.origEnd := by
        intro x hx
        have h1 := separated_start_le (m :: rest) m.origStart hr hs (by simp) x hx
        have h2 := hr x hx
        omega
      rw [coveredBefore_zero _ _ hall, maskedBefore_zero _ _ _ _ hall]
      refine ⟨Nat.zero_le _, ?_⟩
      simp only [assemble, Nat.add_zero, Nat.sub_zero]
      have hlen : (sub text last m.origStart).length = m.origStart - last :=
        sub_length text (by omega)
      rw [List.append_assoc, List.getElem?_append_left (by rw [hlen]; omega),
        sub_getElem? text (by omega)]
      congr 1
      omega
    · have hend : m.origEnd ≤ i := by omega
      obtain ⟨ih1, ih2⟩ := ih m.origEnd i hrest hs' hl' hend hi ho'
      simp only [coveredBefore, maskedBefore, if_pos hend, assemble]
      refine ⟨by omega, ?_⟩
      have hlen : (sub text last m.origStart).length = m.origStart - last :=
        sub_length text (by omega)
      rw [List.append_assoc, List.getElem?_append_right (by rw [hlen]; omega),
        List.getElem?_append_right (by rw [hlen]; omega), ← ih2, hlen]
      congr 1
      omega

theorem censor_ok_of_inRange (U : Unicode) (g : Globals) (T : Str) (mode : Int)
    (found : List matchInfo)
    (h : findMatches U g.collapsedToOriginal T g.profanityMatcher = .ok found)
    (hne : found ≠ []) (hr : InRange T (mergeOverlapping found)) :
    Censor U g T mode = .ok (assemble T mode 0 (mergeOverlapping found)) := by
  have hT : ¬ T.length = 0 := by
    intro h0
    have : findMatches U g.collapsedToOriginal T g.profanityMatcher = .ok [] := by
      unfold findMatches
      rw [if_pos h0]
    rw [this] at h
    simp only [Except.ok.injEq] at h
    exact hne h.symm
  have hlen : ¬ found.length = 0 := fun h0 => hne (List.length_eq_zero.mp h0)
  unfold Censor
  rw [if_neg hT, h, bind_ok, if_neg hlen]
  show (censorLoop T mode (mergeOverlapping found) ([], 0) >>= fun st => censorTail T st) = _
  obtain ⟨st, h1, h2⟩ := censorLoop_ok T mode (mergeOverlapping found) ([], 0) hr
    (mergeOverlapping_separated found) (fun m _ => Nat.zero_le _)
  rw [h1, bind_ok, censorTail_eq, h2, List.nil_append]

/-- C4, amended. Bytes outside the merged match intervals are copied, at a
shifted index: when every merged interval is a range of `T`, `Censor(T, m)`
returns a string whose byte at index `i + M - C` is byte `i` of `T`, for
every byte position `i` of `T` outside every merged interval, where `C` is
the total length of the merged intervals that end at or before `i` and `M`
the total length of their masks. -/
theorem censor_preserves_outside (U : Unicode) (g : Globals) (T : Str) (mode : Int)
    (found : List matchInfo)
    (h : findMatches U g.collapsedToOriginal T g.profanityMatcher = .ok found)
    (hne : found ≠ []) (hr : InRange T (mergeOverlapping found))
    (i : Nat) (hi : i < T.length) (ho : Outside (mergeOverlapping found) i) :
    ∃ out, Censor U g T mode = .ok out ∧
      out[i + maskedBefore T mode (mergeOverlapping found) i -
        coveredBefore (mergeOverlapping found) i]? = T[i]? := by
  refine ⟨assemble T mode 0 (mergeOverlapping found), ?_, ?_⟩
  · exact censor_ok_of_inRange U g T mode found h hne hr
  · have := (assemble_getElem? T mode (mergeOverlapping found) 0 i hr
      (mergeOverlapping_separated found) (fun m _ => Nat.zero_le _) (Nat.zero_le _) hi ho).2
    rwa [Nat.sub_zero] at this

/-- The witness of `censor_preserves_outside`: byte 6 of "fuсk off" (Cyrillic
es), the `o`, is byte 5 of the output. -/
theorem censor_preserves_outside_witness :
    findMatches unicodeSample globalsSample.collapsedToOriginal textCyrillic
        globalsSample.profanityMatcher =
        .ok [{ origStart := 0, origEnd := 5, pattern := [0x66, 0x75, 0x63, 0x6B] }] ∧
      ([{ origStart := 0, origEnd := 5, pattern := [0x66, 0x75, 0x63, 0x6B] }] :
        List matchInfo) ≠ [] ∧
      InRange textCyrillic
        (mergeOverlapping [{ origStart := 0, origEnd := 5, pattern := [0x66, 0x75, 0x63, 0x6B] }]) ∧
      6 < textCyrillic.length ∧
      Outside
        (mergeOverlapping [{ origStart := 0, origEnd := 5, pattern := [0x66, 0x75, 0x63, 0x6B] }])
        6 ∧
      ∃ out, Censor unicodeSample globalsSample textCyrillic CensorAll = .ok out ∧
        out[6 + maskedBefore textCyrillic CensorAll
            (mergeOverlapping
              [{ origStart := 0, origEnd := 5, pattern := [0x66, 0x75, 0x63, 0x6B] }]) 6 -
          coveredBefore
            (mergeOverlapping
              [{ origStart := 0, origEnd := 5, pattern := [0x66, 0x75, 0x63, 0x6B] }]) 6]? =
          textCyrillic[6]? :=
  ⟨by decide!, by simp, by decide!, by decide!, by
    intro m hm
    have : m = { origStart := 0, origEnd := 5, pattern := [0x66, 0x75, 0x63, 0x6B] } := by
      simpa [mergeOverlapping] using hm
    subst this
    simp,
    censor_preserves_outside unicodeSample globalsSample textCyrillic CensorAll
      [{ origStart := 0, origEnd := 5, pattern := [0x66, 0x75, 0x63, 0x6B] }] (by decide!)
      (by simp) (by decide!) 6 (by decide!) (by
        intro m hm
        have : m = { origStart := 0, origEnd := 5, pattern := [0x66, 0x75, 0x63, 0x6B] } := by
          simpa [mergeOverlapping] using hm
        subst this
        simp)⟩


/-! ## The trie -/

theorem getNode_set (nodes : List acNode) (i p : Nat) (x : acNode) :
    getNode (nodes.set i x) p = if p = i ∧ i < nodes.length then x else getNode nodes p := by
  unfold getNode
  rw [List.getD_eq_getElem?_getD, List.getD_eq_getElem?_getD, List.getElem?_set]
  by_cases h : i = p
  · subst h
    by_cases h2 : i < nodes.length
    · simp [h2]
    · simp [h2, List.getElem?_eq_none (not_lt.mp h2)]
  · have : ¬ (p = i ∧ i < nodes.length) := fun c => h c.1.symm
    simp [h, this]

theorem getNode_append (nodes : List acNode) (y : acNode) (p : Nat) :
    getNode (nodes ++ [y]) p =
      if p < nodes.length then getNode nodes p
      else if p = nodes.length then y else newACNode 0 := by
  unfold getNode
  rw [List.getD_eq_getElem?_getD, List.getD_eq_getElem?_getD]
  by_cases h : p < nodes.length
  · simp [h, List.getElem?_append_left h]
  · by_cases h2 : p = nodes.length
    · subst h2
      simp
    · have h3 : nodes.length + 1 ≤ p := by omega
      simp [h, h2, List.getElem?_eq_none (l := nodes ++ [y]) (by simpa using h3)]

theorem getNode_of_le (nodes : List acNode) {p : Nat} (h : nodes.length ≤ p) :
    getNode nodes p = newACNode 0 := by
  unfold getNode
  rw [List.getD_eq_getElem?_getD, List.getElem?_eq_none h]
  rfl

theorem lookup_mem {r c : Nat} {l : List (Nat × Nat)} (h : l.lookup r = some c) : (r, c) ∈ l := by
  induction l with
  | nil => simp at h
  | cons x xs ih =>
    obtain ⟨k, v⟩ := x
    by_cases e : r = k
    · subst e
      simp only [List.lookup_cons, beq_self_eq_true, Option.some.injEq] at h
      subst h
      exact List.mem_cons_self _ _
    · have : (r == k) = false := by simpa using e
      simp only [List.lookup_cons, this] at h
      exact List.mem_cons_of_mem _ (ih h)

theorem mem_children_lt {nodes : List acNode}
    {p r c : Nat} (h : (r, c) ∈ (getNode nodes p).children) : p < nodes.length := by
  by_contra hp
  rw [getNode_of_le nodes (not_lt.mp hp)] at h
  simp [newACNode] at h

/-- The label of a node is no longer than its index. -/
theorem Shape.label_le {nodes : List acNode} {L : Nat → List Nat} (hs : Shape nodes L) :
    ∀ n, n < nodes.length → (L n).length ≤ n := by
  intro n
  induction n using Nat.strong_induction_on with
  | _ n ih =>
    intro hn
    rcases Nat.eq_zero_or_pos n with h0 | hpos
    · subst h0; rw [hs.root]; simp
    · obtain ⟨p, r, hp⟩ := hs.parent n hpos hn
      obtain ⟨h1, _, h3⟩ := hs.edge p r n hp
      have := ih p h1 (by omega)
      rw [h3, List.length_append]
      simp only [List.length_singleton]
      omega

theorem Shape.of_sameShape {nodes nodes' : List acNode} {L : Nat → List Nat}
    (hs : Shape nodes L) (h : SameShape nodes nodes') : Shape nodes' L where
  pos := by rw [h.1]; exact hs.pos
  root := hs.root
  edge := by
    intro p r c hc
    rw [h.2] at hc
    rw [h.1]
    exact hs.edge p r c hc
  parent := by
    intro c h0 hc
    rw [h.1] at hc
    obtain ⟨p, r, hp⟩ := hs.parent c h0 hc
    exact ⟨p, r, by rw [h.2]; exact hp⟩
  uniq := by
    intro p p' r r' c h1 h2
    rw [h.2] at h1 h2
    exact hs.uniq p p' r r' c h1 h2
  nodupChildren := by
    intro p
    rw [h.2]
    exact hs.nodupChildren p

theorem SameShape.refl (nodes : List acNode) : SameShape nodes nodes := ⟨rfl, fun _ => rfl⟩

theorem SameShape.trans {a b c : List acNode} (h1 : SameShape a b) (h2 : SameShape b c) :
    SameShape a c :=
  ⟨by rw [h2.1, h1.1], fun p => by rw [h2.2, h1.2]⟩

/-- The heap after `trieStep` has created a child of `node` on `r`. -/
theorem getNode_grow (nodes : List acNode) (node r p : Nat) (hn : node < nodes.length) :
    getNode ((nodes.set node { getNode nodes node with
        children := (getNode nodes node).children ++ [(r, nodes.length)] }) ++
        [newACNode ((getNode nodes node).depth + 1)]) p =
      if p = node then { getNode nodes node with
        children := (getNode nodes node).children ++ [(r, nodes.length)] }
      else if p = nodes.length then newACNode ((getNode nodes node).depth + 1)
      else getNode nodes p := by
  rw [getNode_append, List.length_set, getNode_set]
  by_cases h1 : p = node
  · subst h1; simp [hn]
  · by_cases h2 : p < nodes.length
    · have : p ≠ nodes.length := by omega
      simp [h1, h2, this]
    · by_cases h3 : p = nodes.length
      · have h4 : ¬ (nodes.length = node) := by omega
        simp [h3, h4]
      · simp [h1, h2, h3, getNode_of_le nodes (not_lt.mp h2)]

theorem trieStep_inv {nodes : List acNode} {L : Nat → List Nat} {patterns : List Str} {k : Nat}
    (hT : TrieInv nodes L patterns k) {node : Nat} (hn : node < nodes.length) (r : Nat) :
    ∃ L', TrieInv (trieStep (nodes, node) r).1 L' patterns k ∧
      (trieStep (nodes, node) r).2 < (trieStep (nodes, node) r).1.length ∧
      L' (trieStep (nodes, node) r).2 = L node ++ [r] := by
  unfold trieStep
  dsimp only
  cases hl : (getNode nodes node).children.lookup r with
  | some next =>
    have hmem := lookup_mem hl
    obtain ⟨_, h2, h3⟩ := hT.shape.edge node r next hmem
    exact ⟨L, hT, h2, h3⟩
  | none =>
    dsimp only
    have hN : ∀ p, getNode ((nodes.set node { getNode nodes node with
        children := (getNode nodes node).children ++ [(r, nodes.length)] }) ++
        [newACNode ((getNode nodes node).depth + 1)]) p =
      if p = node then { getNode nodes node with
        children := (getNode nodes node).children ++ [(r, nodes.length)] }
      else if p = nodes.length then newACNode ((getNode nodes node).depth + 1)
      else getNode nodes p := fun p => getNode_grow nodes node r p hn
    have hch : ∀ p x, x ∈ (getNode ((nodes.set node { getNode nodes node with
        children := (getNode nodes node).children ++ [(r, nodes.length)] }) ++
        [newACNode ((getNode nodes node).depth + 1)]) p).children →
        x ∈ (getNode nodes p).children ∨ (p = node ∧ x = (r, nodes.length)) := by
      intro p x hx
      rw [hN] at hx
      split_ifs at hx with h1 h2
      · subst h1
        simp only [List.mem_append, List.mem_singleton] at hx
        rcases hx with hx | hx
        · exact Or.inl hx
        · exact Or.inr ⟨rfl, hx⟩
      · simp [newACNode] at hx
      · exact Or.inl hx
    have hold : ∀ p x, x ∈ (getNode nodes p).children →
        x ∈ (getNode ((nodes.set node { getNode nodes node with
        children := (getNode nodes node).children ++ [(r, nodes.length)] }) ++
        [newACNode ((getNode nodes node).depth + 1)]) p).children := by
      intro p x hx
      have hp := mem_children_lt (r := x.1) (c := x.2) hx
      rw [hN]
      split_ifs with h1 h2
      · subst h1
        simp only [List.mem_append, List.mem_singleton]
        exact Or.inl hx
      · omega
      · exact hx
    have hlen : ((nodes.set node { getNode nodes node with
        children := (getNode nodes node).children ++ [(r, nodes.length)] }) ++
        [newACNode ((getNode nodes node).depth + 1)]).length = nodes.length + 1 := by
      simp
    refine ⟨fun x => if x = nodes.length then L node ++ [r] else L x, ?_, ?_, ?_⟩
    · refine ⟨⟨?_, ?_, ?_, ?_, ?_, ?_⟩, ?_, ?_⟩
      · rw [hlen]; omega
      · have := hT.shape.pos
        have h0 : ¬ (0 = nodes.length) := by omega
        simp only [h0, if_false]
        exact hT.shape.root
      · intro p r' c hc
        rw [hlen]
        rcases hch p (r', c) hc with hc1 | ⟨hp, he⟩
        · obtain ⟨h1, h2, h3⟩ := hT.shape.edge p r' c hc1
          have hc' : ¬ (c = nodes.length) := by omega
          have hp' : ¬ (p = nodes.length) := by omega
          simp only [hc', hp', if_false]
          exact ⟨h1, by omega, h3⟩
        · obtain ⟨e1, e2⟩ := Prod.mk.inj he
          subst hp e1 e2
          have hp' : ¬ (p = nodes.length) := by omega
          simp only [hp', if_false, if_true]
          exact ⟨hn, by omega, trivial⟩
      · intro c h0 hc
        rw [hlen] at hc
        by_cases e : c = nodes.length
        · subst e
          refine ⟨node, r, ?_⟩
          rw [hN]
          simp
        · obtain ⟨p, r', hp⟩ := hT.shape.parent c h0 (by omega)
          exact ⟨p, r', hold p _ hp⟩
      · intro p p' r1 r2 c h1 h2
        rcases hch p _ h1 with g1 | ⟨e1, g1⟩
        · rcases hch p' _ h2 with g2 | ⟨e2, g2⟩
          · exact hT.shape.uniq p p' r1 r2 c g1 g2
          · have e := (Prod.mk.inj g2).2
            have := (hT.shape.edge p r1 c g1).2.1
            omega
        · rcases hch p' _ h2 with g2 | ⟨e2, _⟩
          · have e := (Prod.mk.inj g1).2
            have := (hT.shape.edge p' r2 c g2).2.1
            omega
          · rw [e1, e2]
      · intro p
        rw [hN]
        split_ifs with h1 h2
        · subst h1
          simp only [List.map_append, List.map_cons, List.map_nil]
          rw [List.nodup_append]
          refine ⟨hT.shape.nodupChildren p, List.nodup_singleton _, ?_⟩
          intro a ha hb
          simp only [List.mem_singleton] at hb
          subst hb
          simp only [List.mem_map] at ha
          obtain ⟨x, hx, hx2⟩ := ha
          have := (hT.shape.edge p x.1 x.2 hx).2.1
          omega
        · simp [newACNode]
        · exact hT.shape.nodupChildren p
      · intro n
        rw [hN]
        split_ifs
        · exact hT.noFail node
        · rfl
        · exact hT.noFail n
      · intro n i hi
        rw [hN] at hi
        have key : i ∈ (getNode nodes n).output ∧ n < nodes.length := by
          split_ifs at hi with h1 h2
          · subst h1; exact ⟨hi, hn⟩
          · simp [newACNode] at hi
          · refine ⟨hi, ?_⟩
            by_contra hc
            rw [getNode_of_le nodes (not_lt.mp hc)] at hi
            simp [newACNode] at hi
        obtain ⟨h1, pat, h2, h3⟩ := hT.out n i key.1
        have hne : ¬ (n = nodes.length) := by omega
        simp only [hne, if_false]
        exact ⟨h1, pat, h2, h3⟩
    · rw [hlen]; omega
    · simp

theorem trieFold_inv {patterns : List Str} {k : Nat} :
    ∀ (rs : List Nat) (nodes : List acNode) (node : Nat) (L : Nat → List Nat),
      TrieInv nodes L patterns k → node < nodes.length →
      ∃ L', TrieInv (rs.foldl trieStep (nodes, node)).1 L' patterns k ∧
        (rs.foldl trieStep (nodes, node)).2 < (rs.foldl trieStep (nodes, node)).1.length ∧
        L' (rs.foldl trieStep (nodes, node)).2 = L node ++ rs := by
  intro rs
  induction rs with
  | nil =>
    intro nodes node L hT hn
    exact ⟨L, hT, hn, by simp⟩
  | cons r rs ih =>
    intro nodes node L hT hn
    obtain ⟨L1, h1, h2, h3⟩ := trieStep_inv hT hn r
    obtain ⟨L2, g1, g2, g3⟩ := ih (trieStep (nodes, node) r).1 (trieStep (nodes, node) r).2 L1
      h1 h2
    refine ⟨L2, ?_, ?_, ?_⟩
    · simpa [List.foldl_cons] using g1
    · simpa [List.foldl_cons] using g2
    · rw [h3] at g3
      simpa [List.foldl_cons] using g3

theorem sameShape_set {nodes : List acNode} {i : Nat} {x : acNode}
    (h : x.children = (getNode nodes i).children) : SameShape nodes (nodes.set i x) := by
  refine ⟨List.length_set _ _ _, ?_⟩
  intro p
  rw [getNode_set]
  split_ifs with c
  · rw [c.1]; exact h
  · rfl

theorem insertPattern_inv {nodes : List acNode} {L : Nat → List Nat} {patterns : List Str}
    {k : Nat} (hT : TrieInv nodes L patterns k) {pat : Str} (hp : patterns[k]? = some pat) :
    ∃ L', TrieInv (insertPattern nodes k pat) L' patterns (k + 1) := by
  obtain ⟨L1, h1, h2, h3⟩ := trieFold_inv (runesOf pat) nodes root L hT hT.shape.pos
  refine ⟨L1, ?_⟩
  unfold insertPattern
  dsimp only
  generalize ((runesOf pat).foldl trieStep (nodes, root)) = st at h1 h2 h3
  have hss : SameShape st.1 (st.1.set st.2 { getNode st.1 st.2 with
      isTerminal := true, output := (getNode st.1 st.2).output ++ [k] }) :=
    sameShape_set rfl
  refine ⟨h1.shape.of_sameShape hss, ?_, ?_⟩
  · intro n
    rw [getNode_set]
    split_ifs
    · exact h1.noFail st.2
    · exact h1.noFail n
  · intro n i hi
    rw [getNode_set] at hi
    split_ifs at hi with c
    · simp only [List.mem_append, List.mem_singleton] at hi
      rcases hi with hi | hi
      · obtain ⟨g1, g2⟩ := h1.out st.2 i hi
        rw [c.1]
        exact ⟨by omega, g2⟩
      · subst hi
        refine ⟨by omega, pat, hp, ?_⟩
        rw [c.1, h3]
        simp [root, hT.shape.root]
    · obtain ⟨g1, g2⟩ := h1.out n i hi
      exact ⟨by omega, g2⟩

theorem insertAll_inv {patterns : List Str} :
    ∀ (ps : List Str) (k : Nat) (nodes : List acNode) (L : Nat → List Nat),
      TrieInv nodes L patterns k → (∀ j pat, ps[j]? = some pat → patterns[k + j]? = some pat) →
      ∃ L', TrieInv (insertAll k ps nodes) L' patterns (k + ps.length) := by
  intro ps
  induction ps with
  | nil =>
    intro k nodes L hT _
    exact ⟨L, by simpa [insertAll] using hT⟩
  | cons p ps ih =>
    intro k nodes L hT hidx
    have hp : patterns[k]? = some p := by
      have := hidx 0 p (by simp)
      simpa using this
    obtain ⟨L1, h1⟩ := insertPattern_inv hT hp
    obtain ⟨L2, h2⟩ := ih (k + 1) (insertPattern nodes k p) L1 h1 (by
      intro j pat hj
      have := hidx (j + 1) pat (by simpa using hj)
      rw [show k + 1 + j = k + (j + 1) by omega]
      exact this)
    refine ⟨L2, ?_⟩
    rw [insertAll, List.length_cons, show k + (ps.length + 1) = k + 1 + ps.length by omega]
    exact h2

theorem trieInv_init (patterns : List Str) :
    TrieInv [newACNode 0] (fun _ => []) patterns 0 := by
  have hg : ∀ p, getNode [newACNode 0] p = newACNode 0 := by
    intro p
    rcases p with _ | p
    · rfl
    · exact getNode_of_le _ (by simp)
  refine ⟨⟨by simp, rfl, ?_, ?_, ?_, ?_⟩, ?_, ?_⟩
  · intro p r c hc; rw [hg] at hc; simp [newACNode] at hc
  · intro c h0 hc; simp at hc; omega
  · intro p p' r r' c hc; rw [hg] at hc; simp [newACNode] at hc
  · intro p; rw [hg]; simp [newACNode]
  · intro n; rw [hg]; rfl
  · intro n i hi; rw [hg] at hi; simp [newACNode] at hi

theorem buildTrie_inv (patterns : List Str) :
    ∃ L, TrieInv (buildTrie patterns) L patterns patterns.length := by
  obtain ⟨L, h⟩ := insertAll_inv patterns 0 [newACNode 0] (fun _ => []) (trieInv_init patterns)
    (by intro j pat hj; simpa using hj)
  exact ⟨L, by simpa [buildTrie] using h⟩

theorem TrieInv.sound {nodes : List acNode} {L : Nat → List Nat} {patterns : List Str} {k : Nat}
    (hT : TrieInv nodes L patterns k) : Sound nodes L patterns where
  fail := by
    intro n f hf
    rw [hT.noFail n] at hf
    simp at hf
  out := by
    intro n i hi
    obtain ⟨_, pat, h1, h2⟩ := hT.out n i hi
    exact ⟨pat, h1, by rw [h2]⟩


/-! ## Fail links -/

theorem suffix_snoc {xs ys : List Nat} (h : xs <:+ ys) (r : Nat) : xs ++ [r] <:+ ys ++ [r] := by
  obtain ⟨t, ht⟩ := h
  exact ⟨t, by rw [← ht, List.append_assoc]⟩

theorem walkFail_none (nodes : List acNode) (r fuel : Nat) :
    walkFail nodes r fuel none = .ok none := by
  cases fuel <;> rfl

theorem walkFail_spec {nodes : List acNode} {L : Nat → List Nat} {patterns : List Str}
    (hS : Shape nodes L) (hSo : Sound nodes L patterns) (r : Nat) (S : List Nat) :
    ∀ (fuel : Nat) (fo : Option Nat),
      (∀ f, fo = some f → L f <:+ S ∧ (L f).length < S.length ∧ (L f).length < fuel) →
      ∃ res, walkFail nodes r fuel fo = .ok res ∧
        ∀ next, res = some next →
          next < nodes.length ∧ L next <:+ S ++ [r] ∧ (L next).length < S.length + 1 := by
  intro fuel
  induction fuel with
  | zero =>
    intro fo h
    cases fo with
    | none => exact ⟨none, rfl, by simp⟩
    | some f => have := (h f rfl).2.2; omega
  | succ fuel ih =>
    intro fo h
    cases fo with
    | none => exact ⟨none, rfl, by simp⟩
    | some f =>
      obtain ⟨h1, h2, h3⟩ := h f rfl
      rw [walkFail]
      cases hl : (getNode nodes f).children.lookup r with
      | some next =>
        refine ⟨some next, rfl, ?_⟩
        intro n hn
        simp only [Option.some.injEq] at hn
        subst hn
        obtain ⟨_, g2, g3⟩ := hS.edge f r next (lookup_mem hl)
        refine ⟨g2, ?_, ?_⟩
        · rw [g3]; exact suffix_snoc h1 r
        · rw [g3, List.length_append]; simp only [List.length_singleton]; omega
      | none =>
        dsimp only
        apply ih
        intro f' hf'
        obtain ⟨_, k2, k3⟩ := hSo.fail f f' hf'
        exact ⟨k2.trans h1, by omega, by omega⟩

/-- The node has a fail link. -/
theorem linkChild_spec {nodes : List acNode} {L : Nat → List Nat} {patterns : List Str}
    (hS : Shape nodes L) (hSo : Sound nodes L patterns) {current r child : Nat}
    (hc : (r, child) ∈ (getNode nodes current).children) (queue : List Nat) :
    ∃ nodes', linkChild current (nodes, queue) (r, child) = .ok (nodes', queue ++ [child]) ∧
      SameShape nodes nodes' ∧ Sound nodes' L patterns ∧
      (getNode nodes' child).fail ≠ none ∧
      ∀ n, (getNode nodes n).fail ≠ none → (getNode nodes' n).fail ≠ none := by
  obtain ⟨e1, e2, e3⟩ := hS.edge current r child hc
  have hcur : current < nodes.length := mem_children_lt hc
  obtain ⟨res, hw, hres⟩ := walkFail_spec hS hSo r (L current) nodes.length
    (getNode nodes current).fail (by
      intro f hf
      obtain ⟨k1, k2, k3⟩ := hSo.fail current f hf
      have := hS.label_le current hcur
      exact ⟨k2, k3, by omega⟩)
  -- the fail link chosen for the child
  have hfail : ∀ f, (match (match res with
        | some next => some next
        | none => (getNode nodes child).fail) with
      | some f => f
      | none => root) = f →
      f < nodes.length ∧ L f <:+ L child ∧ (L f).length < (L child).length := by
    intro f hf
    rw [e3]
    cases res with
    | some next =>
      simp only at hf
      subst hf
      obtain ⟨g1, g2, g3⟩ := hres next rfl
      refine ⟨g1, g2, ?_⟩
      rw [List.length_append]; simpa using g3
    | none =>
      simp only at hf
      cases hcf : (getNode nodes child).fail with
      | some f' =>
        rw [hcf] at hf
        simp only at hf
        subst hf
        obtain ⟨k1, k2, k3⟩ := hSo.fail child f' hcf
        rw [e3] at k2 k3
        exact ⟨k1, k2, k3⟩
      | none =>
        rw [hcf] at hf
        simp only at hf
        subst hf
        refine ⟨hS.pos, ?_, ?_⟩
        · rw [root, hS.root]; exact List.nil_suffix
        · rw [root, hS.root]; simp
  generalize hfv : (match (match res with
        | some next => some next
        | none => (getNode nodes child).fail) with
      | some f => f
      | none => root) = fl at hfail
  obtain ⟨f1, f2, f3⟩ := hfail fl rfl
  let newNode : acNode := { getNode nodes child with
    fail := some fl,
    output := if (getNode nodes fl).output ≠ [] then
        (getNode nodes child).output ++ (getNode nodes fl).output
      else (getNode nodes child).output }
  refine ⟨nodes.set child newNode, ?_, sameShape_set rfl, ?_, ?_, ?_⟩
  · unfold linkChild
    dsimp only
    rw [hw, bind_ok]
    rw [hfv]
    rfl
  · constructor
    · intro n f hf
      rw [List.length_set]
      rw [getNode_set] at hf
      split_ifs at hf with c
      · simp only [newNode, Option.some.injEq] at hf
        subst hf
        rw [c.1]
        exact ⟨f1, f2, f3⟩
      · exact hSo.fail n f hf
    · intro n i hi
      rw [getNode_set] at hi
      split_ifs at hi with c
      · simp only [newNode] at hi
        rw [c.1]
        split_ifs at hi with c3
        · simp only [List.mem_append] at hi
          rcases hi with hi | hi
          · exact hSo.out child i hi
          · obtain ⟨pat, p1, p2⟩ := hSo.out fl i hi
            exact ⟨pat, p1, p2.trans f2⟩
        · exact hSo.out child i hi
      · exact hSo.out n i hi
  · rw [getNode_set, if_pos ⟨rfl, e2⟩]
    simp [newNode]
  · intro n hn
    rw [getNode_set]
    split_ifs with c
    · simp [newNode]
    · exact hn

theorem linkChildren_spec {L : Nat → List Nat} {patterns : List Str} (current : Nat) :
    ∀ (ch : List (Nat × Nat)) (nodes : List acNode) (queue : List Nat),
      Shape nodes L → Sound nodes L patterns →
      (∀ rc ∈ ch, rc ∈ (getNode nodes current).children) →
      ∃ nodes', ch.foldlM (linkChild current) (nodes, queue) =
          .ok (nodes', queue ++ ch.map Prod.snd) ∧
        SameShape nodes nodes' ∧ Sound nodes' L patterns ∧
        (∀ rc ∈ ch, (getNode nodes' rc.2).fail ≠ none) ∧
        ∀ n, (getNode nodes n).fail ≠ none → (getNode nodes' n).fail ≠ none := by
  intro ch
  induction ch with
  | nil =>
    intro nodes queue _ hSo _
    exact ⟨nodes, by simp [List.foldlM, pure_eq_ok], SameShape.refl _, hSo, by simp,
      fun _ h => h⟩
  | cons rc ch ih =>
    intro nodes queue hS hSo hmem
    obtain ⟨r, child⟩ := rc
    obtain ⟨n1, h1, h2, h3, h4, h5⟩ := linkChild_spec hS hSo
      (hmem (r, child) (List.mem_cons_self _ _)) queue
    obtain ⟨n2, g1, g2, g3, g4, g5⟩ := ih n1 (queue ++ [child]) (hS.of_sameShape h2) h3 (by
      intro x hx
      rw [h2.2]
      exact hmem x (List.mem_cons_of_mem _ hx))
    refine ⟨n2, ?_, h2.trans g2, g3, ?_, fun n hn => g5 n (h5 n hn)⟩
    · rw [List.foldlM_cons, h1, bind_ok, g1]
      simp
    · intro x hx
      rcases List.mem_cons.mp hx with rfl | hx
      · exact g5 _ h4
      · exact g4 x hx

theorem linkRoot_spec {L : Nat → List Nat} {patterns : List Str} :
    ∀ (ch : List (Nat × Nat)) (nodes : List acNode) (queue : List Nat),
      Shape nodes L → Sound nodes L patterns →
      (∀ rc ∈ ch, rc ∈ (getNode nodes root).children) →
      (ch.foldl linkRootChild (nodes, queue)).2 = queue ++ ch.map Prod.snd ∧
        SameShape nodes (ch.foldl linkRootChild (nodes, queue)).1 ∧
        Sound (ch.foldl linkRootChild (nodes, queue)).1 L patterns ∧
        (∀ rc ∈ ch, (getNode (ch.foldl linkRootChild (nodes, queue)).1 rc.2).fail ≠ none) ∧
        ∀ n, (getNode nodes n).fail ≠ none →
          (getNode (ch.foldl linkRootChild (nodes, queue)).1 n).fail ≠ none := by
  intro ch
  induction ch with
  | nil =>
    intro nodes queue _ hSo _
    exact ⟨by simp, SameShape.refl _, hSo, by simp, fun _ h => h⟩
  | cons rc ch ih =>
    intro nodes queue hS hSo hmem
    obtain ⟨r, child⟩ := rc
    have hc := hmem (r, child) (List.mem_cons_self _ _)
    obtain ⟨e1, e2, e3⟩ := hS.edge root r child hc
    have hss : SameShape nodes (nodes.set child { getNode nodes child with fail := some root }) :=
      sameShape_set rfl
    have hSo' : Sound (nodes.set child { getNode nodes child with fail := some root }) L
        patterns := by
      constructor
      · intro n f hf
        rw [List.length_set]
        rw [getNode_set] at hf
        split_ifs at hf with c
        · simp only [Option.some.injEq] at hf
          subst hf
          rw [c.1, e3, root, hS.root]
          exact ⟨hS.pos, List.nil_suffix, by simp⟩
        · exact hSo.fail n f hf
      · intro n i hi
        rw [getNode_set] at hi
        split_ifs at hi with c
        · rw [c.1]; exact hSo.out child i hi
        · exact hSo.out n i hi
    obtain ⟨g1, g2, g3, g4, g5⟩ := ih (nodes.set child { getNode nodes child with
      fail := some root }) (queue ++ [child]) (hS.of_sameShape hss) hSo' (by
        intro x hx
        rw [hss.2]
        exact hmem x (List.mem_cons_of_mem _ hx))
    have hst : linkRootChild (nodes, queue) (r, child) =
        (nodes.set child { getNode nodes child with fail := some root }, queue ++ [child]) := rfl
    rw [List.foldl_cons, hst]
    have hlink : (getNode (nodes.set child { getNode nodes child with fail := some root })
        child).fail ≠ none := by
      rw [getNode_set, if_pos ⟨rfl, e2⟩]; simp
    have hmono : ∀ n, (getNode nodes n).fail ≠ none →
        (getNode (nodes.set child { getNode nodes child with fail := some root }) n).fail
          ≠ none := by
      intro n hn
      rw [getNode_set]
      split_ifs
      · simp
      · exact hn
    refine ⟨?_, hss.trans g2, g3, ?_, fun n hn => g5 n (hmono n hn)⟩
    · rw [g1]; simp
    · intro x hx
      rcases List.mem_cons.mp hx with rfl | hx
      · exact g5 _ hlink
      · exact g4 x hx

theorem nodup_range_length {l : List Nat} {N : Nat} (hn : l.Nodup)
    (hr : ∀ n ∈ l, 0 < n ∧ n < N) : l.length + 1 ≤ N ∨ (l = [] ∧ N = 0) := by
  by_cases hN : N = 0
  · right
    refine ⟨?_, hN⟩
    rcases l with _ | ⟨a, tl⟩
    · rfl
    · have := hr a (List.mem_cons_self _ _); omega
  · left
    have hsub : l.toFinset ⊆ Finset.Ico 1 N := by
      intro x hx
      rw [List.mem_toFinset] at hx
      rw [Finset.mem_Ico]
      have := hr x hx
      omega
    have hcard := Finset.card_le_card hsub
    rw [List.toFinset_card_of_nodup hn, Nat.card_Ico] at hcard
    omega

theorem bfs_nil (ord : MapOrder) (fuel : Nat) (nodes : List acNode) :
    bfs ord fuel [] nodes = .ok nodes := by
  cases fuel <;> rfl

theorem BInv.all_done {nodes : List acNode} {L : Nat → List Nat} {patterns : List Str}
    {done : List Nat} (h : BInv nodes L patterns done []) :
    ∀ n, 0 < n → n < nodes.length → n ∈ done := by
  intro n
  induction n using Nat.strong_induction_on with
  | _ n ih =>
    intro h0 hn
    obtain ⟨p, r, hp⟩ := h.shape.parent n h0 hn
    obtain ⟨h1, _, _⟩ := h.shape.edge p r n hp
    have hpd : p = 0 ∨ p ∈ done := by
      rcases Nat.eq_zero_or_pos p with e | e
      · exact Or.inl e
      · exact Or.inr (ih p h1 e (by omega))
    have := h.closed p hpd (r, n) hp
    simpa using this

theorem BInv.step {nodes nodes' : List acNode} {L : Nat → List Nat} {patterns : List Str}
    {done q : List Nat} {current : Nat} {ch : List (Nat × Nat)}
    (h : BInv nodes L patterns done (current :: q))
    (hch : ch.Perm (getNode nodes current).children)
    (hss : SameShape nodes nodes') (hSo : Sound nodes' L patterns)
    (hnew : ∀ rc ∈ ch, (getNode nodes' rc.2).fail ≠ none)
    (hmono : ∀ n, (getNode nodes n).fail ≠ none → (getNode nodes' n).fail ≠ none) :
    BInv nodes' L patterns (done ++ [current]) (q ++ ch.map Prod.snd) := by
  have hassoc : (done ++ [current]) ++ (q ++ ch.map Prod.snd) =
      (done ++ current :: q) ++ ch.map Prod.snd := by
    simp
  have hcur : current ∈ done ++ current :: q := by simp
  have hcur0 := (h.range current hcur).1
  have hcurnd : current ∉ done := by
    have := h.nodup
    rw [List.nodup_append] at this
    intro hd
    exact this.2.2 hd (List.mem_cons_self _ _)
  have hfresh : ∀ c ∈ ch.map Prod.snd, c ∉ done ++ current :: q := by
    intro c hc hold
    obtain ⟨x, hx, rfl⟩ := List.mem_map.mp hc
    have hx := hch.mem_iff.mp hx
    obtain ⟨p, r, hp, hpd⟩ := h.fromParent x.2 hold
    have := h.shape.uniq p current r x.1 x.2 hp hx
    subst this
    rcases hpd with e | e
    · omega
    · exact hcurnd e
  refine ⟨h.shape.of_sameShape hss, hSo, ?_, ?_, ?_, ?_, ?_⟩
  · rw [hassoc, List.nodup_append]
    exact ⟨h.nodup, (hch.map Prod.snd).nodup_iff.mpr (h.shape.nodupChildren current),
      fun a ha hb => hfresh a hb ha⟩
  · intro n hn
    rw [hassoc, List.mem_append] at hn
    rw [hss.1]
    rcases hn with hn | hn
    · exact h.range n hn
    · obtain ⟨x, hx, rfl⟩ := List.mem_map.mp hn
      obtain ⟨e1, e2, _⟩ := h.shape.edge current x.1 x.2 (hch.mem_iff.mp hx)
      exact ⟨by omega, e2⟩
  · intro n hn
    rw [hassoc, List.mem_append] at hn
    rcases hn with hn | hn
    · exact hmono n (h.linked n hn)
    · obtain ⟨x, hx, rfl⟩ := List.mem_map.mp hn
      exact hnew x hx
  · intro n hn
    rw [hassoc, List.mem_append] at hn
    rcases hn with hn | hn
    · obtain ⟨p, r, hp, hpd⟩ := h.fromParent n hn
      refine ⟨p, r, by rw [hss.2]; exact hp, ?_⟩
      rcases hpd with e | e
      · exact Or.inl e
      · exact Or.inr (List.mem_append_left _ e)
    · obtain ⟨x, hx, rfl⟩ := List.mem_map.mp hn
      exact ⟨current, x.1, by rw [hss.2]; exact hch.mem_iff.mp hx, Or.inr (by simp)⟩
  · intro p hpd rc hrc
    rw [hss.2] at hrc
    rw [hassoc, List.mem_append]
    have hcase : (p = 0 ∨ p ∈ done) ∨ p = current := by
      rcases hpd with e | e
      · exact Or.inl (Or.inl e)
      · rcases List.mem_append.mp e with e | e
        · exact Or.inl (Or.inr e)
        · exact Or.inr (by simpa using e)
    rcases hcase with e | e
    · exact Or.inl (h.closed p e rc hrc)
    · subst e
      exact Or.inr (List.mem_map.mpr ⟨rc, hch.mem_iff.mpr hrc, rfl⟩)

theorem bfs_spec {L : Nat → List Nat} {patterns : List Str} {ord : MapOrder}
    (hord : IsMapOrder ord) :
    ∀ (fuel : Nat) (done queue : List Nat) (nodes : List acNode),
      BInv nodes L patterns done queue → nodes.length ≤ fuel + done.length + 1 →
      ∃ nodes', bfs ord fuel queue nodes = .ok nodes' ∧ SameShape nodes nodes' ∧
        Sound nodes' L patterns ∧
        ∀ n, 0 < n → n < nodes.length → (getNode nodes' n).fail ≠ none := by
  intro fuel
  induction fuel with
  | zero =>
    intro done queue nodes h hf
    rcases queue with _ | ⟨current, q⟩
    · refine ⟨nodes, rfl, SameShape.refl _, h.sound, ?_⟩
      intro n h0 hn
      exact h.linked n (by simpa using h.all_done n h0 hn)
    · exfalso
      rcases nodup_range_length h.nodup h.range with c | c
      · simp only [List.length_append, List.length_cons] at c
        omega
      · simp at c
  | succ fuel ih =>
    intro done queue nodes h hf
    rcases queue with _ | ⟨current, q⟩
    · refine ⟨nodes, rfl, SameShape.refl _, h.sound, ?_⟩
      intro n h0 hn
      exact h.linked n (by simpa using h.all_done n h0 hn)
    · obtain ⟨n1, h1, h2, h3, h4, h5⟩ := linkChildren_spec current
        (ord (getNode nodes current).children) nodes q h.shape h.sound
        (fun _ hx => (hord _).mem_iff.mp hx)
      have hB := h.step (hord _) h2 h3 h4 h5
      obtain ⟨n2, g1, g2, g3, g4⟩ := ih (done ++ [current])
        (q ++ (ord (getNode nodes current).children).map Prod.snd) n1 hB (by
          rw [h2.1, List.length_append, List.length_singleton]; omega)
      refine ⟨n2, ?_, h2.trans g2, g3, ?_⟩
      · rw [bfs, h1, bind_ok]
        exact g1
      · intro n h0 hn
        exact g4 n h0 (by rw [h2.1]; exact hn)

theorem buildFailLinks_spec {nodes : List acNode} {L : Nat → List Nat} {patterns : List Str}
    {k : Nat} {ord : MapOrder} (hord : IsMapOrder ord) (hT : TrieInv nodes L patterns k) :
    ∃ nodes', buildFailLinks ord nodes = .ok nodes' ∧ SameShape nodes nodes' ∧
      Sound nodes' L patterns ∧
      ∀ n, 0 < n → n < nodes'.length → (getNode nodes' n).fail ≠ none := by
  have hp := hord (getNode nodes root).children
  obtain ⟨g1, g2, g3, g4, g5⟩ := linkRoot_spec (ord (getNode nodes root).children) nodes []
    hT.shape hT.sound (fun _ hx => hp.mem_iff.mp hx)
  have hB : BInv ((ord (getNode nodes root).children).foldl linkRootChild (nodes, [])).1 L
      patterns [] ((ord (getNode nodes root).children).foldl linkRootChild (nodes, [])).2 := by
    rw [g1]
    refine ⟨hT.shape.of_sameShape g2, g3, ?_, ?_, ?_, ?_, ?_⟩
    · simpa using (hp.map Prod.snd).nodup_iff.mpr (hT.shape.nodupChildren root)
    · intro n hn
      simp only [List.nil_append, List.mem_map] at hn
      obtain ⟨x, hx, rfl⟩ := hn
      obtain ⟨e1, e2, _⟩ := hT.shape.edge root x.1 x.2 (hp.mem_iff.mp hx)
      rw [g2.1]
      exact ⟨by omega, e2⟩
    · intro n hn
      simp only [List.nil_append, List.mem_map] at hn
      obtain ⟨x, hx, rfl⟩ := hn
      exact g4 x hx
    · intro n hn
      simp only [List.nil_append, List.mem_map] at hn
      obtain ⟨x, hx, rfl⟩ := hn
      exact ⟨root, x.1, by rw [g2.2]; exact hp.mem_iff.mp hx, Or.inl rfl⟩
    · intro p hp rc hrc
      rcases hp with e | e
      · subst e
        rw [g2.2] at hrc
        simp only [List.nil_append, List.mem_map]
        exact ⟨rc, hp.mem_iff.mpr hrc, rfl⟩
      · simp at e
  obtain ⟨n2, k1, k2, k3, k4⟩ := bfs_spec hord nodes.length [] _ _ hB (by
    rw [g2.1]; simp)
  refine ⟨n2, ?_, g2.trans k2, k3, ?_⟩
  · unfold buildFailLinks
    exact k1
  · intro n h0 hn
    rw [k2.1] at hn
    exact k4 n h0 hn

/-- The construction of the automaton never faults, and what it builds is well
formed, in whatever order the maps are visited. -/
theorem newAhoCorasick_spec {ord : MapOrder} (hord : IsMapOrder ord) (patterns : List Str) :
    ∃ ac, newAhoCorasick ord patterns = .ok ac ∧ ac.patterns = patterns ∧ ACInv ac := by
  obtain ⟨L, hT⟩ := buildTrie_inv patterns
  obtain ⟨nodes', h1, h2, h3, h4⟩ := buildFailLinks_spec hord hT
  refine ⟨{ nodes := nodes', patterns := patterns }, ?_, rfl, L, hT.shape.of_sameShape h2,
    h3, h4⟩
  unfold newAhoCorasick
  rw [h1, bind_ok, pure_eq_ok]


/-! ## The scan -/

theorem walkToChild_spec {nodes : List acNode} {L : Nat → List Nat} {patterns : List Str}
    (hSo : Sound nodes L patterns)
    (hl : ∀ n, 0 < n → n < nodes.length → (getNode nodes n).fail ≠ none) (r : Nat)
    (pre : List Nat) :
    ∀ (fuel node : Nat), node < nodes.length → (L node).length < fuel → L node <:+ pre →
      ∃ node', walkToChild nodes r fuel node = .ok node' ∧ node' < nodes.length ∧
        L node' <:+ pre := by
  intro fuel
  induction fuel with
  | zero => intro node _ h; omega
  | succ fuel ih =>
    intro node hn hf hsuf
    unfold walkToChild
    by_cases h0 : node = root
    · rw [if_pos h0]
      exact ⟨node, rfl, hn, hsuf⟩
    · rw [if_neg h0]
      dsimp only
      cases hlk : (getNode nodes node).children.lookup r with
      | some c => exact ⟨node, rfl, hn, hsuf⟩
      | none =>
        dsimp only
        cases hfl : (getNode nodes node).fail with
        | none =>
          exact absurd hfl (hl node (Nat.pos_of_ne_zero h0) hn)
        | some f =>
          dsimp only
          obtain ⟨k1, k2, k3⟩ := hSo.fail node f hfl
          exact ih f k1 (by omega) (k2.trans hsuf)

/-- The callback of `SearchAll`. -/
theorem emit_collect (ac : ahoCorasick) (endPos : Nat) :
    ∀ (out : List Nat) (acc : List acMatch),
      (∀ i ∈ out, ∃ pat, ac.patterns[i]? = some pat) →
      ∃ new, emit ac (fun m found => (found ++ [m], true)) endPos out acc =
          .ok (acc ++ new, true) ∧
        ∀ m ∈ new, m.end_ = endPos ∧ m.patternIndex ∈ out ∧
          ∃ pat, ac.patterns[m.patternIndex]? = some pat ∧
            m.start = (endPos : Int) - (pat.length : Int) := by
  intro out
  induction out with
  | nil =>
    intro acc _
    exact ⟨[], by simp [emit], by simp⟩
  | cons i out ih =>
    intro acc h
    obtain ⟨pat, hp⟩ := h i (List.mem_cons_self _ _)
    obtain ⟨new, h1, h2⟩ := ih
      (acc ++ [(⟨i, (endPos : Int) - (pat.length : Int), endPos⟩ : acMatch)])
      (fun j hj => h j (List.mem_cons_of_mem _ hj))
    refine ⟨(⟨i, (endPos : Int) - (pat.length : Int), endPos⟩ : acMatch) :: new, ?_, ?_⟩
    · have hpa : patternAt ac i = .ok pat := by unfold patternAt; rw [hp]
      rw [emit, hpa]
      dsimp only
      rw [if_pos rfl, h1]
      simp
    · intro m hm
      rcases List.mem_cons.mp hm with rfl | hm
      · exact ⟨rfl, List.mem_cons_self _ _, pat, hp, rfl⟩
      · obtain ⟨a, b, c⟩ := h2 m hm
        exact ⟨a, List.mem_cons_of_mem _ b, c⟩

theorem searchLoop_spec {ac : ahoCorasick} {L : Nat → List Nat}
    (hS : Shape ac.nodes L) (hSo : Sound ac.nodes L ac.patterns)
    (hl : ∀ n, 0 < n → n < ac.nodes.length → (getNode ac.nodes n).fail ≠ none) :
    ∀ (rs pre : List Nat) (node : Nat) (acc : List acMatch),
      node < ac.nodes.length → L node <:+ pre →
      ∃ new, searchLoop ac (fun m found => (found ++ [m], true))
          (rangeSpec (stringOfRunes pre).length rs) node acc = .ok (acc ++ new) ∧
        ∀ m ∈ new, MatchAt ac (pre ++ rs) m := by
  intro rs
  induction rs with
  | nil =>
    intro pre node acc _ _
    exact ⟨[], by simp [rangeSpec, searchLoop], by simp⟩
  | cons r rs ih =>
    intro pre node acc hn hsuf
    obtain ⟨n1, w1, w2, w3⟩ := walkToChild_spec hSo hl r pre ac.nodes.length node hn
      (by have := hS.label_le node hn; omega) hsuf
    -- the node after the transition on `r`
    have hnext : ∀ n2, (match (getNode ac.nodes n1).children.lookup r with
        | some next => next
        | none => root) = n2 → n2 < ac.nodes.length ∧ L n2 <:+ pre ++ [r] := by
      intro n2 h2
      cases hlk : (getNode ac.nodes n1).children.lookup r with
      | some next =>
        rw [hlk] at h2
        simp only at h2
        subst h2
        obtain ⟨_, e2, e3⟩ := hS.edge n1 r next (lookup_mem hlk)
        exact ⟨e2, by rw [e3]; exact suffix_snoc w3 r⟩
      | none =>
        rw [hlk] at h2
        simp only at h2
        subst h2
        exact ⟨hS.pos, by rw [root, hS.root]; exact List.nil_suffix⟩
    generalize hn2 : (match (getNode ac.nodes n1).children.lookup r with
        | some next => next
        | none => root) = n2 at hnext
    obtain ⟨b1, b2⟩ := hnext n2 rfl
    have hlen : (stringOfRunes pre).length + (encodeRune r).length =
        (stringOfRunes (pre ++ [r])).length := by
      rw [stringOfRunes_append, List.length_append, stringOfRunes_cons, stringOfRunes_nil,
        List.append_nil]
    have happ : pre ++ r :: rs = (pre ++ [r]) ++ rs := by simp
    have htake : (pre ++ r :: rs).take (pre.length + 1) = pre ++ [r] := by
      rw [happ, List.take_left' (by simp)]
    rw [rangeSpec, searchLoop, w1, bind_ok]
    dsimp only
    rw [hn2]
    by_cases hout : (getNode ac.nodes n2).output.length > 0
    · rw [if_pos hout]
      obtain ⟨new1, e1, e2⟩ := emit_collect ac ((stringOfRunes pre).length + (encodeRune r).length)
        (getNode ac.nodes n2).output acc (by
          intro i hi
          obtain ⟨pat, p1, _⟩ := hSo.out n2 i hi
          exact ⟨pat, p1⟩)
      rw [e1, bind_ok]
      dsimp only
      rw [if_pos rfl, hlen]
      obtain ⟨new2, g1, g2⟩ := ih (pre ++ [r]) n2 (acc ++ new1) b1 b2
      refine ⟨new1 ++ new2, ?_, ?_⟩
      · rw [g1, List.append_assoc]
      · intro m hm
        rcases List.mem_append.mp hm with hm | hm
        · obtain ⟨c1, c2, pat, c3, c4⟩ := e2 m hm
          obtain ⟨pat', p1, p2⟩ := hSo.out n2 m.patternIndex c2
          rw [c3] at p1
          simp only [Option.some.injEq] at p1
          subst p1
          refine ⟨pat, pre.length + 1, c3, ?_, ?_, ?_, ?_⟩
          · rw [c4, c1]
          · simp
          · rw [htake, c1, hlen]
          · rw [htake]; exact p2.trans b2
        · rw [happ]; exact g2 m hm
    · rw [if_neg hout, hlen]
      obtain ⟨new2, g1, g2⟩ := ih (pre ++ [r]) n2 acc b1 b2
      exact ⟨new2, g1, fun m hm => by rw [happ]; exact g2 m hm⟩

/-- On a text that encodes valid runes, a well-formed automaton scans without a
fault, and every match reported ends a pattern at a rune of the text. -/
theorem SearchAll_spec {ac : ahoCorasick} (hac : ACInv ac) (rs : List Nat)
    (hv : ValidRunes rs) :
    ∃ found, SearchAll ac (stringOfRunes rs) = .ok found ∧ ∀ m ∈ found, MatchAt ac rs m := by
  obtain ⟨L, hS, hSo, hl⟩ := hac
  obtain ⟨new, h1, h2⟩ := searchLoop_spec hS hSo hl rs [] root [] hS.pos
    (by rw [root, hS.root])
  refine ⟨new, ?_, by simpa using h2⟩
  unfold SearchAll Search
  rw [rangeStr_stringOfRunes rs hv]
  simpa [stringOfRunes_nil] using h1


/-! ## Collapsing repeats -/

theorem fillEnd_length (e : List Nat) (l v : Nat) : (fillEnd e l v).length = e.length := by
  unfold fillEnd
  rw [List.length_append, List.length_take, List.length_replicate]
  omega

theorem fillEnd_getElem? (e : List Nat) (l v j b : Nat) (h : (fillEnd e l v)[j]? = some b) :
    e[j]? = some b ∨ b = v := by
  unfold fillEnd at h
  rw [List.getElem?_append] at h
  split_ifs at h with c
  · left
    rw [List.length_take] at c
    rw [List.getElem?_take_of_lt (by omega)] at h
    exact h
  · right
    rw [List.getElem?_replicate] at h
    split_ifs at h
    simp only [Option.some.injEq] at h
    exact h.symm

theorem backFill_length (st : collapseState) : (backFill st).length = st.endPos.length := by
  unfold backFill
  split_ifs
  · exact fillEnd_length _ _ _
  · rfl

theorem backFill_getElem? (st : collapseState) (j b : Nat) (h : (backFill st)[j]? = some b) :
    st.endPos[j]? = some b ∨ b = st.lastCharEndPos := by
  unfold backFill at h
  split_ifs at h
  · exact fillEnd_getElem? _ _ _ _ _ h
  · exact Or.inl h

theorem collapseInv_init : CollapseInv collapseInit where
  lenStart := rfl
  lenEnd := rfl
  endEq := rfl
  span := by intro j a b h; simp [collapseInit] at h
  mono := by simp [collapseInit]
  kept := ⟨[], rfl, by intro r hr; simp at hr⟩

theorem CollapseInv.start_lt {st : collapseState} (h : CollapseInv st) :
    ∀ a ∈ st.startPos, a < st.bytePos := by
  intro a ha
  obtain ⟨j, hj, rfl⟩ := List.getElem_of_mem ha
  have hj2 : j < st.endPos.length := by rw [h.lenEnd, ← h.lenStart]; exact hj
  have := h.span j st.startPos[j] st.endPos[j] (List.getElem?_eq_getElem hj)
    (List.getElem?_eq_getElem hj2)
  omega

theorem collapseStep_inv {st : collapseState} (h : CollapseInv st) {r : Nat}
    (hr : ValidRune r = true) : CollapseInv (collapseStep st r) := by
  have hpos := RuneLen_pos hr
  have hlen := encodeRune_length_valid hr
  unfold collapseStep
  dsimp only
  split_ifs with c
  · exact {
      lenStart := h.lenStart
      lenEnd := h.lenEnd
      endEq := rfl
      span := by
        intro j a b ha hb
        have := h.span j a b ha hb
        dsimp only
        omega
      mono := h.mono
      kept := h.kept }
  · refine {
      lenStart := ?_
      lenEnd := ?_
      endEq := rfl
      span := ?_
      mono := ?_
      kept := ?_ }
    · simp only [List.length_append, List.length_replicate, h.lenStart]
    · simp only [List.length_append, List.length_replicate, backFill_length, h.lenEnd]
    · intro j a b ha hb
      dsimp only at ha hb ⊢
      rw [List.getElem?_append] at ha hb
      rw [backFill_length, h.lenEnd, ← h.lenStart] at hb
      split_ifs at ha hb with c2
      · rcases backFill_getElem? st j b hb with hb | hb
        · have := h.span j a b ha hb
          omega
        · have := h.start_lt a (List.getElem?_mem ha)
          rw [h.endEq] at hb
          omega
      · rw [List.getElem?_replicate] at ha hb
        split_ifs at ha hb
        simp only [Option.some.injEq] at ha hb
        omega
    · dsimp only
      rw [List.pairwise_append]
      refine ⟨h.mono, ?_, ?_⟩
      · rw [List.pairwise_replicate]
        right
        exact le_refl _
      · intro a ha b hb
        have := h.start_lt a ha
        rw [List.mem_replicate] at hb
        omega
    · obtain ⟨kept, k1, k2⟩ := h.kept
      refine ⟨kept ++ [r], ?_, ?_⟩
      · dsimp only
        rw [stringOfRunes_append, k1, stringOfRunes_cons, stringOfRunes_nil, List.append_nil]
      · intro x hx
        rcases List.mem_append.mp hx with hx | hx
        · exact k2 x hx
        · simp only [List.mem_singleton] at hx
          subst hx
          exact hr

theorem collapseFold_inv :
    ∀ (rs : List Nat) (st : collapseState), CollapseInv st → ValidRunes rs →
      CollapseInv (rs.foldl collapseStep st) ∧
        (rs.foldl collapseStep st).bytePos = st.bytePos + (rs.map RuneLen).sum := by
  intro rs
  induction rs with
  | nil => intro st h _; exact ⟨h, by simp⟩
  | cons r rs ih =>
    intro st h hv
    have hr := hv r (List.mem_cons_self _ _)
    obtain ⟨g1, g2⟩ := ih (collapseStep st r) (collapseStep_inv h hr)
      (fun x hx => hv x (List.mem_cons_of_mem _ hx))
    refine ⟨g1, ?_⟩
    rw [List.foldl_cons, g2]
    have : (collapseStep st r).bytePos = st.bytePos + RuneLen r := by
      unfold collapseStep
      dsimp only
      split_ifs <;> rfl
    rw [this]
    simp only [List.map_cons, List.sum_cons]
    omega

theorem sum_RuneLen (rs : List Nat) (hv : ValidRunes rs) :
    (rs.map RuneLen).sum = (stringOfRunes rs).length := by
  induction rs with
  | nil => rfl
  | cons r rs ih =>
    rw [stringOfRunes_cons, List.length_append, List.map_cons, List.sum_cons,
      ih (fun x hx => hv x (List.mem_cons_of_mem _ hx)),
      encodeRune_length_valid (hv r (List.mem_cons_self _ _))]

/-- The result of `collapseRepeats` on a text that encodes valid runes: the
collapsed text encodes valid runes, the position arrays run parallel to its
bytes, every span is a non-empty range of the text, and the start offsets
never decrease. -/
theorem collapseRepeats_spec (rs : List Nat) (hv : ValidRunes rs) :
    (∃ kept, (collapseRepeats (stringOfRunes rs)).1 = stringOfRunes kept ∧ ValidRunes kept) ∧
      (collapseRepeats (stringOfRunes rs)).2.startPos.length =
        (collapseRepeats (stringOfRunes rs)).1.length ∧
      (collapseRepeats (stringOfRunes rs)).2.endPos.length =
        (collapseRepeats (stringOfRunes rs)).1.length ∧
      (∀ (j a b : Nat), (collapseRepeats (stringOfRunes rs)).2.startPos[j]? = some a →
        (collapseRepeats (stringOfRunes rs)).2.endPos[j]? = some b →
        a < b ∧ b ≤ (stringOfRunes rs).length) ∧
      (collapseRepeats (stringOfRunes rs)).2.startPos.Pairwise (fun a b => a ≤ b) := by
  unfold collapseRepeats
  split_ifs with h0
  · refine ⟨⟨[], rfl, by intro r hr; simp at hr⟩, rfl, rfl, ?_, by simp⟩
    intro j a b ha; simp at ha
  · dsimp only
    rw [runesOf_stringOfRunes rs hv]
    obtain ⟨g1, g2⟩ := collapseFold_inv rs collapseInit collapseInv_init hv
    rw [sum_RuneLen rs hv] at g2
    refine ⟨g1.kept, g1.lenStart, ?_, ?_, g1.mono⟩
    · rw [backFill_length, g1.lenEnd]
    · intro j a b ha hb
      have hlt := g1.start_lt a (List.getElem?_mem ha)
      rcases backFill_getElem? _ j b hb with hb | hb
      · have := g1.span j a b ha hb
        rw [g2] at this
        simpa [collapseInit] using this
      · rw [g1.endEq] at hb
        rw [g2] at hlt
        subst hb
        rw [g2]
        simp only [collapseInit, zero_add] at hlt ⊢
        exact ⟨hlt, le_refl _⟩


/-! ## Normalization of ASCII text -/

theorem zeroWidth_not_ascii : ∀ z ∈ zeroWidthChars, 0x80 ≤ z := by decide

theorem homoglyph_keys_not_ascii : ∀ p ∈ homoglyphMap, 0x80 ≤ p.1 := by decide!

theorem leetspeak_values_ascii : ∀ p ∈ leetspeakMap, p.2 < 0x80 := by decide

theorem homoglyph_lookup_ascii {r : Nat} (h : r < 0x80) : homoglyphMap.lookup r = none := by
  cases hl : homoglyphMap.lookup r with
  | none => rfl
  | some v =>
    have := homoglyph_keys_not_ascii (r, v) (lookup_mem hl)
    simp only at this
    omega

theorem leetspeak_getD_ascii {r : Nat} (h : r < 0x80) :
    (leetspeakMap.lookup r).getD r < 0x80 := by
  cases hl : leetspeakMap.lookup r with
  | none => exact h
  | some v => exact leetspeak_values_ascii (r, v) (lookup_mem hl)

theorem ToLower_ascii (U : Unicode) {r : Nat} (h : r < 0x80) : ToLower U r < 0x80 := by
  unfold ToLower
  split_ifs <;> omega

theorem normalizeLoop_ascii (U : Unicode) :
    ∀ (rs : List Nat) (pos : Nat), IsAscii rs →
      IsAscii (normalizeLoop U pos rs).1 ∧ (normalizeLoop U pos rs).1.length = rs.length ∧
        (normalizeLoop U pos rs).2 = List.range' pos rs.length := by
  intro rs
  induction rs with
  | nil =>
    intro pos _
    exact ⟨by intro b hb; simp [normalizeLoop] at hb, rfl, rfl⟩
  | cons r rs ih =>
    intro pos h
    have hr : r < 0x80 := h r (List.mem_cons_self _ _)
    obtain ⟨g1, g2, g3⟩ := ih (pos + 1) (fun x hx => h x (List.mem_cons_of_mem _ hx))
    have hz : r ∉ zeroWidthChars := fun hm => by
      have := zeroWidth_not_ascii r hm
      omega
    have hlow := ToLower_ascii U hr
    have hfin := leetspeak_getD_ascii hlow
    have hlen : RuneLen r = 1 := by simp [RuneLen, hr]
    have henc : encodeRune ((leetspeakMap.lookup (ToLower U r)).getD (ToLower U r)) =
        [(leetspeakMap.lookup (ToLower U r)).getD (ToLower U r)] := by
      simp [encodeRune, hfin]
    have hstep : normalizeLoop U pos (r :: rs) =
        ((leetspeakMap.lookup (ToLower U r)).getD (ToLower U r) :: (normalizeLoop U (pos + 1) rs).1,
          pos :: (normalizeLoop U (pos + 1) rs).2) := by
      rw [normalizeLoop]
      simp only [hz, if_false, homoglyph_lookup_ascii hlow, Option.getD_none, henc, hlen,
        List.length_singleton, List.replicate_one, List.singleton_append]
    rw [hstep]
    refine ⟨?_, ?_, ?_⟩
    · intro b hb
      rcases List.mem_cons.mp hb with rfl | hb
      · exact hfin
      · exact g1 b hb
    · simp [g2]
    · simp only [g3, List.length_cons, List.range'_succ]

/-- The normalization of an ASCII text that NFKC leaves unchanged: the
normalized text is ASCII and as long as the text, and `posMap` is the
identity. -/
theorem normalizeText_ascii (U : Unicode) (T : Str) (hT : IsAscii T) (hn : U.nfkc T = T) :
    (normalizeText U T).original = T ∧ IsAscii (normalizeText U T).normalized ∧
      (normalizeText U T).normalized.length = T.length ∧
      (normalizeText U T).posMap = List.range' 0 T.length := by
  unfold normalizeText
  dsimp only
  rw [hn, runesOf_ascii T hT]
  obtain ⟨g1, g2, g3⟩ := normalizeLoop_ascii U T 0 hT
  exact ⟨rfl, g1, g2, g3⟩


/-! ## Bounds of the matches -/

theorem rangeAux_length_le :
    ∀ (fuel i : Nat) (s : Str), s.length ≤ fuel →
      s.length ≤ (stringOfRunes ((rangeAux fuel i s).map Prod.snd)).length := by
  intro fuel
  induction fuel with
  | zero =>
    intro i s h
    omega
  | succ fuel ih =>
    intro i s h
    rcases s with _ | ⟨b, tl⟩
    · simp
    · have hw := decodeRune_width (b :: tl) (by simp)
      have hd : ((b :: tl).drop (decodeRune (b :: tl)).2).length =
          (b :: tl).length - (decodeRune (b :: tl)).2 := List.length_drop _ _
      have := ih (i + (decodeRune (b :: tl)).2) ((b :: tl).drop (decodeRune (b :: tl)).2)
        (by rw [hd]; omega)
      simp only [rangeAux, List.map_cons, stringOfRunes_cons, List.length_append]
      omega

theorem length_le_stringOfRunes_runesOf (s : Str) :
    s.length ≤ (stringOfRunes (runesOf s)).length :=
  rangeAux_length_le s.length 0 s (le_refl _)

theorem stringOfRunes_suffix_length {xs ys : List Nat} (h : xs <:+ ys) :
    (stringOfRunes xs).length ≤ (stringOfRunes ys).length := by
  obtain ⟨t, rfl⟩ := h
  rw [stringOfRunes_append, List.length_append]
  omega

theorem stringOfRunes_take_length (rs : List Nat) (k : Nat) :
    (stringOfRunes (rs.take k)).length ≤ (stringOfRunes rs).length := by
  conv_rhs => rw [← List.take_append_drop k rs]
  rw [stringOfRunes_append, List.length_append]
  omega

/-- The match lies within the text scanned. -/
theorem MatchAt.bounds {ac : ahoCorasick} {rs : List Nat} {m : acMatch} (h : MatchAt ac rs m) :
    ∃ pat, ac.patterns[m.patternIndex]? = some pat ∧
      m.start = (m.end_ : Int) - (pat.length : Int) ∧ pat.length ≤ m.end_ ∧
      m.end_ ≤ (stringOfRunes rs).length := by
  obtain ⟨pat, k, h1, h2, _, h4, h5⟩ := h
  refine ⟨pat, h1, h2, ?_, ?_⟩
  · have a := length_le_stringOfRunes_runesOf pat
    have b := stringOfRunes_suffix_length h5
    omega
  · rw [h4]
    exact stringOfRunes_take_length rs k

/-! ## `init` -/

theorem collapseStep_result_length (st : collapseState) (r : Nat) :
    st.result.length ≤ (collapseStep st r).result.length := by
  unfold collapseStep
  dsimp only
  split_ifs
  · exact le_refl _
  · rw [List.length_append]; omega

theorem collapseFold_result_length (rs : List Nat) :
    ∀ st : collapseState, st.result.length ≤ (rs.foldl collapseStep st).result.length := by
  induction rs with
  | nil => intro st; exact le_refl _
  | cons r rs ih =>
    intro st
    exact le_trans (collapseStep_result_length st r) (ih _)

theorem runesOf_ne_nil {s : Str} (h : s ≠ []) : ∃ r rs, runesOf s = r :: rs := by
  rcases s with _ | ⟨b, tl⟩
  · exact absurd rfl h
  · exact ⟨(decodeRune (b :: tl)).1,
      (rangeAux tl.length (0 + (decodeRune (b :: tl)).2)
        ((b :: tl).drop (decodeRune (b :: tl)).2)).map Prod.snd, rfl⟩

/-- A non-empty pattern collapses to a non-empty pattern. -/
theorem collapseRepeats_ne_nil {s : Str} (h : s ≠ []) : (collapseRepeats s).1 ≠ [] := by
  obtain ⟨r, rs, hr⟩ := runesOf_ne_nil h
  have hlen : ¬ s.length = 0 := fun h0 => h (List.length_eq_zero.mp h0)
  unfold collapseRepeats
  rw [if_neg hlen]
  dsimp only
  rw [hr, List.foldl_cons]
  have h1 : 0 < (collapseStep collapseInit r).result.length := by
    have : (collapseStep collapseInit r).result = encodeRune r := by
      simp [collapseStep, collapseInit]
    rw [this]
    exact encodeRune_length_pos r
  have h2 := collapseFold_result_length rs (collapseStep collapseInit r)
  intro hnil
  rw [hnil, List.length_nil] at h2
  omega

theorem initLoop_ne_nil :
    ∀ (dict : List Str) (acc : List Str × List (Str × Str)),
      (∀ d ∈ dict, d ≠ []) → (∀ p ∈ acc.1, p ≠ []) → ∀ p ∈ (initLoop dict acc).1, p ≠ [] := by
  intro dict
  induction dict with
  | nil => intro acc _ h; exact h
  | cons d rest ih =>
    intro acc hd hacc
    have hrest : ∀ x ∈ rest, x ≠ [] := fun x hx => hd x (List.mem_cons_of_mem _ hx)
    rw [initLoop]
    split_ifs with c
    · exact ih acc hrest hacc
    · apply ih _ hrest
      intro p hp
      rcases List.mem_append.mp hp with hp | hp
      · exact hacc p hp
      · simp only [List.mem_singleton] at hp
        subst hp
        exact collapseRepeats_ne_nil (hd d (List.mem_cons_self _ _))

theorem isMapOrder_insertionOrder : IsMapOrder insertionOrder :=
  fun entries => List.Perm.refl entries

/-- The function `init` never faults: it builds a well-formed automaton over the
collapsed patterns, in whatever order the maps are visited. -/
theorem init_total {ord : MapOrder} (hord : IsMapOrder ord) (dict : List Str) :
    ∃ g, init ord dict = .ok g ∧ g.profanityMatcher.patterns = (initLoop dict ([], [])).1 ∧
      g.collapsedToOriginal = (initLoop dict ([], [])).2 ∧ ACInv g.profanityMatcher := by
  obtain ⟨ac, h1, h2, h3⟩ := newAhoCorasick_spec hord (initLoop dict ([], [])).1
  refine ⟨{ profanityMatcher := ac, collapsedToOriginal := (initLoop dict ([], [])).2 },
    ?_, h2, rfl, h3⟩
  unfold init
  dsimp only
  rw [h1, bind_ok, pure_eq_ok]

/-! ## `findMatches` on ASCII text -/

theorem pairwise_le_getElem? {l : List Nat} (h : l.Pairwise (fun a b => a ≤ b)) {i j a b : Nat}
    (hij : i ≤ j) (ha : l[i]? = some a) (hb : l[j]? = some b) : a ≤ b := by
  rcases Nat.eq_or_lt_of_le hij with e | e
  · subst e
    rw [ha] at hb
    simp only [Option.some.injEq] at hb
    omega
  · obtain ⟨hi, rfl⟩ := List.getElem?_eq_some_iff.mp ha
    obtain ⟨hj, rfl⟩ := List.getElem?_eq_some_iff.mp hb
    exact List.pairwise_iff_getElem.mp h i j hi hj e

theorem decodeRune_drop_ascii {T : Str} (hT : IsAscii T) {i : Nat} (hi : i < T.length) :
    (decodeRune (T.drop i)).2 = 1 := by
  have hb : T[i] < 0x80 := hT _ (List.getElem_mem hi)
  rw [List.drop_eq_getElem_cons hi]
  simp [decodeRune, hb]

theorem isWordBoundaryBefore_total (U : Unicode) (T : Str) {pos : Nat} (h : pos ≤ T.length) :
    ∃ b, isWordBoundaryBefore U T pos = .ok b := by
  unfold isWordBoundaryBefore
  split_ifs
  · exact ⟨_, rfl⟩
  · rw [slice_eq_ok (Nat.zero_le _) h, bind_ok, pure_eq_ok]
    exact ⟨_, rfl⟩

theorem isWordBoundaryAfter_total (U : Unicode) (T : Str) (pos : Nat) :
    ∃ b, isWordBoundaryAfter U T pos = .ok b := by
  unfold isWordBoundaryAfter
  split_ifs with c
  · exact ⟨_, rfl⟩
  · rw [slice_eq_ok (by omega) (le_refl _), bind_ok, pure_eq_ok]
    exact ⟨_, rfl⟩

/-- The last step of the loop body never faults when its slices are within range. -/
theorem acceptMatch_total (U : Unicode) (c2o : List (Str × Str)) (ac : ahoCorasick) (T : Str)
    (nt : normalizedText) (m : acMatch) (ns ne os oe : Nat) {pat : Str}
    (hos : os ≤ T.length) (hp : ac.patterns[m.patternIndex]? = some pat)
    (h1 : ns ≤ ne) (h2 : ne ≤ nt.normalized.length) :
    ∃ r, acceptMatch U c2o ac T nt m ns ne os oe = .ok r ∧
      ∀ mi, r = some mi → mi.origStart = os ∧ mi.origEnd = oe := by
  obtain ⟨b1, hb1⟩ := isWordBoundaryBefore_total U T hos
  obtain ⟨b2, hb2⟩ := isWordBoundaryAfter_total U T oe
  have hpa : patternAt ac m.patternIndex = .ok pat := by unfold patternAt; rw [hp]
  unfold acceptMatch
  rw [hb1, bind_ok]
  cases b1 with
  | false => exact ⟨none, rfl, by simp⟩
  | true =>
    simp only [Bool.not_true, Bool.false_eq_true, if_false]
    rw [hb2, bind_ok]
    cases b2 with
    | false => exact ⟨none, rfl, by simp⟩
    | true =>
      simp only [Bool.not_true, Bool.false_eq_true, if_false]
      rw [hpa, bind_ok, slice_eq_ok h1 h2, bind_ok]
      split_ifs
      · exact ⟨none, rfl, by simp⟩
      · refine ⟨_, rfl, ?_⟩
        intro mi hmi
        simp only [Option.some.injEq] at hmi
        subst hmi
        exact ⟨rfl, rfl⟩

theorem projectMatch_ascii (U : Unicode) (c2o : List (Str × Str)) (ac : ahoCorasick) (T : Str)
    (nt : normalizedText) (cp : collapsedPosInfo) (m : acMatch) (clen : Nat) (pat : Str)
    (hT : IsAscii T) (ho : nt.original = T) (hnl : nt.normalized.length = T.length)
    (hpm : nt.posMap = List.range' 0 T.length)
    (hls : cp.startPos.length = clen) (hle : cp.endPos.length = clen)
    (hspan : ∀ (j a b : Nat), cp.startPos[j]? = some a → cp.endPos[j]? = some b →
      a < b ∧ b ≤ nt.normalized.length)
    (hmono : cp.startPos.Pairwise (fun a b => a ≤ b))
    (hp : ac.patterns[m.patternIndex]? = some pat)
    (hstart : m.start = (m.end_ : Int) - (pat.length : Int)) (hpos : 0 < pat.length)
    (hpe : pat.length ≤ m.end_) (hend : m.end_ ≤ clen) :
    ∃ r, projectMatch U c2o ac T nt cp m = .ok r ∧
      ∀ mi, r = some mi →
        mi.origStart ≤ T.length ∧ mi.origStart ≤ mi.origEnd ∧ mi.origEnd ≤ T.length := by
  -- the indices into the position arrays
  have hs1 : m.start.toNat = m.end_ - pat.length := by omega
  have hs2 : m.end_ - pat.length < cp.startPos.length := by omega
  have hs3 : m.end_ - 1 < cp.startPos.length := by omega
  have hs4 : m.end_ - 1 < cp.endPos.length := by omega
  have hns := List.getElem?_eq_getElem hs2
  have hmid := List.getElem?_eq_getElem hs3
  have hne := List.getElem?_eq_getElem hs4
  generalize cp.startPos[m.end_ - pat.length] = ns at hns
  generalize cp.startPos[m.end_ - 1] = mid at hmid
  generalize cp.endPos[m.end_ - 1] = ne at hne
  have k1 : ns ≤ mid := pairwise_le_getElem? hmono (by omega) hns hmid
  obtain ⟨k2, k3⟩ := hspan _ mid ne hmid hne
  rw [hnl] at k3
  -- the first step
  have hnr : normalizedRange nt cp m = .ok (ns, ne) := by
    have c1 : m.start < (cp.startPos.length : Int) := by omega
    have c2 : m.end_ > 0 ∧ m.end_ ≤ cp.endPos.length := ⟨by omega, by omega⟩
    have i1 : normalizedStart cp m = .ok ns := by
      unfold normalizedStart indexInt
      rw [if_pos c1, if_neg (by omega), hs1]
      exact index_eq_ok hns
    have i2 : normalizedEnd nt cp m = .ok ne := by
      unfold normalizedEnd
      rw [if_pos c2]
      exact index_eq_ok hne
    unfold normalizedRange
    rw [i1, bind_ok, i2, bind_ok, pure_eq_ok]
  -- the second step
  have hor : originalRange T nt ns ne = .ok (ns, ne) := by
    have p1 : nt.posMap[ns]? = some ns := by
      rw [hpm, List.getElem?_range' 0 1 (by omega)]
      simp
    have p2 : nt.posMap[ne - 1]? = some (ne - 1) := by
      rw [hpm, List.getElem?_range' 0 1 (by omega)]
      simp
    have q1 : ns < nt.posMap.length := by rw [hpm, List.length_range']; omega
    have q2 : ne > 0 ∧ ne ≤ nt.posMap.length := by
      rw [hpm, List.length_range']; exact ⟨by omega, k3⟩
    have q3 : ne - 1 < nt.original.length := by rw [ho]; omega
    have q4 : (decodeRune ((List.take nt.original.length nt.original).drop (ne - 1))).2 = 1 := by
      rw [List.take_length, ho]
      exact decodeRune_drop_ascii hT (by omega)
    have i1 : origStart nt ns = .ok ns := by
      unfold origStart
      rw [if_pos q1]
      exact index_eq_ok p1
    have i2 : origEnd T nt ne = .ok ne := by
      unfold origEnd addLastRune
      rw [if_pos q2, index_eq_ok p2, bind_ok, if_pos q3, slice_eq_ok (by omega) (le_refl _),
        bind_ok, pure_eq_ok, q4]
      congr 1
      omega
    have cl : ∀ p, clamp T nt p = p := by
      intro p
      unfold clamp
      rw [if_neg (fun c => c.1 ho)]
    unfold originalRange
    rw [i1, bind_ok, i2, bind_ok, pure_eq_ok, cl, cl]
  obtain ⟨r, hr1, hr2⟩ := acceptMatch_total U c2o ac T nt m ns ne ns ne
    (by omega) hp (by omega) (by omega)
  refine ⟨r, ?_, ?_⟩
  · unfold projectMatch
    rw [hnr, bind_ok, hor, bind_ok]
    exact hr1
  · intro mi hmi
    obtain ⟨e1, e2⟩ := hr2 mi hmi
    rw [e1, e2]
    omega

theorem projectAll_total (U : Unicode) (c2o : List (Str × Str)) (ac : ahoCorasick) (T : Str)
    (nt : normalizedText) (cp : collapsedPosInfo) (Q : matchInfo → Prop) :
    ∀ (found : List acMatch),
      (∀ m ∈ found, ∃ r, projectMatch U c2o ac T nt cp m = .ok r ∧ ∀ mi, r = some mi → Q mi) →
      ∃ out, projectAll U c2o ac T nt cp found = .ok out ∧ ∀ mi ∈ out, Q mi := by
  intro found
  induction found with
  | nil => intro _; exact ⟨[], rfl, by simp⟩
  | cons m rest ih =>
    intro h
    obtain ⟨r, h1, h2⟩ := h m (List.mem_cons_self _ _)
    obtain ⟨out, g1, g2⟩ := ih (fun x hx => h x (List.mem_cons_of_mem _ hx))
    rw [projectAll, h1, bind_ok, g1, bind_ok, pure_eq_ok]
    cases r with
    | none => exact ⟨out, rfl, g2⟩
    | some mi =>
      refine ⟨mi :: out, rfl, ?_⟩
      intro x hx
      rcases List.mem_cons.mp hx with rfl | hx
      · exact h2 _ rfl
      · exact g2 x hx

/-- C9. For a dictionary with no empty entry (its automaton built in any order
of visit of the maps) and an ASCII text `T` (which NFKC leaves unchanged),
`findMatches(T)` returns, and every match `m` it returns satisfies
`0 ≤ m.origStart ≤ len(T)` and `m.origStart ≤ m.origEnd ≤ len(T)`. -/
theorem findMatches_ascii_bounds (U : Unicode) (ord : MapOrder) (dict : List Str)
    (g : Globals) (T : Str) (hord : IsMapOrder ord) (hg : init ord dict = .ok g)
    (hd : ∀ d ∈ dict, d ≠ []) (hT : IsAscii T) (hn : U.nfkc T = T) :
    ∃ out, findMatches U g.collapsedToOriginal T g.profanityMatcher = .ok out ∧
      ∀ m ∈ out, 0 ≤ m.origStart ∧ m.origStart ≤ T.length ∧ m.origStart ≤ m.origEnd ∧
        m.origEnd ≤ T.length := by
  obtain ⟨g', hg', hpat, _, hac⟩ := init_total hord dict
  rw [hg] at hg'
  simp only [Except.ok.injEq] at hg'
  subst hg'
  have hne : ∀ p ∈ g.profanityMatcher.patterns, p ≠ [] := by
    rw [hpat]
    exact initLoop_ne_nil dict ([], []) hd (by simp)
  obtain ⟨ho, ha, hnl, hpm⟩ := normalizeText_ascii U T hT hn
  have hv := validRunes_ascii _ ha
  have hstr := stringOfRunes_ascii _ ha
  obtain ⟨⟨kept, hk1, hk2⟩, c2, c3, c4, c5⟩ :=
    collapseRepeats_spec (normalizeText U T).normalized hv
  rw [hstr] at hk1 c2 c3 c4 c5
  obtain ⟨found, hf1, hf2⟩ := SearchAll_spec hac kept hk2
  rw [← hk1] at hf1
  unfold findMatches
  split_ifs with h0
  · exact ⟨[], rfl, by simp⟩
  · dsimp only
    rw [hf1, bind_ok]
    split_ifs with h1
    · exact ⟨[], rfl, by simp⟩
    · obtain ⟨out, o1, o2⟩ := projectAll_total U g.collapsedToOriginal
        g.profanityMatcher T (normalizeText U T)
        (collapseRepeats (normalizeText U T).normalized).2
        (fun mi => mi.origStart ≤ T.length ∧ mi.origStart ≤ mi.origEnd ∧
          mi.origEnd ≤ T.length) found (by
          intro m hm
          obtain ⟨pat, b1, b2, b3, b4⟩ := (hf2 m hm).bounds
          have hpne : pat ≠ [] := hne pat (List.getElem?_mem b1)
          have hpl : 0 < pat.length := List.length_pos.mpr hpne
          rw [← hk1] at b4
          exact projectMatch_ascii U g.collapsedToOriginal g.profanityMatcher T
            (normalizeText U T) _ m _ pat hT ho hnl hpm c2 c3 c4 c5 b1 b2 hpl b3 b4)
      exact ⟨out, o1, fun m hm => ⟨Nat.zero_le _, o2 m hm⟩⟩

/-- The witness of `findMatches_ascii_bounds`: "an ass." with the dictionary `["ass"]`. -/
theorem findMatches_ascii_bounds_witness :
    IsMapOrder insertionOrder ∧
      init insertionOrder dictAss = .ok globalsAss ∧
      (∀ d ∈ dictAss, d ≠ []) ∧
      IsAscii [0x61, 0x6E, 0x20, 0x61, 0x73, 0x73, 0x2E] ∧
      unicodeSample.nfkc [0x61, 0x6E, 0x20, 0x61, 0x73, 0x73, 0x2E] =
        [0x61, 0x6E, 0x20, 0x61, 0x73, 0x73, 0x2E] ∧
      ∃ out, findMatches unicodeSample globalsAss.collapsedToOriginal
          [0x61, 0x6E, 0x20, 0x61, 0x73, 0x73, 0x2E]
          globalsAss.profanityMatcher = .ok out ∧
        ∀ m ∈ out, 0 ≤ m.origStart ∧
          m.origStart ≤ ([0x61, 0x6E, 0x20, 0x61, 0x73, 0x73, 0x2E] : Str).length ∧
          m.origStart ≤ m.origEnd ∧
          m.origEnd ≤ ([0x61, 0x6E, 0x20, 0x61, 0x73, 0x73, 0x2E] : Str).length :=
  ⟨isMapOrder_insertionOrder, by decide!, by decide, by unfold IsAscii; decide, by decide!,
    findMatches_ascii_bounds unicodeSample insertionOrder dictAss
      globalsAss [0x61, 0x6E, 0x20, 0x61, 0x73, 0x73, 0x2E]
      isMapOrder_insertionOrder (by decide!) (by decide)
      (by unfold IsAscii; decide) (by decide!)⟩


/-! ## Rune boundaries -/

theorem offset_zero (rs : List Nat) : offset rs 0 = 0 := rfl

theorem offset_succ (rs : List Nat) {k : Nat} (h : k < rs.length) :
    offset rs (k + 1) = offset rs k + (encodeRune rs[k]).length := by
  unfold offset
  rw [List.take_succ, stringOfRunes_append, List.length_append, List.getElem?_eq_getElem h]
  simp [stringOfRunes_cons, stringOfRunes_nil]

theorem offset_length (rs : List Nat) : offset rs rs.length = (stringOfRunes rs).length := by
  unfold offset
  rw [List.take_length]

theorem offset_of_ge (rs : List Nat) {k : Nat} (h : rs.length ≤ k) :
    offset rs k = (stringOfRunes rs).length := by
  unfold offset
  rw [List.take_of_length_le h]

theorem offset_mono (rs : List Nat) {a b : Nat} (h : a ≤ b) : offset rs a ≤ offset rs b := by
  have e : rs.take b = rs.take a ++ (rs.take b).drop a := by
    have := (List.take_append_drop a (rs.take b)).symm
    rwa [List.take_take, min_eq_left h] at this
  unfold offset
  rw [e, stringOfRunes_append, List.length_append]
  omega

theorem offset_strict (rs : List Nat) {a b : Nat} (h : a < b) (hb : b ≤ rs.length) :
    offset rs a < offset rs b := by
  have h1 : offset rs a < offset rs (a + 1) := by
    rw [offset_succ rs (by omega)]
    have := encodeRune_length_pos rs[a]
    omega
  exact lt_of_lt_of_le h1 (offset_mono rs h)

theorem offset_le_of_le (rs : List Nat) {a b : Nat} (ha : a ≤ rs.length)
    (h : offset rs a ≤ offset rs b) : a ≤ b := by
  by_contra c
  have := offset_strict rs (not_le.mp c) ha
  omega

theorem offset_le_total (rs : List Nat) (k : Nat) : offset rs k ≤ (stringOfRunes rs).length := by
  by_cases h : k ≤ rs.length
  · rw [← offset_length]; exact offset_mono rs h
  · rw [offset_of_ge rs (by omega)]

theorem take_offset (rs : List Nat) (k : Nat) :
    (stringOfRunes rs).take (offset rs k) = stringOfRunes (rs.take k) := by
  have e : stringOfRunes rs = stringOfRunes (rs.take k) ++ stringOfRunes (rs.drop k) := by
    rw [← stringOfRunes_append, List.take_append_drop]
  calc (stringOfRunes rs).take (offset rs k)
      = (stringOfRunes (rs.take k) ++ stringOfRunes (rs.drop k)).take
          (stringOfRunes (rs.take k)).length := by rw [← e]; rfl
    _ = stringOfRunes (rs.take k) := List.take_left _ _

theorem drop_offset (rs : List Nat) (k : Nat) :
    (stringOfRunes rs).drop (offset rs k) = stringOfRunes (rs.drop k) := by
  have e : stringOfRunes rs = stringOfRunes (rs.take k) ++ stringOfRunes (rs.drop k) := by
    rw [← stringOfRunes_append, List.take_append_drop]
  calc (stringOfRunes rs).drop (offset rs k)
      = (stringOfRunes (rs.take k) ++ stringOfRunes (rs.drop k)).drop
          (stringOfRunes (rs.take k)).length := by rw [← e]; rfl
    _ = stringOfRunes (rs.drop k) := List.drop_left _ _

theorem sub_offsets (rs : List Nat) (a b : Nat) :
    sub (stringOfRunes rs) (offset rs a) (offset rs b) = stringOfRunes ((rs.take b).drop a) := by
  unfold sub
  rw [take_offset]
  by_cases h : a ≤ b
  · have : offset rs a = offset (rs.take b) a := by
      unfold offset
      rw [List.take_take, min_eq_left h]
    rw [this, drop_offset]
  · have hba : b ≤ a := by omega
    have h1 : (rs.take b).drop a = [] := by
      apply List.drop_eq_nil_of_le
      rw [List.length_take]; omega
    rw [h1, stringOfRunes_nil]
    apply List.drop_eq_nil_of_le
    exact offset_mono rs hba

theorem decodeRune_at_offset (rs : List Nat) (hv : ValidRunes rs) {k : Nat} (h : k < rs.length) :
    decodeRune ((stringOfRunes rs).drop (offset rs k)) = (rs[k], (encodeRune rs[k]).length) := by
  rw [drop_offset, List.drop_eq_getElem_cons h, stringOfRunes_cons]
  exact decodeRune_encodeRune (hv _ (List.getElem_mem h)) _

theorem rangeSpec_offsets (rs : List Nat) :
    ∀ (i k : Nat), k < rs.length → (i + offset rs k) ∈ (rangeSpec i rs).map Prod.fst := by
  induction rs with
  | nil => intro i k h; simp at h
  | cons r rs ih =>
    intro i k h
    rcases k with _ | k
    · simp [rangeSpec, offset_zero]
    · have hk : k < rs.length := by simpa using h
      have := ih (i + (encodeRune r).length) k hk
      simp only [rangeSpec, List.map_cons, List.mem_cons]
      right
      have e : i + offset (r :: rs) (k + 1) = i + (encodeRune r).length + offset rs k := by
        unfold offset
        rw [List.take_succ_cons, stringOfRunes_cons, List.length_append]
        omega
      rw [e]
      exact this

theorem isRuneBoundary_of_isOffset {rs : List Nat} (hv : ValidRunes rs) {x : Nat}
    (h : IsOffset rs x) : IsRuneBoundary (stringOfRunes rs) x := by
  obtain ⟨k, hk, rfl⟩ := h
  unfold IsRuneBoundary
  rcases Nat.eq_or_lt_of_le hk with e | e
  · left; rw [e, offset_length]
  · right
    rw [rangeStr_stringOfRunes rs hv]
    have := rangeSpec_offsets rs 0 k e
    simpa using this

theorem validAux_stringOfRunes :
    ∀ (fuel i : Nat) (s : Str), s.length ≤ fuel → validAux fuel s = true →
      stringOfRunes ((rangeAux fuel i s).map Prod.snd) = s := by
  intro fuel
  induction fuel with
  | zero =>
    intro i s h _
    have : s = [] := List.length_eq_zero.mp (by omega)
    subst this
    rfl
  | succ fuel ih =>
    intro i s h hv
    rcases s with _ | ⟨b, tl⟩
    · rfl
    · have hw := decodeRune_width (b :: tl) (by simp)
      simp only [validAux] at hv
      split_ifs at hv with c
      rcases decodeRune_cases (b :: tl) (by simp) with e | ⟨_, e2, _⟩
      · exact absurd (by rw [e]; exact ⟨rfl, rfl⟩) c
      · have hd : ((b :: tl).drop (decodeRune (b :: tl)).2).length =
            (b :: tl).length - (decodeRune (b :: tl)).2 := List.length_drop _ _
        have := ih (i + (decodeRune (b :: tl)).2) ((b :: tl).drop (decodeRune (b :: tl)).2)
          (by rw [hd]; omega) hv
        simp only [rangeAux, List.map_cons, stringOfRunes_cons]
        rw [this]
        exact e2.symm

/-- A well-formed text is the encoding of its runes. -/
theorem stringOfRunes_runesOf {s : Str} (h : ValidString s = true) :
    stringOfRunes (runesOf s) = s :=
  validAux_stringOfRunes s.length 0 s (le_refl _) h

theorem validAux_of_runes (rs : List Nat) (hv : ValidRunes rs) :
    ∀ fuel, (stringOfRunes rs).length ≤ fuel → validAux fuel (stringOfRunes rs) = true := by
  induction rs with
  | nil =>
    intro fuel _
    cases fuel <;> rfl
  | cons r rs ih =>
    intro fuel hf
    have hr := hv r (List.mem_cons_self _ _)
    have hpos := encodeRune_length_pos r
    rw [stringOfRunes_cons, List.length_append] at hf
    rcases fuel with _ | fuel
    · omega
    · have hne : encodeRune r ++ stringOfRunes rs ≠ [] := by
        intro h
        have := congrArg List.length h
        rw [List.length_append, List.length_nil] at this
        omega
      obtain ⟨b, tl, hbt⟩ := List.exists_cons_of_ne_nil hne
      have hd := decodeRune_encodeRune hr (stringOfRunes rs)
      rw [stringOfRunes_cons]
      have hnot : ¬ (r = RuneError ∧ (encodeRune r).length = 1) := by
        intro c
        have := c.2
        rw [c.1] at this
        simp [encodeRune, RuneError] at this
      rw [hbt] at hd ⊢
      simp only [validAux, hd, hnot, if_false]
      rw [← hbt, List.drop_left]
      exact ih (fun x hx => hv x (List.mem_cons_of_mem _ hx)) fuel (by omega)

/-- The encoding of valid runes is a well-formed text. -/
theorem validString_stringOfRunes (rs : List Nat) (hv : ValidRunes rs) :
    ValidString (stringOfRunes rs) = true :=
  validAux_of_runes rs hv _ (le_refl _)


/-! ## Normalization of well-formed text -/

theorem encodeRune_fixRune (r : Nat) : encodeRune (fixRune r) = encodeRune r := by
  unfold fixRune
  split_ifs with h
  · rfl
  · have hr : 0x10FFFF < r ∨ (0xD800 ≤ r ∧ r ≤ 0xDFFF) := by
      simp only [ValidRune, Bool.or_eq_true, Bool.and_eq_true, decide_eq_true_eq] at h
      omega
    have h1 : ¬ r < 0x80 := by omega
    have h2 : ¬ r < 0x800 := by omega
    simp only [encodeRune, h1, h2, hr, if_true, if_false]
    decide

theorem validRune_fixRune (r : Nat) : ValidRune (fixRune r) = true := by
  unfold fixRune
  split_ifs with h
  · exact h
  · exact validRune_RuneError

theorem offset_cons_succ (r : Nat) (rs : List Nat) (k : Nat) :
    offset (r :: rs) (k + 1) = (encodeRune r).length + offset rs k := by
  unfold offset
  rw [List.take_succ_cons, stringOfRunes_cons, List.length_append]

/-- The result of the loop of `normalizeText` on valid runes: the bytes emitted
encode valid runes, `posMap` runs parallel to them, every entry of `posMap`
is the offset of a source rune, and `posMap` never decreases. -/
theorem normalizeLoop_spec (U : Unicode) :
    ∀ (rs : List Nat) (pos : Nat), ValidRunes rs →
      (∃ ks, (normalizeLoop U pos rs).1 = stringOfRunes ks ∧ ValidRunes ks) ∧
        (normalizeLoop U pos rs).2.length = (normalizeLoop U pos rs).1.length ∧
        (∀ o ∈ (normalizeLoop U pos rs).2, ∃ k, k < rs.length ∧ o = pos + offset rs k) ∧
        (normalizeLoop U pos rs).2.Pairwise (fun a b => a ≤ b) := by
  intro rs
  induction rs with
  | nil =>
    intro pos _
    refine ⟨⟨[], rfl, by intro r hr; simp at hr⟩, rfl, ?_, ?_⟩
    · intro o ho; simp [normalizeLoop] at ho
    · simp [normalizeLoop]
  | cons r rs ih =>
    intro pos hv
    have hr := hv r (List.mem_cons_self _ _)
    have hlen : RuneLen r = (encodeRune r).length := (encodeRune_length_valid hr).symm
    obtain ⟨⟨ks, k1, k2⟩, g2, g3, g4⟩ := ih (pos + RuneLen r)
      (fun x hx => hv x (List.mem_cons_of_mem _ hx))
    have hshift : ∀ o ∈ (normalizeLoop U (pos + RuneLen r) rs).2,
        ∃ k, k < (r :: rs).length ∧ o = pos + offset (r :: rs) k := by
      intro o ho
      obtain ⟨k, hk, e⟩ := g3 o ho
      refine ⟨k + 1, by simpa using hk, ?_⟩
      rw [offset_cons_succ, e, hlen]
      omega
    rw [normalizeLoop]
    dsimp only
    split_ifs with hz
    · exact ⟨⟨ks, k1, k2⟩, g2, hshift, g4⟩
    · generalize hm : (leetspeakMap.lookup ((homoglyphMap.lookup (ToLower U r)).getD
        (ToLower U r))).getD ((homoglyphMap.lookup (ToLower U r)).getD (ToLower U r)) = mr
      refine ⟨⟨fixRune mr :: ks, ?_, ?_⟩, ?_, ?_, ?_⟩
      · rw [stringOfRunes_cons, encodeRune_fixRune, k1]
      · intro x hx
        rcases List.mem_cons.mp hx with rfl | hx
        · exact validRune_fixRune mr
        · exact k2 x hx
      · simp only [List.length_append, List.length_replicate, g2]
      · intro o ho
        rcases List.mem_append.mp ho with ho | ho
        · rw [List.mem_replicate] at ho
          exact ⟨0, by simp, by rw [ho.2, offset_zero]; rfl⟩
        · exact hshift o ho
      · rw [List.pairwise_append]
        refine ⟨?_, g4, ?_⟩
        · rw [List.pairwise_replicate]
          right
          exact le_refl _
        · intro a ha b hb
          rw [List.mem_replicate] at ha
          obtain ⟨k, _, e⟩ := g3 b hb
          rw [ha.2, e]
          omega

/-- The normalization of a well-formed text that NFKC leaves unchanged. -/
theorem normalizeText_spec (U : Unicode) (T : Str) (hn : U.nfkc T = T) :
    (normalizeText U T).original = T ∧
      (∃ ks, (normalizeText U T).normalized = stringOfRunes ks ∧ ValidRunes ks) ∧
      (normalizeText U T).posMap.length = (normalizeText U T).normalized.length ∧
      (∀ o ∈ (normalizeText U T).posMap,
        ∃ k, k < (runesOf T).length ∧ o = offset (runesOf T) k) ∧
      (normalizeText U T).posMap.Pairwise (fun a b => a ≤ b) := by
  unfold normalizeText
  dsimp only
  rw [hn]
  obtain ⟨g1, g2, g3, g4⟩ := normalizeLoop_spec U (runesOf T) 0 (runesOf_valid T)
  refine ⟨rfl, g1, g2, ?_, g4⟩
  intro o ho
  obtain ⟨k, hk, e⟩ := g3 o ho
  exact ⟨k, hk, by rw [e, Nat.zero_add]⟩

/-! ## `findMatches` on well-formed text that NFKC leaves unchanged -/

theorem projectMatch_spec (U : Unicode) (c2o : List (Str × Str)) (ac : ahoCorasick)
    (rs : List Nat) (hv : ValidRunes rs)
    (nt : normalizedText) (cp : collapsedPosInfo) (m : acMatch) (clen : Nat) (pat : Str)
    (ho : nt.original = stringOfRunes rs)
    (hpl : nt.posMap.length = nt.normalized.length)
    (hpb : ∀ o ∈ nt.posMap, ∃ k, k < rs.length ∧ o = offset rs k)
    (hpm : nt.posMap.Pairwise (fun a b => a ≤ b))
    (hls : cp.startPos.length = clen) (hle : cp.endPos.length = clen)
    (hspan : ∀ (j a b : Nat), cp.startPos[j]? = some a → cp.endPos[j]? = some b →
      a < b ∧ b ≤ nt.normalized.length)
    (hmono : cp.startPos.Pairwise (fun a b => a ≤ b))
    (hp : ac.patterns[m.patternIndex]? = some pat)
    (hstart : m.start = (m.end_ : Int) - (pat.length : Int)) (hpos : 0 < pat.length)
    (hpe : pat.length ≤ m.end_) (hend : m.end_ ≤ clen) :
    ∃ r, projectMatch U c2o ac (stringOfRunes rs) nt cp m = .ok r ∧
      ∀ mi, r = some mi →
        mi.origStart < mi.origEnd ∧ IsOffset rs mi.origStart ∧ IsOffset rs mi.origEnd := by
  -- the indices into the position arrays
  have hs1 : m.start.toNat = m.end_ - pat.length := by omega
  have hs2 : m.end_ - pat.length < cp.startPos.length := by omega
  have hs3 : m.end_ - 1 < cp.startPos.length := by omega
  have hs4 : m.end_ - 1 < cp.endPos.length := by omega
  have hns := List.getElem?_eq_getElem hs2
  have hmid := List.getElem?_eq_getElem hs3
  have hne := List.getElem?_eq_getElem hs4
  generalize cp.startPos[m.end_ - pat.length] = ns at hns
  generalize cp.startPos[m.end_ - 1] = mid at hmid
  generalize cp.endPos[m.end_ - 1] = ne at hne
  have k1 : ns ≤ mid := pairwise_le_getElem? hmono (by omega) hns hmid
  obtain ⟨k2, k3⟩ := hspan _ mid ne hmid hne
  have hnr : normalizedRange nt cp m = .ok (ns, ne) := by
    have c1 : m.start < (cp.startPos.length : Int) := by omega
    have c2 : m.end_ > 0 ∧ m.end_ ≤ cp.endPos.length := ⟨by omega, by omega⟩
    have i1 : normalizedStart cp m = .ok ns := by
      unfold normalizedStart indexInt
      rw [if_pos c1, if_neg (by omega), hs1]
      exact index_eq_ok hns
    have i2 : normalizedEnd nt cp m = .ok ne := by
      unfold normalizedEnd
      rw [if_pos c2]
      exact index_eq_ok hne
    unfold normalizedRange
    rw [i1, bind_ok, i2, bind_ok, pure_eq_ok]
  -- the entries of posMap
  have q1 : ns < nt.posMap.length := by omega
  have q2 : ne - 1 < nt.posMap.length := by omega
  have hos := List.getElem?_eq_getElem q1
  have hoe := List.getElem?_eq_getElem q2
  obtain ⟨ka, hka, ea⟩ := hpb _ (List.getElem_mem q1)
  obtain ⟨kb, hkb, eb⟩ := hpb _ (List.getElem_mem q2)
  generalize nt.posMap[ns] = os at hos ea
  generalize nt.posMap[ne - 1] = oe at hoe eb
  have k4 : os ≤ oe := pairwise_le_getElem? hpm (by omega) hos hoe
  have hbound : oe < (stringOfRunes rs).length := by
    rw [eb, ← offset_length]
    exact offset_strict rs hkb (le_refl _)
  have hdec : (decodeRune ((List.take nt.original.length nt.original).drop oe)).2 =
      (encodeRune rs[kb]).length := by
    rw [List.take_length, ho, eb, decodeRune_at_offset rs hv hkb]
  have hor : originalRange (stringOfRunes rs) nt ns ne = .ok (os, offset rs (kb + 1)) := by
    have i1 : origStart nt ns = .ok os := by
      unfold origStart
      rw [if_pos q1]
      exact index_eq_ok hos
    have i2 : origEnd (stringOfRunes rs) nt ne = .ok (offset rs (kb + 1)) := by
      unfold origEnd addLastRune
      rw [if_pos ⟨by omega, by omega⟩, index_eq_ok hoe, bind_ok, if_pos (by rw [ho]; exact hbound),
        slice_eq_ok (by rw [ho]; omega) (le_refl _), bind_ok, pure_eq_ok, hdec,
        offset_succ rs hkb, eb]
    have cl : ∀ p, clamp (stringOfRunes rs) nt p = p := by
      intro p
      unfold clamp
      rw [if_neg (fun c => c.1 ho)]
    unfold originalRange
    rw [i1, bind_ok, i2, bind_ok, pure_eq_ok, cl, cl]
  have hlt : os < offset rs (kb + 1) := by
    have := offset_strict rs (show kb < kb + 1 by omega) (by omega)
    omega
  obtain ⟨r, hr1, hr2⟩ := acceptMatch_total U c2o ac (stringOfRunes rs) nt m ns ne os
    (offset rs (kb + 1)) (by omega) hp (by omega) k3
  refine ⟨r, ?_, ?_⟩
  · unfold projectMatch
    rw [hnr, bind_ok, hor, bind_ok]
    exact hr1
  · intro mi hmi
    obtain ⟨e1, e2⟩ := hr2 mi hmi
    rw [e1, e2]
    exact ⟨hlt, ⟨ka, by omega, ea⟩, ⟨kb + 1, by omega, rfl⟩⟩

/-- For a dictionary with no empty entry and a well-formed text that NFKC
leaves unchanged, `findMatches` returns, and every match is a non-empty range
whose ends are rune boundaries of the text. -/
theorem findMatches_spec (U : Unicode) {ord : MapOrder} (dict : List Str) (g : Globals)
    (T : Str) (hord : IsMapOrder ord) (hg : init ord dict = .ok g)
    (hd : ∀ d ∈ dict, d ≠ []) (hT : ValidString T = true)
    (hn : U.nfkc T = T) :
    ∃ out, findMatches U g.collapsedToOriginal T g.profanityMatcher = .ok out ∧
      ∀ m ∈ out, m.origStart < m.origEnd ∧ IsOffset (runesOf T) m.origStart ∧
        IsOffset (runesOf T) m.origEnd := by
  obtain ⟨g', hg', hpat, _, hac⟩ := init_total hord dict
  rw [hg] at hg'
  simp only [Except.ok.injEq] at hg'
  subst hg'
  have hne : ∀ p ∈ g.profanityMatcher.patterns, p ≠ [] := by
    rw [hpat]
    exact initLoop_ne_nil dict ([], []) hd (by simp)
  obtain ⟨ho, ⟨ks, hks, hkv⟩, hpl, hpb, hpm⟩ := normalizeText_spec U T hn
  have hstr := stringOfRunes_runesOf hT
  obtain ⟨⟨kept, hk1, hk2⟩, c2, c3, c4, c5⟩ := collapseRepeats_spec ks hkv
  rw [← hks] at hk1 c2 c3 c4 c5
  obtain ⟨found, hf1, hf2⟩ := SearchAll_spec hac kept hk2
  rw [← hk1] at hf1
  unfold findMatches
  split_ifs with h0
  · exact ⟨[], rfl, by simp⟩
  · dsimp only
    rw [hf1, bind_ok]
    split_ifs with h1
    · exact ⟨[], rfl, by simp⟩
    · have key := projectAll_total U g.collapsedToOriginal g.profanityMatcher
        (stringOfRunes (runesOf T)) (normalizeText U T)
        (collapseRepeats (normalizeText U T).normalized).2
        (fun mi => mi.origStart < mi.origEnd ∧ IsOffset (runesOf T) mi.origStart ∧
          IsOffset (runesOf T) mi.origEnd) found (by
          intro m hm
          obtain ⟨pat, b1, b2, b3, b4⟩ := (hf2 m hm).bounds
          have hpne : pat ≠ [] := hne pat (List.getElem?_mem b1)
          have hpl' : 0 < pat.length := List.length_pos.mpr hpne
          rw [← hk1] at b4
          exact projectMatch_spec U g.collapsedToOriginal g.profanityMatcher (runesOf T)
            (runesOf_valid T) (normalizeText U T) _ m _ pat (by rw [ho, hstr]) hpl hpb hpm
            c2 c3 c4 c5 b1 b2 hpl' b3 b4)
      rw [hstr] at key
      exact key


/-! ## Masks and merged intervals on rune boundaries -/

theorem validRune_asterisk : ValidRune asterisk = true := by decide

theorem getD_valid (rs : List Nat) (hv : ValidRunes rs) (i : Nat) :
    ValidRune (rs.getD i 0) = true := by
  rw [List.getD_eq_getElem?_getD]
  cases h : rs[i]? with
  | none => decide
  | some r => exact hv r (List.getElem?_mem h)

/-- The mask encodes as many valid runes as the segment decodes to. -/
theorem buildAsteriskMask_spec (seg : Str) (mode : Int) :
    ∃ ms, buildAsteriskMask seg mode = stringOfRunes ms ∧ ValidRunes ms ∧
      ms.length = (runesOf seg).length := by
  unfold buildAsteriskMask
  dsimp only
  split_ifs with h0 h1 h2 h3 h4 h5 h6
  all_goals first
    | exact ⟨[], rfl, (by intro r hr; simp at hr), by rw [h0]; rfl⟩
    | (refine ⟨_, rfl, ?_, by simp⟩
       intro r hr
       first
         | (have h := List.mem_or_eq_of_mem_set hr
            rcases h with h | h
            · first
                | (have h' := List.mem_or_eq_of_mem_set h
                   rcases h' with h' | h'
                   · rw [(List.mem_replicate.mp h').2]; exact validRune_asterisk
                   · rw [h']; exact getD_valid _ (runesOf_valid seg) _)
                | (rw [(List.mem_replicate.mp h).2]; exact validRune_asterisk)
            · rw [h]; exact getD_valid _ (runesOf_valid seg) _)
         | (rw [(List.mem_replicate.mp hr).2]; exact validRune_asterisk))

theorem mem_bubbleDown (x y : matchInfo) (l : List matchInfo) :
    y ∈ bubbleDown x l ↔ y = x ∨ y ∈ l := by
  induction l with
  | nil => simp [bubbleDown]
  | cons z zs ih =>
    simp only [bubbleDown]
    split_ifs
    · simp only [List.mem_cons, ih]
      tauto
    · simp only [List.mem_cons]

theorem mem_insertionFold (y : matchInfo) (ms : List matchInfo) :
    ∀ acc : List matchInfo,
      y ∈ ms.foldl (fun sorted x => bubbleDown x sorted) acc ↔ y ∈ acc ∨ y ∈ ms := by
  induction ms with
  | nil => intro acc; simp
  | cons m ms ih =>
    intro acc
    rw [List.foldl_cons, ih, mem_bubbleDown, List.mem_cons]
    tauto

theorem mem_insertionSort (y : matchInfo) (ms : List matchInfo) :
    y ∈ insertionSort ms ↔ y ∈ ms := by
  unfold insertionSort
  rw [List.mem_reverse, mem_insertionFold]
  simp

theorem mergeLoop_pres (A B : Nat → Prop) :
    ∀ (rest : List matchInfo) (current : matchInfo),
      A current.origStart → B current.origEnd → current.origStart ≤ current.origEnd →
      (∀ m ∈ rest, A m.origStart ∧ B m.origEnd ∧ m.origStart ≤ m.origEnd) →
      ∀ x ∈ mergeLoop current rest, A x.origStart ∧ B x.origEnd ∧ x.origStart ≤ x.origEnd := by
  intro rest
  induction rest with
  | nil =>
    intro current h1 h2 h3 _ x hx
    simp only [mergeLoop, List.mem_singleton] at hx
    subst hx
    exact ⟨h1, h2, h3⟩
  | cons m rest ih =>
    intro current h1 h2 h3 hr x hx
    obtain ⟨m1, m2, m3⟩ := hr m (List.mem_cons_self _ _)
    have hrest := fun y hy => hr y (List.mem_cons_of_mem _ hy)
    simp only [mergeLoop] at hx
    split_ifs at hx with c1 c2
    · exact ih { current with origEnd := m.origEnd } h1 m2 (by
        show current.origStart ≤ m.origEnd
        omega) hrest x hx
    · exact ih current h1 h2 h3 hrest x hx
    · rcases List.mem_cons.mp hx with rfl | hx
      · exact ⟨h1, h2, h3⟩
      · exact ih m m1 m2 m3 hrest x hx

/-- What holds of the ends of every match holds of the ends of every merged
interval. -/
theorem mergeOverlapping_pres (A B : Nat → Prop) (ms : List matchInfo)
    (h : ∀ m ∈ ms, A m.origStart ∧ B m.origEnd ∧ m.origStart ≤ m.origEnd) :
    ∀ x ∈ mergeOverlapping ms, A x.origStart ∧ B x.origEnd ∧ x.origStart ≤ x.origEnd := by
  unfold mergeOverlapping
  split_ifs with c
  · exact h
  · have hs : ∀ m ∈ insertionSort ms, A m.origStart ∧ B m.origEnd ∧ m.origStart ≤ m.origEnd :=
      fun m hm => h m ((mem_insertionSort m ms).mp hm)
    split
    · intro x hx; simp at hx
    · rename_i current rest heq
      rw [heq] at hs
      obtain ⟨a1, a2, a3⟩ := hs current (List.mem_cons_self _ _)
      exact mergeLoop_pres A B rest current a1 a2 a3
        (fun y hy => hs y (List.mem_cons_of_mem _ hy))

theorem assemble_runes (rs : List Nat) (hv : ValidRunes rs) (mode : Int) :
    ∀ (ms : List matchInfo) (a : Nat), a ≤ rs.length →
      (∀ m ∈ ms, IsOffset rs m.origStart ∧ IsOffset rs m.origEnd ∧ m.origStart ≤ m.origEnd) →
      Separated ms → (∀ m ∈ ms.head?, offset rs a ≤ m.origStart) →
      ∃ os, assemble (stringOfRunes rs) mode (offset rs a) ms = stringOfRunes os ∧
        ValidRunes os ∧ os.length = rs.length - a := by
  intro ms
  induction ms with
  | nil =>
    intro a ha _ _ _
    refine ⟨rs.drop a, ?_, fun r hr => hv r (List.mem_of_mem_drop hr), List.length_drop _ _⟩
    rw [assemble, ← offset_length, sub_offsets, List.take_length]
  | cons m rest ih =>
    intro a ha hm hs hl
    obtain ⟨⟨b, hb, eb⟩, ⟨c, hc, ec⟩, hle⟩ := hm m (List.mem_cons_self _ _)
    have hab : a ≤ b := by
      have := hl m (by simp)
      rw [eb] at this
      exact offset_le_of_le rs ha this
    have hbc : b ≤ c := by
      rw [eb, ec] at hle
      exact offset_le_of_le rs hb hle
    have hl' : ∀ x ∈ rest.head?, offset rs c ≤ x.origStart := by
      intro x hx
      unfold Separated at hs
      rw [List.chain'_cons'] at hs
      have := hs.1 x hx
      omega
    obtain ⟨os, o1, o2, o3⟩ := ih c hc (fun x hx => hm x (List.mem_cons_of_mem _ hx))
      (List.Chain'.tail hs) hl'
    have hsegv : ValidRunes ((rs.take c).drop b) :=
      fun r hr => hv r (List.mem_of_mem_take (List.mem_of_mem_drop hr))
    obtain ⟨mk, k1, k2, k3⟩ := buildAsteriskMask_spec
      (stringOfRunes ((rs.take c).drop b)) mode
    rw [runesOf_stringOfRunes _ hsegv] at k3
    refine ⟨(rs.take b).drop a ++ mk ++ os, ?_, ?_, ?_⟩
    · rw [assemble, eb, ec, sub_offsets, sub_offsets, k1, o1, stringOfRunes_append,
        stringOfRunes_append]
    · intro r hr
      rcases List.mem_append.mp hr with hr | hr
      · rcases List.mem_append.mp hr with hr | hr
        · exact hv r (List.mem_of_mem_take (List.mem_of_mem_drop hr))
        · exact k2 r hr
      · exact o2 r hr
    · simp only [List.length_append, List.length_drop, List.length_take, k3, o3]
      omega

/-- For a dictionary with no empty entry and a well-formed text that NFKC
leaves unchanged, `Censor` returns the encoding of as many valid runes as
the text has. -/
theorem censor_runes (U : Unicode) {ord : MapOrder} (dict : List Str) (g : Globals) (T : Str)
    (mode : Int) (hord : IsMapOrder ord) (hg : init ord dict = .ok g)
    (hd : ∀ d ∈ dict, d ≠ []) (hT : ValidString T = true)
    (hn : U.nfkc T = T) :
    ∃ os, Censor U g T mode = .ok (stringOfRunes os) ∧ ValidRunes os ∧
      os.length = (runesOf T).length := by
  obtain ⟨found, hf, hall⟩ := findMatches_spec U dict g T hord hg hd hT hn
  have hstr := stringOfRunes_runesOf hT
  by_cases hne : found = []
  · refine ⟨runesOf T, ?_, runesOf_valid T, rfl⟩
    rw [hstr]
    unfold Censor
    split_ifs with h0
    · rfl
    · rw [hf, bind_ok, hne]
      rfl
  · have hmerged := mergeOverlapping_pres (IsOffset (runesOf T)) (IsOffset (runesOf T)) found
      (fun m hm => ⟨(hall m hm).2.1, (hall m hm).2.2, le_of_lt (hall m hm).1⟩)
    have hr : InRange T (mergeOverlapping found) := by
      intro m hm
      obtain ⟨_, ⟨k, _, e⟩, h3⟩ := hmerged m hm
      refine ⟨h3, ?_⟩
      rw [e]
      have := offset_le_total (runesOf T) k
      rwa [hstr] at this
    obtain ⟨os, o1, o2, o3⟩ := assemble_runes (runesOf T) (runesOf_valid T) mode
      (mergeOverlapping found) 0 (Nat.zero_le _) hmerged (mergeOverlapping_separated found)
      (fun m _ => by rw [offset_zero]; exact Nat.zero_le _)
    refine ⟨os, ?_, o2, by rw [o3, Nat.sub_zero]⟩
    rw [censor_ok_of_inRange U g T mode found hf hne hr, ← o1, hstr, offset_zero]


/-! ## The public operations on text that NFKC leaves unchanged -/

/-- C3, amended. `Censor` preserves the rune count when NFKC leaves the text
unchanged: for every dictionary with no empty entry (its automaton built in
any order of visit of the maps), every well-formed UTF-8 text `T` with
`NFKC(T) = T` and every mode `m`, `Censor(T, m)` returns a string with as
many runes as `T`. -/
theorem censor_preserves_rune_count (U : Unicode) (ord : MapOrder) (dict : List Str)
    (g : Globals) (T : Str) (mode : Int) (hord : IsMapOrder ord) (hg : init ord dict = .ok g)
    (hd : ∀ d ∈ dict, d ≠ []) (hT : ValidString T = true) (hn : U.nfkc T = T) :
    ∃ out, Censor U g T mode = .ok out ∧ (runesOf out).length = (runesOf T).length := by
  obtain ⟨os, h1, h2, h3⟩ := censor_runes U dict g T mode hord hg hd hT hn
  refine ⟨stringOfRunes os, h1, ?_⟩
  rw [runesOf_stringOfRunes os h2]
  exact h3

/-- The witness of `censor_preserves_rune_count`: "fuсk off" (Cyrillic es). -/
theorem censor_preserves_rune_count_witness :
    IsMapOrder insertionOrder ∧
      init insertionOrder dictSample = .ok globalsSample ∧
      (∀ d ∈ dictSample, d ≠ []) ∧
      ValidString textCyrillic = true ∧ unicodeSample.nfkc textCyrillic = textCyrillic ∧
      ∃ out, Censor unicodeSample globalsSample textCyrillic
          CensorKeepFirst = .ok out ∧
        (runesOf out).length = (runesOf textCyrillic).length :=
  ⟨isMapOrder_insertionOrder, by decide!, by decide, by decide!, by decide!,
    censor_preserves_rune_count unicodeSample insertionOrder dictSample
      globalsSample textCyrillic CensorKeepFirst isMapOrder_insertionOrder
      (by decide!) (by decide) (by decide!) (by decide!)⟩

/-- C5, amended. The output of `Censor` is valid UTF-8 when NFKC leaves the text
unchanged: for every dictionary with no empty entry (its automaton built in
any order of visit of the maps), every well-formed UTF-8 text `T` with
`NFKC(T) = T` and every mode `m`, `Censor(T, m)` returns a well-formed UTF-8
string. -/
theorem censor_output_valid (U : Unicode) (ord : MapOrder) (dict : List Str)
    (g : Globals) (T : Str) (mode : Int) (hord : IsMapOrder ord) (hg : init ord dict = .ok g)
    (hd : ∀ d ∈ dict, d ≠ []) (hT : ValidString T = true) (hn : U.nfkc T = T) :
    ∃ out, Censor U g T mode = .ok out ∧ ValidString out = true := by
  obtain ⟨os, h1, h2, _⟩ := censor_runes U dict g T mode hord hg hd hT hn
  refine ⟨stringOfRunes os, h1, ?_⟩
  exact validString_stringOfRunes os h2

/-- The witness of `censor_output_valid`: "fuсk off" (Cyrillic es). -/
theorem censor_output_valid_witness :
    IsMapOrder insertionOrder ∧
      init insertionOrder dictSample = .ok globalsSample ∧
      (∀ d ∈ dictSample, d ≠ []) ∧
      ValidString textCyrillic = true ∧ unicodeSample.nfkc textCyrillic = textCyrillic ∧
      ∃ out, Censor unicodeSample globalsSample textCyrillic
          CensorAll = .ok out ∧
        ValidString out = true :=
  ⟨isMapOrder_insertionOrder, by decide!, by decide, by decide!, by decide!,
    censor_output_valid unicodeSample insertionOrder dictSample
      globalsSample textCyrillic CensorAll isMapOrder_insertionOrder
      (by decide!) (by decide) (by decide!) (by decide!)⟩

/-- C8, amended. Every match is a well-formed range of the raw text when NFKC
leaves the text unchanged: for every dictionary with no empty entry (its
automaton built in any order of visit of the maps) and every well-formed
UTF-8 text `T` with `NFKC(T) = T`, `findMatches(T)` returns, and every match
`m` it returns satisfies `0 ≤ m.origStart ≤ m.origEnd ≤ len(T)` with both
`m.origStart` and `m.origEnd` on rune boundaries of `T`. -/
theorem findMatches_wellformed (U : Unicode) (ord : MapOrder) (dict : List Str)
    (g : Globals) (T : Str) (hord : IsMapOrder ord) (hg : init ord dict = .ok g)
    (hd : ∀ d ∈ dict, d ≠ []) (hT : ValidString T = true) (hn : U.nfkc T = T) :
    ∃ out, findMatches U g.collapsedToOriginal T g.profanityMatcher = .ok out ∧
      ∀ m ∈ out, 0 ≤ m.origStart ∧ m.origStart ≤ m.origEnd ∧ m.origEnd ≤ T.length ∧
        IsRuneBoundary T m.origStart ∧ IsRuneBoundary T m.origEnd := by
  obtain ⟨out, h1, h2⟩ := findMatches_spec U dict g T hord hg hd hT hn
  have hstr := stringOfRunes_runesOf hT
  refine ⟨out, h1, ?_⟩
  intro m hm
  obtain ⟨a1, a2, a3⟩ := h2 m hm
  have b2 := isRuneBoundary_of_isOffset (runesOf_valid T) a2
  have b3 := isRuneBoundary_of_isOffset (runesOf_valid T) a3
  rw [hstr] at b2 b3
  refine ⟨Nat.zero_le _, le_of_lt a1, ?_, b2, b3⟩
  obtain ⟨k, _, e⟩ := a3
  have := offset_le_total (runesOf T) k
  rw [hstr] at this
  omega

/-- The witness of `findMatches_wellformed`: "fuсk off" (Cyrillic es). -/
theorem findMatches_wellformed_witness :
    IsMapOrder insertionOrder ∧
      init insertionOrder dictSample = .ok globalsSample ∧
      (∀ d ∈ dictSample, d ≠ []) ∧
      ValidString textCyrillic = true ∧ unicodeSample.nfkc textCyrillic = textCyrillic ∧
      ∃ out, findMatches unicodeSample globalsSample.collapsedToOriginal
          textCyrillic globalsSample.profanityMatcher = .ok out ∧
        ∀ m ∈ out, 0 ≤ m.origStart ∧ m.origStart ≤ m.origEnd ∧
          m.origEnd ≤ textCyrillic.length ∧
          IsRuneBoundary textCyrillic m.origStart ∧ IsRuneBoundary textCyrillic m.origEnd :=
  ⟨isMapOrder_insertionOrder, by decide!, by decide, by decide!, by decide!,
    findMatches_wellformed unicodeSample insertionOrder dictSample
      globalsSample textCyrillic isMapOrder_insertionOrder
      (by decide!) (by decide) (by decide!) (by decide!)⟩

/-! ## `init`: the patterns and the map of originals -/

theorem initLoop_keys :
    ∀ (dict : List Str) (acc : List Str × List (Str × Str)), acc.1 = acc.2.map Prod.fst →
      (initLoop dict acc).1 = (initLoop dict acc).2.map Prod.fst := by
  intro dict
  induction dict with
  | nil => intro acc h; exact h
  | cons d rest ih =>
    intro acc h
    rw [initLoop]
    split_ifs with c
    · exact ih acc h
    · apply ih
      simp [h]

/-- The map `collapsedToOriginal` gives, for a collapsed form, the first entry of
the dictionary that collapses to it. -/
theorem initLoop_lookup :
    ∀ (dict : List Str) (acc : List Str × List (Str × Str)) (c : Str),
      acc.1 = acc.2.map Prod.fst →
      (initLoop dict acc).2.lookup c =
        (acc.2.lookup c).or (dict.find? (fun p => decide ((collapseRepeats p).1 = c))) := by
  intro dict
  induction dict with
  | nil => intro acc c _; simp [initLoop]
  | cons d rest ih =>
    intro acc c h
    rw [initLoop]
    split_ifs with hc
    · rw [ih acc c h, List.find?_cons]
      by_cases e : (collapseRepeats d).1 = c
      · have hsome : (acc.2.lookup c).isSome = true := by
          rw [List.lookup_isSome_iff]
          rw [h, e] at hc
          obtain ⟨x, hx, hx2⟩ := List.mem_map.mp hc
          exact ⟨x, hx, by simp [hx2]⟩
        obtain ⟨v, hv⟩ := Option.isSome_iff_exists.mp hsome
        simp [hv]
      · simp [e]
    · rw [ih _ c (by simp [h]), List.find?_cons, List.lookup_append]
      by_cases e : (collapseRepeats d).1 = c
      · have hnone : acc.2.lookup c = none := by
          rw [List.lookup_eq_none_iff]
          intro x hx
          simp only [bne_iff_ne, ne_eq]
          intro hcx
          apply hc
          rw [h, e, hcx]
          exact List.mem_map.mpr ⟨x, hx, rfl⟩
        simp [hnone, e, List.lookup_cons]
      · have e2 : (c == (collapseRepeats d).1) = false := by
          simp only [beq_eq_false_iff_ne, ne_eq]
          exact fun h => e h.symm
        cases hl : acc.2.lookup c <;> simp [List.lookup_cons, e, e2]

/-- What `init` leaves in the package variables when it returns. -/
theorem init_fields {ord : MapOrder} {dict : List Str} {g : Globals}
    (hg : init ord dict = .ok g) :
    g.profanityMatcher.patterns = (initLoop dict ([], [])).1 ∧
      g.collapsedToOriginal = (initLoop dict ([], [])).2 := by
  unfold init at hg
  dsimp only at hg
  obtain ⟨ac, hac, h⟩ := bind_eq_ok hg
  unfold newAhoCorasick at hac
  obtain ⟨nodes, _, h2⟩ := bind_eq_ok hac
  simp only [pure_eq_ok, Except.ok.injEq] at h h2
  subst h h2
  exact ⟨rfl, rfl⟩

/-- Every pattern of the automaton is a key of `collapsedToOriginal`, and its
original is the first entry of the dictionary that collapses to it. -/
theorem init_lookup {ord : MapOrder} {dict : List Str} {g : Globals}
    (hg : init ord dict = .ok g) {c : Str} (hc : c ∈ g.profanityMatcher.patterns) :
    ∃ p, g.collapsedToOriginal.lookup c = some p ∧
      dict.find? (fun p => decide ((collapseRepeats p).1 = c)) = some p := by
  obtain ⟨h1, h2⟩ := init_fields hg
  have hk := initLoop_keys dict ([], []) rfl
  have hl := initLoop_lookup dict ([], []) c rfl
  simp only [List.lookup_nil, Option.none_or] at hl
  rw [h1, hk] at hc
  have hsome : ((initLoop dict ([], [])).2.lookup c).isSome = true := by
    rw [List.lookup_isSome_iff]
    obtain ⟨x, hx, hx2⟩ := List.mem_map.mp hc
    exact ⟨x, hx, by simp [hx2]⟩
  obtain ⟨v, hv⟩ := Option.isSome_iff_exists.mp hsome
  exact ⟨v, by rw [h2, hv], by rw [← hl, hv]⟩

/-! ## `FindProfanity` -/

theorem collectOriginals_nodup (c2o : List (Str × Str)) :
    ∀ (ms : List matchInfo) (result : List Str), result.Nodup →
      (collectOriginals c2o ms result).Nodup := by
  intro ms
  induction ms with
  | nil => intro result h; exact h
  | cons m rest ih =>
    intro result h
    rw [collectOriginals]
    split_ifs with hm
    · exact ih result h
    · apply ih
      rw [List.nodup_append]
      exact ⟨h, List.nodup_singleton _, by
        intro a ha hb
        rw [List.mem_singleton] at hb
        subst hb
        exact hm ha⟩

theorem collectOriginals_mem (c2o : List (Str × Str)) :
    ∀ (ms : List matchInfo) (result : List Str) (w : Str),
      w ∈ collectOriginals c2o ms result →
      w ∈ result ∨ ∃ m ∈ ms, w = (c2o.lookup m.pattern).getD m.pattern := by
  intro ms
  induction ms with
  | nil => intro result w h; exact Or.inl h
  | cons m rest ih =>
    intro result w h
    rw [collectOriginals] at h
    split_ifs at h with hm
    · rcases ih result w h with h1 | ⟨x, hx, e⟩
      · exact Or.inl h1
      · exact Or.inr ⟨x, List.mem_cons_of_mem _ hx, e⟩
    · rcases ih _ w h with h1 | ⟨x, hx, e⟩
      · rcases List.mem_append.mp h1 with h2 | h2
        · exact Or.inl h2
        · rw [List.mem_singleton] at h2
          exact Or.inr ⟨m, List.mem_cons_self _ _, h2⟩
      · exact Or.inr ⟨x, List.mem_cons_of_mem _ hx, e⟩

/-- The pattern of a match returned by `findMatches` is a pattern of the automaton. -/
theorem findMatches_pattern_mem {U : Unicode} {c2o : List (Str × Str)} {ac : ahoCorasick}
    {text : Str} {out : List matchInfo} (h : findMatches U c2o text ac = .ok out) :
    ∀ mi ∈ out, mi.pattern ∈ ac.patterns := by
  intro mi hmi
  obtain ⟨found, _, m, _, hp⟩ := findMatches_mem h mi hmi
  obtain ⟨ns, ne, os, oe, _, _, ha⟩ := projectMatch_some hp
  obtain ⟨_, _, _, _, p, seg, hp1, hp2, _⟩ := acceptMatch_some ha
  rw [hp2]
  exact List.getElem?_mem hp1

theorem firstOccurrences_snoc (xs : List Str) (x : Str) :
    firstOccurrences (xs ++ [x]) = firstOccurrences xs ++ (if x ∈ xs then [] else [x]) := by
  unfold firstOccurrences
  rw [List.length_append, List.length_singleton, List.range_succ, List.filterMap_append]
  congr 1
  · apply List.filterMap_congr
    intro i hi
    rw [List.mem_range] at hi
    have e1 : (xs ++ [x]).getD i [] = xs.getD i [] := by
      simp only [List.getD_eq_getElem?_getD]
      rw [List.getElem?_append_left hi]
    have e2 : (xs ++ [x]).take i = xs.take i := by
      rw [List.take_append_of_le_length (le_of_lt hi)]
    rw [e1, e2]
  · have e1 : (xs ++ [x]).getD xs.length [] = x := by
      simp only [List.getD_eq_getElem?_getD]
      simp
    have e2 : (xs ++ [x]).take xs.length = xs := by simp
    simp only [List.filterMap_cons, List.filterMap_nil, e1, e2]
    split_ifs <;> rfl

theorem mem_firstOccurrences (xs : List Str) (w : Str) : w ∈ firstOccurrences xs ↔ w ∈ xs := by
  induction xs using List.reverseRecOn with
  | nil => simp [firstOccurrences]
  | append_singleton xs x ih =>
    rw [firstOccurrences_snoc, List.mem_append, ih, List.mem_append, List.mem_singleton]
    constructor
    · rintro (h | h)
      · exact Or.inl h
      · split_ifs at h with hx
        · simp at h
        · exact Or.inr (List.mem_singleton.mp h)
    · rintro (h | h)
      · exact Or.inl h
      · subst h
        by_cases hx : w ∈ xs
        · exact Or.inl hx
        · right; simp [hx]

theorem collectOriginals_eq (c2o : List (Str × Str)) :
    ∀ (ms : List matchInfo) (pre : List Str),
      collectOriginals c2o ms (firstOccurrences pre) =
        firstOccurrences (pre ++ ms.map (fun m => (c2o.lookup m.pattern).getD m.pattern)) := by
  intro ms
  induction ms with
  | nil => intro pre; simp [collectOriginals]
  | cons m rest ih =>
    intro pre
    rw [collectOriginals]
    have e : pre ++ (m :: rest).map (fun m => (c2o.lookup m.pattern).getD m.pattern) =
        (pre ++ [(c2o.lookup m.pattern).getD m.pattern]) ++
          rest.map (fun m => (c2o.lookup m.pattern).getD m.pattern) := by simp
    rw [e, ← ih, firstOccurrences_snoc]
    by_cases hm : (c2o.lookup m.pattern).getD m.pattern ∈ pre
    · rw [if_pos ((mem_firstOccurrences _ _).mpr hm), if_pos hm, List.append_nil]
    · rw [if_neg (fun h => hm ((mem_firstOccurrences _ _).mp h)), if_neg hm]

/-- C11. `FindProfanity(T)` is a set of dictionary originals: for every dictionary
and every text `T`, the list that `FindProfanity(T)` returns contains no
element twice, and every element of it is an entry of the dictionary. -/
theorem find_is_set (U : Unicode) (ord : MapOrder) (dict : List Str) (g : Globals) (T : Str)
    (out : List Str) (hg : init ord dict = .ok g) (hf : FindProfanity U g T = .ok out) :
    out.Nodup ∧ ∀ w ∈ out, w ∈ dict := by
  unfold FindProfanity at hf
  split_ifs at hf with h0
  · simp only [Except.ok.injEq] at hf
    subst hf
    exact ⟨List.nodup_nil, by simp⟩
  · obtain ⟨found, hfound, hf⟩ := bind_eq_ok hf
    split_ifs at hf with h1
    · simp only [pure_eq_ok, Except.ok.injEq] at hf
      subst hf
      exact ⟨List.nodup_nil, by simp⟩
    · simp only [pure_eq_ok, Except.ok.injEq] at hf
      subst hf
      refine ⟨collectOriginals_nodup _ found [] List.nodup_nil, ?_⟩
      intro w hw
      rcases collectOriginals_mem _ found [] w hw with h | ⟨m, hm, e⟩
      · simp at h
      · obtain ⟨p, hp, hfind⟩ := init_lookup hg (findMatches_pattern_mem hfound m hm)
        rw [hp] at e
        rw [e]
        exact List.mem_of_find?_eq_some hfind

/-- The witness of `find_is_set`: "shit fuck shit" with the dictionary
`["fuck", "shit", "ass"]`. -/
theorem find_is_set_witness :
    init insertionOrder dictSample = .ok globalsSample ∧
      FindProfanity unicodeSample globalsSample textShitFuckShit =
        .ok [[0x73, 0x68, 0x69, 0x74], [0x66, 0x75, 0x63, 0x6B]] ∧
      ([[0x73, 0x68, 0x69, 0x74], [0x66, 0x75, 0x63, 0x6B]] : List Str).Nodup ∧
      ∀ w ∈ ([[0x73, 0x68, 0x69, 0x74], [0x66, 0x75, 0x63, 0x6B]] : List Str), w ∈ dictSample :=
  ⟨by decide!, by decide!,
    find_is_set unicodeSample insertionOrder dictSample globalsSample textShitFuckShit
      [[0x73, 0x68, 0x69, 0x74], [0x66, 0x75, 0x63, 0x6B]] (by decide!) (by decide!)⟩

/-- C12. `FindProfanity` returns the originals in first-seen order: for every
dictionary and every text `T` on which `findMatches` returns, every match has
an entry in `collapsedToOriginal`, and `FindProfanity(T)` is the list of
these entries, in the order of the matches, without every element that
already occurred earlier in the list. -/
theorem find_first_seen (U : Unicode) (ord : MapOrder) (dict : List Str) (g : Globals)
    (T : Str) (found : List matchInfo) (hg : init ord dict = .ok g)
    (hf : findMatches U g.collapsedToOriginal T g.profanityMatcher = .ok found) :
    ∃ originals,
      found.map (fun m => g.collapsedToOriginal.lookup m.pattern) = originals.map some ∧
        FindProfanity U g T = .ok (firstOccurrences originals) := by
  refine ⟨found.map (fun m => (g.collapsedToOriginal.lookup m.pattern).getD m.pattern), ?_, ?_⟩
  · rw [List.map_map]
    apply List.map_congr_left
    intro m hm
    obtain ⟨p, hp, _⟩ := init_lookup hg (findMatches_pattern_mem hf m hm)
    simp [hp]
  · unfold FindProfanity
    split_ifs with h0
    · unfold findMatches at hf
      rw [if_pos h0] at hf
      simp only [Except.ok.injEq] at hf
      subst hf
      rfl
    · rw [hf, bind_ok]
      split_ifs with h1
      · have : found = [] := List.length_eq_zero.mp h1
        subst this
        rfl
      · rw [pure_eq_ok]
        have := collectOriginals_eq g.collapsedToOriginal found []
        simp only [List.nil_append] at this
        rw [← this]
        rfl

/-- The witness of `find_first_seen`: "shit fuck shit" with the dictionary
`["fuck", "shit", "ass"]`. -/
theorem find_first_seen_witness :
    init insertionOrder dictSample = .ok globalsSample ∧
      findMatches unicodeSample globalsSample.collapsedToOriginal textShitFuckShit
          globalsSample.profanityMatcher =
        .ok [{ origStart := 0, origEnd := 4, pattern := [0x73, 0x68, 0x69, 0x74] },
          { origStart := 5, origEnd := 9, pattern := [0x66, 0x75, 0x63, 0x6B] },
          { origStart := 10, origEnd := 14, pattern := [0x73, 0x68, 0x69, 0x74] }] ∧
      ∃ originals,
        ([{ origStart := 0, origEnd := 4, pattern := [0x73, 0x68, 0x69, 0x74] },
          { origStart := 5, origEnd := 9, pattern := [0x66, 0x75, 0x63, 0x6B] },
          { origStart := 10, origEnd := 14, pattern := [0x73, 0x68, 0x69, 0x74] }] :
            List matchInfo).map
            (fun m => globalsSample.collapsedToOriginal.lookup m.pattern) =
          originals.map some ∧
        FindProfanity unicodeSample globalsSample textShitFuckShit =
          .ok (firstOccurrences originals) :=
  ⟨by decide!, by decide!,
    find_first_seen unicodeSample insertionOrder dictSample globalsSample textShitFuckShit _
      (by decide!) (by decide!)⟩

/-! ## Shape validation -/

theorem stretched_nil (seg : List Nat) : Stretched [] seg ↔ seg = [] := by
  constructor
  · rintro ⟨counts, h1, _, h3⟩
    have : counts = [] := List.length_eq_zero.mp h1
    subst this
    simpa using h3
  · intro h
    subst h
    exact ⟨[], rfl, by simp, by simp⟩

theorem stretched_cons (r : Nat) (p seg : List Nat) :
    Stretched (r :: p) seg ↔
      ∃ n s, seg = List.replicate (n + 1) r ++ s ∧ Stretched p s := by
  constructor
  · rintro ⟨counts, h1, h2, h3⟩
    rcases counts with _ | ⟨c, cs⟩
    · simp at h1
    · have hc := h2 c (List.mem_cons_self _ _)
      refine ⟨c - 1, (List.zip p cs).flatMap (fun rc => List.replicate rc.2 rc.1), ?_,
        cs, by simpa using h1, fun x hx => h2 x (List.mem_cons_of_mem _ hx), rfl⟩
      rw [h3, show c - 1 + 1 = c by omega]
      simp
  · rintro ⟨n, s, h1, counts, h2, h3, h4⟩
    refine ⟨(n + 1) :: counts, by simp [h2], ?_, ?_⟩
    · intro c hc
      rcases List.mem_cons.mp hc with rfl | hc
      · omega
      · exact h3 c hc
    · rw [h1, h4]
      simp

theorem dropWhile_replicate_append (r n : Nat) (s : List Nat)
    (h : ∀ q, s.head? = some q → q ≠ r) :
    (List.replicate n r ++ s).dropWhile (fun x => x == r) = s := by
  induction n with
  | zero =>
    rcases s with _ | ⟨q, s⟩
    · rfl
    · have := h q rfl
      simp [List.dropWhile_cons, this]
  | succ n ih =>
    rw [List.replicate_succ, List.cons_append, List.dropWhile_cons]
    simpa using ih

theorem replicate_takeWhile (r : Nat) (cs : List Nat) :
    cs.takeWhile (fun x => x == r) = List.replicate (cs.takeWhile (fun x => x == r)).length r := by
  rw [List.eq_replicate_iff]
  refine ⟨rfl, ?_⟩
  intro b hb
  have := List.mem_takeWhile_imp hb
  simpa using this

theorem head_dropWhile_ne (r : Nat) (cs : List Nat) (q : Nat)
    (h : (cs.dropWhile (fun x => x == r)).head? = some q) : q ≠ r := by
  have := List.head?_dropWhile_not (fun x => x == r) cs
  rw [h] at this
  simpa using this

/-- The greedy walk of `isValidMatch` succeeds exactly on the stretched forms of
a pattern without adjacent equal runes. -/
theorem validLoop_iff :
    ∀ (ps seg : List Nat), validLoop ps seg = true ↔ NoAdjacentEqual ps ∧ Stretched ps seg := by
  intro ps
  induction ps with
  | nil =>
    intro seg
    rw [stretched_nil]
    cases seg <;> simp [validLoop, NoAdjacentEqual]
  | cons p ps ih =>
    intro seg
    rw [stretched_cons]
    constructor
    · intro h
      rcases seg with _ | ⟨c, cs⟩
      · simp [validLoop] at h
      · rw [validLoop] at h
        split_ifs at h with hc
        subst hc
        obtain ⟨h1, h2⟩ := (ih _).mp h
        refine ⟨?_, (cs.takeWhile (fun x => x == c)).length,
          cs.dropWhile (fun x => x == c), ?_, h2⟩
        · unfold NoAdjacentEqual at h1 ⊢
          rw [List.chain'_cons']
          refine ⟨?_, h1⟩
          intro q hq
          rcases ps with _ | ⟨q', ps'⟩
          · simp at hq
          · simp only [List.head?_cons, Option.mem_def, Option.some.injEq] at hq
            subst hq
            obtain ⟨n, s, e, _⟩ := (stretched_cons _ _ _).mp h2
            have := head_dropWhile_ne c cs q' (by rw [e]; simp [List.replicate_succ])
            exact fun h => this h.symm
        · rw [List.replicate_succ, List.cons_append, ← replicate_takeWhile,
            List.takeWhile_append_dropWhile]
    · rintro ⟨hch, n, s, e, hs⟩
      subst e
      rw [List.replicate_succ, List.cons_append, validLoop, if_pos rfl]
      unfold NoAdjacentEqual at hch
      rw [List.chain'_cons'] at hch
      rw [dropWhile_replicate_append]
      · exact (ih s).mpr ⟨hch.2, hs⟩
      · intro q hq
        rcases ps with _ | ⟨q', ps'⟩
        · rw [(stretched_nil s).mp hs] at hq
          simp at hq
        · obtain ⟨n', s', e', _⟩ := (stretched_cons _ _ _).mp hs
          rw [e'] at hq
          simp only [List.replicate_succ, List.cons_append, List.head?_cons,
            Option.some.injEq] at hq
          subst hq
          exact fun h => hch.1 q' (by simp) h.symm

theorem hasAdjacentEqual_iff (rs : List Nat) : HasAdjacentEqual rs ↔ ¬ NoAdjacentEqual rs := by
  unfold NoAdjacentEqual
  constructor
  · rintro ⟨pre, r, post, e⟩ h
    have hinf : [r, r] <:+: rs := ⟨pre, post, by rw [e]; simp⟩
    have := h.infix hinf
    simp at this
  · induction rs with
    | nil => intro h; exact absurd List.chain'_nil h
    | cons a rs ih =>
      intro h
      rw [List.chain'_cons'] at h
      by_cases hr : List.Chain' (fun a b => a ≠ b) rs
      · have : ¬ ∀ y ∈ rs.head?, a ≠ y := fun h' => h ⟨h', hr⟩
        push_neg at this
        obtain ⟨y, hy, e⟩ := this
        rcases rs with _ | ⟨b, rs'⟩
        · simp at hy
        · simp only [List.head?_cons, Option.mem_def, Option.some.injEq] at hy
          subst hy
          subst e
          exact ⟨[], a, rs', rfl⟩
      · obtain ⟨pre, r, post, e⟩ := ih hr
        exact ⟨a :: pre, r, post, by rw [e]; rfl⟩

theorem stretched_length_le :
    ∀ (p s : List Nat), Stretched p s → (stringOfRunes p).length ≤ (stringOfRunes s).length := by
  intro p
  induction p with
  | nil => intro s _; simp [stringOfRunes_nil]
  | cons r p ih =>
    intro s h
    obtain ⟨n, s', e, hs⟩ := (stretched_cons r p s).mp h
    have := ih s' hs
    rw [e, List.replicate_succ, List.cons_append, stringOfRunes_cons, stringOfRunes_cons,
      stringOfRunes_append]
    simp only [List.length_append]
    omega

/-- C17, amended. Shape validation: for every well-formed UTF-8 segment `seg` and
every pattern `P`, `isValidMatch(seg, P)` is true if and only if `seg` equals
`P`, or `P` has no two adjacent equal runes and `seg` is `P` with every rune
replaced by one or more copies of itself. -/
theorem valid_match_iff (seg P : Str) (hseg : ValidString seg = true) :
    isValidMatch seg P = true ↔
      seg = P ∨ (NoAdjacentEqual (runesOf P) ∧ Stretched (runesOf P) (runesOf seg)) := by
  unfold isValidMatch
  constructor
  · intro h
    split_ifs at h with h1 h2
    · exact Or.inl h2
    · exact Or.inr ((validLoop_iff _ _).mp h)
  · intro h
    have hlen : seg = P ∨ Stretched (runesOf P) (runesOf seg) → ¬ seg.length < P.length := by
      intro h'
      rcases h' with e | hs
      · rw [e]; omega
      · have a := stretched_length_le _ _ hs
        have b := length_le_stringOfRunes_runesOf P
        rw [stringOfRunes_runesOf hseg] at a
        omega
    rcases h with e | ⟨h1, h2⟩
    · rw [if_neg (hlen (Or.inl e)), if_pos e]
    · rw [if_neg (hlen (Or.inr h2))]
      split_ifs
      · rfl
      · exact (validLoop_iff _ _).mpr ⟨h1, h2⟩

/-- The witness of `valid_match_iff`: "fuuck" against "fuck". -/
theorem valid_match_iff_witness :
    ValidString [0x66, 0x75, 0x75, 0x63, 0x6B] = true ∧
      (isValidMatch [0x66, 0x75, 0x75, 0x63, 0x6B] [0x66, 0x75, 0x63, 0x6B] = true ↔
        ([0x66, 0x75, 0x75, 0x63, 0x6B] : Str) = [0x66, 0x75, 0x63, 0x6B] ∨
          (NoAdjacentEqual (runesOf [0x66, 0x75, 0x63, 0x6B]) ∧
            Stretched (runesOf [0x66, 0x75, 0x63, 0x6B])
              (runesOf [0x66, 0x75, 0x75, 0x63, 0x6B]))) :=
  ⟨by decide!, valid_match_iff [0x66, 0x75, 0x75, 0x63, 0x6B] [0x66, 0x75, 0x63, 0x6B]
    (by decide!)⟩

/-- C17, refuted as stated. The segment "asss" is the pattern "ass" with its last
rune repeated in place, and `isValidMatch("asss", "ass")` is false: the walk
consumes every `s` of the segment for the first `s` of the pattern. -/
theorem valid_match_rejects_stretched_double :
    ValidString [0x61, 0x73, 0x73, 0x73] = true ∧
      Stretched (runesOf [0x61, 0x73, 0x73]) (runesOf [0x61, 0x73, 0x73, 0x73]) ∧
      ([0x61, 0x73, 0x73, 0x73] : Str) ≠ [0x61, 0x73, 0x73] ∧
      isValidMatch [0x61, 0x73, 0x73, 0x73] [0x61, 0x73, 0x73] = false :=
  ⟨by decide!, ⟨[1, 1, 2], by decide!, by decide, by decide!⟩, by decide, by decide!⟩

/-- C18. A pattern with a doubled letter matches only its exact spelling: for
every pattern `P` that has two adjacent equal runes and every segment `seg`,
`isValidMatch(seg, P)` is true only if `seg` equals `P`. So
`isValidMatch("assss", "ass")` is false, and with the dictionary `["ass"]`
`findMatches("what an assss")` is empty and `IsProfane` of it is false. -/
theorem doubled_pattern_exact :
    (∀ (seg P : Str), HasAdjacentEqual (runesOf P) → isValidMatch seg P = true → seg = P) ∧
      isValidMatch [0x61, 0x73, 0x73, 0x73, 0x73] [0x61, 0x73, 0x73] = false ∧
      findMatches unicodeSample globalsAss.collapsedToOriginal textAssss
        globalsAss.profanityMatcher = .ok [] ∧
      IsProfane unicodeSample globalsAss textAssss = .ok false := by
  refine ⟨?_, by decide!, by decide!, by decide!⟩
  intro seg P hd h
  unfold isValidMatch at h
  split_ifs at h with h1 h2
  · exact h2
  · exact absurd ((validLoop_iff _ _).mp h).1 ((hasAdjacentEqual_iff _).mp hd)

/-- The witness of `doubled_pattern_exact`: the pattern "ass" and the segment "ass". -/
theorem doubled_pattern_exact_witness :
    HasAdjacentEqual (runesOf [0x61, 0x73, 0x73]) ∧
      isValidMatch [0x61, 0x73, 0x73] [0x61, 0x73, 0x73] = true ∧
      ([0x61, 0x73, 0x73] : Str) = [0x61, 0x73, 0x73] :=
  ⟨⟨[0x61], 0x73, [], by decide!⟩, by decide!,
    doubled_pattern_exact.1 [0x61, 0x73, 0x73] [0x61, 0x73, 0x73]
      ⟨[0x61], 0x73, [], by decide!⟩ (by decide!)⟩

/-- C20. The mask has the rune count of the segment: for every string `seg` and
every integer `mode`, `buildAsteriskMask(seg, mode)` has as many runes as
`seg`, and the mask of the empty string is empty. -/
theorem mask_rune_count (seg : Str) (mode : Int) :
    (runesOf (buildAsteriskMask seg mode)).length = (runesOf seg).length ∧
      buildAsteriskMask [] mode = [] := by
  obtain ⟨ms, h1, h2, h3⟩ := buildAsteriskMask_spec seg mode
  refine ⟨?_, ?_⟩
  · rw [h1, runesOf_stringOfRunes ms h2, h3]
  · unfold buildAsteriskMask
    rfl

/-! ## Normalization of ASCII text, byte by byte -/

theorem ToLower_eq_lowerAscii (U : Unicode) {b : Nat} (h : b < 0x80) :
    ToLower U b = lowerAscii b := by
  unfold ToLower lowerAscii
  rw [if_pos (by omega)]

theorem leetspeak_eq_leetAscii :
    ∀ b < 0x80, (leetspeakMap.lookup (lowerAscii b)).getD (lowerAscii b) =
      leetAscii (lowerAscii b) := by
  decide

theorem normalizeLoop_ascii_map (U : Unicode) :
    ∀ (rs : List Nat) (pos : Nat), IsAscii rs →
      (normalizeLoop U pos rs).1 = rs.map (fun b => leetAscii (lowerAscii b)) := by
  intro rs
  induction rs with
  | nil => intro pos _; rfl
  | cons r rs ih =>
    intro pos h
    have hr : r < 0x80 := h r (List.mem_cons_self _ _)
    have hz : r ∉ zeroWidthChars := fun hm => by
      have := zeroWidth_not_ascii r hm
      omega
    have hlow := ToLower_ascii U hr
    have hfin := leetspeak_getD_ascii hlow
    have henc : encodeRune ((leetspeakMap.lookup (ToLower U r)).getD (ToLower U r)) =
        [(leetspeakMap.lookup (ToLower U r)).getD (ToLower U r)] := by
      simp [encodeRune, hfin]
    rw [normalizeLoop]
    simp only [hz, if_false, homoglyph_lookup_ascii hlow, Option.getD_none, henc,
      List.singleton_append, List.map_cons]
    rw [ih _ (fun x hx => h x (List.mem_cons_of_mem _ hx)), ToLower_eq_lowerAscii U hr,
      leetspeak_eq_leetAscii r hr]

/-- The normalized form of an ASCII text that NFKC leaves unchanged. -/
theorem normalizeText_ascii_map (U : Unicode) (T : Str) (hT : IsAscii T) (hn : U.nfkc T = T) :
    (normalizeText U T).normalized = T.map (fun b => leetAscii (lowerAscii b)) := by
  unfold normalizeText
  dsimp only
  rw [hn, runesOf_ascii T hT]
  exact normalizeLoop_ascii_map U T 0 hT

/-- C19. Normalization of ASCII text is a byte-wise map: for every text `T` of
ASCII bytes (which NFKC leaves unchanged), `normalizeText(T).normalized` and
`posMap` are as long as `T`, byte `i` of the normalized text is
`leet(lower(T[i]))`, and `posMap[i]` is `i`. -/
theorem normalize_ascii_bytewise (U : Unicode) (T : Str) (hT : IsAscii T)
    (hn : U.nfkc T = T) :
    (normalizeText U T).normalized.length = T.length ∧
      (normalizeText U T).posMap.length = T.length ∧
      ∀ (i b : Nat), T[i]? = some b →
        (normalizeText U T).normalized[i]? = some (leetAscii (lowerAscii b)) ∧
          (normalizeText U T).posMap[i]? = some i := by
  obtain ⟨_, _, h3, h4⟩ := normalizeText_ascii U T hT hn
  refine ⟨h3, by rw [h4, List.length_range'], ?_⟩
  intro i b hb
  have hi : i < T.length := by
    rcases Nat.lt_or_ge i T.length with h | h
    · exact h
    · rw [List.getElem?_eq_none h] at hb
      simp at hb
  rw [normalizeText_ascii_map U T hT hn, h4, List.getElem?_map, hb]
  refine ⟨rfl, ?_⟩
  rw [List.getElem?_range' _ _ hi]
  simp

/-- The witness of `normalize_ascii_bytewise`: the text "V1|e $Ex+". -/
theorem normalize_ascii_bytewise_witness :
    IsAscii [0x56, 0x31, 0x7C, 0x65, 0x20, 0x24, 0x45, 0x78, 0x2B] ∧
      unicodeSample.nfkc [0x56, 0x31, 0x7C, 0x65, 0x20, 0x24, 0x45, 0x78, 0x2B] =
        [0x56, 0x31, 0x7C, 0x65, 0x20, 0x24, 0x45, 0x78, 0x2B] ∧
      (normalizeText unicodeSample
          [0x56, 0x31, 0x7C, 0x65, 0x20, 0x24, 0x45, 0x78, 0x2B]).normalized =
        [0x75, 0x69, 0x69, 0x65, 0x20, 0x73, 0x65, 0x78, 0x74] ∧
      ((normalizeText unicodeSample
          [0x56, 0x31, 0x7C, 0x65, 0x20, 0x24, 0x45, 0x78, 0x2B]).normalized.length =
        ([0x56, 0x31, 0x7C, 0x65, 0x20, 0x24, 0x45, 0x78, 0x2B] : Str).length ∧
      (normalizeText unicodeSample
          [0x56, 0x31, 0x7C, 0x65, 0x20, 0x24, 0x45, 0x78, 0x2B]).posMap.length =
        ([0x56, 0x31, 0x7C, 0x65, 0x20, 0x24, 0x45, 0x78, 0x2B] : Str).length ∧
      ∀ (i b : Nat),
        ([0x56, 0x31, 0x7C, 0x65, 0x20, 0x24, 0x45, 0x78, 0x2B] : Str)[i]? = some b →
        (normalizeText unicodeSample
            [0x56, 0x31, 0x7C, 0x65, 0x20, 0x24, 0x45, 0x78, 0x2B]).normalized[i]? =
          some (leetAscii (lowerAscii b)) ∧
        (normalizeText unicodeSample
            [0x56, 0x31, 0x7C, 0x65, 0x20, 0x24, 0x45, 0x78, 0x2B]).posMap[i]? = some i) :=
  ⟨by unfold IsAscii; decide, by decide!, by decide!,
    normalize_ascii_bytewise unicodeSample
      [0x56, 0x31, 0x7C, 0x65, 0x20, 0x24, 0x45, 0x78, 0x2B] (by unfold IsAscii; decide)
      (by decide!)⟩

/-! ## Word boundaries in ASCII text -/

theorem isWordChar_lowerAscii (U : Unicode) {b : Nat} (hb : b < 0x80) :
    isWordChar U (lowerAscii b) = isWordChar U b := by
  interval_cases b <;> simp [isWordChar, IsLetter, IsDigit, lowerAscii]

theorem decodeLastRune_ascii {s : Str} (hs : IsAscii s) (hne : s ≠ []) :
    (decodeLastRune s).1 = s.getD (s.length - 1) 0 := by
  have hl : 0 < s.length := List.length_pos.mpr hne
  have hb : s.getD (s.length - 1) 0 < 0x80 := by
    rw [List.getD_eq_getElem _ _ (by omega)]
    exact hs _ (List.getElem_mem _)
  unfold decodeLastRune
  simp only [show ¬ s.length = 0 by omega, if_false, hb, if_true]

theorem decodeRune_ascii_head {T : Str} (hT : IsAscii T) {i : Nat} (hi : i < T.length) :
    (decodeRune (T.drop i)).1 = T.getD i 0 := by
  have hb : T[i] < 0x80 := hT _ (List.getElem_mem hi)
  rw [List.drop_eq_getElem_cons hi, List.getD_eq_getElem _ _ hi]
  simp [decodeRune, hb]

theorem isWordBoundaryBefore_ascii (U : Unicode) {T : Str} (hT : IsAscii T) (pos : Nat) :
    isWordBoundaryBefore U T pos =
      if pos ≤ 0 then .ok true
      else if pos ≤ T.length then .ok (!isWordChar U (T.getD (pos - 1) 0))
      else .error .outOfRange := by
  unfold isWordBoundaryBefore
  split_ifs with h0 h1
  · rfl
  · rw [slice_eq_ok (Nat.zero_le _) h1, bind_ok, pure_eq_ok, List.drop_zero]
    have ha : IsAscii (T.take pos) := fun b hb => hT b (List.mem_of_mem_take hb)
    have hlen : (T.take pos).length = pos := by
      rw [List.length_take]
      omega
    have hne : T.take pos ≠ [] := by
      intro h
      rw [h, List.length_nil] at hlen
      omega
    rw [decodeLastRune_ascii ha hne, hlen]
    congr 3
    simp only [List.getD_eq_getElem?_getD]
    rw [List.getElem?_take_of_lt (by omega)]
  · rw [slice_eq_error (by omega)]
    rfl

theorem isWordBoundaryAfter_ascii (U : Unicode) {T : Str} (hT : IsAscii T) (pos : Nat) :
    isWordBoundaryAfter U T pos =
      if pos ≥ T.length then .ok true else .ok (!isWordChar U (T.getD pos 0)) := by
  unfold isWordBoundaryAfter
  split_ifs with h0
  · rfl
  · rw [slice_eq_ok (by omega) (le_refl _), bind_ok, pure_eq_ok, List.take_length,
      decodeRune_ascii_head hT (by omega)]

theorem addLastRune_ascii {nt : normalizedText} (hT : IsAscii nt.original) (oe : Nat) :
    addLastRune nt oe = .ok (if oe < nt.original.length then oe + 1 else oe) := by
  unfold addLastRune
  split_ifs with h
  · rw [slice_eq_ok (by omega) (le_refl _), bind_ok, pure_eq_ok, List.take_length,
      decodeRune_drop_ascii hT h]
  · rfl

/-! ## Texts that differ in the case of ASCII letters -/

theorem lowerAscii_getD {T T2 : Str} (h : T.map lowerAscii = T2.map lowerAscii) (i : Nat) :
    lowerAscii (T.getD i 0) = lowerAscii (T2.getD i 0) := by
  have e : ∀ (S : Str), lowerAscii (S.getD i 0) = (S.map lowerAscii).getD i 0 := by
    intro S
    simp only [List.getD_eq_getElem?_getD, List.getElem?_map]
    cases S[i]? <;> rfl
  rw [e T, e T2, h]

theorem getD_lt_of_ascii {T : Str} (hT : IsAscii T) (i : Nat) : T.getD i 0 < 0x80 := by
  rcases Nat.lt_or_ge i T.length with h | h
  · rw [List.getD_eq_getElem _ _ h]
    exact hT _ (List.getElem_mem _)
  · rw [List.getD_eq_default _ _ h]
    omega

theorem isWordChar_case (U : Unicode) {T T2 : Str} (hT : IsAscii T) (hT2 : IsAscii T2)
    (h : T.map lowerAscii = T2.map lowerAscii) (i : Nat) :
    isWordChar U (T.getD i 0) = isWordChar U (T2.getD i 0) := by
  rw [← isWordChar_lowerAscii U (getD_lt_of_ascii hT i),
    ← isWordChar_lowerAscii U (getD_lt_of_ascii hT2 i), lowerAscii_getD h]

theorem leetAscii_lowerAscii_lowerAscii (b : Nat) :
    leetAscii (lowerAscii (lowerAscii b)) = leetAscii (lowerAscii b) := by
  have : lowerAscii (lowerAscii b) = lowerAscii b := by
    unfold lowerAscii
    split_ifs <;> omega
  rw [this]

theorem normalized_case (U : Unicode) {T T2 : Str} (hT : IsAscii T) (hT2 : IsAscii T2)
    (hn : U.nfkc T = T) (hn2 : U.nfkc T2 = T2) (h : T.map lowerAscii = T2.map lowerAscii) :
    (normalizeText U T).normalized = (normalizeText U T2).normalized := by
  rw [normalizeText_ascii_map U T hT hn, normalizeText_ascii_map U T2 hT2 hn2]
  have e : ∀ (S : Str), S.map (fun b => leetAscii (lowerAscii b)) =
      (S.map lowerAscii).map (fun b => leetAscii (lowerAscii b)) := by
    intro S
    rw [List.map_map]
    apply List.map_congr_left
    intro b _
    exact (leetAscii_lowerAscii_lowerAscii b).symm
  rw [e T, e T2, h]

theorem projectMatch_case (U : Unicode) (c2o : List (Str × Str)) (ac : ahoCorasick)
    {T T2 : Str} {nt nt2 : normalizedText} (cp : collapsedPosInfo) (m : acMatch)
    (hT : IsAscii T) (hT2 : IsAscii T2) (h : T.map lowerAscii = T2.map lowerAscii)
    (ho : nt.original = T) (ho2 : nt2.original = T2)
    (hN : nt.normalized = nt2.normalized) (hP : nt.posMap = nt2.posMap) :
    projectMatch U c2o ac T nt cp m = projectMatch U c2o ac T2 nt2 cp m := by
  have hlen : T.length = T2.length := by
    have := congrArg List.length h
    simpa using this
  have h1 : normalizedRange nt cp m = normalizedRange nt2 cp m := by
    unfold normalizedRange normalizedEnd
    rw [hN]
  have h2 : ∀ ns ne, originalRange T nt ns ne = originalRange T2 nt2 ns ne := by
    intro ns ne
    have a1 : ∀ oe, addLastRune nt oe = addLastRune nt2 oe := by
      intro oe
      rw [addLastRune_ascii (by rw [ho]; exact hT), addLastRune_ascii (by rw [ho2]; exact hT2),
        ho, ho2, hlen]
    have c1 : ∀ p, clamp T nt p = p := fun p => by
      unfold clamp; rw [if_neg (fun c => c.1 ho)]
    have c2 : ∀ p, clamp T2 nt2 p = p := fun p => by
      unfold clamp; rw [if_neg (fun c => c.1 ho2)]
    unfold originalRange origStart origEnd
    simp only [c1, c2, a1, hP, ho, ho2, hlen]
  have h3 : ∀ ns ne os oe, acceptMatch U c2o ac T nt m ns ne os oe =
      acceptMatch U c2o ac T2 nt2 m ns ne os oe := by
    intro ns ne os oe
    have b1 : isWordBoundaryBefore U T os = isWordBoundaryBefore U T2 os := by
      rw [isWordBoundaryBefore_ascii U hT, isWordBoundaryBefore_ascii U hT2, hlen,
        isWordChar_case U hT hT2 h]
    have b2 : isWordBoundaryAfter U T oe = isWordBoundaryAfter U T2 oe := by
      rw [isWordBoundaryAfter_ascii U hT, isWordBoundaryAfter_ascii U hT2, hlen,
        isWordChar_case U hT hT2 h]
    unfold acceptMatch
    rw [b1, b2, hN]
  unfold projectMatch
  simp only [h1, h2, h3]

theorem projectAll_case (U : Unicode) (c2o : List (Str × Str)) (ac : ahoCorasick)
    {T T2 : Str} {nt nt2 : normalizedText} (cp : collapsedPosInfo)
    (hT : IsAscii T) (hT2 : IsAscii T2) (h : T.map lowerAscii = T2.map lowerAscii)
    (ho : nt.original = T) (ho2 : nt2.original = T2)
    (hN : nt.normalized = nt2.normalized) (hP : nt.posMap = nt2.posMap) :
    ∀ found, projectAll U c2o ac T nt cp found = projectAll U c2o ac T2 nt2 cp found := by
  intro found
  induction found with
  | nil => rfl
  | cons m rest ih =>
    rw [projectAll, projectAll, ih, projectMatch_case U c2o ac cp m hT hT2 h ho ho2 hN hP]

theorem findMatches_case (U : Unicode) (c2o : List (Str × Str)) (ac : ahoCorasick)
    {T T2 : Str} (hT : IsAscii T) (hT2 : IsAscii T2) (hn : U.nfkc T = T)
    (hn2 : U.nfkc T2 = T2) (h : T.map lowerAscii = T2.map lowerAscii) :
    findMatches U c2o T ac = findMatches U c2o T2 ac := by
  have hlen : T.length = T2.length := by
    have := congrArg List.length h
    simpa using this
  have hN := normalized_case U hT hT2 hn hn2 h
  have hP : (normalizeText U T).posMap = (normalizeText U T2).posMap := by
    rw [(normalizeText_ascii U T hT hn).2.2.2, (normalizeText_ascii U T2 hT2 hn2).2.2.2, hlen]
  unfold findMatches
  simp only [hlen, hN]
  simp only [projectAll_case U c2o ac _ hT hT2 h rfl rfl hN hP]

/-- C16. Detection is case-insensitive on ASCII: for every state of the package
variables (hence every dictionary) and every two ASCII texts `T` and `T2`
(which NFKC leaves unchanged) that differ only in the case of ASCII letters,
`findMatches` gives the same result on both, and so do `IsProfane` and
`FindProfanity`. -/
theorem case_insensitive (U : Unicode) (g : Globals) (T T2 : Str) (hT : IsAscii T)
    (hT2 : IsAscii T2) (hn : U.nfkc T = T) (hn2 : U.nfkc T2 = T2)
    (h : T.map lowerAscii = T2.map lowerAscii) :
    findMatches U g.collapsedToOriginal T g.profanityMatcher =
        findMatches U g.collapsedToOriginal T2 g.profanityMatcher ∧
      IsProfane U g T = IsProfane U g T2 ∧ FindProfanity U g T = FindProfanity U g T2 := by
  have hlen : T.length = T2.length := by
    have := congrArg List.length h
    simpa using this
  have hf := findMatches_case U g.collapsedToOriginal g.profanityMatcher hT hT2 hn hn2 h
  refine ⟨hf, ?_, ?_⟩
  · unfold IsProfane
    rw [hf, hlen]
  · unfold FindProfanity
    rw [hf, hlen]

/-- The witness of `case_insensitive`: "What the FuCk" and "what the fuck" with
the dictionary `["fuck", "shit", "ass"]`. -/
theorem case_insensitive_witness :
    IsAscii textMixedCase ∧ IsAscii textLowerCase ∧
      unicodeSample.nfkc textMixedCase = textMixedCase ∧
      unicodeSample.nfkc textLowerCase = textLowerCase ∧
      textMixedCase.map lowerAscii = textLowerCase.map lowerAscii ∧
      findMatches unicodeSample globalsSample.collapsedToOriginal textMixedCase
          globalsSample.profanityMatcher =
        .ok [{ origStart := 9, origEnd := 13, pattern := [0x66, 0x75, 0x63, 0x6B] }] ∧
      (findMatches unicodeSample globalsSample.collapsedToOriginal textMixedCase
          globalsSample.profanityMatcher =
        findMatches unicodeSample globalsSample.collapsedToOriginal textLowerCase
          globalsSample.profanityMatcher ∧
      IsProfane unicodeSample globalsSample textMixedCase =
        IsProfane unicodeSample globalsSample textLowerCase ∧
      FindProfanity unicodeSample globalsSample textMixedCase =
        FindProfanity unicodeSample globalsSample textLowerCase) :=
  ⟨by unfold IsAscii; decide, by unfold IsAscii; decide, by decide!, by decide!, by decide,
    by decide!,
    case_insensitive unicodeSample globalsSample textMixedCase textLowerCase
      (by unfold IsAscii; decide) (by unfold IsAscii; decide) (by decide!) (by decide!)
      (by decide)⟩

/-! ## Completeness of the trie -/

theorem extends_refl (a : List acNode) : Extends a a := fun _ => ⟨fun _ _ h => h, fun _ h => h⟩

theorem extends_trans {a b c : List acNode} (h1 : Extends a b) (h2 : Extends b c) :
    Extends a c :=
  fun p => ⟨fun r x h => (h2 p).1 r x ((h1 p).1 r x h), fun i h => (h2 p).2 i ((h1 p).2 i h)⟩

theorem descend_mono {a b : List acNode} (h : Extends a b) :
    ∀ (w : List Nat) (n c : Nat), descend a n w = some c → descend b n w = some c := by
  intro w
  induction w with
  | nil => intro n c hc; exact hc
  | cons r w ih =>
    intro n c hc
    rw [descend] at hc ⊢
    cases hl : (getNode a n).children.lookup r with
    | none => rw [hl] at hc; simp at hc
    | some x =>
      rw [hl] at hc
      rw [(h n).1 r x hl]
      exact ih x c hc

theorem descend_append (nodes : List acNode) :
    ∀ (w v : List Nat) (n m : Nat), descend nodes n w = some m →
      descend nodes n (w ++ v) = descend nodes m v := by
  intro w
  induction w with
  | nil =>
    intro v n m h
    simp only [descend, Option.some.injEq] at h
    subst h
    rfl
  | cons r w ih =>
    intro v n m h
    rw [descend] at h
    rw [List.cons_append, descend]
    cases hl : (getNode nodes n).children.lookup r with
    | none => rw [hl] at h; simp at h
    | some x =>
      rw [hl] at h
      exact ih v x m h

theorem lookup_append_some {l : List (Nat × Nat)} {r c : Nat} (x : Nat × Nat)
    (h : l.lookup r = some c) : (l ++ [x]).lookup r = some c := by
  rw [List.lookup_append, h]
  rfl

theorem lookup_append_new {l : List (Nat × Nat)} {r c : Nat} (h : l.lookup r = none) :
    (l ++ [(r, c)]).lookup r = some c := by
  rw [List.lookup_append, h]
  simp [List.lookup_cons]

theorem trieStep_full {nodes : List acNode} {node : Nat} (hn : node < nodes.length) (r : Nat)
    (hk : KeysNodup nodes) :
    Extends nodes (trieStep (nodes, node) r).1 ∧ KeysNodup (trieStep (nodes, node) r).1 ∧
      (getNode (trieStep (nodes, node) r).1 node).children.lookup r =
        some (trieStep (nodes, node) r).2 := by
  unfold trieStep
  dsimp only
  cases hl : (getNode nodes node).children.lookup r with
  | some next =>
    dsimp only
    exact ⟨extends_refl _, hk, hl⟩
  | none =>
    dsimp only
    have hN := fun p => getNode_grow nodes node r p hn
    refine ⟨?_, ?_, ?_⟩
    · intro p
      rw [hN]
      split_ifs with h1 h2
      · subst h1
        exact ⟨fun r' c h => lookup_append_some _ h, fun i h => h⟩
      · subst h2
        rw [getNode_of_le nodes (le_refl _)]
        exact ⟨fun r' c h => by simp [newACNode] at h, fun i h => by simp [newACNode] at h⟩
      · exact ⟨fun _ _ h => h, fun _ h => h⟩
    · intro p
      rw [hN]
      split_ifs with h1 h2
      · subst h1
        simp only [List.map_append, List.map_cons, List.map_nil]
        rw [List.nodup_append]
        refine ⟨hk p, List.nodup_singleton _, ?_⟩
        intro a ha hb
        simp only [List.mem_singleton] at hb
        subst hb
        obtain ⟨x, hx, hx2⟩ := List.mem_map.mp ha
        have := List.lookup_eq_none_iff.mp hl x hx
        simp [hx2] at this
      · simp [newACNode]
      · exact hk p
    · rw [hN, if_pos rfl]
      exact lookup_append_new hl

theorem trieFold_full {patterns : List Str} {k : Nat} :
    ∀ (rs : List Nat) (nodes : List acNode) (node : Nat) (L : Nat → List Nat),
      TrieInv nodes L patterns k → node < nodes.length → KeysNodup nodes →
      Extends nodes (rs.foldl trieStep (nodes, node)).1 ∧
        KeysNodup (rs.foldl trieStep (nodes, node)).1 ∧
        descend (rs.foldl trieStep (nodes, node)).1 node rs =
          some (rs.foldl trieStep (nodes, node)).2 := by
  intro rs
  induction rs with
  | nil =>
    intro nodes node L _ _ hk
    exact ⟨extends_refl _, hk, rfl⟩
  | cons r rs ih =>
    intro nodes node L hT hn hk
    obtain ⟨L1, h1, h2, _⟩ := trieStep_inv hT hn r
    obtain ⟨e1, e2, e3⟩ := trieStep_full hn r hk
    obtain ⟨g1, g2, g3⟩ := ih (trieStep (nodes, node) r).1 (trieStep (nodes, node) r).2 L1
      h1 h2 e2
    rw [List.foldl_cons]
    refine ⟨extends_trans e1 g1, g2, ?_⟩
    rw [descend, (g1 node).1 r _ e3]
    exact g3

theorem extends_set_output (nodes : List acNode) (n : Nat) (x : acNode)
    (hc : x.children = (getNode nodes n).children)
    (ho : ∀ i ∈ (getNode nodes n).output, i ∈ x.output) : Extends nodes (nodes.set n x) := by
  intro p
  rw [getNode_set]
  split_ifs with c
  · rw [c.1, hc]
    exact ⟨fun _ _ h => h, ho⟩
  · exact ⟨fun _ _ h => h, fun _ h => h⟩

theorem keysNodup_of_sameShape {a b : List acNode} (h : SameShape a b) (hk : KeysNodup a) :
    KeysNodup b := by
  intro p
  rw [h.2]
  exact hk p

theorem descend_sameShape {a b : List acNode} (h : SameShape a b) :
    ∀ (w : List Nat) (n : Nat), descend b n w = descend a n w := by
  intro w
  induction w with
  | nil => intro n; rfl
  | cons r w ih =>
    intro n
    rw [descend, descend, h.2]
    cases (getNode a n).children.lookup r with
    | none => rfl
    | some c => exact ih c

theorem insertPattern_full {nodes : List acNode} {L : Nat → List Nat} {patterns : List Str}
    {k : Nat} (hT : TrieInv nodes L patterns k) (hk : KeysNodup nodes) (i : Nat) (pat : Str) :
    Extends nodes (insertPattern nodes i pat) ∧ KeysNodup (insertPattern nodes i pat) ∧
      ∃ n, descend (insertPattern nodes i pat) root (runesOf pat) = some n ∧
        i ∈ (getNode (insertPattern nodes i pat) n).output := by
  obtain ⟨_, _, h2, _⟩ := trieFold_inv (runesOf pat) nodes root L hT hT.shape.pos
  obtain ⟨g1, g2, g3⟩ := trieFold_full (runesOf pat) nodes root L hT hT.shape.pos hk
  unfold insertPattern
  dsimp only
  generalize ((runesOf pat).foldl trieStep (nodes, root)) = st at h2 g1 g2 g3
  have hss : SameShape st.1 (st.1.set st.2 { getNode st.1 st.2 with
      isTerminal := true, output := (getNode st.1 st.2).output ++ [i] }) :=
    sameShape_set rfl
  refine ⟨extends_trans g1 (extends_set_output _ _ _ rfl (fun j hj => List.mem_append_left _ hj)),
    keysNodup_of_sameShape hss g2, st.2, ?_, ?_⟩
  · rw [descend_sameShape hss]
    exact g3
  · rw [getNode_set, if_pos ⟨rfl, h2⟩]
    simp

theorem ownOutputs_mono {a b : List acNode} {patterns : List Str} {k : Nat}
    (h : Extends a b) (ho : OwnOutputs a patterns k) : OwnOutputs b patterns k := by
  intro i pat hi hp
  obtain ⟨n, h1, h2⟩ := ho i pat hi hp
  exact ⟨n, descend_mono h _ _ _ h1, (h n).2 i h2⟩

theorem insertAll_full {patterns : List Str} :
    ∀ (ps : List Str) (k : Nat) (nodes : List acNode) (L : Nat → List Nat),
      TrieInv nodes L patterns k → KeysNodup nodes → OwnOutputs nodes patterns k →
      (∀ j pat, ps[j]? = some pat → patterns[k + j]? = some pat) →
      KeysNodup (insertAll k ps nodes) ∧
        OwnOutputs (insertAll k ps nodes) patterns (k + ps.length) := by
  intro ps
  induction ps with
  | nil =>
    intro k nodes L _ hk ho _
    exact ⟨hk, by simpa [insertAll] using ho⟩
  | cons p ps ih =>
    intro k nodes L hT hk ho hidx
    have hp : patterns[k]? = some p := by
      have := hidx 0 p (by simp)
      simpa using this
    obtain ⟨L1, h1⟩ := insertPattern_inv hT hp
    obtain ⟨e1, e2, n, e3, e4⟩ := insertPattern_full hT hk k p
    have ho1 : OwnOutputs (insertPattern nodes k p) patterns (k + 1) := by
      intro i pat hi hpat
      rcases Nat.lt_or_ge i k with c | c
      · exact ownOutputs_mono e1 ho i pat c hpat
      · have : i = k := by omega
        subst this
        rw [hp] at hpat
        simp only [Option.some.injEq] at hpat
        subst hpat
        exact ⟨n, e3, e4⟩
    obtain ⟨g1, g2⟩ := ih (k + 1) (insertPattern nodes k p) L1 h1 e2 ho1 (by
      intro j pat hj
      have := hidx (j + 1) pat (by simpa using hj)
      rw [show k + 1 + j = k + (j + 1) by omega]
      exact this)
    rw [insertAll, List.length_cons, show k + (ps.length + 1) = k + 1 + ps.length by omega]
    exact ⟨g1, g2⟩

/-- The trie has distinct keys and a path for every pattern. -/
theorem buildTrie_full (patterns : List Str) :
    KeysNodup (buildTrie patterns) ∧ OwnOutputs (buildTrie patterns) patterns patterns.length := by
  have hg : ∀ p, getNode [newACNode 0] p = newACNode 0 := by
    intro p
    rcases p with _ | p
    · rfl
    · exact getNode_of_le _ (by simp)
  have := insertAll_full patterns 0 [newACNode 0] (fun _ => []) (trieInv_init patterns)
    (by intro p; rw [hg]; simp [newACNode]) (by intro i pat hi; omega)
    (by intro j pat hj; simpa using hj)
  simpa [buildTrie] using this

/-! ## Labels and paths -/

theorem descend_label {nodes : List acNode} {L : Nat → List Nat} (hS : Shape nodes L) :
    ∀ (w : List Nat) (n c : Nat), n < nodes.length → descend nodes n w = some c →
      c < nodes.length ∧ L c = L n ++ w := by
  intro w
  induction w with
  | nil =>
    intro n c hn h
    simp only [descend, Option.some.injEq] at h
    subst h
    exact ⟨hn, by simp⟩
  | cons r w ih =>
    intro n c hn h
    rw [descend] at h
    cases hl : (getNode nodes n).children.lookup r with
    | none => rw [hl] at h; simp at h
    | some x =>
      rw [hl] at h
      obtain ⟨_, e2, e3⟩ := hS.edge n r x (lookup_mem hl)
      obtain ⟨g1, g2⟩ := ih x c e2 h
      exact ⟨g1, by rw [g2, e3]; simp⟩

theorem lookup_of_mem {nodes : List acNode} (hk : KeysNodup nodes) {p r c : Nat}
    (h : (r, c) ∈ (getNode nodes p).children) :
    (getNode nodes p).children.lookup r = some c := by
  cases hl : (getNode nodes p).children.lookup r with
  | none =>
    have := List.lookup_eq_none_iff.mp hl (r, c) h
    simp at this
  | some x =>
    have hm := lookup_mem hl
    have := List.inj_on_of_nodup_map (hk p) hm h rfl
    rw [(Prod.mk.inj this).2]

/-- Distinct nodes have distinct labels. -/
theorem label_inj {nodes : List acNode} {L : Nat → List Nat} (hS : Shape nodes L)
    (hk : KeysNodup nodes) :
    ∀ a b, a < nodes.length → b < nodes.length → L a = L b → a = b := by
  intro a
  induction a using Nat.strong_induction_on with
  | _ a ih =>
    intro b ha hb hab
    rcases Nat.eq_zero_or_pos a with h0 | hpos
    · subst h0
      rcases Nat.eq_zero_or_pos b with h1 | h1
      · exact h1.symm
      · obtain ⟨p, r, hp⟩ := hS.parent b h1 hb
        obtain ⟨_, _, e⟩ := hS.edge p r b hp
        rw [hS.root, e] at hab
        simp at hab
    · obtain ⟨p, r, hp⟩ := hS.parent a hpos ha
      obtain ⟨e1, _, e3⟩ := hS.edge p r a hp
      rcases Nat.eq_zero_or_pos b with h1 | h1
      · subst h1
        rw [hS.root, e3] at hab
        simp at hab
      · obtain ⟨q, s, hq⟩ := hS.parent b h1 hb
        obtain ⟨f1, _, f3⟩ := hS.edge q s b hq
        rw [e3, f3] at hab
        obtain ⟨hl, hr⟩ := List.append_inj' hab rfl
        simp only [List.cons.injEq, and_true] at hr
        have hpq := ih p e1 q (by omega) (by omega) hl
        subst hpq hr
        have l1 := lookup_of_mem hk hp
        have l2 := lookup_of_mem hk hq
        rw [l1] at l2
        exact Option.some.inj l2

/-! ## Completeness of the fail links -/

theorem suffix_snoc_inv {x w : List Nat} {r : Nat} (h : x <:+ w ++ [r]) :
    x = [] ∨ ∃ y, x = y ++ [r] ∧ y <:+ w :=
  List.suffix_concat_iff.mp h

theorem linkedAt_congr {nodes nodes2 : List acNode} {L : Nat → List Nat} {patterns : List Str}
    {n : Nat} (hl : nodes2.length = nodes.length) (hn : getNode nodes2 n = getNode nodes n)
    (h : LinkedAt nodes L patterns n) : LinkedAt nodes2 L patterns n := by
  obtain ⟨⟨f, h1, h2, h3, h4, h5⟩, h6⟩ := h
  refine ⟨⟨f, by rw [hn]; exact h1, by rw [hl]; exact h2, h3, h4, ?_⟩, ?_⟩
  · intro m hm
    rw [hl] at hm
    exact h5 m hm
  · intro i pat hp hne hs
    rw [hn]
    exact h6 i pat hp hne hs

theorem LInv.shape {trie nodes : List acNode} {L : Nat → List Nat} {patterns : List Str}
    {S : List Nat} {k : Nat} (hI : LInv trie nodes L patterns S)
    (hT : TrieInv trie L patterns k) : Shape nodes L :=
  hT.shape.of_sameShape hI.same

theorem LInv.keys {trie nodes : List acNode} {L : Nat → List Nat} {patterns : List Str}
    {S : List Nat} (hI : LInv trie nodes L patterns S) (hk : KeysNodup trie) :
    KeysNodup nodes :=
  keysNodup_of_sameShape hI.same hk

/-- The loop `for failNode != nil` finds the longest proper suffix with a child
on `r`, if there is one. -/
theorem walkFail_full {trie nodes : List acNode} {L : Nat → List Nat} {patterns : List Str}
    {S : List Nat} {k : Nat} (hT : TrieInv trie L patterns k) (hk : KeysNodup trie)
    (hI : LInv trie nodes L patterns S) (h0 : 0 ∉ S) (r : Nat) (w : List Nat)
    (hlvl : ∀ m, 0 < m → m < nodes.length → (L m).length < w.length → m ∈ S) :
    ∀ (fuel : Nat) (fo : Option Nat),
      (∀ f, fo = some f → f < nodes.length ∧ L f <:+ w ∧ (L f).length < w.length ∧
        (L f).length < fuel ∧
        ∀ u, HasChildOn nodes L w r u → (L u).length < w.length →
          (L u).length ≤ (L f).length) →
      (fo = none → ∀ u, HasChildOn nodes L w r u → ¬ (L u).length < w.length) →
      ∃ res, walkFail nodes r fuel fo = .ok res ∧
        (∀ next, res = some next →
          ∃ u, u < nodes.length ∧ L u <:+ w ∧ (L u).length < w.length ∧
            (getNode nodes u).children.lookup r = some next ∧
            ∀ v, HasChildOn nodes L w r v → (L v).length < w.length →
              (L v).length ≤ (L u).length) ∧
        (res = none → ∀ u, HasChildOn nodes L w r u → ¬ (L u).length < w.length) := by
  have hS := hI.shape hT
  have hkn := hI.keys hk
  intro fuel
  induction fuel with
  | zero =>
    intro fo h1 h2
    cases fo with
    | none => exact ⟨none, rfl, by simp, fun _ => h2 rfl⟩
    | some f => have := (h1 f rfl).2.2.2.1; omega
  | succ fuel ih =>
    intro fo h1 h2
    cases fo with
    | none => exact ⟨none, rfl, by simp, fun _ => h2 rfl⟩
    | some f =>
      obtain ⟨a1, a2, a3, a4, a5⟩ := h1 f rfl
      rw [walkFail]
      cases hl : (getNode nodes f).children.lookup r with
      | some next =>
        refine ⟨some next, rfl, ?_, by simp⟩
        intro n hn
        simp only [Option.some.injEq] at hn
        subst hn
        exact ⟨f, a1, a2, a3, hl, a5⟩
      | none =>
        dsimp only
        -- a node with a child on `r` is strictly shorter than `f`
        have hshort : ∀ u, HasChildOn nodes L w r u → (L u).length < w.length →
            (L u).length < (L f).length := by
          intro u hu hlen
          have hle := a5 u hu hlen
          rcases Nat.lt_or_ge (L u).length (L f).length with c | c
          · exact c
          · exfalso
            have hsuf := List.suffix_of_suffix_length_le hu.2.1 a2 hle
            have heq := hsuf.eq_of_length (by omega)
            have := label_inj hS hkn u f hu.1 a1 heq
            subst this
            exact hu.2.2 hl
        apply ih
        · intro f2 hf2
          have hf0 : f ≠ 0 := by
            intro e
            subst e
            have hr : getNode nodes 0 = getNode trie 0 := hI.fresh 0 h0
            rw [hr, hT.noFail 0] at hf2
            simp at hf2
          have hfS : f ∈ S := hlvl f (Nat.pos_of_ne_zero hf0) a1 a3
          obtain ⟨⟨f3, b1, b2, b3, b4, b5⟩, _⟩ := hI.ok f hfS
          rw [b1] at hf2
          simp only [Option.some.injEq] at hf2
          subst hf2
          refine ⟨b2, b3.trans a2, by omega, by omega, ?_⟩
          intro u hu hlen
          have hlt := hshort u hu hlen
          exact b5 u hu.1 (List.suffix_of_suffix_length_le hu.2.1 a2 (by omega)) hlt
        · intro hnone u hu hlen
          have hlt := hshort u hu hlen
          by_cases hf0 : f = 0
          · subst hf0
            rw [hS.root] at hlt
            simp at hlt
          · have hfS : f ∈ S := hlvl f (Nat.pos_of_ne_zero hf0) a1 a3
            obtain ⟨⟨f3, b1, _⟩, _⟩ := hI.ok f hfS
            rw [b1] at hnone
            simp at hnone

theorem mem_merged {own merged : List Nat} {i : Nat} {P : Prop}
    (h : i ∈ own ∨ (P ∧ i ∈ merged)) :
    i ∈ (if merged ≠ [] then own ++ merged else own) := by
  split_ifs with c
  · rcases h with h | h
    · exact List.mem_append_left _ h
    · exact List.mem_append_right _ h.2
  · have : merged = [] := by simpa using c
    subst this
    rcases h with h | h
    · exact h
    · simp at h

/-- Linking a child with the longest proper suffix of its label keeps the
invariant. -/
theorem linkInv_set {trie nodes : List acNode} {L : Nat → List Nat} {patterns : List Str}
    {S : List Nat} {k : Nat} (hT : TrieInv trie L patterns k) (hk : KeysNodup trie)
    (hOwn : OwnOutputs trie patterns patterns.length)
    (hI : LInv trie nodes L patterns S) {child fl : Nat} (hch : child < nodes.length)
    (hnew : child ∉ S) (hfl : LongestSuffix nodes L child fl)
    (hflS : 0 < fl → fl ∈ S) (out : List Nat)
    (hout : ∀ i, i ∈ (getNode nodes child).output ∨
      (0 < fl ∧ i ∈ (getNode nodes fl).output) → i ∈ out) :
    LInv trie (nodes.set child { getNode nodes child with fail := some fl, output := out })
      L patterns (S ++ [child]) := by
  have hS := hI.shape hT
  have hkn := hI.keys hk
  have hss : SameShape nodes (nodes.set child { getNode nodes child with
      fail := some fl, output := out }) := sameShape_set rfl
  refine ⟨hI.same.trans hss, ?_, ?_⟩
  · intro n hn
    simp only [List.mem_append, List.mem_singleton, not_or] at hn
    rw [getNode_set, if_neg (fun c => hn.2 c.1)]
    exact hI.fresh n hn.1
  · intro n hn
    rcases List.mem_append.mp hn with hn | hn
    · have hne : n ≠ child := fun e => hnew (e ▸ hn)
      exact linkedAt_congr (List.length_set _ _ _) (by
        rw [getNode_set, if_neg (fun c => hne c.1)]) (hI.ok n hn)
    · rw [List.mem_singleton] at hn
      subst hn
      have hget : getNode (nodes.set n { getNode nodes n with fail := some fl, output := out }) n
          = { getNode nodes n with fail := some fl, output := out } := by
        rw [getNode_set, if_pos ⟨rfl, hch⟩]
      obtain ⟨f1, f2, f3, f4⟩ := hfl
      refine ⟨⟨fl, by rw [hget], by rw [List.length_set]; exact f1, f2, f3, ?_⟩, ?_⟩
      · intro m hm
        rw [List.length_set] at hm
        exact f4 m hm
      · intro i pat hp hne hsuf
        rw [hget]
        apply hout
        have hi : i < patterns.length := by
          rcases Nat.lt_or_ge i patterns.length with c | c
          · exact c
          · rw [List.getElem?_eq_none c] at hp
            simp at hp
        obtain ⟨x, hx1, hx2⟩ := hOwn i pat hi hp
        rw [← descend_sameShape hI.same] at hx1
        obtain ⟨hx3, hx4⟩ := descend_label hS _ _ _ hS.pos hx1
        rw [hS.root, List.nil_append] at hx4
        rcases Nat.lt_or_ge (runesOf pat).length (L n).length with c | c
        · -- a proper suffix: the fail link lists it
          have hle := f4 x hx3 (by rw [hx4]; exact hsuf) (by rw [hx4]; exact c)
          have hsf : L x <:+ L fl :=
            List.suffix_of_suffix_length_le (by rw [hx4]; exact hsuf) f2 hle
          have hflpos : 0 < fl := by
            rcases Nat.eq_zero_or_pos fl with e | e
            · subst e
              rw [hS.root] at hsf
              have := List.eq_nil_of_suffix_nil hsf
              rw [hx4] at this
              exact absurd this hne
            · exact e
          obtain ⟨_, g⟩ := hI.ok fl (hflS hflpos)
          exact Or.inr ⟨hflpos, g i pat hp hne (by rw [← hx4]; exact hsf)⟩
        · -- the label itself: the own output lists it
          have heq : runesOf pat = L n := hsuf.eq_of_length_le c
          have hxn : x = n := label_inj hS hkn x n hx3 hch (by rw [hx4, heq])
          subst hxn
          rw [hI.fresh x hnew]
          exact Or.inl hx2

/-- The body of the loop over the children of `current` links the child
completely. -/
theorem linkChild_full {trie nodes : List acNode} {L : Nat → List Nat} {patterns : List Str}
    {S : List Nat} {k : Nat} (hT : TrieInv trie L patterns k) (hk : KeysNodup trie)
    (hOwn : OwnOutputs trie patterns patterns.length)
    (hI : LInv trie nodes L patterns S) (h0 : 0 ∉ S) {current r child : Nat}
    (hcS : current ∈ S) (hc : (r, child) ∈ (getNode nodes current).children)
    (hnew : child ∉ S)
    (hlvl : ∀ m, 0 < m → m < nodes.length → (L m).length ≤ (L current).length → m ∈ S)
    (queue : List Nat) :
    ∃ nodes2, linkChild current (nodes, queue) (r, child) = .ok (nodes2, queue ++ [child]) ∧
      LInv trie nodes2 L patterns (S ++ [child]) := by
  have hS := hI.shape hT
  have hkn := hI.keys hk
  obtain ⟨e1, e2, e3⟩ := hS.edge current r child hc
  have hcur : current < nodes.length := mem_children_lt hc
  obtain ⟨⟨f0, c1, c2, c3, c4, c5⟩, _⟩ := hI.ok current hcS
  obtain ⟨res, hw, hres1, hres2⟩ := walkFail_full hT hk hI h0 r (L current)
    (fun m a b c => hlvl m a b (by omega)) nodes.length (getNode nodes current).fail (by
      intro f hf
      rw [c1] at hf
      simp only [Option.some.injEq] at hf
      subst hf
      have := hS.label_le f0 c2
      exact ⟨c2, c3, c4, by omega, fun u hu hlen => c5 u hu.1 hu.2.1 hlen⟩) (by
      intro hn
      rw [c1] at hn
      simp at hn)
  have hcf : (getNode nodes child).fail = none := by
    rw [hI.fresh child hnew]
    exact hT.noFail child
  -- a node whose label is a non-empty proper suffix of the child's has a parent with a
  -- child on `r`
  have hparent : ∀ m, m < nodes.length → L m <:+ L child → (L m).length < (L child).length →
      L m ≠ [] → ∃ p, HasChildOn nodes L (L current) r p ∧
        (L p).length < (L current).length ∧ (L m).length = (L p).length + 1 := by
    intro m hm hsuf hlen hne
    have hm0 : 0 < m := by
      rcases Nat.eq_zero_or_pos m with e | e
      · subst e
        exact absurd hS.root hne
      · exact e
    obtain ⟨p, r2, hp⟩ := hS.parent m hm0 hm
    obtain ⟨g1, _, g3⟩ := hS.edge p r2 m hp
    rw [e3, g3] at hsuf hlen
    rcases suffix_snoc_inv hsuf with h | ⟨y, hy1, hy2⟩
    · simp at h
    · obtain ⟨q1, q2⟩ := List.append_inj' hy1 rfl
      simp only [List.cons.injEq, and_true] at q2
      subst q2
      subst q1
      refine ⟨p, ⟨by omega, hy2, ?_⟩, ?_, by rw [g3]; simp⟩
      · rw [lookup_of_mem hkn hp]
        simp
      · simp only [List.length_append, List.length_singleton] at hlen
        omega
  cases res with
  | some next =>
    obtain ⟨u, u1, u2, u3, u4, u5⟩ := hres1 next rfl
    obtain ⟨_, n2, n3⟩ := hS.edge u r next (lookup_mem u4)
    have hfl : LongestSuffix nodes L child next := by
      refine ⟨n2, by rw [e3, n3]; exact suffix_snoc u2 r, by
        rw [e3, n3]; simp only [List.length_append, List.length_singleton]; omega, ?_⟩
      intro m hm hsuf hlen
      by_cases hne : L m = []
      · rw [hne]; simp
      · obtain ⟨p, p1, p2, p3⟩ := hparent m hm hsuf hlen hne
        have := u5 p p1 p2
        rw [p3, n3]
        simp only [List.length_append, List.length_singleton]
        omega
    refine ⟨_, ?_, linkInv_set hT hk hOwn hI e2 hnew hfl (fun hpos =>
      hlvl next hpos n2 (by
        have := hfl.2.2.1
        rw [e3] at this
        simp only [List.length_append, List.length_singleton] at this
        omega)) _ (fun i hi => mem_merged hi)⟩
    unfold linkChild
    dsimp only
    rw [hw, bind_ok]
    rfl
  | none =>
    have hnoc := hres2 rfl
    have hfl : LongestSuffix nodes L child root := by
      refine ⟨hS.pos, by rw [root, hS.root]; exact List.nil_suffix, by
        rw [root, hS.root, e3]; simp, ?_⟩
      intro m hm hsuf hlen
      by_cases hne : L m = []
      · rw [hne]; simp
      · obtain ⟨p, p1, p2, _⟩ := hparent m hm hsuf hlen hne
        exact absurd p2 (hnoc p p1)
    refine ⟨_, ?_, linkInv_set hT hk hOwn hI e2 hnew hfl (fun hpos => by
      simp [root] at hpos) _ (fun i hi => mem_merged hi)⟩
    unfold linkChild
    dsimp only
    rw [hw, bind_ok]
    simp only [hcf]
    rfl

theorem linkChildren_full {trie : List acNode} {L : Nat → List Nat} {patterns : List Str}
    {k : Nat} (hT : TrieInv trie L patterns k) (hk : KeysNodup trie)
    (hOwn : OwnOutputs trie patterns patterns.length) (current : Nat) :
    ∀ (ch : List (Nat × Nat)) (nodes : List acNode) (queue S : List Nat),
      LInv trie nodes L patterns S → 0 ∉ S → current ∈ S →
      (∀ rc ∈ ch, rc ∈ (getNode nodes current).children) →
      (ch.map Prod.snd).Nodup → (∀ rc ∈ ch, rc.2 ∉ S) →
      (∀ m, 0 < m → m < nodes.length → (L m).length ≤ (L current).length → m ∈ S) →
      ∃ nodes2, ch.foldlM (linkChild current) (nodes, queue) =
          .ok (nodes2, queue ++ ch.map Prod.snd) ∧
        LInv trie nodes2 L patterns (S ++ ch.map Prod.snd) := by
  intro ch
  induction ch with
  | nil =>
    intro nodes queue S hI _ _ _ _ _ _
    exact ⟨nodes, by simp [List.foldlM, pure_eq_ok], by simpa using hI⟩
  | cons rc ch ih =>
    intro nodes queue S hI h0 hcS hmem hnd hnew hlvl
    obtain ⟨r, child⟩ := rc
    simp only [List.map_cons, List.nodup_cons] at hnd
    obtain ⟨n1, h1, h2⟩ := linkChild_full hT hk hOwn hI h0 hcS
      (hmem (r, child) (List.mem_cons_self _ _)) (hnew (r, child) (List.mem_cons_self _ _))
      hlvl queue
    have hss : SameShape nodes n1 := by
      have a := hI.same
      have b := h2.same
      exact ⟨by rw [b.1, a.1], fun p => by rw [b.2, a.2]⟩
    obtain ⟨n2, g1, g2⟩ := ih n1 (queue ++ [child]) (S ++ [child]) h2
      (by
        intro hc
        rcases List.mem_append.mp hc with hc | hc
        · exact h0 hc
        · rw [List.mem_singleton] at hc
          have := (hI.shape hT).edge current r child (hmem (r, child) (List.mem_cons_self _ _))
          omega)
      (List.mem_append_left _ hcS)
      (by
        intro x hx
        rw [hss.2]
        exact hmem x (List.mem_cons_of_mem _ hx))
      hnd.2
      (by
        intro x hx hc
        rcases List.mem_append.mp hc with hc | hc
        · exact hnew x (List.mem_cons_of_mem _ hx) hc
        · rw [List.mem_singleton] at hc
          exact hnd.1 (hc ▸ List.mem_map_of_mem _ hx))
      (by
        intro m a b c
        rw [hss.1] at b
        exact List.mem_append_left _ (hlvl m a b c))
    refine ⟨n2, ?_, ?_⟩
    · rw [List.foldlM_cons, h1, bind_ok, g1]
      simp
    · simpa using g2

theorem linkRoot_full {trie : List acNode} {L : Nat → List Nat} {patterns : List Str}
    {k : Nat} (hT : TrieInv trie L patterns k) (hk : KeysNodup trie)
    (hOwn : OwnOutputs trie patterns patterns.length) :
    ∀ (ch : List (Nat × Nat)) (nodes : List acNode) (queue S : List Nat),
      LInv trie nodes L patterns S →
      (∀ rc ∈ ch, rc ∈ (getNode nodes root).children) →
      (ch.map Prod.snd).Nodup → (∀ rc ∈ ch, rc.2 ∉ S) →
      LInv trie (ch.foldl linkRootChild (nodes, queue)).1 L patterns (S ++ ch.map Prod.snd) := by
  intro ch
  induction ch with
  | nil =>
    intro nodes queue S hI _ _ _
    simpa using hI
  | cons rc ch ih =>
    intro nodes queue S hI hmem hnd hnew
    obtain ⟨r, child⟩ := rc
    simp only [List.map_cons, List.nodup_cons] at hnd
    have hS := hI.shape hT
    have hc := hmem (r, child) (List.mem_cons_self _ _)
    obtain ⟨e1, e2, e3⟩ := hS.edge root r child hc
    have hfl : LongestSuffix nodes L child root := by
      refine ⟨hS.pos, by rw [root, hS.root]; exact List.nil_suffix, by
        rw [e3, root, hS.root]; simp, ?_⟩
      intro m _ _ hlen
      rw [e3, root, hS.root] at hlen
      simp only [List.nil_append, List.length_singleton] at hlen
      omega
    have h1 : LInv trie (nodes.set child { getNode nodes child with fail := some root }) L
        patterns (S ++ [child]) :=
      linkInv_set hT hk hOwn hI e2 (hnew (r, child) (List.mem_cons_self _ _)) hfl
        (fun hpos => by simp [root] at hpos) (getNode nodes child).output (by
          intro i hi
          rcases hi with hi | hi
          · exact hi
          · have := hi.1
            simp [root] at this)
    have hss : SameShape nodes (nodes.set child { getNode nodes child with
        fail := some root }) := sameShape_set rfl
    have hst : linkRootChild (nodes, queue) (r, child) =
        (nodes.set child { getNode nodes child with fail := some root }, queue ++ [child]) := rfl
    rw [List.foldl_cons, hst]
    have := ih (nodes.set child { getNode nodes child with fail := some root })
      (queue ++ [child]) (S ++ [child]) h1
      (by
        intro x hx
        rw [hss.2]
        exact hmem x (List.mem_cons_of_mem _ hx))
      hnd.2
      (by
        intro x hx hcx
        rcases List.mem_append.mp hcx with hcx | hcx
        · exact hnew x (List.mem_cons_of_mem _ hx) hcx
        · rw [List.mem_singleton] at hcx
          exact hnd.1 (hcx ▸ List.mem_map_of_mem _ hx))
    simpa using this

/-- The nodes no deeper than the head of the queue have all been reached. -/
theorem BInv.level {nodes : List acNode} {L : Nat → List Nat} {patterns : List Str}
    {done q : List Nat} {current : Nat} (h : BInv nodes L patterns done (current :: q))
    (hs : (done ++ current :: q).Pairwise (fun a b => (L a).length ≤ (L b).length)) :
    ∀ m, 0 < m → m < nodes.length → (L m).length ≤ (L current).length →
      m ∈ done ++ current :: q := by
  intro m
  induction m using Nat.strong_induction_on with
  | _ m ih =>
    intro h0 hm hlen
    obtain ⟨p, r, hp⟩ := h.shape.parent m h0 hm
    obtain ⟨e1, _, e3⟩ := h.shape.edge p r m hp
    have hpl : (L p).length < (L current).length := by
      rw [e3] at hlen
      simp only [List.length_append, List.length_singleton] at hlen
      omega
    have hpd : p = 0 ∨ p ∈ done := by
      rcases Nat.eq_zero_or_pos p with e | e
      · exact Or.inl e
      · right
        have hin := ih p e1 e (by omega) (by omega)
        rcases List.mem_append.mp hin with c | c
        · exact c
        · exfalso
          have hq := (List.pairwise_append.mp hs).2.1
          rcases List.mem_cons.mp c with c | c
          · subst c; omega
          · have := (List.pairwise_cons.mp hq).1 p c
            omega
    exact h.closed p hpd (r, m) hp

theorem BInv.child_fresh {nodes : List acNode} {L : Nat → List Nat} {patterns : List Str}
    {done q : List Nat} {current : Nat} (h : BInv nodes L patterns done (current :: q)) :
    ∀ rc ∈ (getNode nodes current).children, rc.2 ∉ done ++ current :: q := by
  intro x hx hold
  have hcur : current ∈ done ++ current :: q := by simp
  have hcur0 := (h.range current hcur).1
  have hcurnd : current ∉ done := by
    have := h.nodup
    rw [List.nodup_append] at this
    intro hd
    exact this.2.2 hd (List.mem_cons_self _ _)
  obtain ⟨p, r, hp, hpd⟩ := h.fromParent x.2 hold
  have := h.shape.uniq p current r x.1 x.2 hp hx
  subst this
  rcases hpd with e | e
  · omega
  · exact hcurnd e

theorem BInv.sorted_step {nodes : List acNode} {L : Nat → List Nat} {patterns : List Str}
    {done q : List Nat} {current : Nat} (h : BInv nodes L patterns done (current :: q))
    (hs : (done ++ current :: q).Pairwise (fun a b => (L a).length ≤ (L b).length))
    {ch : List (Nat × Nat)} (hch : ∀ rc ∈ ch, rc ∈ (getNode nodes current).children) :
    ((done ++ [current]) ++ (q ++ ch.map Prod.snd)).Pairwise
      (fun a b => (L a).length ≤ (L b).length) := by
  have hassoc : (done ++ [current]) ++ (q ++ ch.map Prod.snd) =
      (done ++ current :: q) ++ ch.map Prod.snd := by simp
  have hdepth : ∀ b ∈ ch.map Prod.snd, (L b).length = (L current).length + 1 := by
    intro b hb
    obtain ⟨x, hx, rfl⟩ := List.mem_map.mp hb
    obtain ⟨_, _, e⟩ := h.shape.edge current x.1 x.2 (hch x hx)
    rw [e]
    simp
  rw [hassoc, List.pairwise_append]
  refine ⟨hs, ?_, ?_⟩
  · rw [List.pairwise_iff_forall_sublist]
    intro a b hab
    have ha : a ∈ ch.map Prod.snd := hab.subset (by simp)
    have hb : b ∈ ch.map Prod.snd := hab.subset (by simp)
    rw [hdepth a ha, hdepth b hb]
  · intro a ha b hb
    rw [hdepth b hb]
    have hsplit := List.pairwise_append.mp hs
    rcases List.mem_append.mp ha with c | c
    · have := hsplit.2.2 a c current (List.mem_cons_self _ _)
      omega
    · rcases List.mem_cons.mp c with c | c
      · subst c; omega
      · obtain ⟨p, r, hp, hpd⟩ := h.fromParent a (List.mem_append_right _ (List.mem_cons_of_mem _ c))
        obtain ⟨_, _, e⟩ := h.shape.edge p r a hp
        rw [e]
        simp only [List.length_append, List.length_singleton]
        rcases hpd with e0 | e0
        · subst e0
          rw [h.shape.root]
          simp
        · have := hsplit.2.2 p e0 current (List.mem_cons_self _ _)
          omega

theorem bfs_full {trie : List acNode} {L : Nat → List Nat} {patterns : List Str} {k : Nat}
    {ord : MapOrder} (hord : IsMapOrder ord) (hT : TrieInv trie L patterns k)
    (hk : KeysNodup trie) (hOwn : OwnOutputs trie patterns patterns.length) :
    ∀ (fuel : Nat) (done queue : List Nat) (nodes : List acNode),
      BInv nodes L patterns done queue → LInv trie nodes L patterns (done ++ queue) →
      (done ++ queue).Pairwise (fun a b => (L a).length ≤ (L b).length) →
      nodes.length ≤ fuel + done.length + 1 →
      ∃ nodes2 S2, bfs ord fuel queue nodes = .ok nodes2 ∧ LInv trie nodes2 L patterns S2 ∧
        0 ∉ S2 ∧ ∀ n, 0 < n → n < nodes.length → n ∈ S2 := by
  intro fuel
  induction fuel with
  | zero =>
    intro done queue nodes h hI hs hf
    rcases queue with _ | ⟨current, q⟩
    · refine ⟨nodes, done, rfl, by simpa using hI, ?_, fun n h0 hn => h.all_done n h0 hn⟩
      intro hc
      have := (h.range 0 (by simpa using hc)).1
      omega
    · exfalso
      rcases nodup_range_length h.nodup h.range with c | c
      · simp only [List.length_append, List.length_cons] at c
        omega
      · simp at c
  | succ fuel ih =>
    intro done queue nodes h hI hs hf
    rcases queue with _ | ⟨current, q⟩
    · refine ⟨nodes, done, rfl, by simpa using hI, ?_, fun n h0 hn => h.all_done n h0 hn⟩
      intro hc
      have := (h.range 0 (by simpa using hc)).1
      omega
    · have hperm := hord (getNode nodes current).children
      obtain ⟨n1, h1, h2, h3, h4, h5⟩ := linkChildren_spec current
        (ord (getNode nodes current).children) nodes q h.shape h.sound
        (fun _ hx => hperm.mem_iff.mp hx)
      obtain ⟨n1b, f1, f2⟩ := linkChildren_full hT hk hOwn current
        (ord (getNode nodes current).children) nodes q (done ++ current :: q) hI
        (by
          intro hc
          have := (h.range 0 hc).1
          omega)
        (by simp)
        (fun _ hx => hperm.mem_iff.mp hx)
        ((hperm.map Prod.snd).nodup_iff.mpr (h.shape.nodupChildren current))
        (fun x hx => h.child_fresh x (hperm.mem_iff.mp hx))
        (h.level hs)
      rw [h1] at f1
      simp only [Except.ok.injEq, Prod.mk.injEq, and_true] at f1
      subst f1
      have hB := h.step hperm h2 h3 h4 h5
      have hassoc : (done ++ [current]) ++ (q ++ (ord (getNode nodes current).children).map
          Prod.snd) = (done ++ current :: q) ++
          (ord (getNode nodes current).children).map Prod.snd := by simp
      obtain ⟨n2, S2, g1, g2, g3, g4⟩ := ih (done ++ [current])
        (q ++ (ord (getNode nodes current).children).map Prod.snd) n1 hB
        (by rw [hassoc]; exact f2)
        (h.sorted_step hs (fun _ hx => hperm.mem_iff.mp hx))
        (by rw [h2.1, List.length_append, List.length_singleton]; omega)
      refine ⟨n2, S2, ?_, g2, g3, ?_⟩
      · rw [bfs, h1, bind_ok]
        exact g1
      · intro n h0 hn
        exact g4 n h0 (by rw [h2.1]; exact hn)

theorem linvInit {trie : List acNode} {L : Nat → List Nat} {patterns : List Str} :
    LInv trie trie L patterns [] :=
  ⟨SameShape.refl _, fun _ _ => rfl, fun n hn => by simp at hn⟩

/-- The fail links and outputs that `buildFailLinks` builds on a trie are
complete, in whatever order the maps are visited. -/
theorem buildFailLinks_full {trie : List acNode} {L : Nat → List Nat} {patterns : List Str}
    {ord : MapOrder} (hord : IsMapOrder ord)
    (hT : TrieInv trie L patterns patterns.length) (hk : KeysNodup trie)
    (hOwn : OwnOutputs trie patterns patterns.length) :
    ∃ nodes2, buildFailLinks ord trie = .ok nodes2 ∧ Shape nodes2 L ∧
      Sound nodes2 L patterns ∧ Complete nodes2 L patterns := by
  have hp := hord (getNode trie root).children
  obtain ⟨g1, g2, g3, g4, g5⟩ := linkRoot_spec (ord (getNode trie root).children) trie []
    hT.shape hT.sound (fun _ hx => hp.mem_iff.mp hx)
  have hnd : ((ord (getNode trie root).children).map Prod.snd).Nodup :=
    (hp.map Prod.snd).nodup_iff.mpr (hT.shape.nodupChildren root)
  have hI := linkRoot_full hT hk hOwn (ord (getNode trie root).children) trie [] []
    linvInit (fun _ hx => hp.mem_iff.mp hx) hnd (by simp)
  have hB : BInv ((ord (getNode trie root).children).foldl linkRootChild (trie, [])).1 L
      patterns [] ((ord (getNode trie root).children).foldl linkRootChild (trie, [])).2 := by
    rw [g1]
    refine ⟨hT.shape.of_sameShape g2, g3, ?_, ?_, ?_, ?_, ?_⟩
    · simpa using hnd
    · intro n hn
      simp only [List.nil_append, List.mem_map] at hn
      obtain ⟨x, hx, rfl⟩ := hn
      obtain ⟨e1, e2, _⟩ := hT.shape.edge root x.1 x.2 (hp.mem_iff.mp hx)
      rw [g2.1]
      exact ⟨by omega, e2⟩
    · intro n hn
      simp only [List.nil_append, List.mem_map] at hn
      obtain ⟨x, hx, rfl⟩ := hn
      exact g4 x hx
    · intro n hn
      simp only [List.nil_append, List.mem_map] at hn
      obtain ⟨x, hx, rfl⟩ := hn
      exact ⟨root, x.1, by rw [g2.2]; exact hp.mem_iff.mp hx, Or.inl rfl⟩
    · intro p hp2 rc hrc
      rcases hp2 with e | e
      · subst e
        rw [g2.2] at hrc
        simp only [List.nil_append, List.mem_map]
        exact ⟨rc, hp.mem_iff.mpr hrc, rfl⟩
      · simp at e
  have hsorted : (([] : List Nat) ++
      ((ord (getNode trie root).children).foldl linkRootChild (trie, [])).2).Pairwise
      (fun a b => (L a).length ≤ (L b).length) := by
    rw [g1]
    simp only [List.nil_append]
    rw [List.pairwise_iff_forall_sublist]
    intro a b hab
    have hd : ∀ c ∈ (ord (getNode trie root).children).map Prod.snd, (L c).length = 1 := by
      intro c hc
      obtain ⟨x, hx, rfl⟩ := List.mem_map.mp hc
      obtain ⟨_, _, e⟩ := hT.shape.edge root x.1 x.2 (hp.mem_iff.mp hx)
      rw [e, root, hT.shape.root]
      simp
    rw [hd a (hab.subset (by simp)), hd b (hab.subset (by simp))]
  obtain ⟨n2, k1, k2, k3, k4⟩ := bfs_spec hord trie.length [] _ _ hB (by rw [g2.1]; simp)
  obtain ⟨n2b, S2, m1, m2, m3, m4⟩ := bfs_full hord hT hk hOwn trie.length [] _ _ hB
    (by rw [g1]; exact hI) hsorted (by rw [g2.1]; simp)
  rw [k1] at m1
  simp only [Except.ok.injEq] at m1
  subst m1
  have hss := g2.trans k2
  have hS2 : Shape n2 L := hT.shape.of_sameShape hss
  refine ⟨n2, ?_, hS2, k3, ?_⟩
  · unfold buildFailLinks
    exact k1
  · refine ⟨keysNodup_of_sameShape hss hk, ?_, ?_, ?_⟩
    · intro i pat hpat
      have hi : i < patterns.length := by
        rcases Nat.lt_or_ge i patterns.length with c | c
        · exact c
        · rw [List.getElem?_eq_none c] at hpat
          simp at hpat
      obtain ⟨x, hx1, _⟩ := hOwn i pat hi hpat
      rw [← descend_sameShape hss] at hx1
      obtain ⟨a, b⟩ := descend_label hS2 _ _ _ hS2.pos hx1
      rw [hS2.root, List.nil_append] at b
      exact ⟨x, a, b⟩
    · rw [m2.fresh root m3]
      exact hT.noFail root
    · intro n h0 hn
      rw [hss.1] at hn
      rw [← g2.1] at hn
      exact m2.ok n (m4 n h0 hn)

/-- The construction of the automaton never faults, and what it builds is well
formed and complete, in whatever order the maps are visited. -/
theorem newAhoCorasick_full {ord : MapOrder} (hord : IsMapOrder ord) (patterns : List Str) :
    ∃ ac, newAhoCorasick ord patterns = .ok ac ∧ ac.patterns = patterns ∧ ACFull ac := by
  obtain ⟨L, hT⟩ := buildTrie_inv patterns
  obtain ⟨hk, hOwn⟩ := buildTrie_full patterns
  obtain ⟨nodes2, h1, h2, h3, h4⟩ := buildFailLinks_full hord hT hk hOwn
  refine ⟨{ nodes := nodes2, patterns := patterns }, ?_, rfl, L, h2, h3, h4⟩
  unfold newAhoCorasick
  rw [h1, bind_ok, pure_eq_ok]

/-- The automaton that `init` builds is complete. -/
theorem init_full {ord : MapOrder} (hord : IsMapOrder ord) {dict : List Str} {g : Globals}
    (hg : init ord dict = .ok g) : ACFull g.profanityMatcher := by
  obtain ⟨ac, h1, _, h3⟩ := newAhoCorasick_full hord (initLoop dict ([], [])).1
  unfold init at hg
  dsimp only at hg
  rw [h1, bind_ok, pure_eq_ok] at hg
  simp only [Except.ok.injEq] at hg
  subst hg
  exact h3

/-! ## Completeness of the scan -/

theorem ACFull.inv {ac : ahoCorasick} (h : ACFull ac) : ACInv ac := by
  obtain ⟨L, hS, hSo, hC⟩ := h
  refine ⟨L, hS, hSo, ?_⟩
  intro n h0 hn
  obtain ⟨⟨f, hf, _⟩, _⟩ := hC.linked n h0 hn
  rw [hf]
  simp

/-- The loop `for node != ac.root` of `Search` stops at the longest suffix that
has a child on `r`, or at the root. -/
theorem walkToChild_full {nodes : List acNode} {L : Nat → List Nat} {patterns : List Str}
    (hS : Shape nodes L) (hC : Complete nodes L patterns) (r : Nat) (pre : List Nat) :
    ∀ (fuel node : Nat), node < nodes.length → (L node).length < fuel → L node <:+ pre →
      (∀ u, HasChildOn nodes L pre r u → (L u).length ≤ (L node).length) →
      ∃ node2, walkToChild nodes r fuel node = .ok node2 ∧ node2 < nodes.length ∧
        L node2 <:+ pre ∧
        (node2 = root ∨ (getNode nodes node2).children.lookup r ≠ none) ∧
        ∀ u, HasChildOn nodes L pre r u → (L u).length ≤ (L node2).length := by
  intro fuel
  induction fuel with
  | zero => intro node _ h; omega
  | succ fuel ih =>
    intro node hn hf hsuf hmax
    unfold walkToChild
    by_cases h0 : node = root
    · rw [if_pos h0]
      exact ⟨node, rfl, hn, hsuf, Or.inl h0, hmax⟩
    · rw [if_neg h0]
      dsimp only
      cases hlk : (getNode nodes node).children.lookup r with
      | some c =>
        exact ⟨node, rfl, hn, hsuf, Or.inr (by rw [hlk]; simp), hmax⟩
      | none =>
        dsimp only
        obtain ⟨⟨f, hfl, f1, f2, f3, f4⟩, _⟩ := hC.linked node (Nat.pos_of_ne_zero h0) hn
        rw [hfl]
        dsimp only
        apply ih f f1 (by omega) (f2.trans hsuf)
        intro u hu
        have hle := hmax u hu
        rcases Nat.lt_or_ge (L u).length (L node).length with c | c
        · exact f4 u hu.1 (List.suffix_of_suffix_length_le hu.2.1 hsuf hle) c
        · exfalso
          have hs2 := List.suffix_of_suffix_length_le hu.2.1 hsuf hle
          have heq := hs2.eq_of_length (by omega)
          have := label_inj hS hC.keys u node hu.1 hn heq
          subst this
          exact hu.2.2 hlk

/-- The transition on the rune `r` leads from the state after `pre` to the state
after `pre ++ [r]`. -/
theorem isState_step {nodes : List acNode} {L : Nat → List Nat} {patterns : List Str}
    (hS : Shape nodes L) (hC : Complete nodes L patterns) {pre : List Nat} {node : Nat}
    (hst : IsState nodes L pre node) (r : Nat) :
    ∃ n1, walkToChild nodes r nodes.length node = .ok n1 ∧
      IsState nodes L (pre ++ [r]) (match (getNode nodes n1).children.lookup r with
        | some next => next
        | none => root) := by
  obtain ⟨s1, s2, s3⟩ := hst
  obtain ⟨n1, w1, w2, w3, w4, w5⟩ := walkToChild_full hS hC r pre nodes.length node s1
    (by have := hS.label_le node s1; omega) s2 (fun u hu => s3 u hu.1 hu.2.1)
  refine ⟨n1, w1, ?_⟩
  -- a node whose label is a non-empty suffix of `pre ++ [r]` has a parent with a child on `r`
  have hparent : ∀ m, m < nodes.length → L m <:+ pre ++ [r] → L m ≠ [] →
      ∃ p, HasChildOn nodes L pre r p ∧ (L m).length = (L p).length + 1 := by
    intro m hm hsuf hne
    have hm0 : 0 < m := by
      rcases Nat.eq_zero_or_pos m with e | e
      · subst e
        exact absurd hS.root hne
      · exact e
    obtain ⟨p, r2, hp⟩ := hS.parent m hm0 hm
    obtain ⟨g1, _, g3⟩ := hS.edge p r2 m hp
    rw [g3] at hsuf
    rcases suffix_snoc_inv hsuf with h | ⟨y, hy1, hy2⟩
    · simp at h
    · obtain ⟨q1, q2⟩ := List.append_inj' hy1 rfl
      simp only [List.cons.injEq, and_true] at q2
      subst q2
      subst q1
      refine ⟨p, ⟨by omega, hy2, ?_⟩, by rw [g3]; simp⟩
      rw [lookup_of_mem hC.keys hp]
      simp
  cases hlk : (getNode nodes n1).children.lookup r with
  | some next =>
    dsimp only
    obtain ⟨_, e2, e3⟩ := hS.edge n1 r next (lookup_mem hlk)
    refine ⟨e2, by rw [e3]; exact suffix_snoc w3 r, ?_⟩
    intro m hm hsuf
    by_cases hne : L m = []
    · rw [hne]; simp
    · obtain ⟨p, p1, p2⟩ := hparent m hm hsuf hne
      have := w5 p p1
      rw [p2, e3]
      simp only [List.length_append, List.length_singleton]
      omega
  | none =>
    dsimp only
    have hroot : n1 = root := by
      rcases w4 with h | h
      · exact h
      · exact absurd hlk h
    subst hroot
    have hr0 : L root = [] := hS.root
    refine ⟨hS.pos, by rw [hr0]; exact List.nil_suffix, ?_⟩
    intro m hm hsuf
    by_cases hne : L m = []
    · rw [hne]; simp
    · exfalso
      obtain ⟨p, p1, _⟩ := hparent m hm hsuf hne
      have hle := w5 p p1
      rw [hr0] at hle
      have hp0 : L p = L root := by
        rw [hr0]
        exact List.length_eq_zero.mp (by simpa using hle)
      have := label_inj hS hC.keys p root p1.1 hS.pos hp0
      subst this
      exact p1.2.2 hlk

theorem emit_collect_map (ac : ahoCorasick) (endPos : Nat) :
    ∀ (out : List Nat) (acc : List acMatch),
      (∀ i ∈ out, ∃ pat, ac.patterns[i]? = some pat) →
      emit ac (fun m found => (found ++ [m], true)) endPos out acc =
        .ok (acc ++ out.map (fun i =>
          (⟨i, (endPos : Int) - ((ac.patterns.getD i []).length : Int), endPos⟩ : acMatch)),
          true) := by
  intro out
  induction out with
  | nil =>
    intro acc _
    simp [emit]
  | cons i out ih =>
    intro acc h
    obtain ⟨pat, hp⟩ := h i (List.mem_cons_self _ _)
    have hpa : patternAt ac i = .ok pat := by unfold patternAt; rw [hp]
    have hgd : ac.patterns.getD i [] = pat := by
      rw [List.getD_eq_getElem?_getD, hp]
      rfl
    rw [emit, hpa]
    dsimp only
    rw [if_pos rfl, ih _ (fun j hj => h j (List.mem_cons_of_mem _ hj)), List.map_cons, hgd]
    simp

theorem searchLoop_full {ac : ahoCorasick} {L : Nat → List Nat}
    (hS : Shape ac.nodes L) (hSo : Sound ac.nodes L ac.patterns)
    (hC : Complete ac.nodes L ac.patterns) :
    ∀ (rs pre : List Nat) (node : Nat) (acc : List acMatch),
      IsState ac.nodes L pre node →
      ∃ new, searchLoop ac (fun m found => (found ++ [m], true))
          (rangeSpec (stringOfRunes pre).length rs) node acc = .ok (acc ++ new) ∧
        ∀ (k i : Nat) (pat : Str), 0 < k → k ≤ rs.length → ac.patterns[i]? = some pat →
          runesOf pat ≠ [] → runesOf pat <:+ pre ++ rs.take k →
          (⟨i, ((stringOfRunes (pre ++ rs.take k)).length : Int) - (pat.length : Int),
            (stringOfRunes (pre ++ rs.take k)).length⟩ : acMatch) ∈ new := by
  intro rs
  induction rs with
  | nil =>
    intro pre node acc _
    refine ⟨[], by simp [rangeSpec, searchLoop], ?_⟩
    intro k i pat h0 hk
    simp only [List.length_nil] at hk
    omega
  | cons r rs ih =>
    intro pre node acc hst
    obtain ⟨n1, w1, hst1⟩ := isState_step hS hC hst r
    have hnext : ∀ n2, (match (getNode ac.nodes n1).children.lookup r with
        | some next => next
        | none => root) = n2 → IsState ac.nodes L (pre ++ [r]) n2 := by
      intro n2 h2
      rw [← h2]
      exact hst1
    generalize hn2 : (match (getNode ac.nodes n1).children.lookup r with
        | some next => next
        | none => root) = n2 at hnext
    have hst2 := hnext n2 rfl
    have hlen : (stringOfRunes pre).length + (encodeRune r).length =
        (stringOfRunes (pre ++ [r])).length := by
      rw [stringOfRunes_append, List.length_append, stringOfRunes_cons, stringOfRunes_nil,
        List.append_nil]
    -- every non-empty pattern that ends here is in the output of the state
    have hout : ∀ (i : Nat) (pat : Str), ac.patterns[i]? = some pat → runesOf pat ≠ [] →
        runesOf pat <:+ pre ++ [r] → i ∈ (getNode ac.nodes n2).output := by
      intro i pat hp hne hsuf
      obtain ⟨x, hx1, hx2⟩ := hC.own i pat hp
      have hle := hst2.2.2 x hx1 (by rw [hx2]; exact hsuf)
      rw [hx2] at hle
      have hs2 : runesOf pat <:+ L n2 := List.suffix_of_suffix_length_le hsuf hst2.2.1 hle
      have hn0 : 0 < n2 := by
        rcases Nat.eq_zero_or_pos n2 with e | e
        · subst e
          rw [hS.root] at hs2
          exact absurd (List.eq_nil_of_suffix_nil hs2) hne
        · exact e
      exact (hC.linked n2 hn0 hst2.1).2 i pat hp hne hs2
    have hsplit : ∀ k, 0 < k → pre ++ (r :: rs).take k = (pre ++ [r]) ++ rs.take (k - 1) := by
      intro k hk
      obtain ⟨j, rfl⟩ : ∃ j, k = j + 1 := ⟨k - 1, by omega⟩
      simp
    rw [rangeSpec, searchLoop, w1, bind_ok]
    dsimp only
    rw [hn2]
    by_cases hol : (getNode ac.nodes n2).output.length > 0
    · rw [if_pos hol]
      rw [emit_collect_map ac _ (getNode ac.nodes n2).output acc (by
        intro i hi
        obtain ⟨pat, p1, _⟩ := hSo.out n2 i hi
        exact ⟨pat, p1⟩), bind_ok]
      dsimp only
      rw [if_pos rfl, hlen]
      obtain ⟨new2, g1, g2⟩ := ih (pre ++ [r]) n2 (acc ++ (getNode ac.nodes n2).output.map
        (fun i => (⟨i, (((stringOfRunes (pre ++ [r])).length : Nat) : Int) -
          ((ac.patterns.getD i []).length : Int), (stringOfRunes (pre ++ [r])).length⟩ :
            acMatch))) hst2
      refine ⟨(getNode ac.nodes n2).output.map
        (fun i => (⟨i, (((stringOfRunes (pre ++ [r])).length : Nat) : Int) -
          ((ac.patterns.getD i []).length : Int), (stringOfRunes (pre ++ [r])).length⟩ :
            acMatch)) ++ new2, by rw [g1, List.append_assoc], ?_⟩
      intro k i pat h0 hk hp hne hsuf
      rw [hsplit k h0] at hsuf ⊢
      rcases Nat.eq_or_lt_of_le (show 1 ≤ k by omega) with e | e
      · subst e
        simp only [Nat.sub_self, List.take_zero, List.append_nil] at hsuf ⊢
        apply List.mem_append_left
        refine List.mem_map.mpr ⟨i, hout i pat hp hne hsuf, ?_⟩
        have hgd : ac.patterns.getD i [] = pat := by
          rw [List.getD_eq_getElem?_getD, hp]
          rfl
        rw [hgd]
      · apply List.mem_append_right
        exact g2 (k - 1) i pat (by omega) (by simp only [List.length_cons] at hk; omega)
          hp hne hsuf
    · rw [if_neg hol, hlen]
      obtain ⟨new2, g1, g2⟩ := ih (pre ++ [r]) n2 acc hst2
      refine ⟨new2, g1, ?_⟩
      intro k i pat h0 hk hp hne hsuf
      rw [hsplit k h0] at hsuf ⊢
      rcases Nat.eq_or_lt_of_le (show 1 ≤ k by omega) with e | e
      · subst e
        simp only [Nat.sub_self, List.take_zero, List.append_nil] at hsuf
        have := hout i pat hp hne hsuf
        have hz : (getNode ac.nodes n2).output = [] := List.length_eq_zero.mp (by omega)
        rw [hz] at this
        simp at this
      · exact g2 (k - 1) i pat (by omega) (by simp only [List.length_cons] at hk; omega)
          hp hne hsuf

/-- On a text that encodes valid runes, a complete automaton scans without a
fault; every match reported ends a pattern at a rune of the text, and every
place where a non-empty pattern ends is reported. -/
theorem SearchAll_full {ac : ahoCorasick} (hac : ACFull ac) (rs : List Nat)
    (hv : ValidRunes rs) :
    ∃ found, SearchAll ac (stringOfRunes rs) = .ok found ∧
      (∀ m ∈ found, MatchAt ac rs m) ∧
      ∀ (k i : Nat) (pat : Str), 0 < k → k ≤ rs.length → ac.patterns[i]? = some pat →
        runesOf pat ≠ [] → runesOf pat <:+ rs.take k →
        (⟨i, (offset rs k : Int) - (pat.length : Int), offset rs k⟩ : acMatch) ∈ found := by
  obtain ⟨found, h1, h2⟩ := SearchAll_spec hac.inv rs hv
  obtain ⟨L, hS, hSo, hC⟩ := hac
  obtain ⟨new, g1, g2⟩ := searchLoop_full hS hSo hC rs [] root []
    ⟨hS.pos, by rw [root, hS.root], fun m _ hm => by
      rw [List.eq_nil_of_suffix_nil hm]; simp⟩
  have hEq : SearchAll ac (stringOfRunes rs) = .ok new := by
    unfold SearchAll Search
    rw [rangeStr_stringOfRunes rs hv]
    simpa [stringOfRunes_nil] using g1
  rw [hEq] at h1
  simp only [Except.ok.injEq] at h1
  subst h1
  refine ⟨new, hEq, h2, ?_⟩
  intro k i pat h0 hk hp hne hsuf
  have := g2 k i pat h0 hk hp hne (by simpa using hsuf)
  simpa [offset] using this

/-! ## Runs of equal runes -/

theorem consRun_ne_nil (r : Nat) (runs : List (Nat × Nat)) : consRun r runs ≠ [] := by
  rcases runs with _ | ⟨⟨a, c⟩, rest⟩
  · simp [consRun]
  · simp only [consRun]
    split_ifs <;> simp

theorem runsOf_eq_nil {rs : List Nat} : runsOf rs = [] ↔ rs = [] := by
  constructor
  · intro h
    rcases rs with _ | ⟨r, rs⟩
    · rfl
    · exact absurd h (consRun_ne_nil r _)
  · intro h
    subst h
    rfl

theorem consRun_snocRun (r x : Nat) :
    ∀ (runs : List (Nat × Nat)), runs ≠ [] →
      consRun r (snocRun runs x) = snocRun (consRun r runs) x := by
  intro runs hne
  rcases runs with _ | ⟨⟨a, c⟩, _ | ⟨q, rest⟩⟩
  · exact absurd rfl hne
  · simp only [snocRun, consRun]
    split_ifs <;> simp_all [snocRun, consRun]
  · simp only [snocRun, consRun]
    split_ifs <;> simp [snocRun]

theorem runsOf_snoc (rs : List Nat) (x : Nat) : runsOf (rs ++ [x]) = snocRun (runsOf rs) x := by
  induction rs with
  | nil => rfl
  | cons r rs ih =>
    rw [List.cons_append, runsOf, ih, runsOf]
    by_cases h : runsOf rs = []
    · rw [h]
      simp only [snocRun, consRun]
      split_ifs <;> simp_all
    · exact consRun_snocRun r x _ h

theorem snocRun_append (r c x : Nat) :
    ∀ (init : List (Nat × Nat)),
      snocRun (init ++ [(r, c)]) x =
        if r = x then init ++ [(r, c + 1)] else init ++ [(r, c), (x, 1)] := by
  intro init
  induction init with
  | nil => simp [snocRun]
  | cons p init ih =>
    rcases init with _ | ⟨q, rest⟩
    · simp only [List.nil_append, List.singleton_append] at ih ⊢
      rw [snocRun, ih]
      split_ifs <;> rfl
    · rw [List.cons_append, List.cons_append, snocRun, ← List.cons_append, ih]
      split_ifs <;> rfl

theorem runBytes_append (a b : List (Nat × Nat)) :
    runBytes (a ++ b) = runBytes a + runBytes b := by
  simp [runBytes]

theorem spansFrom_append :
    ∀ (a b : List (Nat × Nat)) (pos : Nat),
      spansFrom pos (a ++ b) = spansFrom pos a ++ spansFrom (pos + runBytes a) b := by
  intro a
  induction a with
  | nil => intro b pos; simp [spansFrom, runBytes]
  | cons p a ih =>
    intro b pos
    obtain ⟨r, c⟩ := p
    rw [List.cons_append, spansFrom, spansFrom, ih, List.cons_append]
    congr 3
    simp only [runBytes, List.map_cons, List.sum_cons]
    omega

theorem startsOf_append (a b : List (Nat × Nat × Nat)) :
    startsOf (a ++ b) = startsOf a ++ startsOf b := by
  simp [startsOf]

theorem endsOf_append (a b : List (Nat × Nat × Nat)) :
    endsOf (a ++ b) = endsOf a ++ endsOf b := by
  simp [endsOf]

theorem startsOf_length (sp : List (Nat × Nat × Nat)) :
    (startsOf sp).length = (endsOf sp).length := by
  induction sp with
  | nil => rfl
  | cons x sp ih =>
    simp only [startsOf, endsOf, List.flatMap_cons, List.length_append,
      List.length_replicate] at ih ⊢
    omega

theorem fillEnd_append (e stale : List Nat) (l v : Nat) (h : stale.length = l) :
    fillEnd (e ++ stale) l v = e ++ List.replicate l v := by
  unfold fillEnd
  have h1 : (e ++ stale).length - l = e.length := by
    rw [List.length_append]; omega
  rw [h1, List.take_left' rfl]
  congr 2
  rw [List.length_append]
  omega

/-! ## The closed form of `collapseRepeats` -/

theorem backFill_runsState {init : List (Nat × Nat)} {r c : Nat} {st : collapseState}
    (h : RunsState init r c st) (hr : ValidRune r = true) :
    backFill st = endsOf (spansFrom 0 (init ++ [(r, c)])) := by
  obtain ⟨stale, e1, e2⟩ := h.endPos
  have hpos := RuneLen_pos hr
  unfold backFill
  rw [if_pos ⟨h.lastRuneSet, by rw [e1, List.length_append]; omega⟩, h.lastRune, e1,
    fillEnd_append _ _ _ _ e2, h.lastEnd, h.bytePos, spansFrom_append, endsOf_append]
  congr 1
  simp only [spansFrom, endsOf, List.flatMap_cons, List.flatMap_nil, List.append_nil,
    runBytes_append, Nat.zero_add]
  congr 1

theorem runsState_first {x : Nat} (hx : ValidRune x = true) :
    RunsState [] x 1 (collapseStep collapseInit x) := by
  have hlen := encodeRune_length_valid hx
  have hst : collapseStep collapseInit x =
      { result := encodeRune x, startPos := List.replicate (encodeRune x).length 0,
        endPos := List.replicate (encodeRune x).length (RuneLen x), lastRune := x,
        lastRuneSet := true, bytePos := RuneLen x, lastCharEndPos := RuneLen x } := by
    simp [collapseStep, collapseInit, backFill]
  rw [hst]
  exact {
    result := by simp [stringOfRunes_cons, stringOfRunes_nil]
    startPos := by simp [spansFrom, startsOf, hlen]
    endPos := ⟨List.replicate (encodeRune x).length (RuneLen x), by simp [spansFrom, endsOf],
      by simp [hlen]⟩
    lastRune := rfl
    lastRuneSet := rfl
    bytePos := by simp [runBytes]
    lastEnd := rfl }

theorem runsState_step {init : List (Nat × Nat)} {r c : Nat} {st : collapseState}
    (h : RunsState init r c st) (hr : ValidRune r = true) {x : Nat}
    (hx : ValidRune x = true) :
    (x = r → RunsState init r (c + 1) (collapseStep st x)) ∧
      (x ≠ r → RunsState (init ++ [(r, c)]) x 1 (collapseStep st x)) := by
  have hlen := encodeRune_length_valid hx
  have hbf := backFill_runsState h hr
  constructor
  · intro e
    subst e
    unfold collapseStep
    simp only [h.lastRuneSet, h.lastRune, and_self, if_true]
    exact {
      result := by rw [h.result]; simp
      startPos := by
        rw [h.startPos, spansFrom_append, spansFrom_append, startsOf_append, startsOf_append]
        simp [spansFrom, startsOf]
      endPos := h.endPos
      lastRune := rfl
      lastRuneSet := rfl
      bytePos := by
        show st.bytePos + RuneLen x = _
        rw [h.bytePos, runBytes_append, runBytes_append]
        simp only [runBytes, List.map_cons, List.map_nil, List.sum_cons, List.sum_nil]
        ring
      lastEnd := rfl }
  · intro e
    unfold collapseStep
    have hne : ¬ (st.lastRuneSet = true ∧ x = st.lastRune) := by
      rw [h.lastRune]
      exact fun c => e c.2
    simp only [hne, if_false]
    exact {
      result := by
        show st.result ++ encodeRune x = _
        rw [h.result, List.map_append _ (init ++ [(r, c)]), stringOfRunes_append]
        simp [stringOfRunes_cons, stringOfRunes_nil]
      startPos := by
        rw [h.startPos, spansFrom_append (init ++ [(r, c)]), startsOf_append, hlen, h.bytePos]
        simp [spansFrom, startsOf]
      endPos := ⟨List.replicate (encodeRune x).length (st.bytePos + RuneLen x), by
        rw [hbf], by simp [hlen]⟩
      lastRune := rfl
      lastRuneSet := rfl
      bytePos := by
        rw [h.bytePos, runBytes_append (init ++ [(r, c)])]
        simp [runBytes]
      lastEnd := rfl }

theorem runsState_fold :
    ∀ (more pre : List Nat) (init : List (Nat × Nat)) (r c : Nat) (st : collapseState),
      runsOf pre = init ++ [(r, c)] → RunsState init r c st → ValidRune r = true →
      ValidRunes more →
      ∃ init2 r2 c2, runsOf (pre ++ more) = init2 ++ [(r2, c2)] ∧
        RunsState init2 r2 c2 (more.foldl collapseStep st) ∧ ValidRune r2 = true := by
  intro more
  induction more with
  | nil =>
    intro pre init r c st h1 h2 h3 _
    exact ⟨init, r, c, by simpa using h1, h2, h3⟩
  | cons x more ih =>
    intro pre init r c st h1 h2 h3 hv
    have hx := hv x (List.mem_cons_self _ _)
    have hrest : ValidRunes more := fun y hy => hv y (List.mem_cons_of_mem _ hy)
    obtain ⟨s1, s2⟩ := runsState_step h2 h3 hx
    have hsn : runsOf (pre ++ [x]) =
        if r = x then init ++ [(r, c + 1)] else init ++ [(r, c), (x, 1)] := by
      rw [runsOf_snoc, h1, snocRun_append]
    rw [show pre ++ x :: more = (pre ++ [x]) ++ more by simp, List.foldl_cons]
    by_cases e : x = r
    · rw [if_pos e.symm] at hsn
      exact ih (pre ++ [x]) init r (c + 1) _ hsn (s1 e) h3 hrest
    · rw [if_neg (fun h => e h.symm)] at hsn
      exact ih (pre ++ [x]) (init ++ [(r, c)]) x 1 _ (by rw [hsn]; simp) (s2 e) hx hrest

/-- The closed form of `collapseRepeats` on a text that encodes valid runes: the
collapsed text encodes the runes of the runs, and the position arrays hold
the start and the end of every run, once for each byte of its rune. -/
theorem collapseRepeats_runs (rs : List Nat) (hv : ValidRunes rs) :
    collapseRepeats (stringOfRunes rs) =
      (stringOfRunes ((runsOf rs).map Prod.fst),
        { startPos := startsOf (spansFrom 0 (runsOf rs)),
          endPos := endsOf (spansFrom 0 (runsOf rs)) }) := by
  rcases rs with _ | ⟨x, rs⟩
  · rfl
  · have hx := hv x (List.mem_cons_self _ _)
    have hne : ¬ (stringOfRunes (x :: rs)).length = 0 := by
      rw [stringOfRunes_cons, List.length_append]
      have := encodeRune_length_pos x
      omega
    obtain ⟨init, r, c, h1, h2, h3⟩ := runsState_fold rs [x] [] x 1
      (collapseStep collapseInit x) rfl (runsState_first hx) hx
      (fun y hy => hv y (List.mem_cons_of_mem _ hy))
    unfold collapseRepeats
    rw [if_neg hne]
    dsimp only
    rw [runesOf_stringOfRunes _ hv, List.foldl_cons, backFill_runsState h2 h3, h2.result,
      h2.startPos]
    simp only [List.singleton_append] at h1
    rw [h1]

/-! ## Properties of the runs -/

theorem mem_consRun {r : Nat} {runs : List (Nat × Nat)} {x : Nat × Nat}
    (h : x ∈ consRun r runs) : (x.1 = r ∧ 1 ≤ x.2) ∨ x ∈ runs ∨
      (∃ c, (x.1, c) ∈ runs ∧ x.2 = c + 1) := by
  rcases runs with _ | ⟨⟨a, c⟩, rest⟩
  · simp only [consRun, List.mem_singleton] at h
    subst h
    exact Or.inl ⟨rfl, le_refl _⟩
  · simp only [consRun] at h
    split_ifs at h with e
    · rcases List.mem_cons.mp h with h | h
      · subst h
        exact Or.inr (Or.inr ⟨c, List.mem_cons_self _ _, rfl⟩)
      · exact Or.inr (Or.inl (List.mem_cons_of_mem _ h))
    · rcases List.mem_cons.mp h with h | h
      · subst h
        exact Or.inl ⟨rfl, le_refl _⟩
      · exact Or.inr (Or.inl h)

/-- Every run holds a rune of the text, at least once. -/
theorem mem_runsOf : ∀ (rs : List Nat) (x : Nat × Nat), x ∈ runsOf rs → x.1 ∈ rs ∧ 1 ≤ x.2 := by
  intro rs
  induction rs with
  | nil => intro x h; simp [runsOf] at h
  | cons r rs ih =>
    intro x h
    rw [runsOf] at h
    rcases mem_consRun h with ⟨e, c⟩ | h | ⟨c, h, e⟩
    · exact ⟨by rw [e]; exact List.mem_cons_self _ _, c⟩
    · exact ⟨List.mem_cons_of_mem _ (ih x h).1, (ih x h).2⟩
    · exact ⟨List.mem_cons_of_mem _ (ih _ h).1, by omega⟩

theorem runsOf_head : ∀ (rs : List Nat), (runsOf rs).head?.map Prod.fst = rs.head? := by
  intro rs
  rcases rs with _ | ⟨r, rs⟩
  · rfl
  · rw [runsOf]
    rcases runsOf rs with _ | ⟨⟨a, c⟩, rest⟩
    · rfl
    · simp only [consRun]
      split_ifs with e
      · simp [e]
      · rfl

theorem consRun_append (r : Nat) (a b : List (Nat × Nat)) (h : a ≠ []) :
    consRun r (a ++ b) = consRun r a ++ b := by
  rcases a with _ | ⟨⟨x, c⟩, rest⟩
  · exact absurd rfl h
  · simp only [List.cons_append, consRun]
    split_ifs <;> rfl

theorem consRun_of_ne (r : Nat) (runs : List (Nat × Nat))
    (h : ∀ x, runs.head? = some x → x.1 ≠ r) : consRun r runs = (r, 1) :: runs := by
  rcases runs with _ | ⟨⟨a, c⟩, rest⟩
  · rfl
  · have := h (a, c) rfl
    simp only [consRun]
    rw [if_neg (fun e => this e.symm)]

/-- The runs of a concatenation whose parts meet in two different runes. -/
theorem runsOf_append :
    ∀ (xs ys : List Nat), (∀ a b, xs.getLast? = some a → ys.head? = some b → a ≠ b) →
      runsOf (xs ++ ys) = runsOf xs ++ runsOf ys := by
  intro xs
  induction xs with
  | nil => intro ys _; rfl
  | cons x xs ih =>
    intro ys h
    rw [List.cons_append, runsOf, runsOf]
    rcases xs with _ | ⟨x2, xs2⟩
    · simp only [List.nil_append, runsOf, consRun]
      apply consRun_of_ne
      intro p hp
      have hh := runsOf_head ys
      rw [hp] at hh
      simp only [Option.map_some'] at hh
      exact fun e => h x p.1 rfl hh.symm e.symm
    · rw [ih ys (by
        intro a b ha hb
        exact h a b (by rw [List.getLast?_cons_cons]; exact ha) hb)]
      exact consRun_append x _ _ (by rw [runsOf]; exact consRun_ne_nil _ _)

theorem runsOf_replicate_succ (r n : Nat) (s : List Nat)
    (h : ∀ q, s.head? = some q → q ≠ r) :
    runsOf (List.replicate (n + 1) r ++ s) = (r, n + 1) :: runsOf s := by
  induction n with
  | zero =>
    rw [List.replicate_one, List.singleton_append, runsOf]
    apply consRun_of_ne
    intro p hp
    have hh := runsOf_head s
    rw [hp] at hh
    simp only [Option.map_some'] at hh
    exact h p.1 hh.symm
  | succ n ih =>
    rw [List.replicate_succ, List.cons_append, runsOf, ih]
    simp [consRun]

/-- The runs of a stretched form of `p`, where `p` has no two adjacent equal
runes: one run for every rune of `p`. -/
theorem runsOf_stretched :
    ∀ (p s : List Nat), NoAdjacentEqual p → Stretched p s →
      (runsOf s).map Prod.fst = p ∧ (∀ q, s.head? = some q → p.head? = some q) := by
  intro p
  induction p with
  | nil =>
    intro s _ h
    rw [(stretched_nil s).mp h]
    exact ⟨rfl, by simp⟩
  | cons r p ih =>
    intro s hna h
    obtain ⟨n, s2, e, hs2⟩ := (stretched_cons r p s).mp h
    unfold NoAdjacentEqual at hna
    rw [List.chain'_cons'] at hna
    obtain ⟨g1, g2⟩ := ih s2 hna.2 hs2
    subst e
    have hhead : ∀ q, s2.head? = some q → q ≠ r := by
      intro q hq
      exact fun e => hna.1 q (g2 q hq) e.symm
    rw [runsOf_replicate_succ r n s2 hhead]
    refine ⟨by simp [g1], ?_⟩
    intro q hq
    simp only [List.replicate_succ, List.cons_append, List.head?_cons, Option.some.injEq] at hq
    simp [hq]

theorem runBytes_consRun (r : Nat) (runs : List (Nat × Nat)) :
    runBytes (consRun r runs) = RuneLen r + runBytes runs := by
  rcases runs with _ | ⟨⟨a, c⟩, rest⟩
  · simp [consRun, runBytes]
  · simp only [consRun]
    split_ifs with e
    · subst e
      simp only [runBytes, List.map_cons, List.sum_cons]
      ring
    · simp only [runBytes, List.map_cons, List.sum_cons]
      ring

/-- The runs stand for as many bytes as the text has. -/
theorem runBytes_runsOf (rs : List Nat) : runBytes (runsOf rs) = (rs.map RuneLen).sum := by
  induction rs with
  | nil => rfl
  | cons r rs ih => rw [runsOf, runBytes_consRun, ih]; simp

theorem startsOf_spans_length :
    ∀ (runs : List (Nat × Nat)) (pos : Nat),
      (startsOf (spansFrom pos runs)).length = ((runs.map Prod.fst).map RuneLen).sum := by
  intro runs
  induction runs with
  | nil => intro pos; rfl
  | cons p runs ih =>
    intro pos
    obtain ⟨r, c⟩ := p
    have := ih (pos + c * RuneLen r)
    simp only [startsOf, spansFrom, List.flatMap_cons, List.length_append, List.length_replicate,
      List.map_cons, List.sum_cons] at this ⊢
    omega

theorem endsOf_spans_length (runs : List (Nat × Nat)) (pos : Nat) :
    (endsOf (spansFrom pos runs)).length = ((runs.map Prod.fst).map RuneLen).sum := by
  rw [← startsOf_length, startsOf_spans_length]

theorem startsOf_spans_head (pos r c : Nat) (rest : List (Nat × Nat)) (h : 1 ≤ RuneLen r) :
    (startsOf (spansFrom pos ((r, c) :: rest)))[0]? = some pos := by
  simp only [spansFrom, startsOf, List.flatMap_cons]
  rw [List.getElem?_append_left (by simpa using h), List.getElem?_replicate, if_pos (by omega)]

/-- The start offset recorded at the first byte of the runs `b` that follow the
runs `a`. -/
theorem starts_at (pos : Nat) (a b : List (Nat × Nat)) (hb : b ≠ [])
    (hlen : ∀ x ∈ b, 1 ≤ RuneLen x.1) :
    (startsOf (spansFrom pos (a ++ b)))[(startsOf (spansFrom pos a)).length]? =
      some (pos + runBytes a) := by
  rw [spansFrom_append, startsOf_append, List.getElem?_append_right (le_refl _), Nat.sub_self]
  rcases b with _ | ⟨⟨r, c⟩, rest⟩
  · exact absurd rfl hb
  · exact startsOf_spans_head _ r c rest (hlen (r, c) (List.mem_cons_self _ _))

theorem endsOf_spans_last (pos : Nat) (init : List (Nat × Nat)) (r c : Nat)
    (h : 1 ≤ RuneLen r) :
    (endsOf (spansFrom pos (init ++ [(r, c)])))[
      (endsOf (spansFrom pos (init ++ [(r, c)]))).length - 1]? =
      some (pos + runBytes (init ++ [(r, c)])) := by
  have e : endsOf (spansFrom pos (init ++ [(r, c)])) =
      endsOf (spansFrom pos init) ++
        List.replicate (RuneLen r) (pos + runBytes init + c * RuneLen r) := by
    rw [spansFrom_append, endsOf_append]
    simp [spansFrom, endsOf]
  rw [e, List.length_append, List.length_replicate,
    List.getElem?_append_right (by omega), List.getElem?_replicate, if_pos (by omega),
    runBytes_append]
  simp only [runBytes, List.map_cons, List.map_nil, List.sum_cons, List.sum_nil]
  congr 1
  omega

/-- The end offset recorded at the last byte of the runs `a`, which other runs
may follow. -/
theorem ends_at (pos : Nat) (a b : List (Nat × Nat)) (ha : a ≠ [])
    (hlen : ∀ x ∈ a, 1 ≤ RuneLen x.1) :
    (endsOf (spansFrom pos (a ++ b)))[(endsOf (spansFrom pos a)).length - 1]? =
      some (pos + runBytes a) := by
  obtain ⟨init, p, e⟩ : ∃ init p, a = init ++ [p] := by
    rcases List.eq_nil_or_concat a with h | ⟨init, p, h⟩
    · exact absurd h ha
    · exact ⟨init, p, by simpa using h⟩
  obtain ⟨r, c⟩ := p
  subst e
  have hr : 1 ≤ RuneLen r := hlen (r, c) (by simp)
  have hpos : 0 < (endsOf (spansFrom pos (init ++ [(r, c)]))).length := by
    rw [spansFrom_append, endsOf_append, List.length_append]
    simp only [spansFrom, endsOf, List.flatMap_cons, List.flatMap_nil, List.append_nil,
      List.length_replicate]
    omega
  rw [spansFrom_append _ b, endsOf_append, List.getElem?_append_left (by omega)]
  exact endsOf_spans_last pos init r c hr

/-- The spans tile the text: the start recorded at a byte is at most the end
recorded at the byte before. -/
theorem spans_tile :
    ∀ (runs : List (Nat × Nat)) (pos j a b : Nat), (∀ x ∈ runs, 1 ≤ RuneLen x.1) →
      (startsOf (spansFrom pos runs))[j + 1]? = some a →
      (endsOf (spansFrom pos runs))[j]? = some b → a ≤ b := by
  intro runs
  induction runs with
  | nil =>
    intro pos j a b _ ha
    simp [spansFrom, startsOf] at ha
  | cons p runs ih =>
    intro pos j a b hlen ha hb
    obtain ⟨r, c⟩ := p
    have hr : 1 ≤ RuneLen r := hlen (r, c) (List.mem_cons_self _ _)
    have hrest : ∀ x ∈ runs, 1 ≤ RuneLen x.1 := fun x hx => hlen x (List.mem_cons_of_mem _ hx)
    simp only [spansFrom, startsOf, endsOf, List.flatMap_cons] at ha hb
    rcases Nat.lt_or_ge (j + 1) (RuneLen r) with c1 | c1
    · rw [List.getElem?_append_left (by simpa using c1), List.getElem?_replicate,
        if_pos c1] at ha
      rw [List.getElem?_append_left (by simp; omega), List.getElem?_replicate,
        if_pos (by omega)] at hb
      simp only [Option.some.injEq] at ha hb
      subst ha hb
      exact Nat.le_add_right _ _
    · rw [List.getElem?_append_right (by simpa using c1), List.length_replicate] at ha
      rcases Nat.eq_or_lt_of_le c1 with c2 | c2
      · rw [List.getElem?_append_left (by simp; omega), List.getElem?_replicate,
          if_pos (by omega)] at hb
        simp only [Option.some.injEq] at hb
        subst hb
        rw [← c2, Nat.sub_self] at ha
        rcases runs with _ | ⟨⟨r2, c3⟩, rest⟩
        · simp [spansFrom] at ha
        · have hh := startsOf_spans_head (pos + c * RuneLen r) r2 c3 rest
            (hrest (r2, c3) (List.mem_cons_self _ _))
          unfold startsOf at hh
          rw [hh] at ha
          simp only [Option.some.injEq] at ha
          omega
      · rw [List.getElem?_append_right (by simp; omega), List.length_replicate] at hb
        have e : j + 1 - RuneLen r = (j - RuneLen r) + 1 := by omega
        rw [e] at ha
        exact ih (pos + c * RuneLen r) (j - RuneLen r) a b hrest ha hb

/-! ## `findMatches` returns for every dictionary -/

theorem normalizedRange_total (nt : normalizedText) (cp : collapsedPosInfo) (m : acMatch)
    (clen : Nat) (pat : Str)
    (hls : cp.startPos.length = clen) (hle : cp.endPos.length = clen)
    (hspan : ∀ (j a b : Nat), cp.startPos[j]? = some a → cp.endPos[j]? = some b →
      a < b ∧ b ≤ nt.normalized.length)
    (hmono : cp.startPos.Pairwise (fun a b => a ≤ b))
    (htile : ∀ (j a b : Nat), cp.startPos[j + 1]? = some a → cp.endPos[j]? = some b → a ≤ b)
    (hstart : m.start = (m.end_ : Int) - (pat.length : Int))
    (hpe : pat.length ≤ m.end_) (hend : m.end_ ≤ clen) :
    ∃ ns ne, normalizedRange nt cp m = .ok (ns, ne) ∧ ns ≤ ne ∧ ne ≤ nt.normalized.length := by
  have hs1 : m.start.toNat = m.end_ - pat.length := by omega
  -- the end
  have hE : ∃ ne, normalizedEnd nt cp m = .ok ne ∧ ne ≤ nt.normalized.length ∧
      (0 < m.end_ → cp.endPos[m.end_ - 1]? = some ne) ∧ (m.end_ = 0 → ne = nt.normalized.length) := by
    unfold normalizedEnd
    by_cases c : m.end_ > 0 ∧ m.end_ ≤ cp.endPos.length
    · rw [if_pos c]
      have h1 : m.end_ - 1 < cp.endPos.length := by omega
      have h2 : m.end_ - 1 < cp.startPos.length := by omega
      have e1 := List.getElem?_eq_getElem h1
      have e2 := List.getElem?_eq_getElem h2
      refine ⟨cp.endPos[m.end_ - 1], index_eq_ok e1, (hspan _ _ _ e2 e1).2, fun _ => e1, ?_⟩
      intro h0
      omega
    · rw [if_neg c]
      refine ⟨nt.normalized.length, rfl, le_refl _, ?_, fun _ => rfl⟩
      intro h0
      exact absurd ⟨h0, by omega⟩ c
  obtain ⟨ne, hne, hne2, hne3, hne4⟩ := hE
  by_cases c1 : m.start < (cp.startPos.length : Int)
  · have hs2 : m.end_ - pat.length < cp.startPos.length := by omega
    have hns := List.getElem?_eq_getElem hs2
    generalize cp.startPos[m.end_ - pat.length] = ns at hns
    have i1 : normalizedStart cp m = .ok ns := by
      unfold normalizedStart indexInt
      rw [if_pos c1, if_neg (by omega), hs1]
      exact index_eq_ok hns
    refine ⟨ns, ne, ?_, ?_, hne2⟩
    · unfold normalizedRange
      rw [i1, bind_ok, hne, bind_ok, pure_eq_ok]
    · rcases Nat.eq_zero_or_pos m.end_ with h0 | h0
      · have hz : m.end_ - pat.length = 0 := by omega
        rw [hz] at hns
        have h1 : 0 < cp.endPos.length := by omega
        have e1 := List.getElem?_eq_getElem h1
        have := hspan _ _ _ hns e1
        rw [hne4 h0]
        omega
      · have hne5 := hne3 h0
        by_cases hp0 : pat.length = 0
        · have hz : m.end_ - pat.length = (m.end_ - 1) + 1 := by omega
          rw [hz] at hns
          exact htile _ _ _ hns hne5
        · have h2 : m.end_ - 1 < cp.startPos.length := by omega
          have e2 := List.getElem?_eq_getElem h2
          have k1 : ns ≤ _ := pairwise_le_getElem? hmono (by omega) hns e2
          have := hspan _ _ _ e2 hne5
          omega
  · have i1 : normalizedStart cp m = .ok 0 := by
      unfold normalizedStart
      rw [if_neg c1]
      rfl
    refine ⟨0, ne, ?_, Nat.zero_le _, hne2⟩
    unfold normalizedRange
    rw [i1, bind_ok, hne, bind_ok, pure_eq_ok]

theorem originalRange_total (rs : List Nat) (hv : ValidRunes rs) (nt : normalizedText)
    (ho : nt.original = stringOfRunes rs)
    (hpb : ∀ o ∈ nt.posMap, ∃ k, k < rs.length ∧ o = offset rs k) (ns ne : Nat) :
    ∃ os oe, originalRange (stringOfRunes rs) nt ns ne = .ok (os, oe) ∧
      IsOffset rs os ∧ IsOffset rs oe := by
  have cl : ∀ p, clamp (stringOfRunes rs) nt p = p := by
    intro p
    unfold clamp
    rw [if_neg (fun c => c.1 ho)]
  have hS : ∃ os, origStart nt ns = .ok os ∧ IsOffset rs os := by
    unfold origStart
    by_cases q1 : ns < nt.posMap.length
    · rw [if_pos q1]
      obtain ⟨ka, hka, ea⟩ := hpb _ (List.getElem_mem q1)
      exact ⟨_, index_eq_ok (List.getElem?_eq_getElem q1), ka, by omega, ea⟩
    · rw [if_neg q1]
      exact ⟨0, rfl, 0, Nat.zero_le _, rfl⟩
  have hE : ∃ oe, origEnd (stringOfRunes rs) nt ne = .ok oe ∧ IsOffset rs oe := by
    unfold origEnd
    by_cases q2 : ne > 0 ∧ ne ≤ nt.posMap.length
    · rw [if_pos q2]
      have q3 : ne - 1 < nt.posMap.length := by omega
      obtain ⟨kb, hkb, eb⟩ := hpb _ (List.getElem_mem q3)
      have hoe := List.getElem?_eq_getElem q3
      generalize nt.posMap[ne - 1] = oe at hoe eb
      have hbound : oe < (stringOfRunes rs).length := by
        rw [eb, ← offset_length]
        exact offset_strict rs hkb (le_refl _)
      have hdec : (decodeRune ((List.take nt.original.length nt.original).drop oe)).2 =
          (encodeRune rs[kb]).length := by
        rw [List.take_length, ho, eb, decodeRune_at_offset rs hv hkb]
      refine ⟨offset rs (kb + 1), ?_, kb + 1, by omega, rfl⟩
      unfold addLastRune
      rw [index_eq_ok hoe, bind_ok, if_pos (by rw [ho]; exact hbound),
        slice_eq_ok (by rw [ho]; omega) (le_refl _), bind_ok, pure_eq_ok, hdec,
        offset_succ rs hkb, eb]
    · rw [if_neg q2]
      refine ⟨(stringOfRunes rs).length, ?_, rs.length, le_refl _, (offset_length rs).symm⟩
      split_ifs
      · rw [ho]; rfl
      · rfl
  obtain ⟨os, h1, h2⟩ := hS
  obtain ⟨oe, h3, h4⟩ := hE
  refine ⟨os, oe, ?_, h2, h4⟩
  unfold originalRange
  rw [h1, bind_ok, h3, bind_ok, pure_eq_ok, cl, cl]

theorem isOffset_le {rs : List Nat} {x : Nat} (h : IsOffset rs x) :
    x ≤ (stringOfRunes rs).length := by
  obtain ⟨k, _, rfl⟩ := h
  exact offset_le_total rs k

theorem projectMatch_total (U : Unicode) (c2o : List (Str × Str)) (ac : ahoCorasick)
    (rs : List Nat) (hv : ValidRunes rs)
    (nt : normalizedText) (cp : collapsedPosInfo) (m : acMatch) (clen : Nat) (pat : Str)
    (ho : nt.original = stringOfRunes rs)
    (hpb : ∀ o ∈ nt.posMap, ∃ k, k < rs.length ∧ o = offset rs k)
    (hls : cp.startPos.length = clen) (hle : cp.endPos.length = clen)
    (hspan : ∀ (j a b : Nat), cp.startPos[j]? = some a → cp.endPos[j]? = some b →
      a < b ∧ b ≤ nt.normalized.length)
    (hmono : cp.startPos.Pairwise (fun a b => a ≤ b))
    (htile : ∀ (j a b : Nat), cp.startPos[j + 1]? = some a → cp.endPos[j]? = some b → a ≤ b)
    (hp : ac.patterns[m.patternIndex]? = some pat)
    (hstart : m.start = (m.end_ : Int) - (pat.length : Int))
    (hpe : pat.length ≤ m.end_) (hend : m.end_ ≤ clen) :
    ∃ r, projectMatch U c2o ac (stringOfRunes rs) nt cp m = .ok r ∧
      ∀ mi, r = some mi → IsOffset rs mi.origStart ∧ IsOffset rs mi.origEnd := by
  obtain ⟨ns, ne, hnr, k1, k2⟩ :=
    normalizedRange_total nt cp m clen pat hls hle hspan hmono htile hstart hpe hend
  obtain ⟨os, oe, hor, k3, k4⟩ := originalRange_total rs hv nt ho hpb ns ne
  obtain ⟨r, hr1, hr2⟩ := acceptMatch_total U c2o ac (stringOfRunes rs) nt m ns ne os oe
    (isOffset_le k3) hp k1 k2
  refine ⟨r, ?_, ?_⟩
  · unfold projectMatch
    rw [hnr, bind_ok, hor, bind_ok]
    exact hr1
  · intro mi hmi
    obtain ⟨e1, e2⟩ := hr2 mi hmi
    rw [e1, e2]
    exact ⟨k3, k4⟩


theorem collapse_tile (rs : List Nat) (hv : ValidRunes rs) (j a b : Nat)
    (h1 : (collapseRepeats (stringOfRunes rs)).2.startPos[j + 1]? = some a)
    (h2 : (collapseRepeats (stringOfRunes rs)).2.endPos[j]? = some b) : a ≤ b := by
  rw [collapseRepeats_runs rs hv] at h1 h2
  exact spans_tile (runsOf rs) 0 j a b
    (fun x hx => RuneLen_pos (hv _ (mem_runsOf rs x hx).1)) h1 h2

/-- For every dictionary and every well-formed text that NFKC leaves unchanged,
`findMatches` returns, and both ends of every match are rune boundaries of the
text. -/
theorem findMatches_total (U : Unicode) {ord : MapOrder} (dict : List Str) (g : Globals)
    (T : Str) (hord : IsMapOrder ord) (hg : init ord dict = .ok g)
    (hT : ValidString T = true) (hn : U.nfkc T = T) :
    ∃ out, findMatches U g.collapsedToOriginal T g.profanityMatcher = .ok out ∧
      ∀ m ∈ out, IsOffset (runesOf T) m.origStart ∧ IsOffset (runesOf T) m.origEnd := by
  obtain ⟨g', hg', hpat, _, hac⟩ := init_total hord dict
  rw [hg] at hg'
  simp only [Except.ok.injEq] at hg'
  subst hg'
  obtain ⟨ho, ⟨ks, hks, hkv⟩, hpl, hpb, hpm⟩ := normalizeText_spec U T hn
  have hstr := stringOfRunes_runesOf hT
  obtain ⟨⟨kept, hk1, hk2⟩, c2, c3, c4, c5⟩ := collapseRepeats_spec ks hkv
  have c6 := collapse_tile ks hkv
  rw [← hks] at hk1 c2 c3 c4 c5 c6
  obtain ⟨found, hf1, hf2⟩ := SearchAll_spec hac kept hk2
  rw [← hk1] at hf1
  unfold findMatches
  split_ifs with h0
  · exact ⟨[], rfl, by simp⟩
  · dsimp only
    rw [hf1, bind_ok]
    split_ifs with h1
    · exact ⟨[], rfl, by simp⟩
    · have key := projectAll_total U g.collapsedToOriginal g.profanityMatcher
        (stringOfRunes (runesOf T)) (normalizeText U T)
        (collapseRepeats (normalizeText U T).normalized).2
        (fun mi => IsOffset (runesOf T) mi.origStart ∧ IsOffset (runesOf T) mi.origEnd) found (by
          intro m hm
          obtain ⟨pat, b1, b2, b3, b4⟩ := (hf2 m hm).bounds
          rw [← hk1] at b4
          exact projectMatch_total U g.collapsedToOriginal g.profanityMatcher (runesOf T)
            (runesOf_valid T) (normalizeText U T) _ m _ pat (by rw [ho, hstr]) hpb
            c2 c3 c4 c5 c6 b1 b2 b3 b4)
      rw [hstr] at key
      exact key

theorem projectAll_mem_of (U : Unicode) (c2o : List (Str × Str)) (ac : ahoCorasick) (T : Str)
    (nt : normalizedText) (cp : collapsedPosInfo) (m : acMatch) (mi : matchInfo)
    (hm : projectMatch U c2o ac T nt cp m = .ok (some mi)) :
    ∀ (found : List acMatch) (out : List matchInfo), m ∈ found →
      projectAll U c2o ac T nt cp found = .ok out → mi ∈ out := by
  intro found
  induction found with
  | nil => intro out h; simp at h
  | cons x rest ih =>
    intro out hmem h
    rw [projectAll] at h
    obtain ⟨r, h1, h⟩ := bind_eq_ok h
    obtain ⟨rs, h2, h⟩ := bind_eq_ok h
    rw [pure_eq_ok] at h
    simp only [Except.ok.injEq] at h
    rcases List.mem_cons.mp hmem with e | e
    · subst e
      rw [hm] at h1
      simp only [Except.ok.injEq] at h1
      subst h1
      rw [← h]
      exact List.mem_cons_self _ _
    · have := ih rs e h2
      rw [← h]
      cases r with
      | none => exact this
      | some y => exact List.mem_cons_of_mem _ this

theorem stretched_self : ∀ (p : List Nat), Stretched p p := by
  intro p
  induction p with
  | nil => exact (stretched_nil []).mpr rfl
  | cons r p ih => exact (stretched_cons r p (r :: p)).mpr ⟨0, p, rfl, ih⟩

theorem stretched_ne_nil {p s : List Nat} (h : Stretched p s) (hp : p ≠ []) : s ≠ [] := by
  cases p with
  | nil => exact absurd rfl hp
  | cons r p =>
    obtain ⟨n, s2, rfl, _⟩ := (stretched_cons r p s).mp h
    simp [List.replicate_succ]

/-! ## The collapsed positions of a stretched word inside a text -/

theorem validRunes_append {xs ys : List Nat} :
    ValidRunes (xs ++ ys) ↔ ValidRunes xs ∧ ValidRunes ys := by
  unfold ValidRunes
  constructor
  · intro h
    exact ⟨fun r hr => h r (List.mem_append_left _ hr), fun r hr => h r (List.mem_append_right _ hr)⟩
  · intro h r hr
    rcases List.mem_append.mp hr with e | e
    · exact h.1 r e
    · exact h.2 r e

theorem validRunes_runs {rs : List Nat} (hv : ValidRunes rs) :
    ValidRunes ((runsOf rs).map Prod.fst) := by
  intro r hr
  obtain ⟨x, hx, rfl⟩ := List.mem_map.mp hr
  exact hv _ (mem_runsOf rs x hx).1

theorem runs_RuneLen {rs : List Nat} (hv : ValidRunes rs) :
    ∀ x ∈ runsOf rs, 1 ≤ RuneLen x.1 :=
  fun x hx => RuneLen_pos (hv _ (mem_runsOf rs x hx).1)

theorem collapse_positions (kA kS kB P : List Nat) (hkv : ValidRunes (kA ++ kS ++ kB))
    (hP : P ≠ []) (hadj : NoAdjacentEqual P) (hst : Stretched P kS)
    (hjA : ∀ a b, kA.getLast? = some a → kS.head? = some b → a ≠ b)
    (hjB : ∀ a b, kS.getLast? = some a → kB.head? = some b → a ≠ b) :
    (collapseRepeats (stringOfRunes (kA ++ kS ++ kB))).1 =
        stringOfRunes ((runsOf kA).map Prod.fst ++ P ++ (runsOf kB).map Prod.fst) ∧
      ValidRunes ((runsOf kA).map Prod.fst ++ P ++ (runsOf kB).map Prod.fst) ∧
      (collapseRepeats (stringOfRunes (kA ++ kS ++ kB))).2.startPos[
        (stringOfRunes ((runsOf kA).map Prod.fst)).length]? = some (stringOfRunes kA).length ∧
      (collapseRepeats (stringOfRunes (kA ++ kS ++ kB))).2.endPos[
        (stringOfRunes ((runsOf kA).map Prod.fst ++ P)).length - 1]? =
          some (stringOfRunes (kA ++ kS)).length := by
  have hSne : kS ≠ [] := stretched_ne_nil hst hP
  obtain ⟨⟨hvA, hvS⟩, hvB⟩ : (ValidRunes kA ∧ ValidRunes kS) ∧ ValidRunes kB := by
    have := validRunes_append.mp hkv
    exact ⟨validRunes_append.mp this.1, this.2⟩
  have r0 : runsOf (kA ++ kS) = runsOf kA ++ runsOf kS := runsOf_append kA kS hjA
  have r1 : runsOf (kA ++ kS ++ kB) = runsOf kA ++ runsOf kS ++ runsOf kB := by
    rw [runsOf_append (kA ++ kS) kB, r0]
    intro a b ha hb
    rw [List.getLast?_append_of_ne_nil _ hSne] at ha
    exact hjB a b ha hb
  have r2 : (runsOf kS).map Prod.fst = P := (runsOf_stretched P kS hadj hst).1
  have hRS : runsOf kS ≠ [] := fun h => hSne (runsOf_eq_nil.mp h)
  have hcr := collapseRepeats_runs (kA ++ kS ++ kB) hkv
  have hvAS : ValidRunes (kA ++ kS) := validRunes_append.mpr ⟨hvA, hvS⟩
  have hvcA := validRunes_runs hvA
  have hvcS := validRunes_runs hvS
  have hvcB := validRunes_runs hvB
  rw [r2] at hvcS
  refine ⟨?_, ?_, ?_, ?_⟩
  · rw [hcr, r1, List.map_append, List.map_append, r2]
  · exact validRunes_append.mpr ⟨validRunes_append.mpr ⟨hvcA, hvcS⟩, hvcB⟩
  · rw [hcr, r1, List.append_assoc]
    have h := starts_at 0 (runsOf kA) (runsOf kS ++ runsOf kB) (by simp [hRS]) (by
      intro x hx
      rcases List.mem_append.mp hx with e | e
      · exact runs_RuneLen hvS x e
      · exact runs_RuneLen hvB x e)
    rw [startsOf_spans_length, sum_RuneLen _ hvcA, runBytes_runsOf, sum_RuneLen _ hvA,
      Nat.zero_add] at h
    exact h
  · rw [hcr, r1]
    have h := ends_at 0 (runsOf kA ++ runsOf kS) (runsOf kB) (by simp [hRS]) (by
      intro x hx
      rcases List.mem_append.mp hx with e | e
      · exact runs_RuneLen hvA x e
      · exact runs_RuneLen hvS x e)
    rw [endsOf_spans_length, List.map_append, r2,
      sum_RuneLen _ (validRunes_append.mpr ⟨hvcA, hvcS⟩), ← r0, runBytes_runsOf,
      sum_RuneLen _ hvAS, Nat.zero_add, r0] at h
    exact h

theorem lt_of_getElem? {l : List Nat} {i x : Nat} (h : l[i]? = some x) : i < l.length := by
  by_contra c
  rw [List.getElem?_eq_none (by omega)] at h
  cases h

/-- The loop body of `findMatches` on a match whose positions are known and
which passes the word-boundary checks and the shape validation. -/
theorem projectMatch_accept (U : Unicode) (c2o : List (Str × Str)) (ac : ahoCorasick)
    (rs : List Nat) (hv : ValidRunes rs) (nt : normalizedText) (cp : collapsedPosInfo)
    (m : acMatch) (pat orig seg : Str) (cs ns ne a b : Nat)
    (ho : nt.original = stringOfRunes rs)
    (hp : ac.patterns[m.patternIndex]? = some pat)
    (hlook : c2o.lookup pat = some orig)
    (hms : m.start = (cs : Int)) (hcs : cp.startPos[cs]? = some ns)
    (hme : 0 < m.end_) (hce : cp.endPos[m.end_ - 1]? = some ne)
    (hos : nt.posMap[ns]? = some (offset rs a))
    (hne0 : 0 < ne) (hoe : nt.posMap[ne - 1]? = some (offset rs b)) (hb : b < rs.length)
    (hbefore : isWordBoundaryBefore U (stringOfRunes rs) (offset rs a) = .ok true)
    (hafter : isWordBoundaryAfter U (stringOfRunes rs) (offset rs (b + 1)) = .ok true)
    (hseg : slice nt.normalized ns ne = .ok seg)
    (hvalid : isValidMatch seg orig = true) :
    projectMatch U c2o ac (stringOfRunes rs) nt cp m =
      .ok (some { origStart := offset rs a, origEnd := offset rs (b + 1), pattern := pat }) := by
  have l1 := lt_of_getElem? hcs
  have l2 := lt_of_getElem? hce
  have l3 := lt_of_getElem? hos
  have l4 := lt_of_getElem? hoe
  have hnr : normalizedRange nt cp m = .ok (ns, ne) := by
    have i1 : normalizedStart cp m = .ok ns := by
      unfold normalizedStart indexInt
      rw [if_pos (by omega), if_neg (by omega), hms, Int.toNat_ofNat]
      exact index_eq_ok hcs
    have i2 : normalizedEnd nt cp m = .ok ne := by
      unfold normalizedEnd
      rw [if_pos ⟨hme, by omega⟩]
      exact index_eq_ok hce
    unfold normalizedRange
    rw [i1, bind_ok, i2, bind_ok, pure_eq_ok]
  have hbound : offset rs b < (stringOfRunes rs).length := by
    rw [← offset_length]
    exact offset_strict rs hb (le_refl _)
  have hdec : (decodeRune ((List.take nt.original.length nt.original).drop (offset rs b))).2 =
      (encodeRune rs[b]).length := by
    rw [List.take_length, ho, decodeRune_at_offset rs hv hb]
  have hor : originalRange (stringOfRunes rs) nt ns ne = .ok (offset rs a, offset rs (b + 1)) := by
    have i1 : origStart nt ns = .ok (offset rs a) := by
      unfold origStart
      rw [if_pos l3]
      exact index_eq_ok hos
    have i2 : origEnd (stringOfRunes rs) nt ne = .ok (offset rs (b + 1)) := by
      unfold origEnd addLastRune
      rw [if_pos ⟨by omega, by omega⟩, index_eq_ok hoe, bind_ok, if_pos (by rw [ho]; exact hbound),
        slice_eq_ok (by rw [ho]; omega) (le_refl _), bind_ok, pure_eq_ok, hdec,
        offset_succ rs hb]
    have cl : ∀ p, clamp (stringOfRunes rs) nt p = p := by
      intro p
      unfold clamp
      rw [if_neg (fun c => c.1 ho)]
    unfold originalRange
    rw [i1, bind_ok, i2, bind_ok, pure_eq_ok, cl, cl]
  have hpa : patternAt ac m.patternIndex = .ok pat := by unfold patternAt; rw [hp]
  unfold projectMatch
  rw [hnr, bind_ok, hor, bind_ok]
  unfold acceptMatch
  rw [hbefore, bind_ok]
  simp only [Bool.not_true, Bool.false_eq_true, if_false]
  rw [hafter, bind_ok]
  simp only [Bool.not_true, Bool.false_eq_true, if_false]
  rw [hpa, bind_ok, hseg, bind_ok, hlook]
  simp only [Option.getD_some, hvalid, Bool.not_true, Bool.false_eq_true, if_false]
  rfl

theorem collapse_noAdjacent (P : List Nat) (hv : ValidRunes P) (hadj : NoAdjacentEqual P) :
    (collapseRepeats (stringOfRunes P)).1 = stringOfRunes P := by
  rw [collapseRepeats_runs P hv, (runsOf_stretched P P hadj (stretched_self P)).1]

theorem first_entry_pattern {ord : MapOrder} {dict : List Str} {g : Globals}
    (hg : init ord dict = .ok g) {p : Str}
    (hdict : dict.find? (fun q => decide ((collapseRepeats q).1 = p)) = some p) :
    p ∈ g.profanityMatcher.patterns ∧ g.collapsedToOriginal.lookup p = some p := by
  obtain ⟨h1, h2⟩ := init_fields hg
  have hl : g.collapsedToOriginal.lookup p = some p := by
    rw [h2, initLoop_lookup dict ([], []) p rfl, hdict]
    rfl
  refine ⟨?_, hl⟩
  rw [h1, initLoop_keys dict ([], []) rfl, ← h2]
  obtain ⟨l1, l2, e, _⟩ := List.lookup_eq_some_iff.mp hl
  exact List.mem_map.mpr ⟨(p, p), by rw [e]; simp, rfl⟩

/-- A stretched dictionary word inside the normalized text, in runs of its own,
is found by `findMatches` when the word-boundary checks pass at its ends. -/
theorem findMatches_detect (U : Unicode) {ord : MapOrder} (hord : IsMapOrder ord)
    {dict : List Str} {g : Globals} (hg : init ord dict = .ok g)
    (rs : List Nat) (hv : ValidRunes rs) (hn : U.nfkc (stringOfRunes rs) = stringOfRunes rs)
    (kA kS kB P : List Nat)
    (hN : (normalizeText U (stringOfRunes rs)).normalized = stringOfRunes (kA ++ kS ++ kB))
    (hkv : ValidRunes (kA ++ kS ++ kB))
    (hP : P ≠ []) (hadj : NoAdjacentEqual P) (hst : Stretched P kS)
    (hjA : ∀ a b, kA.getLast? = some a → kS.head? = some b → a ≠ b)
    (hjB : ∀ a b, kS.getLast? = some a → kB.head? = some b → a ≠ b)
    (hdict : dict.find? (fun q => decide ((collapseRepeats q).1 = stringOfRunes P)) =
      some (stringOfRunes P))
    (a b : Nat) (hb : b < rs.length)
    (hos : (normalizeText U (stringOfRunes rs)).posMap[(stringOfRunes kA).length]? =
      some (offset rs a))
    (hoe : (normalizeText U (stringOfRunes rs)).posMap[(stringOfRunes (kA ++ kS)).length - 1]? =
      some (offset rs b))
    (hbefore : isWordBoundaryBefore U (stringOfRunes rs) (offset rs a) = .ok true)
    (hafter : isWordBoundaryAfter U (stringOfRunes rs) (offset rs (b + 1)) = .ok true) :
    ∃ out, findMatches U g.collapsedToOriginal (stringOfRunes rs) g.profanityMatcher = .ok out ∧
      ({ origStart := offset rs a, origEnd := offset rs (b + 1), pattern := stringOfRunes P } :
        matchInfo) ∈ out ∧
      ∀ m ∈ out, IsOffset rs m.origStart ∧ IsOffset rs m.origEnd := by
  have hvT := validString_stringOfRunes rs hv
  obtain ⟨out, hout, hall⟩ := findMatches_total U dict g (stringOfRunes rs) hord hg hvT hn
  rw [runesOf_stringOfRunes rs hv] at hall
  refine ⟨out, hout, ?_, hall⟩
  -- the pieces
  have hSne : kS ≠ [] := stretched_ne_nil hst hP
  obtain ⟨⟨hvA, hvS⟩, hvB⟩ : (ValidRunes kA ∧ ValidRunes kS) ∧ ValidRunes kB := by
    have := validRunes_append.mp hkv
    exact ⟨validRunes_append.mp this.1, this.2⟩
  have hvP : ValidRunes P := by
    have := validRunes_runs hvS
    rwa [(runsOf_stretched P kS hadj hst).1] at this
  obtain ⟨c1, c2, c3, c4⟩ := collapse_positions kA kS kB P hkv hP hadj hst hjA hjB
  obtain ⟨hmem, hlook⟩ := first_entry_pattern hg hdict
  obtain ⟨i, hi⟩ := List.mem_iff_getElem?.mp hmem
  have hrP : runesOf (stringOfRunes P) = P := runesOf_stringOfRunes P hvP
  have hPlen : 0 < (stringOfRunes P).length := by
    cases P with
    | nil => exact absurd rfl hP
    | cons r P =>
      rw [stringOfRunes_cons, List.length_append]
      have := encodeRune_length_pos r
      omega
  -- the scan of the collapsed text
  obtain ⟨found, hf1, _, hf3⟩ := SearchAll_full (init_full hord hg) _ c2
  have hk : ((runsOf kA).map Prod.fst ++ P ++ (runsOf kB).map Prod.fst).take
      (((runsOf kA).map Prod.fst).length + P.length) = (runsOf kA).map Prod.fst ++ P := by
    rw [← List.length_append]
    exact List.take_left' rfl
  have hm := hf3 (((runsOf kA).map Prod.fst).length + P.length) i (stringOfRunes P)
    (by have := List.length_pos.mpr hP; omega)
    (by simp only [List.length_append]; omega) hi (by rw [hrP]; exact hP)
    (by rw [hrP, hk]; exact List.suffix_append _ _)
  have hoff : offset ((runsOf kA).map Prod.fst ++ P ++ (runsOf kB).map Prod.fst)
      (((runsOf kA).map Prod.fst).length + P.length) =
      (stringOfRunes ((runsOf kA).map Prod.fst)).length + (stringOfRunes P).length := by
    unfold offset
    rw [hk, stringOfRunes_append, List.length_append]
  rw [hoff] at hm
  -- the loop body on this match
  have hseg : slice (normalizeText U (stringOfRunes rs)).normalized (stringOfRunes kA).length
      (stringOfRunes (kA ++ kS)).length = .ok (stringOfRunes kS) := by
    rw [hN, slice_eq_ok (by rw [stringOfRunes_append, List.length_append]; omega)
      (by rw [stringOfRunes_append (kA ++ kS), List.length_append]; omega)]
    rw [stringOfRunes_append (kA ++ kS), List.take_left' rfl, stringOfRunes_append,
      List.drop_left' rfl]
  have hvalid : isValidMatch (stringOfRunes kS) (stringOfRunes P) = true := by
    unfold isValidMatch
    rw [if_neg (by have := stretched_length_le P kS hst; omega)]
    split_ifs
    · rfl
    · rw [hrP, runesOf_stringOfRunes kS hvS]
      exact (validLoop_iff P kS).mpr ⟨hadj, hst⟩
  have hlen2 : 0 < (stringOfRunes (kA ++ kS)).length := by
    have := stretched_length_le P kS hst
    rw [stringOfRunes_append, List.length_append]
    omega
  have hN0 := (normalizeText_spec U (stringOfRunes rs) hn).1
  have hce : (collapseRepeats (normalizeText U (stringOfRunes rs)).normalized).2.endPos[
      (stringOfRunes ((runsOf kA).map Prod.fst)).length + (stringOfRunes P).length - 1]? =
      some (stringOfRunes (kA ++ kS)).length := by
    rw [hN, ← List.length_append, ← stringOfRunes_append]
    exact c4
  have hpm := projectMatch_accept U g.collapsedToOriginal g.profanityMatcher rs hv
    (normalizeText U (stringOfRunes rs))
    (collapseRepeats (normalizeText U (stringOfRunes rs)).normalized).2
    ⟨i, (((stringOfRunes ((runsOf kA).map Prod.fst)).length + (stringOfRunes P).length : Nat) :
      Int) - ((stringOfRunes P).length : Int),
      (stringOfRunes ((runsOf kA).map Prod.fst)).length + (stringOfRunes P).length⟩
    (stringOfRunes P) (stringOfRunes P) (stringOfRunes kS)
    (stringOfRunes ((runsOf kA).map Prod.fst)).length (stringOfRunes kA).length
    (stringOfRunes (kA ++ kS)).length a b hN0 hi hlook
    (by push_cast; omega) (by rw [hN]; exact c3) (by show 0 < _ + _; omega) hce
    hos hlen2 hoe hb hbefore hafter hseg hvalid
  -- the loop
  have hT0 : ¬ (stringOfRunes rs).length = 0 := by
    have := offset_strict rs (show b < b + 1 by omega) (by omega)
    have := offset_le_total rs (b + 1)
    omega
  unfold findMatches at hout
  rw [if_neg hT0] at hout
  dsimp only at hout
  rw [hN, c1, hf1, bind_ok, if_neg (by
    intro h0
    rw [List.length_eq_zero] at h0
    rw [h0] at hm
    simp at hm)] at hout
  rw [hN] at hpm
  exact projectAll_mem_of U _ _ _ _ _ _ _ hpm found out hm hout

/-! ## A match that spans the whole text -/

theorem bubbleDown_sorted (x : matchInfo) :
    ∀ (l : List matchInfo), l.Pairwise (fun a b => b.origStart ≤ a.origStart) →
      (bubbleDown x l).Pairwise (fun a b => b.origStart ≤ a.origStart) := by
  intro l
  induction l with
  | nil => intro _; simp [bubbleDown]
  | cons y ys ih =>
    intro h
    obtain ⟨h1, h2⟩ := List.pairwise_cons.mp h
    unfold bubbleDown
    split_ifs with c
    · refine List.pairwise_cons.mpr ⟨?_, ih h2⟩
      intro z hz
      rcases (mem_bubbleDown x z ys).mp hz with e | e
      · rw [e]; omega
      · exact h1 z e
    · refine List.pairwise_cons.mpr ⟨?_, h⟩
      intro z hz
      rcases List.mem_cons.mp hz with e | e
      · rw [e]; omega
      · have := h1 z e
        omega

theorem foldl_bubbleDown_sorted :
    ∀ (ms acc : List matchInfo), acc.Pairwise (fun a b => b.origStart ≤ a.origStart) →
      (ms.foldl (fun sorted x => bubbleDown x sorted) acc).Pairwise
        (fun a b => b.origStart ≤ a.origStart) := by
  intro ms
  induction ms with
  | nil => intro acc h; exact h
  | cons m ms ih =>
    intro acc h
    exact ih _ (bubbleDown_sorted m acc h)

theorem insertionSort_sorted (ms : List matchInfo) :
    (insertionSort ms).Pairwise (fun a b => a.origStart ≤ b.origStart) := by
  unfold insertionSort
  rw [List.pairwise_reverse]
  exact foldl_bubbleDown_sorted ms [] List.Pairwise.nil

theorem mergeLoop_full (L : Nat) :
    ∀ (rest : List matchInfo) (cur : matchInfo), cur.origEnd = L →
      (∀ m ∈ rest, m.origStart ≤ L ∧ m.origEnd ≤ L) → mergeLoop cur rest = [cur] := by
  intro rest
  induction rest with
  | nil => intro cur _ _; rfl
  | cons m rest ih =>
    intro cur hc h
    obtain ⟨h1, h2⟩ := h m (List.mem_cons_self _ _)
    unfold mergeLoop
    rw [if_pos (by omega), if_neg (by omega)]
    exact ih cur hc (fun x hx => h x (List.mem_cons_of_mem _ hx))

theorem mergeLoop_cover (L : Nat) (m0 : matchInfo) (h0 : m0.origStart = 0)
    (hL : m0.origEnd = L) :
    ∀ (rest : List matchInfo) (cur : matchInfo), cur.origEnd ≤ L → m0 ∈ rest →
      rest.Pairwise (fun a b => a.origStart ≤ b.origStart) →
      (∀ m ∈ rest, m.origStart ≤ L ∧ m.origEnd ≤ L) →
      mergeLoop cur rest = [{ cur with origEnd := L }] := by
  intro rest
  induction rest with
  | nil => intro cur _ hm; simp at hm
  | cons m rest ih =>
    intro cur hc hm hs h
    obtain ⟨s1, s2⟩ := List.pairwise_cons.mp hs
    obtain ⟨h1, h2⟩ := h m (List.mem_cons_self _ _)
    have hrest : ∀ x ∈ rest, x.origStart ≤ L ∧ x.origEnd ≤ L :=
      fun x hx => h x (List.mem_cons_of_mem _ hx)
    rcases List.mem_cons.mp hm with e | e
    · subst e
      unfold mergeLoop
      rw [if_pos (by omega)]
      split_ifs with c
      · rw [hL]
        exact mergeLoop_full L rest _ rfl hrest
      · have : cur.origEnd = L := by omega
        rw [mergeLoop_full L rest cur this hrest]
        simp only [List.cons.injEq, and_true]
        rw [← this]
    · have hz : m.origStart = 0 := by
        have := s1 m0 e
        omega
      unfold mergeLoop
      rw [if_pos (by omega)]
      split_ifs with c
      · exact ih _ h2 e s2 hrest
      · exact ih _ hc e s2 hrest

theorem mergeOverlapping_cover (L : Nat) (ms : List matchInfo) (m0 : matchInfo)
    (hm : m0 ∈ ms) (h0 : m0.origStart = 0) (hL : m0.origEnd = L)
    (h : ∀ m ∈ ms, m.origStart ≤ L ∧ m.origEnd ≤ L) :
    ∃ x, mergeOverlapping ms = [x] ∧ x.origStart = 0 ∧ x.origEnd = L := by
  unfold mergeOverlapping
  split_ifs with c
  · match ms, hm, c with
    | [x], hm, _ =>
      simp only [List.mem_singleton] at hm
      subst hm
      exact ⟨m0, rfl, h0, hL⟩
    | [], hm, _ => simp at hm
  · have hs := insertionSort_sorted ms
    have hmem : ∀ y, y ∈ insertionSort ms ↔ y ∈ ms := fun y => mem_insertionSort y ms
    generalize insertionSort ms = srt at hs hmem
    cases srt with
    | nil => exact absurd ((hmem m0).mpr hm) (by simp)
    | cons x rest =>
      dsimp only
      obtain ⟨s1, s2⟩ := List.pairwise_cons.mp hs
      have hx := h x ((hmem x).mp (List.mem_cons_self _ _))
      have hrest : ∀ y ∈ rest, y.origStart ≤ L ∧ y.origEnd ≤ L :=
        fun y hy => h y ((hmem y).mp (List.mem_cons_of_mem _ hy))
      rcases List.mem_cons.mp ((hmem m0).mpr hm) with e | e
      · subst e
        exact ⟨m0, mergeLoop_full L rest m0 hL hrest, h0, hL⟩
      · have hz : x.origStart = 0 := by
          have := s1 m0 e
          omega
        exact ⟨_, mergeLoop_cover L m0 h0 hL rest x hx.2 e s2 hrest, hz, rfl⟩

/-- `Censor` masks the whole text when one of the matches spans it. -/
theorem censor_cover (U : Unicode) (g : Globals) (T : Str) (mode : Int) (out : List matchInfo)
    (m0 : matchInfo) (hf : findMatches U g.collapsedToOriginal T g.profanityMatcher = .ok out)
    (hm : m0 ∈ out) (h0 : m0.origStart = 0) (hL : m0.origEnd = T.length)
    (h : ∀ m ∈ out, m.origStart ≤ T.length ∧ m.origEnd ≤ T.length) :
    Censor U g T mode = .ok (buildAsteriskMask T mode) := by
  obtain ⟨x, hx, x0, xL⟩ := mergeOverlapping_cover T.length out m0 hm h0 hL h
  have hT0 : ¬ T.length = 0 := by
    intro c
    unfold findMatches at hf
    rw [if_pos c] at hf
    simp only [Except.ok.injEq] at hf
    rw [← hf] at hm
    simp at hm
  have hout : ¬ out.length = 0 := by
    intro c
    rw [List.length_eq_zero] at c
    rw [c] at hm
    simp at hm
  unfold Censor
  rw [if_neg hT0, hf, bind_ok, if_neg hout]
  dsimp only
  rw [hx]
  unfold censorLoop gapBefore
  rw [if_neg (by rw [x0]; simp), pure_eq_ok, bind_ok, x0, xL,
    slice_eq_ok (Nat.zero_le _) (le_refl _), bind_ok]
  unfold censorLoop censorTail
  rw [bind_ok, if_neg (by simp)]
  simp
  rfl

/-! ## Detection of a word that fills the text -/

theorem isProfane_of_mem (U : Unicode) (g : Globals) (T : Str) (out : List matchInfo)
    (m : matchInfo) (hf : findMatches U g.collapsedToOriginal T g.profanityMatcher = .ok out)
    (hm : m ∈ out) : IsProfane U g T = .ok true := by
  have hT0 : ¬ T.length = 0 := by
    intro c
    unfold findMatches at hf
    rw [if_pos c] at hf
    simp only [Except.ok.injEq] at hf
    rw [← hf] at hm
    simp at hm
  unfold IsProfane
  rw [if_neg hT0, hf, bind_ok, pure_eq_ok]
  have : out.length > 0 := List.length_pos_of_mem hm
  simp [this]

theorem offset_ascii {rs : List Nat} (h : IsAscii rs) {k : Nat} (hk : k ≤ rs.length) :
    offset rs k = k := by
  unfold offset
  rw [stringOfRunes_ascii _ (fun b hb => h b (List.mem_of_mem_take hb)), List.length_take]
  omega

theorem offset_pred {rs : List Nat} (hne : rs ≠ [])
    (hlast : ∀ c, rs.getLast? = some c → c < 0x80) :
    offset rs (rs.length - 1) + 1 = (stringOfRunes rs).length := by
  have hlen : 0 < rs.length := List.length_pos.mpr hne
  have hk : rs.length - 1 < rs.length := by omega
  have h1 := offset_succ rs hk
  have e : rs.length - 1 + 1 = rs.length := by omega
  rw [e, offset_length] at h1
  have hc : rs[rs.length - 1] < 0x80 := by
    apply hlast
    rw [List.getLast?_eq_getElem?, List.getElem?_eq_getElem hk]
  have h2 : (encodeRune rs[rs.length - 1]).length = 1 := by
    unfold encodeRune
    rw [if_pos (by omega)]
    rfl
  omega

theorem whole_text_detected (U : Unicode) {ord : MapOrder} (hord : IsMapOrder ord)
    {dict : List Str} {g : Globals} (hg : init ord dict = .ok g)
    (rs : List Nat) (hv : ValidRunes rs) (hn : U.nfkc (stringOfRunes rs) = stringOfRunes rs)
    (kS P : List Nat)
    (hN : (normalizeText U (stringOfRunes rs)).normalized = stringOfRunes kS)
    (hkv : ValidRunes kS)
    (hP : P ≠ []) (hadj : NoAdjacentEqual P) (hst : Stretched P kS)
    (hdict : FirstCollapsing dict (stringOfRunes P)) (hne : rs ≠ [])
    (hos : (normalizeText U (stringOfRunes rs)).posMap[0]? = some 0)
    (hoe : (normalizeText U (stringOfRunes rs)).posMap[(stringOfRunes kS).length - 1]? =
      some (offset rs (rs.length - 1)))
    (mode : Int) :
    IsProfane U g (stringOfRunes rs) = .ok true ∧
      Censor U g (stringOfRunes rs) mode = .ok (buildAsteriskMask (stringOfRunes rs) mode) := by
  have hlen : 0 < rs.length := List.length_pos.mpr hne
  have e : rs.length - 1 + 1 = rs.length := by omega
  have hafter : isWordBoundaryAfter U (stringOfRunes rs) (offset rs (rs.length - 1 + 1)) =
      .ok true := by
    unfold isWordBoundaryAfter
    rw [if_pos (by rw [e, offset_length])]
  obtain ⟨out, hout, hm, hall⟩ := findMatches_detect U hord hg rs hv hn [] kS [] P
    (by rw [List.nil_append, List.append_nil]; exact hN)
    (by rw [List.nil_append, List.append_nil]; exact hkv) hP hadj hst
    (by intro a b ha; simp at ha) (by intro a b _ hb; simp at hb) hdict 0 (rs.length - 1)
    (by omega) hos hoe rfl hafter
  refine ⟨isProfane_of_mem U g _ out _ hout hm, ?_⟩
  refine censor_cover U g _ mode out _ hout hm rfl (by
    show offset rs (rs.length - 1 + 1) = _
    rw [e, offset_length]) ?_
  intro m hmo
  exact ⟨isOffset_le (hall m hmo).1, isOffset_le (hall m hmo).2⟩

theorem buildAsteriskMask_all (T : Str) :
    buildAsteriskMask T CensorAll = List.replicate (runesOf T).length asterisk := by
  have ha : stringOfRunes (List.replicate (runesOf T).length asterisk) =
      List.replicate (runesOf T).length asterisk := by
    apply stringOfRunes_ascii
    intro b hb
    rw [List.eq_of_mem_replicate hb]
    decide
  unfold buildAsteriskMask CensorAll
  dsimp only
  by_cases c : (runesOf T).length = 0
  · rw [if_pos c, c]
    rfl
  · rw [if_neg c, if_neg (show ¬ (0 : Int) = 1 by decide),
      if_neg (show ¬ (0 : Int) = 2 by decide)]
    exact ha

/-! ## Plain words -/

theorem isPlainWord_ascii {P : Str} (h : IsPlainWord P) : IsAscii P := by
  intro b hb
  have := h b hb
  omega

theorem leet_lower_plain {c : Nat} (h : 0x61 ≤ c ∧ c ≤ 0x7A ∧ c ≠ 0x76) :
    leetAscii (lowerAscii c) = c := by
  obtain ⟨h1, h2, h3⟩ := h
  have e : lowerAscii c = c := by
    unfold lowerAscii
    rw [if_neg (by omega)]
  rw [e]
  unfold leetAscii
  rw [if_neg (by omega), if_neg (by omega), if_neg (by omega), if_neg (by omega),
    if_neg (by omega), if_neg (by omega), if_neg (by omega), if_neg (by omega)]

theorem map_leet_lower_plain {P : Str} (h : IsPlainWord P) :
    P.map (fun b => leetAscii (lowerAscii b)) = P := by
  induction P with
  | nil => rfl
  | cons c P ih =>
    rw [List.map_cons, leet_lower_plain (h c (List.mem_cons_self _ _)),
      ih (fun x hx => h x (List.mem_cons_of_mem _ hx))]

theorem normalizeLoop_plain (U : Unicode) (x : List Nat) (pos : Nat) (h : IsPlainWord x) :
    normalizeLoop U pos x = (x, List.range' pos x.length) := by
  have h1 := normalizeLoop_ascii U x pos (isPlainWord_ascii h)
  have h2 := normalizeLoop_ascii_map U x pos (isPlainWord_ascii h)
  rw [map_leet_lower_plain h] at h2
  exact Prod.ext h2 h1.2.2

theorem stretched_mem : ∀ (p s : List Nat), Stretched p s → ∀ x ∈ s, x ∈ p := by
  intro p
  induction p with
  | nil =>
    intro s h x hx
    rw [(stretched_nil s).mp h] at hx
    simp at hx
  | cons r p ih =>
    intro s h x hx
    obtain ⟨n, s2, rfl, h2⟩ := (stretched_cons r p s).mp h
    rcases List.mem_append.mp hx with e | e
    · rw [List.eq_of_mem_replicate e]
      exact List.mem_cons_self _ _
    · exact List.mem_cons_of_mem _ (ih s2 h2 x e)

theorem normalizeLoop_append (U : Unicode) :
    ∀ (xs ys : List Nat) (pos : Nat),
      normalizeLoop U pos (xs ++ ys) =
        ((normalizeLoop U pos xs).1 ++ (normalizeLoop U (pos + (xs.map RuneLen).sum) ys).1,
          (normalizeLoop U pos xs).2 ++ (normalizeLoop U (pos + (xs.map RuneLen).sum) ys).2) := by
  intro xs
  induction xs with
  | nil => intro ys pos; simp [normalizeLoop]
  | cons r xs ih =>
    intro ys pos
    have e : pos + ((r :: xs).map RuneLen).sum = pos + RuneLen r + (xs.map RuneLen).sum := by
      simp only [List.map_cons, List.sum_cons]
      omega
    rw [e, List.cons_append, normalizeLoop, normalizeLoop]
    by_cases hz : r ∈ zeroWidthChars
    · rw [if_pos hz, if_pos hz]
      exact ih ys _
    · rw [if_neg hz, if_neg hz]
      dsimp only
      rw [ih ys _]
      simp only [List.append_assoc]

/-- C13. Stretching a word by repeating characters does not evade detection:
for every dictionary and every entry `P` of it that is non-empty, consists
only of lower-case ASCII letters other than `v`, has no two adjacent equal
letters and is the first entry whose collapsed form is `P`, and for every
text `S` that is `P` with each letter replaced by one or more copies of
itself (NFKC leaves the ASCII text `S` unchanged), `IsProfane(S)` is true and
`Censor(S, CensorAll)` is the string of exactly `len(S)` asterisks. -/
theorem stretched_word_detected (U : Unicode) (ord : MapOrder) (dict : List Str) (g : Globals)
    (P S : Str) (hord : IsMapOrder ord) (hg : init ord dict = .ok g) (hP : P ≠ [])
    (hplain : IsPlainWord P) (hadj : NoAdjacentEqual P) (hfirst : FirstCollapsing dict P)
    (hS : Stretched P S) (hn : U.nfkc S = S) :
    IsProfane U g S = .ok true ∧
      Censor U g S CensorAll = .ok (List.replicate S.length asterisk) := by
  have hSp : IsPlainWord S := fun c hc => hplain c (stretched_mem P S hS c hc)
  have hSa := isPlainWord_ascii hSp
  have hPa := isPlainWord_ascii hplain
  have hSne : S ≠ [] := stretched_ne_nil hS hP
  have hlen : 0 < S.length := List.length_pos.mpr hSne
  have eS := stringOfRunes_ascii S hSa
  have eP := stringOfRunes_ascii P hPa
  obtain ⟨_, _, _, hpm⟩ := normalizeText_ascii U S hSa hn
  have hnm := normalizeText_ascii_map U S hSa hn
  rw [map_leet_lower_plain hSp] at hnm
  have key := whole_text_detected U hord hg S (validRunes_ascii S hSa) (by rw [eS]; exact hn)
    S P (by rw [eS]; exact hnm) (validRunes_ascii S hSa) hP hadj hS (by rw [eP]; exact hfirst)
    hSne (by
      rw [eS, hpm, List.getElem?_range' _ _ hlen]) (by
      rw [eS, hpm, List.getElem?_range' _ _ (by omega), offset_ascii hSa (by omega)]
      simp) CensorAll
  rw [eS, buildAsteriskMask_all, runesOf_ascii S hSa] at key
  exact key

/-- The witness of `stretched_word_detected`: "fuuuck" with the dictionary
`["fuck", "shit", "ass"]`. -/
theorem stretched_word_detected_witness :
    IsMapOrder insertionOrder ∧ init insertionOrder dictSample = .ok globalsSample ∧
      wordFuck ≠ [] ∧ IsPlainWord wordFuck ∧ NoAdjacentEqual wordFuck ∧
      FirstCollapsing dictSample wordFuck ∧ Stretched wordFuck textStretched ∧
      unicodeSample.nfkc textStretched = textStretched ∧
      IsProfane unicodeSample globalsSample textStretched = .ok true ∧
      Censor unicodeSample globalsSample textStretched CensorAll =
        .ok (List.replicate textStretched.length asterisk) :=
  ⟨isMapOrder_insertionOrder, by decide!, by decide, by decide,
    by simp [NoAdjacentEqual, wordFuck], by decide!,
    ⟨[1, 3, 1, 1], by decide, by decide, by decide⟩, by decide!,
    stretched_word_detected unicodeSample insertionOrder dictSample globalsSample wordFuck
      textStretched isMapOrder_insertionOrder (by decide!) (by decide) (by decide)
      (by simp [NoAdjacentEqual, wordFuck]) (by decide!) ⟨[1, 3, 1, 1], by decide, by decide, by decide⟩ (by decide!)⟩

/-- C14. Injected invisible characters do not evade detection and are masked
with the word: for every dictionary and every entry `P` of it that consists
only of lower-case ASCII letters other than `v`, has no two adjacent equal
letters and is the first entry whose collapsed form is `P`, every split
`P = x ++ y` with `x` and `y` non-empty, and every rune `z` of
`zeroWidthChars` such that NFKC leaves `x ++ z ++ y` unchanged,
`IsProfane(x ++ z ++ y)` is true and `Censor(x ++ z ++ y, CensorAll)` is the
string of exactly `runeCount(P) + 1` asterisks. -/
theorem injected_invisible_detected (U : Unicode) (ord : MapOrder) (dict : List Str)
    (g : Globals) (x y : Str) (z : Nat) (hord : IsMapOrder ord) (hg : init ord dict = .ok g)
    (hplain : IsPlainWord (x ++ y)) (hadj : NoAdjacentEqual (x ++ y))
    (hfirst : FirstCollapsing dict (x ++ y)) (hx : x ≠ []) (hy : y ≠ [])
    (hz : z ∈ zeroWidthChars) (hn : U.nfkc (x ++ encodeRune z ++ y) = x ++ encodeRune z ++ y) :
    IsProfane U g (x ++ encodeRune z ++ y) = .ok true ∧
      Censor U g (x ++ encodeRune z ++ y) CensorAll =
        .ok (List.replicate ((runesOf (x ++ y)).length + 1) asterisk) := by
  have hxp : IsPlainWord x := fun c hc => hplain c (List.mem_append_left _ hc)
  have hyp : IsPlainWord y := fun c hc => hplain c (List.mem_append_right _ hc)
  have hxa := isPlainWord_ascii hxp
  have hya := isPlainWord_ascii hyp
  have hPa := isPlainWord_ascii hplain
  have hzv : ValidRune z = true :=
    (show ∀ r ∈ zeroWidthChars, ValidRune r = true by decide) z hz
  have hv : ValidRunes (x ++ [z] ++ y) := by
    refine validRunes_append.mpr ⟨validRunes_append.mpr ⟨validRunes_ascii x hxa, ?_⟩,
      validRunes_ascii y hya⟩
    intro r hr
    rw [List.mem_singleton.mp hr]
    exact hzv
  have eT : stringOfRunes (x ++ [z] ++ y) = x ++ encodeRune z ++ y := by
    rw [stringOfRunes_append, stringOfRunes_append, stringOfRunes_ascii x hxa,
      stringOfRunes_ascii y hya, stringOfRunes_cons, stringOfRunes_nil, List.append_nil]
  have eP := stringOfRunes_ascii (x ++ y) hPa
  have hxl : 0 < x.length := List.length_pos.mpr hx
  have hyl : 0 < y.length := List.length_pos.mpr hy
  -- the normalized text and its position map
  have hloop : normalizeLoop U 0 (x ++ [z] ++ y) =
      (x ++ y, List.range' 0 x.length ++ List.range' (x.length + RuneLen z) y.length) := by
    have hs : ((x ++ [z]).map RuneLen).sum = x.length + RuneLen z := by
      rw [List.map_append, List.sum_append, sum_RuneLen x (validRunes_ascii x hxa),
        stringOfRunes_ascii x hxa]
      simp
    have hsx : (x.map RuneLen).sum = x.length := by
      rw [sum_RuneLen x (validRunes_ascii x hxa), stringOfRunes_ascii x hxa]
    have hzl : ∀ pos, normalizeLoop U pos [z] = ([], []) := by
      intro pos
      rw [normalizeLoop, if_pos hz, normalizeLoop]
    rw [normalizeLoop_append, normalizeLoop_append, hs, hsx, hzl, normalizeLoop_plain U x 0 hxp,
      Nat.zero_add, normalizeLoop_plain U y _ hyp]
    simp
  have hnt : (normalizeText U (x ++ encodeRune z ++ y)).normalized = x ++ y ∧
      (normalizeText U (x ++ encodeRune z ++ y)).posMap =
        List.range' 0 x.length ++ List.range' (x.length + RuneLen z) y.length := by
    unfold normalizeText
    dsimp only
    rw [hn, ← eT, runesOf_stringOfRunes _ hv, hloop]
    exact ⟨rfl, rfl⟩
  have hlast : ∀ c, (x ++ [z] ++ y).getLast? = some c → c < 0x80 := by
    intro c hc
    rw [List.getLast?_append_of_ne_nil _ hy] at hc
    exact hya c (List.mem_of_mem_getLast? hc)
  have hpred := offset_pred (show x ++ [z] ++ y ≠ [] by simp) hlast
  rw [eT] at hpred
  have hzlen : (encodeRune z).length = RuneLen z := encodeRune_length_valid hzv
  have key := whole_text_detected U hord hg (x ++ [z] ++ y) hv (by rw [eT]; exact hn)
    (x ++ y) (x ++ y) (by rw [eT, eP]; exact hnt.1) (validRunes_ascii _ hPa) (by simp [hx])
    hadj (stretched_self _) (by rw [eP]; exact hfirst) (by simp) (by
      rw [eT, hnt.2, List.getElem?_append_left (by rw [List.length_range']; exact hxl),
        List.getElem?_range' _ _ hxl]) (by
      rw [eT, hnt.2, eP, List.getElem?_append_right (by
        rw [List.length_range', List.length_append]; omega),
        List.length_range', List.getElem?_range' _ _ (by rw [List.length_append]; omega)]
      simp only [List.length_append, Option.some.injEq] at hpred ⊢
      omega) CensorAll
  rw [eT, buildAsteriskMask_all] at key
  have hcount : (runesOf (x ++ encodeRune z ++ y)).length = (runesOf (x ++ y)).length + 1 := by
    rw [← eT, runesOf_stringOfRunes _ hv, runesOf_ascii _ hPa]
    simp only [List.length_append, List.length_singleton]
    omega
  rw [hcount] at key
  exact key

/-- The witness of `injected_invisible_detected`: "fu", U+200B ZERO WIDTH SPACE,
"ck" with the dictionary `["fuck", "shit", "ass"]`. -/
theorem injected_invisible_detected_witness :
    IsMapOrder insertionOrder ∧ init insertionOrder dictSample = .ok globalsSample ∧
      IsPlainWord ([0x66, 0x75] ++ [0x63, 0x6B]) ∧
      NoAdjacentEqual ([0x66, 0x75] ++ [0x63, 0x6B]) ∧
      FirstCollapsing dictSample ([0x66, 0x75] ++ [0x63, 0x6B]) ∧
      (0x200B : Nat) ∈ zeroWidthChars ∧
      unicodeSample.nfkc ([0x66, 0x75] ++ encodeRune 0x200B ++ [0x63, 0x6B]) =
        [0x66, 0x75] ++ encodeRune 0x200B ++ [0x63, 0x6B] ∧
      IsProfane unicodeSample globalsSample ([0x66, 0x75] ++ encodeRune 0x200B ++ [0x63, 0x6B]) =
        .ok true ∧
      Censor unicodeSample globalsSample ([0x66, 0x75] ++ encodeRune 0x200B ++ [0x63, 0x6B])
        CensorAll = .ok (List.replicate ((runesOf ([0x66, 0x75] ++ [0x63, 0x6B])).length + 1)
          asterisk) :=
  ⟨isMapOrder_insertionOrder, by decide!, by decide, by simp [NoAdjacentEqual], by decide!,
    by decide, by decide!,
    injected_invisible_detected unicodeSample insertionOrder dictSample globalsSample
      [0x66, 0x75] [0x63, 0x6B] 0x200B isMapOrder_insertionOrder (by decide!) (by decide)
      (by simp [NoAdjacentEqual]) (by decide!) (by decide) (by decide) (by decide) (by decide!)⟩

/-! ## A dictionary word between word boundaries -/

theorem lowerAscii_nonword (U : Unicode) {a : Nat} (h : isWordChar U a = false) :
    lowerAscii a = a := by
  unfold lowerAscii
  split_ifs with c
  · exfalso
    have : isWordChar U a = true := by
      unfold isWordChar IsLetter
      rw [if_pos (by omega)]
      simp [c.1, c.2]
    rw [this] at h
    cases h
  · rfl

theorem isAscii_append {xs ys : Str} : IsAscii (xs ++ ys) ↔ IsAscii xs ∧ IsAscii ys := by
  unfold IsAscii
  constructor
  · intro h
    exact ⟨fun r hr => h r (List.mem_append_left _ hr), fun r hr => h r (List.mem_append_right _ hr)⟩
  · intro h r hr
    rcases List.mem_append.mp hr with e | e
    · exact h.1 r e
    · exact h.2 r e

/-- C15, refuted as stated. With the dictionary `["sat"]` the word "sat" stands
at bytes [0, 3) of the ASCII text "sat+x", at the start of the text and before
`+`, which is neither a letter nor a digit; yet `IsProfane("sat+x")` is false:
the leetspeak table rewrites `+` to `t`, the run of `t` then spans "t+", and the
byte after the span is the letter `x`. Likewise the empty word is an entry of
the dictionary `[""]` that stands at bytes [0, 0) of the empty text, and
`IsProfane("")` is false. -/
theorem boundary_word_missed :
    (init insertionOrder dictSat = .ok globalsSat ∧ IsPlainWord wordSat ∧
        NoAdjacentEqual wordSat ∧ FirstCollapsing dictSat wordSat ∧
        textSatPlus = [] ++ wordSat ++ [0x2B, 0x78] ∧ IsAscii textSatPlus ∧
        unicodeSample.nfkc textSatPlus = textSatPlus ∧
        isWordChar unicodeSample 0x2B = false ∧
        IsProfane unicodeSample globalsSat textSatPlus = .ok false) ∧
      (init insertionOrder dictEmpty = .ok globalsEmpty ∧ IsPlainWord [] ∧
        NoAdjacentEqual [] ∧ FirstCollapsing dictEmpty [] ∧
        IsProfane unicodeSample globalsEmpty ([] ++ [] ++ []) = .ok false) :=
  ⟨⟨by decide!, by decide, by simp [NoAdjacentEqual, wordSat], by decide!, by decide,
      by unfold IsAscii; decide, by decide!, by decide, by decide!⟩,
    ⟨by decide!, by decide, by simp [NoAdjacentEqual], by decide!, by decide!⟩⟩

/-- C15, amended. A dictionary word standing between word boundaries is
detected when its neighbours do not blend into it: for every dictionary and
every entry `P` of it that is non-empty, consists only of lower-case ASCII
letters other than `v`, has no two adjacent equal letters and is the first
entry whose collapsed form is `P`, and for every ASCII text `A ++ P ++ B`
that NFKC leaves unchanged, in which the last byte of `A`, if any, is neither
a letter nor a digit and is not rewritten by the leetspeak table to the first
letter of `P`, and the first byte of `B`, if any, is neither a letter nor a
digit and is not rewritten to the last letter of `P`,
`IsProfane(A ++ P ++ B)` is true. -/
theorem boundary_word_detected (U : Unicode) (ord : MapOrder) (dict : List Str) (g : Globals)
    (A P B : Str) (hord : IsMapOrder ord) (hg : init ord dict = .ok g) (hP : P ≠ [])
    (hplain : IsPlainWord P) (hadj : NoAdjacentEqual P) (hfirst : FirstCollapsing dict P)
    (hT : IsAscii (A ++ P ++ B)) (hn : U.nfkc (A ++ P ++ B) = A ++ P ++ B)
    (hA : ∀ a, A.getLast? = some a → isWordChar U a = false ∧ some (leetAscii a) ≠ P.head?)
    (hB : ∀ b, B.head? = some b → isWordChar U b = false ∧ some (leetAscii b) ≠ P.getLast?) :
    IsProfane U g (A ++ P ++ B) = .ok true := by
  obtain ⟨⟨hAa, hPa⟩, hBa⟩ : (IsAscii A ∧ IsAscii P) ∧ IsAscii B := by
    have := isAscii_append.mp hT
    exact ⟨isAscii_append.mp this.1, this.2⟩
  have hPl : 0 < P.length := List.length_pos.mpr hP
  have eT := stringOfRunes_ascii _ hT
  have eP := stringOfRunes_ascii P hPa
  obtain ⟨_, hNa, _, hpm⟩ := normalizeText_ascii U _ hT hn
  have hnm := normalizeText_ascii_map U _ hT hn
  rw [List.map_append, List.map_append, map_leet_lower_plain hplain] at hnm
  rw [hnm] at hNa
  obtain ⟨⟨hkAa, _⟩, hkBa⟩ := (fun h => (⟨isAscii_append.mp (isAscii_append.mp h).1,
    (isAscii_append.mp h).2⟩ : (IsAscii _ ∧ IsAscii _) ∧ IsAscii _)) hNa
  have eN := stringOfRunes_ascii _ hNa
  have ekA := stringOfRunes_ascii _ hkAa
  have ekAP := stringOfRunes_ascii _ (isAscii_append.mpr ⟨hkAa, hPa⟩)
  have hlenT : (A ++ P ++ B).length = A.length + P.length + B.length := by
    simp only [List.length_append]
  -- the junctions
  have hjA : ∀ a b, (A.map (fun b => leetAscii (lowerAscii b))).getLast? = some a →
      P.head? = some b → a ≠ b := by
    intro a b ha hb
    rw [List.getLast?_map] at ha
    obtain ⟨a0, h0, rfl⟩ := Option.map_eq_some'.mp ha
    obtain ⟨w1, w2⟩ := hA a0 h0
    rw [lowerAscii_nonword U w1]
    intro c
    rw [hb, c] at w2
    exact w2 rfl
  have hjB : ∀ a b, P.getLast? = some a →
      (B.map (fun b => leetAscii (lowerAscii b))).head? = some b → a ≠ b := by
    intro a b ha hb
    rw [List.head?_map] at hb
    obtain ⟨b0, h0, rfl⟩ := Option.map_eq_some'.mp hb
    obtain ⟨w1, w2⟩ := hB b0 h0
    rw [lowerAscii_nonword U w1]
    intro c
    rw [ha, c] at w2
    exact w2 rfl
  -- the word boundaries
  have hbefore : isWordBoundaryBefore U (A ++ P ++ B) A.length = .ok true := by
    rw [isWordBoundaryBefore_ascii U hT]
    by_cases c : A.length ≤ 0
    · rw [if_pos c]
    · rw [if_neg c, if_pos (by omega)]
      have hl : A.length - 1 < A.length := by omega
      have e1 : (A ++ P ++ B).getD (A.length - 1) 0 = A[A.length - 1] := by
        rw [List.getD_eq_getElem?_getD, List.append_assoc, List.getElem?_append_left hl,
          List.getElem?_eq_getElem hl]
        rfl
      have e2 : A.getLast? = some A[A.length - 1] := by
        rw [List.getLast?_eq_getElem?, List.getElem?_eq_getElem hl]
      rw [e1, (hA _ e2).1]
      rfl
  have hafter : isWordBoundaryAfter U (A ++ P ++ B) (A.length + P.length) = .ok true := by
    rw [isWordBoundaryAfter_ascii U hT]
    by_cases c : A.length + P.length ≥ (A ++ P ++ B).length
    · rw [if_pos c]
    · rw [if_neg c]
      have hl : 0 < B.length := by omega
      have e1 : (A ++ P ++ B).getD (A.length + P.length) 0 = B[0] := by
        rw [List.getD_eq_getElem?_getD, List.getElem?_append_right (by simp),
          List.length_append, Nat.sub_self, List.getElem?_eq_getElem hl]
        rfl
      have e2 : B.head? = some B[0] := by
        rw [List.head?_eq_getElem?, List.getElem?_eq_getElem hl]
      rw [e1, (hB _ e2).1]
      rfl
  have hb1 : A.length + P.length - 1 + 1 = A.length + P.length := by omega
  obtain ⟨out, hout, hm, _⟩ := findMatches_detect U hord hg (A ++ P ++ B)
    (validRunes_ascii _ hT) (by rw [eT]; exact hn) _ P _ P (by rw [eT, eN]; exact hnm)
    (validRunes_ascii _ hNa) hP hadj (stretched_self P) hjA hjB (by rw [eP]; exact hfirst)
    A.length (A.length + P.length - 1) (by omega)
    (by
      rw [eT, ekA, hpm, List.length_map, List.getElem?_range' _ _ (by omega),
        offset_ascii hT (by omega)]
      simp)
    (by
      have e : (A.map (fun b => leetAscii (lowerAscii b)) ++ P).length - 1 =
          A.length + P.length - 1 := by simp
      rw [eT, ekAP, hpm, e, List.getElem?_range' _ _ (by omega), offset_ascii hT (by omega)]
      simp)
    (by rw [eT, offset_ascii hT (by omega)]; exact hbefore)
    (by rw [eT, hb1, offset_ascii hT (by omega)]; exact hafter)
  rw [eT] at hout
  exact isProfane_of_mem U g _ out _ hout hm

/-- The witness of `boundary_word_detected`: "oh, fuck!" with the dictionary
`["fuck", "shit", "ass"]`. -/
theorem boundary_word_detected_witness :
    IsMapOrder insertionOrder ∧ init insertionOrder dictSample = .ok globalsSample ∧
      wordFuck ≠ [] ∧ IsPlainWord wordFuck ∧ NoAdjacentEqual wordFuck ∧
      FirstCollapsing dictSample wordFuck ∧
      IsAscii ([0x6F, 0x68, 0x2C, 0x20] ++ wordFuck ++ [0x21]) ∧
      unicodeSample.nfkc ([0x6F, 0x68, 0x2C, 0x20] ++ wordFuck ++ [0x21]) =
        [0x6F, 0x68, 0x2C, 0x20] ++ wordFuck ++ [0x21] ∧
      (isWordChar unicodeSample 0x20 = false ∧ some (leetAscii 0x20) ≠ wordFuck.head?) ∧
      (isWordChar unicodeSample 0x21 = false ∧ some (leetAscii 0x21) ≠ wordFuck.getLast?) ∧
      IsProfane unicodeSample globalsSample ([0x6F, 0x68, 0x2C, 0x20] ++ wordFuck ++ [0x21]) =
        .ok true :=
  ⟨isMapOrder_insertionOrder, by decide!, by decide, by decide,
    by simp [NoAdjacentEqual, wordFuck], by decide!, by unfold IsAscii; decide, by decide!,
    by decide, by decide,
    boundary_word_detected unicodeSample insertionOrder dictSample globalsSample
      [0x6F, 0x68, 0x2C, 0x20] wordFuck [0x21] isMapOrder_insertionOrder (by decide!)
      (by decide) (by decide) (by simp [NoAdjacentEqual, wordFuck]) (by decide!)
      (by unfold IsAscii; decide) (by decide!)
      (fun a h => by
        have e : a = 0x20 := by simpa using h.symm
        rw [e]
        decide)
      (fun b h => by
        have e : b = 0x21 := by simpa using h.symm
        rw [e]
        decide)⟩

/-! ## The runes of a mask -/

theorem maskRuneSpec_valid (seg : Str) (mode : Int) (i : Nat) :
    ValidRune (maskRuneSpec (runesOf seg) mode i) = true := by
  unfold maskRuneSpec
  split_ifs
  · exact getD_valid _ (runesOf_valid seg) _
  · exact validRune_asterisk

theorem mask_result_eq (rs : List Nat) (mode : Int) (h0 : rs.length ≠ 0) :
    (if mode = 1 then
        if rs.length ≥ 1 then (List.replicate rs.length asterisk).set 0 (rs.getD 0 0)
        else List.replicate rs.length asterisk
      else if mode = 2 then
        if rs.length ≥ 2 then
          ((if rs.length ≥ 1 then (List.replicate rs.length asterisk).set 0 (rs.getD 0 0)
            else List.replicate rs.length asterisk).set (rs.length - 1)
              (rs.getD (rs.length - 1) 0))
        else (if rs.length ≥ 1 then (List.replicate rs.length asterisk).set 0 (rs.getD 0 0)
            else List.replicate rs.length asterisk)
      else List.replicate rs.length asterisk) =
      (List.range rs.length).map (maskRuneSpec rs mode) := by
  apply List.ext_getElem?
  intro i
  have h1 : rs.length ≥ 1 := by omega
  have hne : rs ≠ [] := fun c => h0 (by rw [c]; rfl)
  by_cases hi : i < rs.length
  · rw [List.getElem?_map, List.getElem?_range hi]
    simp only [Option.map_some']
    unfold maskRuneSpec
    by_cases m1 : mode = 1
    · subst m1
      rw [if_pos rfl, if_pos h1, List.getElem?_set]
      by_cases i0 : i = 0
      · subst i0
        simp [h1, hne]
      · have : ¬ (0 = i) := fun c => i0 c.symm
        simp [i0, this, hi]
    · rw [if_neg m1]
      by_cases m2 : mode = 2
      · subst m2
        rw [if_pos rfl, if_pos h1]
        by_cases h2 : rs.length ≥ 2
        · rw [if_pos h2, List.getElem?_set, List.getElem?_set]
          by_cases i0 : i = 0
          · subst i0
            have : ¬ (rs.length - 1 = 0) := by omega
            simp [this, h1, hne]
          · have n0 : ¬ (0 = i) := fun c => i0 c.symm
            by_cases il : i = rs.length - 1
            · subst il
              simp [h1, hne]
            · have nl : ¬ (rs.length - 1 = i) := fun c => il c.symm
              simp [i0, n0, il, nl, hi]
        · rw [if_neg h2, List.getElem?_set]
          have hl : rs.length = 1 := by omega
          have i0 : i = 0 := by omega
          subst i0
          simp [h1, hne]
      · rw [if_neg m2]
        simp [m1, m2, hi]
  · have hr : ((List.range rs.length).map (maskRuneSpec rs mode))[i]? = none :=
      List.getElem?_eq_none (by simp; omega)
    rw [hr, List.getElem?_eq_none]
    split_ifs <;> simp <;> omega

theorem mask_runes (seg : Str) (mode : Int) :
    runesOf (buildAsteriskMask seg mode) =
      (List.range (runesOf seg).length).map (maskRuneSpec (runesOf seg) mode) := by
  unfold buildAsteriskMask
  dsimp only
  by_cases h0 : (runesOf seg).length = 0
  · rw [if_pos h0, h0]
    rfl
  · rw [if_neg h0, mask_result_eq _ mode h0]
    apply runesOf_stringOfRunes
    intro r hr
    obtain ⟨i, _, rfl⟩ := List.mem_map.mp hr
    exact maskRuneSpec_valid seg mode i

/-- C21. Mask modes: for every segment `seg` with the runes `r[0..n-1]` (those
that `[]rune(seg)` gives, so for every well-formed UTF-8 segment its runes)
and every integer mode, the mask has `n` runes and rune `i` of
`buildAsteriskMask(seg, mode)` is `r[i]` when `mode == 1` and `i == 0`, or
`mode == 2` and `i == 0` or `i == n-1`, and is `*` otherwise; for a single
rune mode 2 gives the same mask as mode 1. -/
theorem mask_modes (seg : Str) (mode : Int) :
    (runesOf (buildAsteriskMask seg mode)).length = (runesOf seg).length ∧
      (∀ i, i < (runesOf seg).length →
        (runesOf (buildAsteriskMask seg mode))[i]? =
          some (if (mode = 1 ∧ i = 0) ∨ (mode = 2 ∧ (i = 0 ∨ i = (runesOf seg).length - 1))
            then (runesOf seg).getD i 0 else asterisk)) ∧
      ((runesOf seg).length = 1 →
        buildAsteriskMask seg CensorKeepFirstLast = buildAsteriskMask seg CensorKeepFirst) := by
  refine ⟨?_, ?_, ?_⟩
  · rw [mask_runes, List.length_map, List.length_range]
  · intro i hi
    rw [mask_runes, List.getElem?_map, List.getElem?_range hi]
    rfl
  · intro h1
    unfold buildAsteriskMask CensorKeepFirstLast CensorKeepFirst
    dsimp only
    simp [h1]

/-! ## The intervals that `mergeOverlapping` returns -/

theorem mergeLoop_starts :
    ∀ (rest : List matchInfo) (current : matchInfo),
      ((mergeLoop current rest).map (fun m => m.origStart)).Sublist
        ((current :: rest).map (fun m => m.origStart)) := by
  intro rest
  induction rest with
  | nil => intro current; exact List.Sublist.refl _
  | cons m rest ih =>
    intro current
    unfold mergeLoop
    split_ifs with c1 c2
    · exact (ih _).trans (by
        simp only [List.map_cons]
        exact List.Sublist.cons₂ _ (List.sublist_cons_self _ _))
    · exact (ih _).trans (by
        simp only [List.map_cons]
        exact List.Sublist.cons₂ _ (List.sublist_cons_self _ _))
    · simp only [List.map_cons]
      exact List.Sublist.cons₂ _ (ih m)

theorem bubbleDown_perm (x : matchInfo) :
    ∀ (l : List matchInfo), (bubbleDown x l).Perm (x :: l) := by
  intro l
  induction l with
  | nil => exact List.Perm.refl _
  | cons y ys ih =>
    unfold bubbleDown
    split_ifs
    · exact ((ih.cons y).trans (List.Perm.swap x y ys))
    · exact List.Perm.refl _

theorem foldl_bubbleDown_perm :
    ∀ (ms acc : List matchInfo),
      (ms.foldl (fun sorted x => bubbleDown x sorted) acc).Perm (ms ++ acc) := by
  intro ms
  induction ms with
  | nil => intro acc; exact List.Perm.refl _
  | cons m ms ih =>
    intro acc
    rw [List.foldl_cons]
    refine (ih _).trans ?_
    refine ((bubbleDown_perm m acc).append_left ms).trans ?_
    simp only [List.cons_append]
    exact List.perm_middle

theorem insertionSort_perm (ms : List matchInfo) : (insertionSort ms).Perm ms := by
  unfold insertionSort
  refine (List.reverse_perm _).trans ?_
  simpa using foldl_bubbleDown_perm ms []

/-- C22. Overlap merge totality: for every list of `matchInfo`, the result of
`mergeOverlapping` is ordered by `origStart`, and no two returned intervals
overlap or touch: for every two consecutive results `a` then `b`,
`a.origEnd < b.origStart`. -/
theorem merge_ordered_separated (ms : List matchInfo) :
    (mergeOverlapping ms).Pairwise (fun a b => a.origStart ≤ b.origStart) ∧
      List.Chain' (fun a b : matchInfo => a.origEnd < b.origStart) (mergeOverlapping ms) := by
  refine ⟨?_, mergeOverlapping_separated ms⟩
  unfold mergeOverlapping
  split_ifs with c
  · match ms, c with
    | [], _ => exact List.Pairwise.nil
    | [x], _ => exact List.pairwise_singleton _ _
  · have hs := insertionSort_sorted ms
    generalize insertionSort ms = srt at hs
    cases srt with
    | nil => exact List.Pairwise.nil
    | cons x rest =>
      dsimp only
      have h1 : ((x :: rest).map (fun m => m.origStart)).Pairwise (fun a b => a ≤ b) :=
        (List.pairwise_map).mpr hs
      have h2 := h1.sublist (mergeLoop_starts rest x)
      exact (List.pairwise_map).mp h2

theorem covered_cons (m : matchInfo) (ms : List matchInfo) (x : Nat) :
    Covered (m :: ms) x ↔ (m.origStart ≤ x ∧ x < m.origEnd) ∨ Covered ms x := by
  unfold Covered
  simp only [List.mem_cons, exists_eq_or_imp]

theorem covered_congr {a b : List matchInfo} (h : ∀ m, m ∈ a ↔ m ∈ b) (x : Nat) :
    Covered a x ↔ Covered b x := by
  unfold Covered
  constructor
  · rintro ⟨m, hm, hx⟩
    exact ⟨m, (h m).mp hm, hx⟩
  · rintro ⟨m, hm, hx⟩
    exact ⟨m, (h m).mpr hm, hx⟩

theorem mergeLoop_covered :
    ∀ (rest : List matchInfo) (current : matchInfo),
      (current :: rest).Pairwise (fun a b => a.origStart ≤ b.origStart) →
      (∀ m ∈ current :: rest, m.origStart ≤ m.origEnd) →
      ∀ x, Covered (mergeLoop current rest) x ↔ Covered (current :: rest) x := by
  intro rest
  induction rest with
  | nil => intro current _ _ x; rfl
  | cons m rest ih =>
    intro current hs hle x
    obtain ⟨s1, s2⟩ := List.pairwise_cons.mp hs
    obtain ⟨s3, s4⟩ := List.pairwise_cons.mp s2
    have hc := hle current (List.mem_cons_self _ _)
    have hm := hle m (List.mem_cons_of_mem _ (List.mem_cons_self _ _))
    have hcm := s1 m (List.mem_cons_self _ _)
    have hrest : ∀ y ∈ rest, y.origStart ≤ y.origEnd :=
      fun y hy => hle y (List.mem_cons_of_mem _ (List.mem_cons_of_mem _ hy))
    unfold mergeLoop
    split_ifs with c1 c2
    · rw [ih { current with origEnd := m.origEnd }
        (List.pairwise_cons.mpr ⟨fun y hy => s1 y (List.mem_cons_of_mem _ hy), s4⟩)
        (by
          intro y hy
          rcases List.mem_cons.mp hy with e | e
          · rw [e]
            show current.origStart ≤ m.origEnd
            omega
          · exact hrest y e) x]
      rw [covered_cons, covered_cons, covered_cons]
      show (current.origStart ≤ x ∧ x < m.origEnd) ∨ _ ↔ _
      constructor
      · rintro (h | h)
        · by_cases hx : x < current.origEnd
          · exact Or.inl ⟨h.1, hx⟩
          · exact Or.inr (Or.inl ⟨by omega, h.2⟩)
        · exact Or.inr (Or.inr h)
      · rintro (h | h | h)
        · exact Or.inl ⟨h.1, by omega⟩
        · exact Or.inl ⟨by omega, h.2⟩
        · exact Or.inr h
    · rw [ih current
        (List.pairwise_cons.mpr ⟨fun y hy => s1 y (List.mem_cons_of_mem _ hy), s4⟩)
        (by
          intro y hy
          rcases List.mem_cons.mp hy with e | e
          · rw [e]; exact hc
          · exact hrest y e) x]
      rw [covered_cons, covered_cons, covered_cons]
      constructor
      · rintro (h | h)
        · exact Or.inl h
        · exact Or.inr (Or.inr h)
      · rintro (h | h | h)
        · exact Or.inl h
        · exact Or.inl ⟨by omega, by omega⟩
        · exact Or.inr h
    · rw [covered_cons, covered_cons, ih m s2 (fun y hy => hle y (List.mem_cons_of_mem _ hy)) x]

theorem groupSpan_single (m : matchInfo) : groupSpan (m, []) = m := by
  cases m
  rfl

theorem groupSpan_snoc (g : matchInfo × List matchInfo) (m : matchInfo) :
    groupSpan (g.1, g.2 ++ [m]) =
      if m.origEnd > (groupSpan g).origEnd then { groupSpan g with origEnd := m.origEnd }
      else groupSpan g := by
  unfold groupSpan
  simp only [List.map_append, List.map_cons, List.map_nil, List.foldl_append, List.foldl_cons,
    List.foldl_nil]
  split_ifs with c
  · rw [max_eq_right (by omega)]
  · rw [max_eq_left (by omega)]

theorem mergeLoop_groups :
    ∀ (rest : List matchInfo) (g : matchInfo × List matchInfo),
      ∃ groups : List (matchInfo × List matchInfo),
        groups.flatMap (fun g => g.1 :: g.2) = g.1 :: g.2 ++ rest ∧
          mergeLoop (groupSpan g) rest = groups.map groupSpan := by
  intro rest
  induction rest with
  | nil =>
    intro g
    exact ⟨[g], by simp, rfl⟩
  | cons m rest ih =>
    intro g
    unfold mergeLoop
    by_cases c1 : m.origStart ≤ (groupSpan g).origEnd
    · rw [if_pos c1, ← groupSpan_snoc]
      obtain ⟨groups, h1, h2⟩ := ih (g.1, g.2 ++ [m])
      exact ⟨groups, by rw [h1]; simp, h2⟩
    · rw [if_neg c1]
      obtain ⟨groups, h1, h2⟩ := ih (m, [])
      rw [groupSpan_single] at h2
      refine ⟨g :: groups, ?_, ?_⟩
      · rw [List.flatMap_cons, h1]
        simp
      · rw [h2]
        rfl

/-- C23. Merging preserves coverage: for every list of `matchInfo` with
`origStart <= origEnd` in each, a byte position lies in some half-open interval
`[origStart, origEnd)` of the result of `mergeOverlapping` if and only if it
lies in some interval of the input; and the input falls into groups, each an
interval with the intervals it absorbed, such that the result lists, for
every group in order, the interval that starts at the `origStart` of the first
interval of the group and ends at the maximum `origEnd` of the group. -/
theorem merge_coverage (ms : List matchInfo) (h : ∀ m ∈ ms, m.origStart ≤ m.origEnd) :
    (∀ x, Covered (mergeOverlapping ms) x ↔ Covered ms x) ∧
      ∃ groups : List (matchInfo × List matchInfo),
        (groups.flatMap (fun g => g.1 :: g.2)).Perm ms ∧
          mergeOverlapping ms = groups.map groupSpan := by
  unfold mergeOverlapping
  split_ifs with c
  · refine ⟨fun x => Iff.rfl, ?_⟩
    match ms, c with
    | [], _ => exact ⟨[], List.Perm.refl _, rfl⟩
    | [x], _ =>
      exact ⟨[(x, [])], List.Perm.refl _, by rw [List.map_singleton, groupSpan_single]⟩
  · have hs := insertionSort_sorted ms
    have hp := insertionSort_perm ms
    generalize insertionSort ms = srt at hs hp
    cases srt with
    | nil =>
      have := hp.length_eq
      simp only [List.length_nil] at this
      omega
    | cons x rest =>
      dsimp only
      refine ⟨?_, ?_⟩
      · intro y
        rw [mergeLoop_covered rest x hs (fun m hm => h m (hp.mem_iff.mp hm)) y]
        exact covered_congr (fun m => hp.mem_iff) y
      · obtain ⟨groups, h1, h2⟩ := mergeLoop_groups rest (x, [])
        rw [groupSpan_single] at h2
        refine ⟨groups, ?_, h2⟩
        rw [h1]
        exact hp

/-- The witness of `merge_coverage`: the intervals `[3, 8)`, `[10, 15)`, `[0, 5)`. -/
theorem merge_coverage_witness :
    (∀ m ∈ intervalsSample, m.origStart ≤ m.origEnd) ∧
      mergeOverlapping intervalsSample =
        [{ origStart := 0, origEnd := 8, pattern := [0x78] },
          { origStart := 10, origEnd := 15, pattern := [0x78] }] ∧
      ((∀ x, Covered (mergeOverlapping intervalsSample) x ↔ Covered intervalsSample x) ∧
        ∃ groups : List (matchInfo × List matchInfo),
          (groups.flatMap (fun g => g.1 :: g.2)).Perm intervalsSample ∧
            mergeOverlapping intervalsSample = groups.map groupSpan) :=
  ⟨by decide, by decide, merge_coverage intervalsSample (by decide)⟩

/-! ## The collapsed form -/

theorem collapseRepeats_decoded (s : Str) :
    collapseRepeats s = collapseRepeats (stringOfRunes (runesOf s)) := by
  unfold collapseRepeats
  rw [runesOf_stringOfRunes _ (runesOf_valid s)]
  by_cases h : s.length = 0
  · rw [if_pos h, List.length_eq_zero.mp h]
    rfl
  · have := length_le_stringOfRunes_runesOf s
    rw [if_neg h, if_neg (by omega)]

theorem collapseRepeats_closed (s : Str) :
    collapseRepeats s =
      (stringOfRunes ((runsOf (runesOf s)).map Prod.fst),
        { startPos := startsOf (spansFrom 0 (runsOf (runesOf s))),
          endPos := endsOf (spansFrom 0 (runsOf (runesOf s))) }) := by
  rw [collapseRepeats_decoded, collapseRepeats_runs _ (runesOf_valid s)]

theorem runsOf_noAdjacent : ∀ (rs : List Nat), NoAdjacentEqual ((runsOf rs).map Prod.fst) := by
  intro rs
  induction rs with
  | nil => exact List.chain'_nil
  | cons r rs ih =>
    rw [runsOf]
    generalize runsOf rs = runs at ih
    cases runs with
    | nil => exact List.chain'_singleton _
    | cons x rest =>
      obtain ⟨r2, c⟩ := x
      simp only [consRun]
      split_ifs with e
      · exact ih
      · unfold NoAdjacentEqual at ih ⊢
        simp only [List.map_cons]
        exact List.chain'_cons.mpr ⟨e, ih⟩

theorem runsOf_flatten :
    ∀ (rs : List Nat), (runsOf rs).flatMap (fun x => List.replicate x.2 x.1) = rs := by
  intro rs
  induction rs with
  | nil => rfl
  | cons r rs ih =>
    rw [runsOf]
    generalize runsOf rs = runs at ih
    cases runs with
    | nil =>
      rw [← ih]
      rfl
    | cons x rest =>
      obtain ⟨r2, c⟩ := x
      simp only [consRun]
      split_ifs with e
      · subst e
        rw [← ih]
        simp [List.replicate_succ]
      · rw [← ih]
        simp [List.replicate_succ]

theorem runsOf_stretch (rs : List Nat) : Stretched ((runsOf rs).map Prod.fst) rs := by
  refine ⟨(runsOf rs).map Prod.snd, by simp, ?_, ?_⟩
  · intro c hc
    obtain ⟨x, hx, rfl⟩ := List.mem_map.mp hc
    exact (mem_runsOf rs x hx).2
  · rw [← List.zip_of_prod rfl rfl, runsOf_flatten]

/-- C24. Collapse law (idempotence): for every string `s`, `collapseRepeats` of
the string that `collapseRepeats(s)` returns is that same string. -/
theorem collapse_idempotent (s : Str) :
    (collapseRepeats (collapseRepeats s).1).1 = (collapseRepeats s).1 := by
  rw [collapseRepeats_closed s]
  exact collapse_noAdjacent _ (validRunes_runs (runesOf_valid s)) (runsOf_noAdjacent _)

/-- C25. Collapsed form: for every string `s` (so for every well-formed UTF-8
string), the runes of the string that `collapseRepeats(s)` returns have no two
adjacent equal runes, and the runes of `s` are these runes with each one
replaced by one or more copies of itself: every maximal run of `s` is reduced
to a single rune. The result is well-formed, it is empty exactly when `s` is
empty, and "fuuuuck" becomes "fuck". -/
theorem collapsed_form (s : Str) :
    NoAdjacentEqual (runesOf (collapseRepeats s).1) ∧
      Stretched (runesOf (collapseRepeats s).1) (runesOf s) ∧
      ValidString (collapseRepeats s).1 = true ∧
      ((collapseRepeats s).1 = [] ↔ s = []) ∧
      (collapseRepeats textFuuuuck).1 = wordFuck := by
  have hv := validRunes_runs (runesOf_valid s)
  have e : runesOf (collapseRepeats s).1 = (runsOf (runesOf s)).map Prod.fst := by
    rw [collapseRepeats_closed s]
    exact runesOf_stringOfRunes _ hv
  refine ⟨by rw [e]; exact runsOf_noAdjacent _, by rw [e]; exact runsOf_stretch _, ?_, ?_,
    by decide!⟩
  · rw [collapseRepeats_closed s]
    exact validString_stringOfRunes _ hv
  · constructor
    · intro h
      by_contra hne
      obtain ⟨r, rs, hr⟩ := runesOf_ne_nil hne
      have := congrArg runesOf h
      rw [e, hr] at this
      have h2 : runsOf (r :: rs) = [] := List.map_eq_nil_iff.mp this
      exact absurd (runsOf_eq_nil.mp h2) (by simp)
    · intro h
      rw [h]
      rfl

theorem runsOf_of_noAdjacent :
    ∀ (rs : List Nat), NoAdjacentEqual rs → runsOf rs = rs.map (fun r => (r, 1)) := by
  intro rs
  induction rs with
  | nil => intro _; rfl
  | cons r rs ih =>
    intro h
    have h2 : NoAdjacentEqual rs := List.Chain'.tail h
    rw [runsOf, ih h2]
    apply consRun_of_ne
    intro x hx
    cases rs with
    | nil => simp at hx
    | cons r2 rs2 =>
      simp only [List.map_cons, List.head?_cons, Option.some.injEq] at hx
      subst hx
      exact fun e => (List.chain'_cons.mp h).1 e.symm

theorem span_at (pos : Nat) (a b : List (Nat × Nat)) (r c j : Nat) (hj : j < RuneLen r) :
    (startsOf (spansFrom pos (a ++ (r, c) :: b)))[(startsOf (spansFrom pos a)).length + j]? =
        some (pos + runBytes a) ∧
      (endsOf (spansFrom pos (a ++ (r, c) :: b)))[(endsOf (spansFrom pos a)).length + j]? =
        some (pos + runBytes a + c * RuneLen r) := by
  rw [spansFrom_append, startsOf_append, endsOf_append]
  constructor
  · rw [List.getElem?_append_right (by omega), Nat.add_sub_cancel_left]
    simp only [spansFrom, startsOf, List.flatMap_cons]
    rw [List.getElem?_append_left (by simpa using hj), List.getElem?_replicate, if_pos hj]
  · rw [List.getElem?_append_right (by omega), Nat.add_sub_cancel_left]
    simp only [spansFrom, endsOf, List.flatMap_cons]
    rw [List.getElem?_append_left (by simpa using hj), List.getElem?_replicate, if_pos hj]

theorem offset_cover (rs : List Nat) (i : Nat) :
    ∀ n, n ≤ rs.length → i < offset rs n →
      ∃ k, k < n ∧ offset rs k ≤ i ∧ i < offset rs (k + 1) := by
  intro n
  induction n with
  | zero =>
    intro _ h
    rw [offset_zero] at h
    omega
  | succ n ih =>
    intro hn h
    by_cases c : i < offset rs n
    · obtain ⟨k, k1, k2, k3⟩ := ih (by omega) c
      exact ⟨k, by omega, k2, k3⟩
    · exact ⟨n, by omega, by omega, h⟩

/-- C26. For every well-formed UTF-8 string `s` that has no two adjacent equal
runes, `collapseRepeats(s)` returns `s` itself with position arrays as long
as `s`, and for every byte `i` of it, in the rune number `k` of `s` (which
starts at the byte offset `offset k` and ends before `offset (k+1)`),
`startPos[i]` is `offset k` and `endPos[i]` is `startPos[i]` plus the byte
length of that rune. -/
theorem collapse_distinct_positions (s : Str) (hs : ValidString s = true)
    (hadj : NoAdjacentEqual (runesOf s)) :
    (collapseRepeats s).1 = s ∧ (collapseRepeats s).2.startPos.length = s.length ∧
      (collapseRepeats s).2.endPos.length = s.length ∧
      ∀ i, i < s.length → ∃ k, k < (runesOf s).length ∧
        offset (runesOf s) k ≤ i ∧ i < offset (runesOf s) (k + 1) ∧
        (collapseRepeats s).2.startPos[i]? = some (offset (runesOf s) k) ∧
        (collapseRepeats s).2.endPos[i]? =
          some (offset (runesOf s) k + (encodeRune ((runesOf s).getD k 0)).length) := by
  have hv := runesOf_valid s
  have hstr := stringOfRunes_runesOf hs
  have hruns := runsOf_of_noAdjacent _ hadj
  have hfst : (runsOf (runesOf s)).map Prod.fst = runesOf s := by
    rw [hruns, List.map_map]
    exact List.map_id _
  have hsum : ((runesOf s).map RuneLen).sum = s.length := by
    rw [sum_RuneLen _ hv, hstr]
  rw [collapseRepeats_closed s]
  dsimp only
  refine ⟨by rw [hfst, hstr], by rw [startsOf_spans_length, hfst, hsum],
    by rw [endsOf_spans_length, hfst, hsum], ?_⟩
  intro i hi
  obtain ⟨k, k1, k2, k3⟩ := offset_cover (runesOf s) i (runesOf s).length (le_refl _)
    (by rw [offset_length, hstr]; exact hi)
  refine ⟨k, k1, k2, k3, ?_⟩
  have hsplit : runesOf s =
      (runesOf s).take k ++ (runesOf s)[k] :: (runesOf s).drop (k + 1) := by
    rw [← List.drop_eq_getElem_cons k1, List.take_append_drop]
  have hvk : ValidRune (runesOf s)[k] = true := hv _ (List.getElem_mem k1)
  have hlen : (encodeRune (runesOf s)[k]).length = RuneLen (runesOf s)[k] :=
    encodeRune_length_valid hvk
  have hsucc := offset_succ (runesOf s) k1
  have htake : runsOf ((runesOf s).take k) = ((runesOf s).take k).map (fun r => (r, 1)) :=
    runsOf_of_noAdjacent _ (List.Chain'.take hadj k)
  have hvt : ValidRunes ((runesOf s).take k) := fun r hr => hv r (List.mem_of_mem_take hr)
  have hoff : (((runesOf s).take k).map RuneLen).sum = offset (runesOf s) k := by
    rw [sum_RuneLen _ hvt]
    rfl
  have hruns2 : runsOf (runesOf s) =
      ((runesOf s).take k).map (fun r => (r, 1)) ++
        ((runesOf s)[k], 1) :: ((runesOf s).drop (k + 1)).map (fun r => (r, 1)) := by
    rw [hruns]
    have := congrArg (List.map (fun r : Nat => (r, 1))) hsplit
    simpa only [List.map_append, List.map_cons] using this
  have hA1 : (((runesOf s).take k).map (fun r : Nat => (r, 1))).map Prod.fst =
      (runesOf s).take k := by
    rw [List.map_map]
    exact List.map_id _
  have hA2 : runBytes (((runesOf s).take k).map (fun r : Nat => (r, 1))) =
      offset (runesOf s) k := by
    rw [← htake, runBytes_runsOf, hoff]
  obtain ⟨j, rfl⟩ : ∃ j, i = offset (runesOf s) k + j := ⟨i - offset (runesOf s) k, by omega⟩
  have hj : j < RuneLen (runesOf s)[k] := by omega
  obtain ⟨g1, g2⟩ := span_at 0 (((runesOf s).take k).map (fun r : Nat => (r, 1)))
    (((runesOf s).drop (k + 1)).map (fun r => (r, 1))) (runesOf s)[k] 1 j hj
  rw [startsOf_spans_length, hA1, hoff, hA2, Nat.zero_add] at g1
  rw [endsOf_spans_length, hA1, hoff, hA2, Nat.zero_add] at g2
  rw [hruns2]
  refine ⟨g1, ?_⟩
  rw [g2, List.getD_eq_getElem?_getD, List.getElem?_eq_getElem k1, Option.getD_some, hlen,
    Nat.one_mul]

/-- The witness of `collapse_distinct_positions`: the text "aé" of three bytes. -/
theorem collapse_distinct_positions_witness :
    ValidString textAe = true ∧ NoAdjacentEqual (runesOf textAe) ∧
      collapseRepeats textAe = (textAe, { startPos := [0, 1, 1], endPos := [1, 3, 3] }) ∧
      ((collapseRepeats textAe).1 = textAe ∧
        (collapseRepeats textAe).2.startPos.length = textAe.length ∧
        (collapseRepeats textAe).2.endPos.length = textAe.length ∧
        ∀ i, i < textAe.length → ∃ k, k < (runesOf textAe).length ∧
          offset (runesOf textAe) k ≤ i ∧ i < offset (runesOf textAe) (k + 1) ∧
          (collapseRepeats textAe).2.startPos[i]? = some (offset (runesOf textAe) k) ∧
          (collapseRepeats textAe).2.endPos[i]? =
            some (offset (runesOf textAe) k +
              (encodeRune ((runesOf textAe).getD k 0)).length)) :=
  ⟨by decide!, by simp [NoAdjacentEqual, runesOf, rangeStr, rangeAux, textAe, decodeRune, isCont],
    by decide!,
    collapse_distinct_positions textAe (by decide!)
      (by simp [NoAdjacentEqual, runesOf, rangeStr, rangeAux, textAe, decodeRune, isCont])⟩

/-! ## The scan with an arbitrary callback -/

theorem feed_append {σ : Type} (cb : acMatch → σ → σ × Bool) :
    ∀ (a b : List acMatch) (s : σ),
      feed cb (a ++ b) s = if goesOn cb a s then feed cb b (feed cb a s) else feed cb a s := by
  intro a
  induction a with
  | nil => intro b s; rfl
  | cons m a ih =>
    intro b s
    simp only [List.cons_append, feed, goesOn, List.append_eq]
    by_cases c : (cb m s).2 = true
    · rw [if_pos c, if_pos c, ih, c, Bool.true_and]
    · rw [if_neg c, if_neg c]
      simp [c]

theorem goesOn_append {σ : Type} (cb : acMatch → σ → σ × Bool) :
    ∀ (a b : List acMatch) (s : σ),
      goesOn cb (a ++ b) s = (goesOn cb a s && goesOn cb b (feed cb a s)) := by
  intro a
  induction a with
  | nil => intro b s; rfl
  | cons m a ih =>
    intro b s
    simp only [List.cons_append, feed, goesOn, List.append_eq]
    by_cases c : (cb m s).2 = true
    · rw [if_pos c, ih, c, Bool.true_and, Bool.true_and]
    · simp [c]

theorem feed_collect :
    ∀ (ms acc : List acMatch),
      feed (fun m found => (found ++ [m], true)) ms acc = acc ++ ms := by
  intro ms
  induction ms with
  | nil => intro acc; simp [feed]
  | cons m ms ih =>
    intro acc
    simp only [feed, if_true]
    rw [ih]
    simp

theorem feed_track {σ : Type} (cb : acMatch → σ → σ × Bool) :
    ∀ (ms : List acMatch) (s : σ) (log : List acMatch),
      feed (track cb) ms (s, log) = (feed cb ms s, log ++ passed cb ms s) := by
  intro ms
  induction ms with
  | nil => intro s log; simp [feed, passed]
  | cons m ms ih =>
    intro s log
    simp only [feed, passed, track]
    by_cases c : (cb m s).2 = true
    · rw [if_pos c, if_pos c, if_pos c, ih]
      simp
    · rw [if_neg c, if_neg c, if_neg c]

theorem passed_prefix {σ : Type} (cb : acMatch → σ → σ × Bool) :
    ∀ (ms : List acMatch) (s : σ), passed cb ms s <+: ms := by
  intro ms
  induction ms with
  | nil => intro s; exact List.prefix_refl _
  | cons m ms ih =>
    intro s
    simp only [passed]
    split_ifs
    · exact (List.prefix_cons_inj m).mpr (ih _)
    · exact (List.prefix_cons_inj m).mpr (List.nil_prefix)

theorem emit_feed {σ : Type} (ac : ahoCorasick) (cb : acMatch → σ → σ × Bool)
    (endPos : Nat) :
    ∀ (out : List Nat) (s : σ), (∀ i ∈ out, ∃ pat, ac.patterns[i]? = some pat) →
      emit ac cb endPos out s =
        .ok (feed cb (out.map (matchOf ac endPos)) s,
          goesOn cb (out.map (matchOf ac endPos)) s) := by
  intro out
  induction out with
  | nil => intro s _; rfl
  | cons i out ih =>
    intro s h
    obtain ⟨pat, hp⟩ := h i (List.mem_cons_self _ _)
    have hpa : patternAt ac i = .ok pat := by unfold patternAt; rw [hp]
    have hm : matchOf ac endPos i = ⟨i, (endPos : Int) - (pat.length : Int), endPos⟩ := by
      unfold matchOf
      rw [List.getD_eq_getElem?_getD, hp]
      rfl
    rw [emit, hpa]
    simp only [List.map_cons, feed, goesOn, hm]
    by_cases c : (cb ⟨i, (endPos : Int) - (pat.length : Int), endPos⟩ s).2 = true
    · rw [if_pos c, if_pos c, ih _ (fun j hj => h j (List.mem_cons_of_mem _ hj)), c,
        Bool.true_and]
    · rw [if_neg c, if_neg c]
      simp [c]

/-- The scan of a well-formed automaton over any `range` sequence: it never
faults, and with any callback it ends in the state that feeding the
callback the matches of the scan gives. -/
theorem searchLoop_trace {ac : ahoCorasick} {L : Nat → List Nat}
    (hS : Shape ac.nodes L) (hSo : Sound ac.nodes L ac.patterns)
    (hl : ∀ n, 0 < n → n < ac.nodes.length → (getNode ac.nodes n).fail ≠ none) :
    ∀ (xs : List (Nat × Nat)) (pre : List Nat) (node : Nat),
      node < ac.nodes.length → L node <:+ pre →
      ∃ new, (∀ (σ : Type) (cb : acMatch → σ → σ × Bool) (s : σ),
          searchLoop ac cb xs node s = .ok (feed cb new s)) ∧
        ∀ m ∈ new, ∃ pat, ac.patterns[m.patternIndex]? = some pat := by
  intro xs
  induction xs with
  | nil =>
    intro pre node _ _
    exact ⟨[], fun σ cb s => rfl, by simp⟩
  | cons x xs ih =>
    intro pre node hn hsuf
    obtain ⟨i, r⟩ := x
    obtain ⟨n1, w1, w2, w3⟩ := walkToChild_spec hSo hl r pre ac.nodes.length node hn
      (by have := hS.label_le node hn; omega) hsuf
    obtain ⟨n2, b1, b2, hstep⟩ : ∃ n2, n2 < ac.nodes.length ∧ L n2 <:+ pre ++ [r] ∧
        ∀ (σ : Type) (cb : acMatch → σ → σ × Bool) (s : σ),
          searchLoop ac cb ((i, r) :: xs) node s =
            if (getNode ac.nodes n2).output.length > 0 then
              (emit ac cb (i + (encodeRune r).length) (getNode ac.nodes n2).output s >>=
                fun res => if res.2 then searchLoop ac cb xs n2 res.1 else pure res.1)
            else searchLoop ac cb xs n2 s := by
      cases hlk : (getNode ac.nodes n1).children.lookup r with
      | some next =>
        obtain ⟨_, e2, e3⟩ := hS.edge n1 r next (lookup_mem hlk)
        refine ⟨next, e2, by rw [e3]; exact suffix_snoc w3 r, ?_⟩
        intro σ cb s
        rw [searchLoop, w1, bind_ok]
        simp only [hlk]
      | none =>
        refine ⟨root, hS.pos, by rw [root, hS.root]; exact List.nil_suffix, ?_⟩
        intro σ cb s
        rw [searchLoop, w1, bind_ok]
        simp only [hlk]
    obtain ⟨new2, g1, g2⟩ := ih (pre ++ [r]) n2 b1 b2
    have hidx : ∀ j ∈ (getNode ac.nodes n2).output, ∃ pat, ac.patterns[j]? = some pat := by
      intro j hj
      obtain ⟨pat, p1, _⟩ := hSo.out n2 j hj
      exact ⟨pat, p1⟩
    by_cases hout : (getNode ac.nodes n2).output.length > 0
    · refine ⟨(getNode ac.nodes n2).output.map (matchOf ac (i + (encodeRune r).length)) ++ new2,
        ?_, ?_⟩
      · intro σ cb s
        rw [hstep σ cb s, if_pos hout, emit_feed ac cb _ _ s hidx, bind_ok, feed_append]
        dsimp only
        split_ifs
        · exact g1 σ cb _
        · rfl
      · intro m hm
        rcases List.mem_append.mp hm with hm | hm
        · obtain ⟨j, hj, rfl⟩ := List.mem_map.mp hm
          exact hidx j hj
        · exact g2 m hm
    · refine ⟨new2, ?_, g2⟩
      intro σ cb s
      rw [hstep σ cb s, if_neg hout]
      exact g1 σ cb s

theorem Search_trace {ac : ahoCorasick} (hac : ACInv ac) (text : Str) :
    ∃ all, SearchAll ac text = .ok all ∧
      (∀ (σ : Type) (cb : acMatch → σ → σ × Bool) (s : σ),
        Search ac text cb s = .ok (feed cb all s)) ∧
      ∀ m ∈ all, ∃ pat, ac.patterns[m.patternIndex]? = some pat := by
  obtain ⟨L, hS, hSo, hl⟩ := hac
  obtain ⟨new, h1, h2⟩ := searchLoop_trace hS hSo hl (rangeStr text) [] root hS.pos
    (by rw [root, hS.root])
  refine ⟨new, ?_, ?_, h2⟩
  · unfold SearchAll Search
    rw [h1, feed_collect, List.nil_append]
  · intro σ cb s
    exact h1 σ cb s

/-- C30. Early termination: for every pattern list (the automaton is built from
it in whatever order the maps are visited), every text and every callback
with any initial state of its closure, `SearchAll(text)` returns a list
`all`, and `Search` leaves the callback in the state that offering it the
matches of `all` in order, until it returns false, gives. With a log of its
invocations, the callback is invoked exactly on `passed`: the shortest
prefix of `all` that ends with the first match on which it returns false,
the whole list if it never returns false. -/
theorem search_early_termination {σ : Type} (ord : MapOrder) (hord : IsMapOrder ord)
    (patterns : List Str) (text : Str) (cb : acMatch → σ → σ × Bool) (s : σ) :
    ∃ ac all, newAhoCorasick ord patterns = .ok ac ∧ SearchAll ac text = .ok all ∧
      Search ac text cb s = .ok (feed cb all s) ∧
      Search ac text (track cb) (s, []) = .ok (feed cb all s, passed cb all s) ∧
      passed cb all s <+: all ∧
      (goesOn cb all s = true → passed cb all s = all) := by
  obtain ⟨ac, h1, _, hac⟩ := newAhoCorasick_spec hord patterns
  obtain ⟨all, h2, h3, _⟩ := Search_trace hac text
  refine ⟨ac, all, h1, h2, h3 σ cb s, ?_, passed_prefix cb all s, ?_⟩
  · rw [h3 _ (track cb) (s, []), feed_track, List.nil_append]
  · generalize all = ms
    induction ms generalizing s with
    | nil => intro _; rfl
    | cons m ms ih =>
      intro h
      simp only [goesOn, Bool.and_eq_true] at h
      simp only [passed]
      rw [if_pos h.1, ih _ h.2]

/-- The witness of `search_early_termination`: the callback of `HasMatch`, which
stops at the first match, on the text "she" with the patterns
`["he", "she", "his", "hers"]`. -/
theorem search_early_termination_witness :
    IsMapOrder insertionOrder ∧
      ∃ ac all, newAhoCorasick insertionOrder patternsHe = .ok ac ∧
        SearchAll ac textShe = .ok all ∧
        Search ac textShe (fun _ _ => (true, false)) false =
          .ok (feed (fun _ _ => (true, false)) all false) ∧
        Search ac textShe (track (fun _ _ => (true, false))) (false, []) =
          .ok (feed (fun _ _ => (true, false)) all false,
            passed (fun _ _ => (true, false)) all false) ∧
        passed (fun _ _ => (true, false)) all false <+: all ∧
        (goesOn (fun _ _ => (true, false)) all false = true →
          passed (fun _ _ => (true, false)) all false = all) :=
  ⟨isMapOrder_insertionOrder,
    search_early_termination insertionOrder isMapOrder_insertionOrder patternsHe textShe
      (fun _ _ => (true, false)) false⟩

/-! ## Occurrences of a well-formed pattern in a well-formed text -/

theorem encodeRune_shape (r : Nat) :
    ∃ b rest, encodeRune r = b :: rest ∧ isCont b = false ∧ ∀ c ∈ rest, isCont c = true := by
  unfold encodeRune
  split_ifs with h1 h2 h3 h4
  · exact ⟨r, [], rfl, by simp [isCont]; omega, by simp⟩
  · refine ⟨_, _, rfl, by simp [isCont]; omega, ?_⟩
    intro c hc
    simp only [List.mem_singleton] at hc
    subst hc
    simp only [isCont, Bool.and_eq_true, decide_eq_true_eq]
    omega
  · exact ⟨_, _, rfl, by decide, by decide⟩
  · refine ⟨_, _, rfl, by simp [isCont]; omega, ?_⟩
    intro c hc
    simp only [List.mem_cons, List.mem_singleton, List.not_mem_nil, or_false] at hc
    rcases hc with hc | hc <;> subst hc <;>
      simp only [isCont, Bool.and_eq_true, decide_eq_true_eq] <;> omega
  · refine ⟨_, _, rfl, by simp [isCont]; omega, ?_⟩
    intro c hc
    simp only [List.mem_cons, List.mem_singleton, List.not_mem_nil, or_false] at hc
    rcases hc with hc | hc | hc <;> subst hc <;>
      simp only [isCont, Bool.and_eq_true, decide_eq_true_eq] <;> omega

theorem prefix_of_bytes :
    ∀ (ps rs : List Nat) (B : Str), ValidRunes ps → ValidRunes rs →
      stringOfRunes rs = stringOfRunes ps ++ B → ps <+: rs := by
  intro ps
  induction ps with
  | nil => intro rs B _ _ _; exact List.nil_prefix
  | cons p ps ih =>
    intro rs B hp hr h
    cases rs with
    | nil =>
      exfalso
      rw [stringOfRunes_nil, stringOfRunes_cons] at h
      have := congrArg List.length h
      have := encodeRune_length_pos p
      simp only [List.length_nil, List.length_append] at *
      omega
    | cons r rs =>
      rw [stringOfRunes_cons, stringOfRunes_cons, List.append_assoc] at h
      have hvp := hp p (List.mem_cons_self _ _)
      have hvr := hr r (List.mem_cons_self _ _)
      have d := congrArg decodeRune h
      rw [decodeRune_encodeRune hvr, decodeRune_encodeRune hvp] at d
      have e : r = p := congrArg Prod.fst d
      subst e
      have h2 := List.append_cancel_left h
      exact (List.prefix_cons_inj r).mpr
        (ih rs B (fun x hx => hp x (List.mem_cons_of_mem _ hx))
          (fun x hx => hr x (List.mem_cons_of_mem _ hx)) h2)

theorem utf8_sync :
    ∀ (rs : List Nat) (A : Str) (ps : List Nat) (B : Str), ValidRunes rs → ValidRunes ps →
      ps ≠ [] → stringOfRunes rs = A ++ stringOfRunes ps ++ B →
      ∃ j, j ≤ rs.length ∧ A = stringOfRunes (rs.take j) ∧ ps <+: rs.drop j := by
  intro rs
  induction rs with
  | nil =>
    intro A ps B _ _ hne h
    exfalso
    cases ps with
    | nil => exact hne rfl
    | cons p ps =>
      have := congrArg List.length h
      have := encodeRune_length_pos p
      simp only [stringOfRunes_nil, stringOfRunes_cons, List.length_nil,
        List.length_append] at *
      omega
  | cons r rs ih =>
    intro A ps B hr hp hne h
    cases A with
    | nil =>
      rw [List.nil_append] at h
      exact ⟨0, Nat.zero_le _, rfl, prefix_of_bytes ps (r :: rs) B hp hr h⟩
    | cons a A =>
      rw [stringOfRunes_cons] at h
      by_cases hlen : (encodeRune r).length ≤ (a :: A).length
      · -- the first rune lies inside `A`
        have hpre : encodeRune r <+: a :: A := by
          have p1 : encodeRune r <+: (a :: A) ++ (stringOfRunes ps ++ B) := by
            rw [← List.append_assoc, ← h]
            exact List.prefix_append _ _
          exact List.prefix_of_prefix_length_le p1 (List.prefix_append _ _) hlen
        obtain ⟨A2, hA2⟩ := hpre
        rw [← hA2, List.append_assoc, List.append_assoc] at h
        have h2 := List.append_cancel_left h
        rw [← List.append_assoc] at h2
        obtain ⟨j, j1, j2, j3⟩ := ih A2 ps B (fun x hx => hr x (List.mem_cons_of_mem _ hx)) hp
          hne h2
        refine ⟨j + 1, by simp only [List.length_cons]; omega, ?_, ?_⟩
        · rw [List.take_succ_cons, stringOfRunes_cons, ← j2, hA2]
        · rw [List.drop_succ_cons]
          exact j3
      · -- the pattern would start inside the first rune
        exfalso
        obtain ⟨b, rest, e1, e2, e3⟩ := encodeRune_shape r
        cases ps with
        | nil => exact hne rfl
        | cons p ps =>
          obtain ⟨b2, rest2, f1, f2, _⟩ := encodeRune_shape p
          have hA : a :: A <+: encodeRune r := by
            have p1 : a :: A <+: encodeRune r ++ stringOfRunes rs := by
              rw [h, List.append_assoc]
              exact List.prefix_append _ _
            exact List.prefix_of_prefix_length_le p1 (List.prefix_append _ _) (by omega)
          obtain ⟨C, hC⟩ := hA
          have hCne : C ≠ [] := by
            intro c
            rw [c, List.append_nil] at hC
            rw [hC] at hlen
            exact hlen (le_refl _)
          rw [← hC, List.append_assoc, List.append_assoc] at h
          have h2 := List.append_cancel_left h
          rw [stringOfRunes_cons, f1] at h2
          cases C with
          | nil => exact hCne rfl
          | cons c C =>
            simp only [List.cons_append, List.cons.injEq] at h2
            have hc : c ∈ rest := by
              rw [e1] at hC
              simp only [List.cons_append, List.cons.injEq] at hC
              rw [← hC.2]
              simp
            have := e3 c hc
            rw [h2.1, f2] at this
            cases this

theorem occurrence_runes (rs : List Nat) (hv : ValidRunes rs) (pat : Str)
    (hp : ValidString pat = true) (hne : pat ≠ []) (s : Nat)
    (h : sub (stringOfRunes rs) s (s + pat.length) = pat) :
    ∃ k, 0 < k ∧ k ≤ rs.length ∧ runesOf pat <:+ rs.take k ∧ offset rs k = s + pat.length := by
  have hpl : 0 < pat.length := List.length_pos.mpr hne
  have hlen := congrArg List.length h
  unfold sub at h hlen
  simp only [List.length_drop, List.length_take] at hlen
  have hin : s + pat.length ≤ (stringOfRunes rs).length := by omega
  have hdec : stringOfRunes rs = (stringOfRunes rs).take s ++ stringOfRunes (runesOf pat) ++
      (stringOfRunes rs).drop (s + pat.length) := by
    rw [stringOfRunes_runesOf hp]
    have e2 : (stringOfRunes rs).take (s + pat.length) = (stringOfRunes rs).take s ++ pat := by
      have := List.take_append_drop s ((stringOfRunes rs).take (s + pat.length))
      rw [h, List.take_take, min_eq_left (by omega)] at this
      exact this.symm
    rw [← e2, List.take_append_drop]
  have hpne : runesOf pat ≠ [] := by
    obtain ⟨r, rs2, e⟩ := runesOf_ne_nil hne
    rw [e]
    simp
  obtain ⟨j, j1, j2, j3⟩ := utf8_sync rs _ (runesOf pat) _ hv (runesOf_valid pat) hpne hdec
  obtain ⟨t, ht⟩ := j3
  have hk : (runesOf pat).length ≤ (rs.drop j).length := by
    rw [← ht, List.length_append]
    omega
  have hkl : 0 < (runesOf pat).length := List.length_pos.mpr hpne
  simp only [List.length_drop] at hk
  have htake : rs.take (j + (runesOf pat).length) = rs.take j ++ runesOf pat := by
    rw [List.take_add, ← ht, List.take_left' rfl]
  refine ⟨j + (runesOf pat).length, by omega, by omega, ?_, ?_⟩
  · rw [htake]
    exact List.suffix_append _ _
  · unfold offset
    rw [htake, stringOfRunes_append, List.length_append, ← j2, stringOfRunes_runesOf hp,
      List.length_take]
    omega

theorem matchAt_bytes {ac : ahoCorasick} {rs : List Nat} {m : acMatch}
    (h : MatchAt ac rs m) (hp : ∀ p ∈ ac.patterns, ValidString p = true) :
    ∃ pat, ac.patterns[m.patternIndex]? = some pat ∧
      (m.end_ : Int) - m.start = (pat.length : Int) ∧ 0 ≤ m.start ∧ m.start ≤ (m.end_ : Int) ∧
      m.end_ ≤ (stringOfRunes rs).length ∧ sub (stringOfRunes rs) m.start.toNat m.end_ = pat := by
  obtain ⟨pat, k, h1, h2, h3, h4, h5⟩ := h
  have hvp := hp pat (List.getElem?_mem h1)
  obtain ⟨X, hX⟩ := h5
  have hbytes : stringOfRunes (rs.take k) = stringOfRunes X ++ pat := by
    rw [← hX, stringOfRunes_append, stringOfRunes_runesOf hvp]
  have hle : pat.length ≤ m.end_ := by
    rw [h4, hbytes, List.length_append]
    omega
  have hend : m.end_ ≤ (stringOfRunes rs).length := by
    rw [h4]
    exact stringOfRunes_take_length rs k
  refine ⟨pat, h1, by omega, by omega, by omega, hend, ?_⟩
  have hto : m.start.toNat = (stringOfRunes X).length := by
    rw [h4, hbytes, List.length_append] at h2
    omega
  have htk : (stringOfRunes rs).take m.end_ = stringOfRunes (rs.take k) := by
    rw [h4]
    exact take_offset rs k
  unfold sub
  rw [htk, hbytes, hto, List.drop_left' rfl]

/-- C27. Matcher soundness: for every list of well-formed UTF-8 patterns (the
automaton is built from it in whatever order the maps are visited) and every
well-formed UTF-8 text, `SearchAll(text)` returns, and for every `acMatch`
`m` in it `m.patternIndex` is a valid index,
`m.end - m.start == len(patterns[m.patternIndex])`,
`0 <= m.start <= m.end <= len(text)`, and `text[m.start:m.end]` is
`patterns[m.patternIndex]`. -/
theorem matcher_sound (ord : MapOrder) (hord : IsMapOrder ord) (patterns : List Str)
    (text : Str) (hp : ∀ p ∈ patterns, ValidString p = true) (ht : ValidString text = true) :
    ∃ ac found, newAhoCorasick ord patterns = .ok ac ∧ SearchAll ac text = .ok found ∧
      ∀ m ∈ found, ∃ pat, patterns[m.patternIndex]? = some pat ∧
        (m.end_ : Int) - m.start = (pat.length : Int) ∧ 0 ≤ m.start ∧
        m.start ≤ (m.end_ : Int) ∧ m.end_ ≤ text.length ∧
        sub text m.start.toNat m.end_ = pat := by
  obtain ⟨ac, h1, h2, hac⟩ := newAhoCorasick_spec hord patterns
  obtain ⟨found, h3, h4⟩ := SearchAll_spec hac (runesOf text) (runesOf_valid text)
  rw [stringOfRunes_runesOf ht] at h3
  refine ⟨ac, found, h1, h3, ?_⟩
  intro m hm
  have := matchAt_bytes (h4 m hm) (by rw [h2]; exact hp)
  rw [stringOfRunes_runesOf ht, h2] at this
  exact this

/-- The witness of `matcher_sound`: the text "she" with the patterns
`["he", "she", "his", "hers"]`. -/
theorem matcher_sound_witness :
    IsMapOrder insertionOrder ∧ (∀ p ∈ patternsHe, ValidString p = true) ∧
      ValidString textShe = true ∧
      (newAhoCorasick insertionOrder patternsHe >>= fun ac => SearchAll ac textShe) =
        .ok [⟨1, 0, 3⟩, ⟨0, 1, 3⟩] ∧
      ∃ ac found, newAhoCorasick insertionOrder patternsHe = .ok ac ∧
        SearchAll ac textShe = .ok found ∧
        ∀ m ∈ found, ∃ pat, patternsHe[m.patternIndex]? = some pat ∧
          (m.end_ : Int) - m.start = (pat.length : Int) ∧ 0 ≤ m.start ∧
          m.start ≤ (m.end_ : Int) ∧ m.end_ ≤ textShe.length ∧
          sub textShe m.start.toNat m.end_ = pat :=
  ⟨isMapOrder_insertionOrder, by decide!, by decide!, by decide!,
    matcher_sound insertionOrder isMapOrder_insertionOrder patternsHe textShe (by decide!)
      (by decide!)⟩

/-- C28. Matcher completeness: for every list of non-empty well-formed UTF-8
patterns (the automaton is built from it in whatever order the maps are
visited) and every well-formed UTF-8 text, `SearchAll(text)` returns, and for
every pattern index `i` and byte offset `s` with
`text[s : s+len(patterns[i])] == patterns[i]` it contains the match
`(i, s, s+len(patterns[i]))`, also where a pattern is a suffix or a
substring of another. -/
theorem matcher_complete (ord : MapOrder) (hord : IsMapOrder ord) (patterns : List Str)
    (text : Str) (hp : ∀ p ∈ patterns, ValidString p = true ∧ p ≠ [])
    (ht : ValidString text = true) :
    ∃ ac found, newAhoCorasick ord patterns = .ok ac ∧ SearchAll ac text = .ok found ∧
      ∀ (i s : Nat) (pat : Str), patterns[i]? = some pat →
        sub text s (s + pat.length) = pat →
        (⟨i, (s : Int), s + pat.length⟩ : acMatch) ∈ found := by
  obtain ⟨ac, h1, h2, hac⟩ := newAhoCorasick_full hord patterns
  obtain ⟨found, h3, _, h5⟩ := SearchAll_full hac (runesOf text) (runesOf_valid text)
  rw [stringOfRunes_runesOf ht] at h3
  refine ⟨ac, found, h1, h3, ?_⟩
  intro i s pat hi hs
  obtain ⟨hvp, hne⟩ := hp pat (List.getElem?_mem hi)
  obtain ⟨k, k1, k2, k3, k4⟩ := occurrence_runes (runesOf text) (runesOf_valid text) pat hvp hne
    s (by rw [stringOfRunes_runesOf ht]; exact hs)
  have hrn : runesOf pat ≠ [] := by
    obtain ⟨r, rs2, e⟩ := runesOf_ne_nil hne
    rw [e]
    simp
  have := h5 k i pat k1 k2 (by rw [h2]; exact hi) hrn k3
  rw [k4] at this
  have e : ((s + pat.length : Nat) : Int) - (pat.length : Int) = (s : Int) := by omega
  rw [e] at this
  exact this

/-- The witness of `matcher_complete`: the text "she" with the patterns
`["he", "she", "his", "hers"]` yields both "she" and "he". -/
theorem matcher_complete_witness :
    IsMapOrder insertionOrder ∧ (∀ p ∈ patternsHe, ValidString p = true ∧ p ≠ []) ∧
      ValidString textShe = true ∧
      (newAhoCorasick insertionOrder patternsHe >>= fun ac => SearchAll ac textShe) =
        .ok [⟨1, 0, 3⟩, ⟨0, 1, 3⟩] ∧
      ∃ ac found, newAhoCorasick insertionOrder patternsHe = .ok ac ∧
        SearchAll ac textShe = .ok found ∧
        ∀ (i s : Nat) (pat : Str), patternsHe[i]? = some pat →
          sub textShe s (s + pat.length) = pat →
          (⟨i, (s : Int), s + pat.length⟩ : acMatch) ∈ found :=
  ⟨isMapOrder_insertionOrder, by decide!, by decide!, by decide!,
    matcher_complete insertionOrder isMapOrder_insertionOrder patternsHe textShe (by decide!)
      (by decide!)⟩

/-! ## No pattern index twice in an output list -/

theorem trieStep_output {nodes : List acNode} {node : Nat} (hn : node < nodes.length)
    (r p : Nat) :
    (getNode (trieStep (nodes, node) r).1 p).output = (getNode nodes p).output := by
  unfold trieStep
  dsimp only
  cases hlk : (getNode nodes node).children.lookup r with
  | some next => rfl
  | none =>
    dsimp only
    rw [getNode_grow nodes node r p hn]
    split_ifs with c1 c2
    · rw [c1]
    · rw [c2, getNode_of_le nodes (le_refl _)]
      rfl
    · rfl

theorem trieFold_output {patterns : List Str} {k : Nat} :
    ∀ (rs : List Nat) (nodes : List acNode) (node : Nat) (L : Nat → List Nat),
      TrieInv nodes L patterns k → node < nodes.length →
      ∀ p, (getNode (rs.foldl trieStep (nodes, node)).1 p).output = (getNode nodes p).output := by
  intro rs
  induction rs with
  | nil => intro nodes node L _ _ p; rfl
  | cons r rs ih =>
    intro nodes node L hT hn p
    obtain ⟨L1, h1, h2, _⟩ := trieStep_inv hT hn r
    rw [List.foldl_cons]
    have := ih (trieStep (nodes, node) r).1 (trieStep (nodes, node) r).2 L1 h1 h2 p
    rw [this, trieStep_output hn]

theorem insertPattern_onodup {nodes : List acNode} {L : Nat → List Nat} {patterns : List Str}
    {k : Nat} (hT : TrieInv nodes L patterns k) (hN : ONodup nodes) (pat : Str) :
    ONodup (insertPattern nodes k pat) := by
  obtain ⟨L1, h1, h2, _⟩ := trieFold_inv (runesOf pat) nodes root L hT hT.shape.pos
  have ho := trieFold_output (runesOf pat) nodes root L hT hT.shape.pos
  unfold insertPattern
  dsimp only
  generalize ((runesOf pat).foldl trieStep (nodes, root)) = st at h1 h2 ho
  intro n
  rw [getNode_set]
  split_ifs with c
  · show ((getNode st.1 st.2).output ++ [k]).Nodup
    rw [List.nodup_append]
    refine ⟨by rw [ho]; exact hN _, List.nodup_singleton _, ?_⟩
    intro i hi hk
    rw [List.mem_singleton] at hk
    subst hk
    have := (h1.out st.2 i hi).1
    omega
  · rw [ho]
    exact hN n

theorem insertAll_onodup {patterns : List Str} :
    ∀ (ps : List Str) (k : Nat) (nodes : List acNode) (L : Nat → List Nat),
      TrieInv nodes L patterns k → (∀ j pat, ps[j]? = some pat → patterns[k + j]? = some pat) →
      ONodup nodes → ONodup (insertAll k ps nodes) := by
  intro ps
  induction ps with
  | nil => intro k nodes L _ _ h; exact h
  | cons p ps ih =>
    intro k nodes L hT hidx hN
    have hp : patterns[k]? = some p := by
      have := hidx 0 p (by simp)
      simpa using this
    obtain ⟨L1, h1⟩ := insertPattern_inv hT hp
    rw [insertAll]
    exact ih (k + 1) (insertPattern nodes k p) L1 h1 (by
      intro j pat hj
      have := hidx (j + 1) pat (by simpa using hj)
      rw [show k + 1 + j = k + (j + 1) by omega]
      exact this) (insertPattern_onodup hT hN p)

theorem buildTrie_onodup (patterns : List Str) : ONodup (buildTrie patterns) := by
  unfold buildTrie
  refine insertAll_onodup patterns 0 _ _ (trieInv_init patterns) (by
    intro j pat hj
    rw [Nat.zero_add]
    exact hj) ?_
  intro n
  have : (getNode [newACNode 0] n).output = [] := by
    rcases n with _ | n
    · rfl
    · rw [getNode_of_le _ (by simp)]
      rfl
  rw [this]
  exact List.nodup_nil

theorem linkChild_form {current : Nat} {nodes nodes2 : List acNode} {queue q2 : List Nat}
    {r child : Nat} (h : linkChild current (nodes, queue) (r, child) = .ok (nodes2, q2)) :
    ∃ fl, nodes2 = nodes.set child { getNode nodes child with
      fail := some fl
      output := if (getNode nodes fl).output ≠ [] then
          (getNode nodes child).output ++ (getNode nodes fl).output
        else (getNode nodes child).output } := by
  unfold linkChild at h
  dsimp only at h
  obtain ⟨found, _, h⟩ := bind_eq_ok h
  rw [pure_eq_ok] at h
  simp only [Except.ok.injEq, Prod.mk.injEq] at h
  exact ⟨_, h.1.symm⟩

theorem linkChild_onodup {trie nodes : List acNode} {L : Nat → List Nat} {patterns : List Str}
    {S : List Nat} {k : Nat} (hT : TrieInv trie L patterns k) (hk : KeysNodup trie)
    (hOwn : OwnOutputs trie patterns patterns.length)
    (hI : LInv trie nodes L patterns S) (h0 : 0 ∉ S) {current r child : Nat}
    (hcS : current ∈ S) (hc : (r, child) ∈ (getNode nodes current).children)
    (hnew : child ∉ S)
    (hlvl : ∀ m, 0 < m → m < nodes.length → (L m).length ≤ (L current).length → m ∈ S)
    (hSo : Sound nodes L patterns) (hN : ONodup nodes) (queue : List Nat)
    {nodes2 : List acNode} {q2 : List Nat}
    (h : linkChild current (nodes, queue) (r, child) = .ok (nodes2, q2)) : ONodup nodes2 := by
  obtain ⟨n1, e1, hI2⟩ := linkChild_full hT hk hOwn hI h0 hcS hc hnew hlvl queue
  rw [e1] at h
  simp only [Except.ok.injEq, Prod.mk.injEq] at h
  obtain ⟨h, _⟩ := h
  subst h
  obtain ⟨fl, hform⟩ := linkChild_form e1
  obtain ⟨_, hch, _⟩ := (hI.shape hT).edge current r child hc
  obtain ⟨⟨f, hf1, hf2⟩, _⟩ := hI2.ok child (List.mem_append_right _ (List.mem_singleton.mpr rfl))
  have hfl : f = fl := by
    rw [hform, getNode_set, if_pos ⟨rfl, hch⟩] at hf1
    simp only [Option.some.injEq] at hf1
    exact hf1.symm
  subst hfl
  have hlen := hf2.2.2.1
  rw [hform]
  intro n
  rw [getNode_set]
  split_ifs with c c2
  · show ((getNode nodes child).output ++ (getNode nodes f).output).Nodup
    rw [List.nodup_append]
    refine ⟨hN child, hN f, ?_⟩
    intro i hi hi2
    rw [hI.fresh child hnew] at hi
    obtain ⟨_, pat, p1, p2⟩ := hT.out child i hi
    obtain ⟨pat2, q1, q2⟩ := hSo.out f i hi2
    rw [p1] at q1
    simp only [Option.some.injEq] at q1
    subst q1
    rw [p2] at q2
    have := q2.length_le
    omega
  · exact hN child
  · exact hN n

theorem linkChildren_onodup {trie : List acNode} {L : Nat → List Nat} {patterns : List Str}
    {k : Nat} (hT : TrieInv trie L patterns k) (hk : KeysNodup trie)
    (hOwn : OwnOutputs trie patterns patterns.length) (current : Nat) :
    ∀ (ch : List (Nat × Nat)) (nodes : List acNode) (queue S : List Nat),
      LInv trie nodes L patterns S → 0 ∉ S → current ∈ S →
      (∀ rc ∈ ch, rc ∈ (getNode nodes current).children) →
      (ch.map Prod.snd).Nodup → (∀ rc ∈ ch, rc.2 ∉ S) →
      (∀ m, 0 < m → m < nodes.length → (L m).length ≤ (L current).length → m ∈ S) →
      Sound nodes L patterns → ONodup nodes →
      ∀ (nodes2 : List acNode) (q2 : List Nat),
        ch.foldlM (linkChild current) (nodes, queue) = .ok (nodes2, q2) → ONodup nodes2 := by
  intro ch
  induction ch with
  | nil =>
    intro nodes queue S _ _ _ _ _ _ _ _ hN nodes2 q2 h
    simp only [List.foldlM, pure_eq_ok, Except.ok.injEq, Prod.mk.injEq] at h
    rw [← h.1]
    exact hN
  | cons rc ch ih =>
    intro nodes queue S hI h0 hcS hmem hnd hnew hlvl hSo hN nodes2 q2 h
    obtain ⟨r, child⟩ := rc
    simp only [List.map_cons, List.nodup_cons] at hnd
    have hc := hmem (r, child) (List.mem_cons_self _ _)
    have hcn := hnew (r, child) (List.mem_cons_self _ _)
    obtain ⟨n1, h1, h2⟩ := linkChild_full hT hk hOwn hI h0 hcS hc hcn hlvl queue
    obtain ⟨n1b, s1, _, s3, _, _⟩ := linkChild_spec (hI.shape hT) hSo hc queue
    rw [h1] at s1
    simp only [Except.ok.injEq, Prod.mk.injEq, and_true] at s1
    subst s1
    have hN1 := linkChild_onodup hT hk hOwn hI h0 hcS hc hcn hlvl hSo hN queue h1
    have hss : SameShape nodes n1 := by
      have a := hI.same
      have b := h2.same
      exact ⟨by rw [b.1, a.1], fun p => by rw [b.2, a.2]⟩
    rw [List.foldlM_cons, h1, bind_ok] at h
    exact ih n1 (queue ++ [child]) (S ++ [child]) h2
      (by
        intro hc0
        rcases List.mem_append.mp hc0 with hc0 | hc0
        · exact h0 hc0
        · rw [List.mem_singleton] at hc0
          have := (hI.shape hT).edge current r child hc
          omega)
      (List.mem_append_left _ hcS)
      (by
        intro x hx
        rw [hss.2]
        exact hmem x (List.mem_cons_of_mem _ hx))
      hnd.2
      (by
        intro x hx hcx
        rcases List.mem_append.mp hcx with hcx | hcx
        · exact hnew x (List.mem_cons_of_mem _ hx) hcx
        · rw [List.mem_singleton] at hcx
          exact hnd.1 (hcx ▸ List.mem_map_of_mem _ hx))
      (by
        intro m a b c
        rw [hss.1] at b
        exact List.mem_append_left _ (hlvl m a b c))
      s3 hN1 nodes2 q2 h

theorem linkRoot_onodup :
    ∀ (ch : List (Nat × Nat)) (nodes : List acNode) (queue : List Nat),
      ONodup nodes → ONodup (ch.foldl linkRootChild (nodes, queue)).1 := by
  intro ch
  induction ch with
  | nil => intro nodes queue h; exact h
  | cons rc ch ih =>
    intro nodes queue h
    rw [List.foldl_cons]
    apply ih
    intro n
    show (getNode (nodes.set rc.2 { getNode nodes rc.2 with fail := some root }) n).output.Nodup
    rw [getNode_set]
    split_ifs
    · exact h rc.2
    · exact h n

theorem bfs_onodup {trie : List acNode} {L : Nat → List Nat} {patterns : List Str} {k : Nat}
    {ord : MapOrder} (hord : IsMapOrder ord) (hT : TrieInv trie L patterns k)
    (hk : KeysNodup trie) (hOwn : OwnOutputs trie patterns patterns.length) :
    ∀ (fuel : Nat) (done queue : List Nat) (nodes : List acNode),
      BInv nodes L patterns done queue → LInv trie nodes L patterns (done ++ queue) →
      (done ++ queue).Pairwise (fun a b => (L a).length ≤ (L b).length) →
      ONodup nodes →
      ∀ nodes2, bfs ord fuel queue nodes = .ok nodes2 → ONodup nodes2 := by
  intro fuel
  induction fuel with
  | zero =>
    intro done queue nodes _ _ _ hN nodes2 h
    rcases queue with _ | ⟨current, q⟩
    · rw [bfs_nil] at h
      simp only [Except.ok.injEq] at h
      rw [← h]
      exact hN
    · rw [bfs] at h
      cases h
  | succ fuel ih =>
    intro done queue nodes hB hI hs hN nodes2 h
    rcases queue with _ | ⟨current, q⟩
    · rw [bfs_nil] at h
      simp only [Except.ok.injEq] at h
      rw [← h]
      exact hN
    · have hperm := hord (getNode nodes current).children
      obtain ⟨n1, h1, h2, h3, h4, h5⟩ := linkChildren_spec current
        (ord (getNode nodes current).children) nodes q hB.shape hB.sound
        (fun _ hx => hperm.mem_iff.mp hx)
      have h00 : 0 ∉ done ++ current :: q := by
        intro hc
        have := (hB.range 0 hc).1
        omega
      have hndc : ((ord (getNode nodes current).children).map Prod.snd).Nodup :=
        (hperm.map Prod.snd).nodup_iff.mpr (hB.shape.nodupChildren current)
      obtain ⟨n1b, f1, f2⟩ := linkChildren_full hT hk hOwn current
        (ord (getNode nodes current).children) nodes q (done ++ current :: q) hI h00
        (by simp) (fun _ hx => hperm.mem_iff.mp hx) hndc
        (fun x hx => hB.child_fresh x (hperm.mem_iff.mp hx)) (hB.level hs)
      have hN1 := linkChildren_onodup hT hk hOwn current
        (ord (getNode nodes current).children) nodes q (done ++ current :: q) hI h00
        (by simp) (fun _ hx => hperm.mem_iff.mp hx) hndc
        (fun x hx => hB.child_fresh x (hperm.mem_iff.mp hx)) (hB.level hs) hB.sound hN _ _ h1
      rw [h1] at f1
      simp only [Except.ok.injEq, Prod.mk.injEq, and_true] at f1
      subst f1
      have hB2 := hB.step hperm h2 h3 h4 h5
      have hassoc : (done ++ [current]) ++ (q ++ (ord (getNode nodes current).children).map
          Prod.snd) = (done ++ current :: q) ++
          (ord (getNode nodes current).children).map Prod.snd := by simp
      rw [bfs, h1, bind_ok] at h
      exact ih (done ++ [current])
        (q ++ (ord (getNode nodes current).children).map Prod.snd) n1 hB2
        (by rw [hassoc]; exact f2)
        (hB.sorted_step hs (fun _ hx => hperm.mem_iff.mp hx)) hN1 nodes2 h

theorem buildFailLinks_onodup {trie : List acNode} {L : Nat → List Nat} {patterns : List Str}
    {ord : MapOrder} (hord : IsMapOrder ord)
    (hT : TrieInv trie L patterns patterns.length) (hk : KeysNodup trie)
    (hOwn : OwnOutputs trie patterns patterns.length) (hN : ONodup trie)
    {nodes2 : List acNode} (h : buildFailLinks ord trie = .ok nodes2) : ONodup nodes2 := by
  have hp := hord (getNode trie root).children
  obtain ⟨g1, g2, g3, g4, g5⟩ := linkRoot_spec (ord (getNode trie root).children) trie []
    hT.shape hT.sound (fun _ hx => hp.mem_iff.mp hx)
  have hnd : ((ord (getNode trie root).children).map Prod.snd).Nodup :=
    (hp.map Prod.snd).nodup_iff.mpr (hT.shape.nodupChildren root)
  have hI := linkRoot_full hT hk hOwn (ord (getNode trie root).children) trie [] []
    linvInit (fun _ hx => hp.mem_iff.mp hx) hnd (by simp)
  have hB : BInv ((ord (getNode trie root).children).foldl linkRootChild (trie, [])).1 L
      patterns [] ((ord (getNode trie root).children).foldl linkRootChild (trie, [])).2 := by
    rw [g1]
    refine ⟨hT.shape.of_sameShape g2, g3, ?_, ?_, ?_, ?_, ?_⟩
    · simpa using hnd
    · intro n hn
      simp only [List.nil_append, List.mem_map] at hn
      obtain ⟨x, hx, rfl⟩ := hn
      obtain ⟨e1, e2, _⟩ := hT.shape.edge root x.1 x.2 (hp.mem_iff.mp hx)
      rw [g2.1]
      exact ⟨by omega, e2⟩
    · intro n hn
      simp only [List.nil_append, List.mem_map] at hn
      obtain ⟨x, hx, rfl⟩ := hn
      exact g4 x hx
    · intro n hn
      simp only [List.nil_append, List.mem_map] at hn
      obtain ⟨x, hx, rfl⟩ := hn
      exact ⟨root, x.1, by rw [g2.2]; exact hp.mem_iff.mp hx, Or.inl rfl⟩
    · intro p hp2 rc hrc
      rcases hp2 with e | e
      · subst e
        rw [g2.2] at hrc
        simp only [List.nil_append, List.mem_map]
        exact ⟨rc, hp.mem_iff.mpr hrc, rfl⟩
      · simp at e
  have hsorted : (([] : List Nat) ++
      ((ord (getNode trie root).children).foldl linkRootChild (trie, [])).2).Pairwise
      (fun a b => (L a).length ≤ (L b).length) := by
    rw [g1]
    simp only [List.nil_append]
    rw [List.pairwise_iff_forall_sublist]
    intro a b hab
    have hd : ∀ c ∈ (ord (getNode trie root).children).map Prod.snd, (L c).length = 1 := by
      intro c hc
      obtain ⟨x, hx, rfl⟩ := List.mem_map.mp hc
      obtain ⟨_, _, e⟩ := hT.shape.edge root x.1 x.2 (hp.mem_iff.mp hx)
      rw [e, root, hT.shape.root]
      simp
    rw [hd a (hab.subset (by simp)), hd b (hab.subset (by simp))]
  unfold buildFailLinks at h
  exact bfs_onodup hord hT hk hOwn trie.length [] _ _ hB (by rw [g1]; exact hI) hsorted
    (linkRoot_onodup _ trie [] hN) nodes2 h

/-- No output list of the automaton that `newAhoCorasick` builds holds a
pattern index twice, in whatever order the maps are visited. -/
theorem newAhoCorasick_onodup {ord : MapOrder} (hord : IsMapOrder ord) {patterns : List Str}
    {ac : ahoCorasick} (h : newAhoCorasick ord patterns = .ok ac) : ONodup ac.nodes := by
  obtain ⟨L, hT⟩ := buildTrie_inv patterns
  obtain ⟨hk, hOwn⟩ := buildTrie_full patterns
  unfold newAhoCorasick at h
  obtain ⟨nodes, h1, h2⟩ := bind_eq_ok h
  rw [pure_eq_ok] at h2
  simp only [Except.ok.injEq] at h2
  rw [← h2]
  exact buildFailLinks_onodup hord hT hk hOwn (buildTrie_onodup patterns) h1

/-! ## Every occurrence once -/

theorem matchOf_injective (ac : ahoCorasick) (endPos : Nat) :
    Function.Injective (matchOf ac endPos) := by
  intro a b h
  exact congrArg acMatch.patternIndex h

theorem searchLoop_nodup {ac : ahoCorasick} {L : Nat → List Nat}
    (hS : Shape ac.nodes L) (hSo : Sound ac.nodes L ac.patterns)
    (hl : ∀ n, 0 < n → n < ac.nodes.length → (getNode ac.nodes n).fail ≠ none)
    (hN : ONodup ac.nodes) :
    ∀ (rs pre : List Nat) (node : Nat) (acc : List acMatch),
      node < ac.nodes.length → L node <:+ pre →
      ∃ new, searchLoop ac (fun m found => (found ++ [m], true))
          (rangeSpec (stringOfRunes pre).length rs) node acc = .ok (acc ++ new) ∧
        new.Nodup ∧ ∀ m ∈ new, (stringOfRunes pre).length < m.end_ := by
  intro rs
  induction rs with
  | nil =>
    intro pre node acc _ _
    exact ⟨[], by simp [rangeSpec, searchLoop], List.nodup_nil, by simp⟩
  | cons r rs ih =>
    intro pre node acc hn hsuf
    obtain ⟨n1, w1, w2, w3⟩ := walkToChild_spec hSo hl r pre ac.nodes.length node hn
      (by have := hS.label_le node hn; omega) hsuf
    have hlen : (stringOfRunes pre).length + (encodeRune r).length =
        (stringOfRunes (pre ++ [r])).length := by
      rw [stringOfRunes_append, List.length_append, stringOfRunes_cons, stringOfRunes_nil,
        List.append_nil]
    have hpos := encodeRune_length_pos r
    obtain ⟨n2, b1, b2, hstep⟩ : ∃ n2, n2 < ac.nodes.length ∧ L n2 <:+ pre ++ [r] ∧
        ∀ (acc : List acMatch),
          searchLoop ac (fun m found => (found ++ [m], true))
              (rangeSpec (stringOfRunes pre).length (r :: rs)) node acc =
            if (getNode ac.nodes n2).output.length > 0 then
              (emit ac (fun m found => (found ++ [m], true))
                ((stringOfRunes pre).length + (encodeRune r).length)
                (getNode ac.nodes n2).output acc >>=
                fun res => if res.2 then searchLoop ac (fun m found => (found ++ [m], true))
                  (rangeSpec ((stringOfRunes pre).length + (encodeRune r).length) rs) n2 res.1
                  else pure res.1)
            else searchLoop ac (fun m found => (found ++ [m], true))
              (rangeSpec ((stringOfRunes pre).length + (encodeRune r).length) rs) n2 acc := by
      cases hlk : (getNode ac.nodes n1).children.lookup r with
      | some next =>
        obtain ⟨_, e2, e3⟩ := hS.edge n1 r next (lookup_mem hlk)
        refine ⟨next, e2, by rw [e3]; exact suffix_snoc w3 r, ?_⟩
        intro acc
        rw [rangeSpec, searchLoop, w1, bind_ok]
        simp only [hlk]
      | none =>
        refine ⟨root, hS.pos, by rw [root, hS.root]; exact List.nil_suffix, ?_⟩
        intro acc
        rw [rangeSpec, searchLoop, w1, bind_ok]
        simp only [hlk]
    have hidx : ∀ j ∈ (getNode ac.nodes n2).output, ∃ pat, ac.patterns[j]? = some pat := by
      intro j hj
      obtain ⟨pat, p1, _⟩ := hSo.out n2 j hj
      exact ⟨pat, p1⟩
    by_cases hout : (getNode ac.nodes n2).output.length > 0
    · obtain ⟨new2, g1, g2, g3⟩ := ih (pre ++ [r]) n2
        (acc ++ (getNode ac.nodes n2).output.map
          (matchOf ac ((stringOfRunes pre).length + (encodeRune r).length))) b1 b2
      refine ⟨(getNode ac.nodes n2).output.map
        (matchOf ac ((stringOfRunes pre).length + (encodeRune r).length)) ++ new2, ?_, ?_, ?_⟩
      · rw [← hlen] at g1
        rw [hstep acc, if_pos hout, emit_feed ac _ _ _ acc hidx, bind_ok, feed_collect]
        dsimp only
        rw [if_pos (by
          generalize (getNode ac.nodes n2).output.map _ = ms
          clear g1
          induction ms generalizing acc with
          | nil => rfl
          | cons m ms ihm => simp only [goesOn, Bool.true_and]; exact ihm _), g1,
          List.append_assoc]
      · rw [List.nodup_append]
        refine ⟨(hN n2).map (matchOf_injective ac _), g2, ?_⟩
        intro m hm hm2
        obtain ⟨j, _, rfl⟩ := List.mem_map.mp hm
        have := g3 _ hm2
        rw [← hlen] at this
        exact absurd this (lt_irrefl _)
      · intro m hm
        rcases List.mem_append.mp hm with hm | hm
        · obtain ⟨j, _, rfl⟩ := List.mem_map.mp hm
          show _ < (stringOfRunes pre).length + (encodeRune r).length
          omega
        · have := g3 m hm
          rw [← hlen] at this
          omega
    · obtain ⟨new2, g1, g2, g3⟩ := ih (pre ++ [r]) n2 acc b1 b2
      refine ⟨new2, ?_, g2, ?_⟩
      · rw [hstep acc, if_neg hout, hlen, g1]
      · intro m hm
        have := g3 m hm
        rw [← hlen] at this
        omega

theorem SearchAll_nodup {ac : ahoCorasick} (hac : ACInv ac) (hN : ONodup ac.nodes)
    (rs : List Nat) (hv : ValidRunes rs) {found : List acMatch}
    (h : SearchAll ac (stringOfRunes rs) = .ok found) : found.Nodup := by
  obtain ⟨L, hS, hSo, hl⟩ := hac
  obtain ⟨new, h1, h2, _⟩ := searchLoop_nodup hS hSo hl hN rs [] root [] hS.pos
    (by rw [root, hS.root])
  unfold SearchAll Search at h
  rw [rangeStr_stringOfRunes rs hv] at h
  rw [stringOfRunes_nil] at h1
  have h1b : searchLoop ac (fun m found => (found ++ [m], true)) (rangeSpec 0 rs) root [] =
      .ok ([] ++ new) := h1
  rw [h1b] at h
  simp only [List.nil_append, Except.ok.injEq] at h
  rw [← h]
  exact h2

theorem mem_occurrences (patterns : List Str) (text : Str) (i s : Nat) :
    (i, s) ∈ occurrences patterns text ↔
      i < patterns.length ∧ s ≤ text.length ∧
        sub text s (s + (patterns.getD i []).length) = patterns.getD i [] := by
  unfold occurrences
  simp only [List.mem_flatMap, List.mem_filterMap, List.mem_range]
  constructor
  · rintro ⟨a, ha, b, hb, h⟩
    split_ifs at h with c
    simp only [Option.some.injEq, Prod.mk.injEq] at h
    obtain ⟨rfl, rfl⟩ := h
    exact ⟨ha, by omega, c⟩
  · rintro ⟨h1, h2, h3⟩
    exact ⟨i, h1, s, by omega, by rw [if_pos h3]⟩

theorem occurrences_nodup (patterns : List Str) (text : Str) :
    (occurrences patterns text).Nodup := by
  unfold occurrences
  rw [List.nodup_flatMap]
  constructor
  · intro i _
    apply List.Nodup.filterMap _ (List.nodup_range _)
    intro a a2 b hb hb2
    simp only [Option.mem_def] at hb hb2
    split_ifs at hb hb2
    simp only [Option.some.injEq] at hb hb2
    rw [← hb2] at hb
    exact (congrArg Prod.snd hb)
  · refine (List.nodup_range _).pairwise_of_forall_ne ?_
    intro a _ b _ hab x hx hx2
    simp only [List.mem_filterMap, List.mem_range] at hx hx2
    obtain ⟨_, _, h1⟩ := hx
    obtain ⟨_, _, h2⟩ := hx2
    split_ifs at h1 h2
    simp only [Option.some.injEq] at h1 h2
    rw [← h2] at h1
    exact hab (congrArg Prod.fst h1)

/-- C29. Each occurrence is reported exactly once: for every list of non-empty
well-formed UTF-8 patterns (the automaton is built from it in whatever order
the maps are visited) and every well-formed UTF-8 text, `SearchAll(text)`
returns a list with no two equal entries, whose length is the number of pairs
`(i, s)` with `text[s : s+len(patterns[i])] == patterns[i]`; and with an empty
pattern list `SearchAll` returns the empty list for every text. -/
theorem matches_once (ord : MapOrder) (hord : IsMapOrder ord) (patterns : List Str)
    (text : Str) (hp : ∀ p ∈ patterns, ValidString p = true ∧ p ≠ [])
    (ht : ValidString text = true) :
    (∃ ac found, newAhoCorasick ord patterns = .ok ac ∧ SearchAll ac text = .ok found ∧
      found.Nodup ∧ found.length = (occurrences patterns text).length) ∧
      ∀ t : Str, ∃ ac, newAhoCorasick ord [] = .ok ac ∧ SearchAll ac t = .ok [] := by
  constructor
  · obtain ⟨ac, h1, h2, hac⟩ := newAhoCorasick_full hord patterns
    obtain ⟨found, h3, h4, h5⟩ := SearchAll_full hac (runesOf text) (runesOf_valid text)
    have hnd := SearchAll_nodup hac.inv (newAhoCorasick_onodup hord h1) (runesOf text)
      (runesOf_valid text) h3
    have hstr := stringOfRunes_runesOf ht
    rw [hstr] at h3
    refine ⟨ac, found, h1, h3, hnd, ?_⟩
    have hsound : ∀ m ∈ found, ∃ pat, patterns[m.patternIndex]? = some pat ∧
        (m.end_ : Int) - m.start = (pat.length : Int) ∧ 0 ≤ m.start ∧
        m.start ≤ (m.end_ : Int) ∧ m.end_ ≤ text.length ∧
        sub text m.start.toNat m.end_ = pat := by
      intro m hm
      have := matchAt_bytes (h4 m hm) (by rw [h2]; exact fun p hp2 => (hp p hp2).1)
      rw [hstr, h2] at this
      exact this
    have hmap : (found.map (fun m => (m.patternIndex, m.start.toNat))).Nodup := by
      refine List.Nodup.map_on ?_ hnd
      intro x hx y hy hxy
      simp only [Prod.mk.injEq] at hxy
      obtain ⟨px, a1, a2, a3, _, _, _⟩ := hsound x hx
      obtain ⟨py, b1, b2, b3, _, _, _⟩ := hsound y hy
      rw [hxy.1, b1] at a1
      simp only [Option.some.injEq] at a1
      subst a1
      have e1 : x.start = y.start := by
        have := hxy.2
        omega
      have e2 : x.end_ = y.end_ := by omega
      cases x
      cases y
      simp only [acMatch.mk.injEq]
      exact ⟨hxy.1, e1, e2⟩
    have hperm : (found.map (fun m => (m.patternIndex, m.start.toNat))).Perm
        (occurrences patterns text) := by
      rw [List.perm_ext_iff_of_nodup hmap (occurrences_nodup patterns text)]
      rintro ⟨i, s⟩
      rw [mem_occurrences]
      constructor
      · intro hm
        obtain ⟨m, hm, he⟩ := List.mem_map.mp hm
        simp only [Prod.mk.injEq] at he
        obtain ⟨pat, a1, a2, a3, a4, a5, a6⟩ := hsound m hm
        rw [he.1] at a1
        have hi : i < patterns.length := by
          by_contra c
          rw [List.getElem?_eq_none (by omega)] at a1
          cases a1
        have hg : patterns.getD i [] = pat := by
          rw [List.getD_eq_getElem?_getD, a1]
          rfl
        rw [hg]
        have e : s + pat.length = m.end_ := by omega
        rw [e, ← he.2]
        exact ⟨hi, by omega, a6⟩
      · rintro ⟨hi, hs, hsub⟩
        have hg : patterns[i]? = some (patterns.getD i []) := by
          rw [List.getD_eq_getElem?_getD, List.getElem?_eq_getElem hi]
          rfl
        obtain ⟨hvp, hne⟩ := hp _ (List.getElem?_mem hg)
        obtain ⟨k, k1, k2, k3, k4⟩ := occurrence_runes (runesOf text) (runesOf_valid text) _ hvp
          hne s (by rw [hstr]; exact hsub)
        have hrn : runesOf (patterns.getD i []) ≠ [] := by
          obtain ⟨r, rs2, e⟩ := runesOf_ne_nil hne
          rw [e]
          simp
        have := h5 k i _ k1 k2 (by rw [h2]; exact hg) hrn k3
        rw [k4] at this
        exact List.mem_map.mpr ⟨_, this, by
          simp only [Prod.mk.injEq, true_and]
          omega⟩
    rw [← hperm.length_eq, List.length_map]
  · intro t
    obtain ⟨ac, h1, h2, hac⟩ := newAhoCorasick_spec hord []
    obtain ⟨all, h3, _, h5⟩ := Search_trace hac t
    have : all = [] := by
      rw [List.eq_nil_iff_forall_not_mem]
      intro m hm
      obtain ⟨pat, hpat⟩ := h5 m hm
      rw [h2] at hpat
      simp at hpat
    rw [this] at h3
    exact ⟨ac, h1, h3⟩

/-- The witness of `matches_once`: the text "he said she said his hers" with the
patterns `["he", "she", "his", "hers"]` has 6 matches; "she" with the same
patterns has 2, and "foobar" with `["foo", "foobar", "bar"]` has 3. -/
theorem matches_once_witness :
    IsMapOrder insertionOrder ∧ (∀ p ∈ patternsHe, ValidString p = true ∧ p ≠ []) ∧
      ValidString textHeSaid = true ∧
      ((newAhoCorasick insertionOrder patternsHe >>= fun ac => SearchAll ac textHeSaid).map
        List.length = .ok 6 ∧ (occurrences patternsHe textHeSaid).length = 6 ∧
      (newAhoCorasick insertionOrder patternsHe >>= fun ac => SearchAll ac textShe).map
        List.length = .ok 2 ∧ (occurrences patternsHe textShe).length = 2 ∧
      (newAhoCorasick insertionOrder patternsFoo >>= fun ac => SearchAll ac textFoobar).map
        List.length = .ok 3 ∧ (occurrences patternsFoo textFoobar).length = 3) ∧
      ((∃ ac found, newAhoCorasick insertionOrder patternsHe = .ok ac ∧
        SearchAll ac textHeSaid = .ok found ∧ found.Nodup ∧
        found.length = (occurrences patternsHe textHeSaid).length) ∧
        ∀ t : Str, ∃ ac, newAhoCorasick insertionOrder [] = .ok ac ∧
          SearchAll ac t = .ok []) :=
  ⟨isMapOrder_insertionOrder, by decide!, by decide!,
    ⟨by decide!, by decide!, by decide!, by decide!, by decide!, by decide!⟩,
    matches_once insertionOrder isMapOrder_insertionOrder patternsHe textHeSaid (by decide!)
      (by decide!)⟩

/-! ## The position map of `normalizeText`; the patterns of `init` -/

/-- C35. For every text `T`, the position map of `normalizeText(T)` has as many
entries as the normalized text has bytes, and its entries never decrease. -/
theorem posMap_length_monotone (U : Unicode) (T : Str) :
    (normalizeText U T).posMap.length = (normalizeText U T).normalized.length ∧
      (normalizeText U T).posMap.Pairwise (fun a b => a ≤ b) := by
  obtain ⟨_, h2, _, h4⟩ := normalizeLoop_spec U (runesOf (U.nfkc T)) 0 (runesOf_valid _)
  exact ⟨h2, h4⟩

theorem firstOccurrences_nodup (xs : List Str) : (firstOccurrences xs).Nodup := by
  induction xs using List.reverseRecOn with
  | nil => simp [firstOccurrences]
  | append_singleton xs x ih =>
    rw [firstOccurrences_snoc]
    split_ifs with hx
    · rw [List.append_nil]
      exact ih
    · rw [List.nodup_append]
      refine ⟨ih, List.nodup_singleton _, ?_⟩
      intro a ha hb
      rw [List.mem_singleton] at hb
      subst hb
      exact hx ((mem_firstOccurrences _ _).mp ha)

theorem initLoop_first :
    ∀ (dict : List Str) (acc : List Str × List (Str × Str)) (pre : List Str),
      acc.1 = firstOccurrences pre →
      (initLoop dict acc).1 =
        firstOccurrences (pre ++ dict.map (fun p => (collapseRepeats p).1)) := by
  intro dict
  induction dict with
  | nil => intro acc pre h; simpa [initLoop] using h
  | cons d rest ih =>
    intro acc pre h
    have e : pre ++ (d :: rest).map (fun p => (collapseRepeats p).1) =
        (pre ++ [(collapseRepeats d).1]) ++ rest.map (fun p => (collapseRepeats p).1) := by
      simp
    rw [initLoop, e]
    split_ifs with hc
    · apply ih
      rw [firstOccurrences_snoc, if_pos ((mem_firstOccurrences _ _).mp (h ▸ hc)),
        List.append_nil]
      exact h
    · apply ih
      rw [firstOccurrences_snoc, if_neg (fun hx => hc (h ▸ (mem_firstOccurrences _ _).mpr hx))]
      show acc.1 ++ [(collapseRepeats d).1] = _
      rw [h]

/-- C32. Dictionary de-duplication keeps the first original: for every
dictionary, `init` returns; the pattern list of the automaton is the list of
the collapsed forms of the entries without every form that occurred
earlier, so it holds each collapsed form once, in order of first appearance;
the keys of `collapsedToOriginal` are these patterns, and the value at a
pattern `c` is the first entry `p` of the dictionary with
`collapseRepeats(p) == c`. -/
theorem init_dedup (ord : MapOrder) (hord : IsMapOrder ord) (dict : List Str) :
    ∃ g, init ord dict = .ok g ∧
      g.profanityMatcher.patterns =
        firstOccurrences (dict.map (fun p => (collapseRepeats p).1)) ∧
      g.profanityMatcher.patterns.Nodup ∧
      (∀ c, c ∈ g.profanityMatcher.patterns ↔ ∃ p ∈ dict, (collapseRepeats p).1 = c) ∧
      g.collapsedToOriginal.map Prod.fst = g.profanityMatcher.patterns ∧
      ∀ c ∈ g.profanityMatcher.patterns, ∃ p, g.collapsedToOriginal.lookup c = some p ∧
        dict.find? (fun q => decide ((collapseRepeats q).1 = c)) = some p := by
  obtain ⟨g, hg, h1, h2, _⟩ := init_total hord dict
  have hf := initLoop_first dict ([], []) [] rfl
  rw [List.nil_append] at hf
  refine ⟨g, hg, by rw [h1, hf], by rw [h1, hf]; exact firstOccurrences_nodup _, ?_,
    by rw [h1, h2]; exact (initLoop_keys dict ([], []) rfl).symm,
    fun c hc => init_lookup hg hc⟩
  intro c
  rw [h1, hf, mem_firstOccurrences, List.mem_map]

/-- The witness of `init_dedup`: the dictionary `["heaven", "as", "ass"]`, whose
last two entries collapse to "as". -/
theorem init_dedup_witness :
    IsMapOrder insertionOrder ∧
      (∃ g, init insertionOrder dictHeaven = .ok g ∧
        g.profanityMatcher.patterns =
          firstOccurrences (dictHeaven.map (fun p => (collapseRepeats p).1)) ∧
        g.profanityMatcher.patterns.Nodup ∧
        (∀ c, c ∈ g.profanityMatcher.patterns ↔
          ∃ p ∈ dictHeaven, (collapseRepeats p).1 = c) ∧
        g.collapsedToOriginal.map Prod.fst = g.profanityMatcher.patterns ∧
        ∀ c ∈ g.profanityMatcher.patterns, ∃ p, g.collapsedToOriginal.lookup c = some p ∧
          dictHeaven.find? (fun q => decide ((collapseRepeats q).1 = c)) = some p) ∧
      firstOccurrences (dictHeaven.map (fun p => (collapseRepeats p).1)) =
        [[0x68, 0x65, 0x61, 0x76, 0x65, 0x6E], [0x61, 0x73]] :=
  ⟨isMapOrder_insertionOrder, init_dedup insertionOrder isMapOrder_insertionOrder dictHeaven,
    by decide!⟩

theorem initLoop_entries :
    ∀ (dict : List Str) (acc : List Str × List (Str × Str)),
      ∀ cp ∈ (initLoop dict acc).2,
        cp ∈ acc.2 ∨ (cp.2 ∈ dict ∧ cp.1 = (collapseRepeats cp.2).1) := by
  intro dict
  induction dict with
  | nil => intro acc cp h; exact Or.inl h
  | cons d rest ih =>
    intro acc cp h
    rw [initLoop] at h
    split_ifs at h with hc
    · rcases ih acc cp h with h1 | ⟨h1, h2⟩
      · exact Or.inl h1
      · exact Or.inr ⟨List.mem_cons_of_mem _ h1, h2⟩
    · rcases ih _ cp h with h1 | ⟨h1, h2⟩
      · rcases List.mem_append.mp h1 with h3 | h3
        · exact Or.inl h3
        · rw [List.mem_singleton] at h3
          subst h3
          exact Or.inr ⟨List.mem_cons_self _ _, rfl⟩
      · exact Or.inr ⟨List.mem_cons_of_mem _ h1, h2⟩

/-- C33, as stated, fails: `init` filters nothing. For the dictionary whose only
entry is the empty string, the pattern list given to the automaton holds
the empty collapsed form, and `collapsedToOriginal` maps the empty collapsed
form to the empty original. -/
theorem empty_entry_kept :
    ∃ g, init insertionOrder dictEmpty = .ok g ∧ g.profanityMatcher.patterns = [[]] ∧
      g.collapsedToOriginal = [([], [])] := by
  obtain ⟨g, hg, h1, h2, _⟩ := init_total isMapOrder_insertionOrder dictEmpty
  exact ⟨g, hg, by rw [h1]; decide, by rw [h2]; decide⟩

/-- C33, amended. No empty pattern: for every dictionary that has no empty
entry, `init` returns, and neither the collapsed pattern list given to the
automaton nor `collapsedToOriginal` contains an empty collapsed form or an
empty original; every entry of `collapsedToOriginal` is a dictionary entry
under its collapsed form. -/
theorem no_empty_pattern (ord : MapOrder) (hord : IsMapOrder ord) (dict : List Str)
    (hne : ∀ p ∈ dict, p ≠ []) :
    ∃ g, init ord dict = .ok g ∧ (∀ c ∈ g.profanityMatcher.patterns, c ≠ []) ∧
      ∀ cp ∈ g.collapsedToOriginal,
        cp.1 ≠ [] ∧ cp.2 ≠ [] ∧ cp.2 ∈ dict ∧ cp.1 = (collapseRepeats cp.2).1 := by
  obtain ⟨g, hg, h1, h2, _⟩ := init_total hord dict
  refine ⟨g, hg, ?_, ?_⟩
  · rw [h1]
    exact initLoop_ne_nil dict ([], []) hne (by simp)
  · intro cp hcp
    rw [h2] at hcp
    rcases initLoop_entries dict ([], []) cp hcp with h | ⟨h3, h4⟩
    · simp at h
    · exact ⟨by rw [h4]; exact collapseRepeats_ne_nil (hne _ h3), hne _ h3, h3, h4⟩

/-- The witness of `no_empty_pattern`: the dictionary `["fuck", "shit", "ass"]`. -/
theorem no_empty_pattern_witness :
    IsMapOrder insertionOrder ∧ (∀ p ∈ dictSample, p ≠ []) ∧
      ∃ g, init insertionOrder dictSample = .ok g ∧
        (∀ c ∈ g.profanityMatcher.patterns, c ≠ []) ∧
        ∀ cp ∈ g.collapsedToOriginal,
          cp.1 ≠ [] ∧ cp.2 ≠ [] ∧ cp.2 ∈ dictSample ∧ cp.1 = (collapseRepeats cp.2).1 :=
  ⟨isMapOrder_insertionOrder, by decide,
    no_empty_pattern insertionOrder isMapOrder_insertionOrder dictSample (by decide)⟩

/-! ## The position arrays of `collapseRepeats` -/

theorem runsOf_valid (rs : List Nat) (hv : ValidRunes rs) :
    ValidRunes ((runsOf rs).map Prod.fst) := by
  intro r hr
  obtain ⟨x, hx, rfl⟩ := List.mem_map.mp hr
  exact hv _ (mem_runsOf rs x hx).1

/-- The collapsed text encodes the runes of the runs, and decodes to them. -/
theorem collapse_kept (s : Str) :
    ValidRunes ((runsOf (runesOf s)).map Prod.fst) ∧
      (collapseRepeats s).1 = stringOfRunes ((runsOf (runesOf s)).map Prod.fst) ∧
      runesOf (collapseRepeats s).1 = (runsOf (runesOf s)).map Prod.fst := by
  have hv := runsOf_valid (runesOf s) (runesOf_valid s)
  have h1 : (collapseRepeats s).1 = stringOfRunes ((runsOf (runesOf s)).map Prod.fst) := by
    rw [collapseRepeats_closed s]
  exact ⟨hv, h1, by rw [h1, runesOf_stringOfRunes _ hv]⟩

/-- The entries of the position arrays at the bytes of the kept rune number `k`:
the number of bytes of the text before the run, and up to the end of the
run. -/
theorem collapse_span (s : Str) (k : Nat) (hk : k < (runsOf (runesOf s)).length) (i : Nat)
    (h1 : offset ((runsOf (runesOf s)).map Prod.fst) k ≤ i)
    (h2 : i < offset ((runsOf (runesOf s)).map Prod.fst) (k + 1)) :
    (collapseRepeats s).2.startPos[i]? = some (runBytes ((runsOf (runesOf s)).take k)) ∧
      (collapseRepeats s).2.endPos[i]? =
        some (runBytes ((runsOf (runesOf s)).take (k + 1))) := by
  have hv := runsOf_valid (runesOf s) (runesOf_valid s)
  rw [collapseRepeats_closed s]
  dsimp only
  generalize runsOf (runesOf s) = runs at hk h1 h2 hv ⊢
  have hsplit : runs = runs.take k ++ runs[k] :: runs.drop (k + 1) := by
    rw [← List.drop_eq_getElem_cons hk, List.take_append_drop]
  have hkm : k < (runs.map Prod.fst).length := by simpa using hk
  have hvk : ValidRune (runs[k]).1 = true := hv _ (List.mem_map_of_mem _ (List.getElem_mem hk))
  have hsucc := offset_succ (runs.map Prod.fst) hkm
  rw [List.getElem_map, encodeRune_length_valid hvk] at hsucc
  have hvt : ValidRunes ((runs.take k).map Prod.fst) := by
    intro r hr
    obtain ⟨x, hx, rfl⟩ := List.mem_map.mp hr
    exact hv _ (List.mem_map_of_mem _ (List.mem_of_mem_take hx))
  have hoff : (((runs.take k).map Prod.fst).map RuneLen).sum = offset (runs.map Prod.fst) k := by
    rw [sum_RuneLen _ hvt, offset, List.map_take]
  obtain ⟨j, rfl⟩ : ∃ j, i = offset (runs.map Prod.fst) k + j :=
    ⟨i - offset (runs.map Prod.fst) k, by omega⟩
  have hj : j < RuneLen (runs[k]).1 := by omega
  obtain ⟨g1, g2⟩ := span_at 0 (runs.take k) (runs.drop (k + 1)) (runs[k]).1 (runs[k]).2 j hj
  rw [startsOf_spans_length, hoff, Nat.zero_add, ← hsplit] at g1
  rw [endsOf_spans_length, hoff, Nat.zero_add, ← hsplit] at g2
  refine ⟨g1, ?_⟩
  rw [g2, List.take_succ, List.getElem?_eq_getElem hk, runBytes_append]
  simp [runBytes]

/-- C36. Collapse position arrays: for every string `s` (well-formed UTF-8 or
not) with `(c, info) = collapseRepeats(s)`, both arrays of `info` have as
many entries as `c` has bytes, `startPos[i] <= endPos[i]` at every byte `i`,
and all bytes of one kept rune of `c` (the rune number `k` of `c`, at the
bytes from `offset k` up to `offset (k+1)`) carry the same `startPos` value
and the same `endPos` value; for the empty `s` both arrays are empty. -/
theorem collapse_position_arrays (s : Str) :
    (collapseRepeats s).2.startPos.length = (collapseRepeats s).1.length ∧
      (collapseRepeats s).2.endPos.length = (collapseRepeats s).1.length ∧
      (∀ (i a b : Nat), (collapseRepeats s).2.startPos[i]? = some a →
        (collapseRepeats s).2.endPos[i]? = some b → a ≤ b) ∧
      (∀ k, k < (runesOf (collapseRepeats s).1).length → ∃ a b, ∀ (i : Nat),
        offset (runesOf (collapseRepeats s).1) k ≤ i →
        i < offset (runesOf (collapseRepeats s).1) (k + 1) →
        (collapseRepeats s).2.startPos[i]? = some a ∧
          (collapseRepeats s).2.endPos[i]? = some b) ∧
      (s = [] → (collapseRepeats s).2.startPos = [] ∧ (collapseRepeats s).2.endPos = []) := by
  obtain ⟨hv, hc, hr⟩ := collapse_kept s
  obtain ⟨_, s2, s3, s4, _⟩ := collapseRepeats_spec (runesOf s) (runesOf_valid s)
  rw [← collapseRepeats_decoded s] at s2 s3 s4
  refine ⟨s2, s3, fun i a b ha hb => Nat.le_of_lt (s4 i a b ha hb).1, ?_, ?_⟩
  · intro k hk
    rw [hr] at hk ⊢
    exact ⟨runBytes ((runsOf (runesOf s)).take k), runBytes ((runsOf (runesOf s)).take (k + 1)),
      fun i h1 h2 => collapse_span s k (by simpa using hk) i h1 h2⟩
  · intro h
    subst h
    exact ⟨rfl, rfl⟩

theorem flatten_bytes :
    ∀ (runs : List (Nat × Nat)), ValidRunes (runs.map Prod.fst) →
      (stringOfRunes (runs.flatMap (fun x => List.replicate x.2 x.1))).length =
        runBytes runs := by
  intro runs
  induction runs with
  | nil => intro _; rfl
  | cons x runs ih =>
    intro hv
    have hx : ValidRune x.1 = true := hv _ (by simp)
    have hrep : ∀ n, (stringOfRunes (List.replicate n x.1)).length = n * RuneLen x.1 := by
      intro n
      induction n with
      | zero => simp [stringOfRunes]
      | succ n ihn =>
        rw [List.replicate_succ, stringOfRunes_cons, List.length_append, ihn,
          encodeRune_length_valid hx]
        ring
    rw [List.flatMap_cons, stringOfRunes_append, List.length_append, hrep,
      ih (fun r hr => hv r (by simp at hr ⊢; exact Or.inr hr))]
    simp [runBytes]

/-- The bytes of a run in the text. -/
theorem run_bytes (rs : List Nat) (hv : ValidRunes rs) (k : Nat) (hk : k < (runsOf rs).length) :
    sub (stringOfRunes rs) (runBytes ((runsOf rs).take k)) (runBytes ((runsOf rs).take (k + 1))) =
      stringOfRunes (List.replicate ((runsOf rs)[k]).2 ((runsOf rs)[k]).1) := by
  have hvr := runsOf_valid rs hv
  have hfl := runsOf_flatten rs
  generalize runsOf rs = runs at hk hvr hfl ⊢
  have hsplit : runs = runs.take k ++ runs[k] :: runs.drop (k + 1) := by
    rw [← List.drop_eq_getElem_cons hk, List.take_append_drop]
  have hvt : ValidRunes ((runs.take k).map Prod.fst) := by
    intro r hr
    obtain ⟨x, hx, rfl⟩ := List.mem_map.mp hr
    exact hvr _ (List.mem_map_of_mem _ (List.mem_of_mem_take hx))
  have hvk : ValidRunes ([runs[k]].map Prod.fst) := by
    intro r hr
    simp only [List.map_cons, List.map_nil, List.mem_singleton] at hr
    subst hr
    exact hvr _ (List.mem_map_of_mem _ (List.getElem_mem hk))
  have e1 := flatten_bytes (runs.take k) hvt
  have e2 := flatten_bytes [runs[k]] hvk
  simp only [List.flatMap_cons, List.flatMap_nil, List.append_nil] at e2
  have e3 : runBytes (runs.take (k + 1)) = runBytes (runs.take k) + runBytes [runs[k]] := by
    rw [List.take_succ, List.getElem?_eq_getElem hk, runBytes_append]
    rfl
  have hs : stringOfRunes rs =
      stringOfRunes ((runs.take k).flatMap (fun x => List.replicate x.2 x.1)) ++
        (stringOfRunes (List.replicate (runs[k]).2 (runs[k]).1) ++
          stringOfRunes ((runs.drop (k + 1)).flatMap (fun x => List.replicate x.2 x.1))) := by
    rw [← stringOfRunes_append, ← stringOfRunes_append, ← hfl]
    congr 1
    conv_lhs => rw [hsplit]
    rw [List.flatMap_append, List.flatMap_cons]
  rw [hs, e3, ← e1, ← e2]
  unfold sub
  rw [List.take_append]
  simp

/-- C37. Collapse spans tile the input: for every non-empty well-formed UTF-8
string `s` with `(c, info) = collapseRepeats(s)` and the kept runes `kept`
of `c` (the rune number `k` at the byte `offset k` of `c`), there is a kept
rune, the span of the first kept rune starts at 0, the `endPos` of each
kept rune is the `startPos` of the next kept rune, the `endPos` of the last
kept rune is `len(s)`, and `s[startPos:endPos]` of a kept rune is one or
more copies of that rune. -/
theorem collapse_spans_tile (s : Str) (hs : ValidString s = true) (hne : s ≠ []) :
    runesOf (collapseRepeats s).1 ≠ [] ∧
      (collapseRepeats s).2.startPos[0]? = some 0 ∧
      (∀ k, k + 1 < (runesOf (collapseRepeats s).1).length → ∃ x,
        (collapseRepeats s).2.endPos[offset (runesOf (collapseRepeats s).1) k]? = some x ∧
          (collapseRepeats s).2.startPos[offset (runesOf (collapseRepeats s).1) (k + 1)]? =
            some x) ∧
      (collapseRepeats s).2.endPos[offset (runesOf (collapseRepeats s).1)
        ((runesOf (collapseRepeats s).1).length - 1)]? = some s.length ∧
      ∀ k, k < (runesOf (collapseRepeats s).1).length → ∃ a b n,
        (collapseRepeats s).2.startPos[offset (runesOf (collapseRepeats s).1) k]? = some a ∧
          (collapseRepeats s).2.endPos[offset (runesOf (collapseRepeats s).1) k]? = some b ∧
          1 ≤ n ∧
          sub s a b = stringOfRunes (List.replicate n ((runesOf (collapseRepeats s).1).getD k 0)) := by
  obtain ⟨hv, hc, hr⟩ := collapse_kept s
  have hstr := stringOfRunes_runesOf hs
  have hrne : runesOf s ≠ [] := by
    intro h
    rw [h] at hstr
    exact hne hstr.symm
  have hruns : runsOf (runesOf s) ≠ [] := fun h => hrne (runsOf_eq_nil.mp h)
  have hlen : ((runsOf (runesOf s)).map Prod.fst).length = (runsOf (runesOf s)).length :=
    List.length_map _ _
  have hpos : 0 < (runsOf (runesOf s)).length := List.length_pos.mpr hruns
  have hat : ∀ k (hk : k < (runsOf (runesOf s)).length),
      (collapseRepeats s).2.startPos[offset ((runsOf (runesOf s)).map Prod.fst) k]? =
          some (runBytes ((runsOf (runesOf s)).take k)) ∧
        (collapseRepeats s).2.endPos[offset ((runsOf (runesOf s)).map Prod.fst) k]? =
          some (runBytes ((runsOf (runesOf s)).take (k + 1))) := by
    intro k hk
    exact collapse_span s k hk _ (le_refl _)
      (offset_strict _ (Nat.lt_succ_self k) (by rw [hlen]; omega))
  rw [hr, hlen]
  refine ⟨by simpa using hruns, ?_, ?_, ?_, ?_⟩
  · have := (hat 0 hpos).1
    rwa [offset_zero] at this
  · intro k hk
    exact ⟨_, (hat k (by omega)).2, (hat (k + 1) hk).1⟩
  · have := (hat ((runsOf (runesOf s)).length - 1) (by omega)).2
    rw [this, show (runsOf (runesOf s)).length - 1 + 1 = (runsOf (runesOf s)).length by omega,
      List.take_length, runBytes_runsOf, sum_RuneLen _ (runesOf_valid s), hstr]
  · intro k hk
    refine ⟨_, _, ((runsOf (runesOf s))[k]).2, (hat k hk).1, (hat k hk).2,
      (mem_runsOf _ _ (List.getElem_mem hk)).2, ?_⟩
    have := run_bytes (runesOf s) (runesOf_valid s) k hk
    rw [hstr] at this
    rw [this, List.getD_eq_getElem?_getD, List.getElem?_map, List.getElem?_eq_getElem hk]
    rfl

/-- The witness of `collapse_spans_tile`: the text "aabbbc" collapses to "abc"
with the spans `[0, 2)`, `[2, 5)` and `[5, 6)`. -/
theorem collapse_spans_tile_witness :
    ValidString textAabbbc = true ∧ textAabbbc ≠ [] ∧
      collapseRepeats textAabbbc =
        ([0x61, 0x62, 0x63], { startPos := [0, 2, 5], endPos := [2, 5, 6] }) ∧
      (runesOf (collapseRepeats textAabbbc).1 ≠ [] ∧
      (collapseRepeats textAabbbc).2.startPos[0]? = some 0 ∧
      (∀ k, k + 1 < (runesOf (collapseRepeats textAabbbc).1).length → ∃ x,
        (collapseRepeats textAabbbc).2.endPos[offset (runesOf (collapseRepeats textAabbbc).1) k]? = some x ∧
          (collapseRepeats textAabbbc).2.startPos[offset (runesOf (collapseRepeats textAabbbc).1) (k + 1)]? =
            some x) ∧
      (collapseRepeats textAabbbc).2.endPos[offset (runesOf (collapseRepeats textAabbbc).1)
        ((runesOf (collapseRepeats textAabbbc).1).length - 1)]? = some textAabbbc.length ∧
      ∀ k, k < (runesOf (collapseRepeats textAabbbc).1).length → ∃ a b n,
        (collapseRepeats textAabbbc).2.startPos[offset (runesOf (collapseRepeats textAabbbc).1) k]? = some a ∧
          (collapseRepeats textAabbbc).2.endPos[offset (runesOf (collapseRepeats textAabbbc).1) k]? = some b ∧
          1 ≤ n ∧
          sub textAabbbc a b = stringOfRunes (List.replicate n ((runesOf (collapseRepeats textAabbbc).1).getD k 0))) :=
  ⟨by decide!, by decide, by decide!, collapse_spans_tile textAabbbc (by decide!) (by decide)⟩

/-! ## `isValidMatch` and `collapseRepeats` -/

theorem runsOf_fst_of_noAdjacent (ps : List Nat) (h : NoAdjacentEqual ps) :
    (runsOf ps).map Prod.fst = ps := by
  rw [runsOf_of_noAdjacent ps h, List.map_map]
  exact List.map_id _

/-- C38, as stated, fails for a pattern that is not well-formed UTF-8: the
pattern of the single byte `0xFF` decodes to the one rune U+FFFD, the
well-formed segment that encodes U+FFFD passes `isValidMatch` against it,
and the segment collapses to itself, three bytes that are not the pattern. -/
theorem valid_match_ill_formed_pattern :
    NoAdjacentEqual (runesOf wordIllFormed) ∧ ValidString wordReplacement = true ∧
      isValidMatch wordReplacement wordIllFormed = true ∧
      (collapseRepeats wordReplacement).1 = wordReplacement ∧
      (collapseRepeats wordReplacement).1 ≠ wordIllFormed :=
  ⟨by simp [NoAdjacentEqual, runesOf, rangeStr, rangeAux, wordIllFormed, decodeRune],
    by decide!, by decide!, by decide!, by decide!⟩

/-- C38, amended. For every well-formed UTF-8 pattern `P` that has no two
adjacent equal runes and every well-formed UTF-8 segment `seg`,
`isValidMatch(seg, P)` is true if and only if the string returned by
`collapseRepeats(seg)` equals `P`; and for every `P` and `seg`, well-formed
or not, `isValidMatch(seg, P)` implies that `collapseRepeats(seg)` and
`collapseRepeats(P)` return the same string. -/
theorem valid_match_collapse (seg P : Str) :
    (NoAdjacentEqual (runesOf P) → ValidString P = true → ValidString seg = true →
        (isValidMatch seg P = true ↔ (collapseRepeats seg).1 = P)) ∧
      (isValidMatch seg P = true → (collapseRepeats seg).1 = (collapseRepeats P).1) := by
  obtain ⟨_, hcs, hrs⟩ := collapse_kept seg
  obtain ⟨_, hcp, _⟩ := collapse_kept P
  constructor
  · intro hadj hP hseg
    have hPs := stringOfRunes_runesOf hP
    rw [valid_match_iff seg P hseg]
    constructor
    · rintro (e | ⟨_, hst⟩)
      · rw [e, hcp, runsOf_fst_of_noAdjacent _ hadj, hPs]
      · rw [hcs, (runsOf_stretched _ _ hadj hst).1, hPs]
    · intro h
      refine Or.inr ⟨hadj, ?_⟩
      rw [← h, hrs]
      exact runsOf_stretch _
  · intro h
    unfold isValidMatch at h
    split_ifs at h with h1 h2
    · rw [h2]
    · obtain ⟨hadj, hst⟩ := (validLoop_iff _ _).mp h
      rw [hcs, hcp, (runsOf_stretched _ _ hadj hst).1, runsOf_fst_of_noAdjacent _ hadj]

/-- The witness of `valid_match_collapse`: the segment "fuuuck" and the pattern
"fuck". -/
theorem valid_match_collapse_witness :
    NoAdjacentEqual (runesOf wordFuck) ∧ ValidString wordFuck = true ∧
      ValidString textStretched = true ∧ isValidMatch textStretched wordFuck = true ∧
      (collapseRepeats textStretched).1 = wordFuck ∧
      (collapseRepeats textStretched).1 = (collapseRepeats wordFuck).1 :=
  have hadj : NoAdjacentEqual (runesOf wordFuck) := by
    simp [NoAdjacentEqual, runesOf, rangeStr, rangeAux, wordFuck, decodeRune]
  have hm : isValidMatch textStretched wordFuck = true := by decide!
  ⟨hadj, by decide!, by decide!, hm,
    ((valid_match_collapse textStretched wordFuck).1 hadj (by decide!) (by decide!)).mp hm,
    (valid_match_collapse textStretched wordFuck).2 hm⟩

/-! ## The position map of `normalizeText`, rune by rune -/

/-- The loop of `normalizeText` in closed form: the bytes and the entries that
every rune of the `range` sequence generates. -/
theorem normalizeLoop_generated (U : Unicode) :
    ∀ (rs : List Nat) (pos : Nat), ValidRunes rs →
      normalizeLoop U pos rs =
        ((rangeSpec pos rs).flatMap (fun x => generated U x.2),
          (rangeSpec pos rs).flatMap
            (fun x => List.replicate (generated U x.2).length x.1)) := by
  intro rs
  induction rs with
  | nil => intro pos _; rfl
  | cons r rs ih =>
    intro pos hv
    have hr : (encodeRune r).length = RuneLen r :=
      encodeRune_length_valid (hv r (List.mem_cons_self _ _))
    have ih2 := ih (pos + RuneLen r) (fun x hx => hv x (List.mem_cons_of_mem _ hx))
    rw [normalizeLoop, rangeSpec, hr, List.flatMap_cons, List.flatMap_cons]
    dsimp only
    by_cases hz : r ∈ zeroWidthChars
    · rw [if_pos hz, ih2]
      simp [generated, hz]
    · rw [if_neg hz, ih2]
      simp [generated, hz, mapRune]

/-- C34, as stated, fails where NFKC changes the text: the entries of `posMap`
are byte offsets into the NFKC form. The text "½½ ass" is well-formed and has
8 bytes, its NFKC form has 14, and the last five entries of the position map
are 9 to 13, no byte offsets into the original. -/
theorem posMap_beyond_original :
    ValidString textHalves = true ∧
      (normalizeText unicodeSample textHalves).original = textHalves ∧
      textHalves.length = 8 ∧
      (normalizeText unicodeSample textHalves).posMap =
        [0, 1, 1, 1, 4, 5, 6, 6, 6, 9, 10, 11, 12, 13] :=
  ⟨by decide!, rfl, rfl, by decide!⟩

/-- C34, amended. Validity of `posMap`: for every well-formed UTF-8 text `T` that
NFKC leaves unchanged, `normalizeText(T).original` is `T`, the normalized
text is the bytes that the runes of `T` generate one after the other (none
for an invisible rune, the encoding of the mapped rune otherwise), and
`posMap` holds, for every byte that the rune at the byte offset `i` of `T`
generates, the offset `i`; so every entry is less than `len(T)` and is the
offset of the first byte of a rune of `T`. -/
theorem posMap_valid (U : Unicode) (T : Str) (hT : ValidString T = true)
    (hn : U.nfkc T = T) :
    (normalizeText U T).original = T ∧
      (normalizeText U T).normalized = (rangeStr T).flatMap (fun x => generated U x.2) ∧
      (normalizeText U T).posMap =
        (rangeStr T).flatMap (fun x => List.replicate (generated U x.2).length x.1) ∧
      ∀ o ∈ (normalizeText U T).posMap, o < T.length ∧ o ∈ (rangeStr T).map Prod.fst := by
  have hstr := stringOfRunes_runesOf hT
  have hloop := normalizeLoop_generated U (runesOf T) 0 (runesOf_valid T)
  rw [← rangeStr_stringOfRunes _ (runesOf_valid T), hstr] at hloop
  have h1 : (normalizeText U T).normalized = (rangeStr T).flatMap (fun x => generated U x.2) := by
    unfold normalizeText
    dsimp only
    rw [hn, hloop]
  have h2 : (normalizeText U T).posMap =
      (rangeStr T).flatMap (fun x => List.replicate (generated U x.2).length x.1) := by
    unfold normalizeText
    dsimp only
    rw [hn, hloop]
  refine ⟨rfl, h1, h2, ?_⟩
  intro o ho
  obtain ⟨_, _, _, h5, _⟩ := normalizeText_spec U T hn
  obtain ⟨k, hk, rfl⟩ := h5 o ho
  constructor
  · have := offset_strict (runesOf T) (show k < k + 1 by omega) hk
    have h3 := offset_le_total (runesOf T) (k + 1)
    rw [hstr] at h3
    omega
  · rw [h2, List.mem_flatMap] at ho
    obtain ⟨x, hx, hx2⟩ := ho
    rw [(List.mem_replicate.mp hx2).2]
    exact List.mem_map_of_mem _ hx

/-- The witness of `posMap_valid`: the text "fuсk off" whose third letter is
U+0441, at the byte offset 2 and two bytes long. -/
theorem posMap_valid_witness :
    ValidString textCyrillic = true ∧ unicodeSample.nfkc textCyrillic = textCyrillic ∧
      (normalizeText unicodeSample textCyrillic).posMap = [0, 1, 2, 4, 5, 6, 7, 8] ∧
      ((normalizeText unicodeSample textCyrillic).original = textCyrillic ∧
        (normalizeText unicodeSample textCyrillic).normalized =
          (rangeStr textCyrillic).flatMap (fun x => generated unicodeSample x.2) ∧
        (normalizeText unicodeSample textCyrillic).posMap =
          (rangeStr textCyrillic).flatMap
            (fun x => List.replicate (generated unicodeSample x.2).length x.1) ∧
        ∀ o ∈ (normalizeText unicodeSample textCyrillic).posMap,
          o < textCyrillic.length ∧ o ∈ (rangeStr textCyrillic).map Prod.fst) :=
  ⟨by decide!, by decide!, by decide!,
    posMap_valid unicodeSample textCyrillic (by decide!) (by decide!)⟩

/-! ## No key of `leetspeakMap` in the normalized text -/

theorem leetKeys_eq : leetspeakMap.map Prod.fst = leetKeys := by decide

theorem leetspeak_values_not_keys : ∀ p ∈ leetspeakMap, p.2 ∉ leetKeys := by decide

theorem homoglyph_values_ascii : ∀ p ∈ homoglyphMap, p.2 < 0x80 := by decide!

theorem not_zeroWidth_of_ascii {r : Nat} (h : r < 0x80) : r ∉ zeroWidthChars := by
  intro hz
  have := zeroWidth_not_ascii r hz
  omega

theorem leetspeak_getD_not_key (x : Nat) : (leetspeakMap.lookup x).getD x ∉ leetKeys := by
  cases hl : leetspeakMap.lookup x with
  | some v => exact leetspeak_values_not_keys (x, v) (lookup_mem hl)
  | none =>
    rw [Option.getD_none, ← leetKeys_eq]
    intro hx
    obtain ⟨p, hp, rfl⟩ := List.mem_map.mp hx
    have := List.lookup_eq_none_iff.mp hl p hp
    simp at this

theorem mapRune_not_key (U : Unicode) (r : Nat) : mapRune U r ∉ leetKeys :=
  leetspeak_getD_not_key _

theorem mapRune_visible (U : Unicode) (hU : LowerKeepsVisible U) {r : Nat}
    (hr : r ∉ zeroWidthChars) : mapRune U r ∉ zeroWidthChars := by
  unfold mapRune
  cases hl : leetspeakMap.lookup ((homoglyphMap.lookup (ToLower U r)).getD (ToLower U r)) with
  | some v => exact not_zeroWidth_of_ascii (leetspeak_values_ascii (_, v) (lookup_mem hl))
  | none =>
    rw [Option.getD_none]
    cases hh : homoglyphMap.lookup (ToLower U r) with
    | some v => exact not_zeroWidth_of_ascii (homoglyph_values_ascii (_, v) (lookup_mem hh))
    | none =>
      rw [Option.getD_none]
      unfold ToLower
      split_ifs with c1 c2
      · exact not_zeroWidth_of_ascii (by omega)
      · exact hr
      · exact hU r hr

/-- The bytes that the loop of `normalizeText` writes: the encodings of the mapped
runes of the runes that are not invisible. -/
theorem normalizeLoop_runes (U : Unicode) :
    ∀ (rs : List Nat) (pos : Nat),
      (normalizeLoop U pos rs).1 =
        stringOfRunes ((rs.filter (fun r => decide (r ∉ zeroWidthChars))).map
          (fun r => fixRune (mapRune U r))) := by
  intro rs
  induction rs with
  | nil => intro pos; rfl
  | cons r rs ih =>
    intro pos
    rw [normalizeLoop]
    dsimp only
    by_cases hz : r ∈ zeroWidthChars
    · rw [if_pos hz, ih, List.filter_cons_of_neg (by simpa using hz)]
    · rw [if_neg hz, ih, List.filter_cons_of_pos (by simpa using hz), List.map_cons,
        stringOfRunes_cons, encodeRune_fixRune]
      rfl

theorem normalized_runes (U : Unicode) (T : Str) :
    runesOf (normalizeText U T).normalized =
      ((runesOf (U.nfkc T)).filter (fun r => decide (r ∉ zeroWidthChars))).map
        (fun r => fixRune (mapRune U r)) := by
  have h : (normalizeText U T).normalized = (normalizeLoop U 0 (runesOf (U.nfkc T))).1 := rfl
  rw [h, normalizeLoop_runes, runesOf_stringOfRunes]
  intro r hr
  obtain ⟨x, _, rfl⟩ := List.mem_map.mp hr
  exact validRune_fixRune _

/-- No rune of the normalized text is a key of `leetspeakMap`, and none is
invisible when lower-casing keeps visible runes visible. -/
theorem normalized_no_key (U : Unicode) (T : Str) :
    ∀ r ∈ runesOf (normalizeText U T).normalized,
      r ∉ leetKeys ∧ (LowerKeepsVisible U → r ∉ zeroWidthChars) := by
  intro r hr
  rw [normalized_runes] at hr
  obtain ⟨x, hx, rfl⟩ := List.mem_map.mp hr
  have hxz : x ∉ zeroWidthChars := by simpa using (List.mem_filter.mp hx).2
  unfold fixRune
  split_ifs
  · exact ⟨mapRune_not_key U x, fun hU => mapRune_visible U hU hxz⟩
  · exact ⟨by decide, fun _ => by decide⟩

theorem mem_runsOf_fst (rs : List Nat) {r : Nat} (h : r ∈ rs) :
    r ∈ (runsOf rs).map Prod.fst := by
  rw [← runsOf_flatten rs, List.mem_flatMap] at h
  obtain ⟨x, hx, hx2⟩ := h
  rw [(List.mem_replicate.mp hx2).2]
  exact List.mem_map_of_mem _ hx

/-- The runes of the pattern of a match of `findMatches` are runes of the
normalized text. -/
theorem match_pattern_runes {U : Unicode} {c2o : List (Str × Str)} {ac : ahoCorasick}
    (hac : ACInv ac) {T : Str} {out : List matchInfo}
    (hf : findMatches U c2o T ac = .ok out) :
    ∀ mi ∈ out, ∀ r ∈ runesOf mi.pattern, r ∈ runesOf (normalizeText U T).normalized := by
  intro mi hmi r hr
  obtain ⟨found, hfound, m, hm, hp⟩ := findMatches_mem hf mi hmi
  obtain ⟨hv, hc, _⟩ := collapse_kept (normalizeText U T).normalized
  obtain ⟨found2, hs1, hs2⟩ := SearchAll_spec hac _ hv
  rw [hc, hs1] at hfound
  simp only [Except.ok.injEq] at hfound
  subst hfound
  obtain ⟨pat, k, p1, _, _, _, p5⟩ := hs2 m hm
  obtain ⟨ns, ne, os, oe, _, _, ha⟩ := projectMatch_some hp
  obtain ⟨_, _, _, _, p, seg, q1, q2, _⟩ := acceptMatch_some ha
  rw [p1] at q1
  simp only [Option.some.injEq] at q1
  subst q1
  rw [q2] at hr
  have h1 := List.mem_of_mem_take (p5.subset hr)
  obtain ⟨x, hx, rfl⟩ := List.mem_map.mp h1
  exact (mem_runsOf _ x hx).1

/-- C39. Normalized text never contains a leetspeak key, so a dictionary entry
containing one can never be found. The keys of `leetspeakMap` are the runes
`@ 4 8 3 ! 1 | 0 $ 5 7 + v V`. For every dictionary and every text `T`: no
rune of `normalizeText(T).normalized` is one of them, no match returned by
`findMatches(T)` has a pattern containing one, and every element of the
list that `FindProfanity(T)` returns is a dictionary entry that contains
none, so no letter `v` and no mapped digit. In each of the three, no rune is
a rune of `zeroWidthChars` either, given that `unicode.ToLower` never turns
a rune that is not invisible into an invisible one. -/
theorem leet_keys_never_found (U : Unicode) (ord : MapOrder) (hord : IsMapOrder ord)
    (dict : List Str) (g : Globals) (hg : init ord dict = .ok g) (T : Str) :
    leetspeakMap.map Prod.fst = leetKeys ∧
      (∀ r ∈ runesOf (normalizeText U T).normalized,
        r ∉ leetKeys ∧ (LowerKeepsVisible U → r ∉ zeroWidthChars)) ∧
      (∀ out, findMatches U g.collapsedToOriginal T g.profanityMatcher = .ok out →
        ∀ mi ∈ out, ∀ r ∈ runesOf mi.pattern,
          r ∉ leetKeys ∧ (LowerKeepsVisible U → r ∉ zeroWidthChars)) ∧
      ∀ ws, FindProfanity U g T = .ok ws → ∀ w ∈ ws, w ∈ dict ∧
        ∀ r ∈ runesOf w, r ∉ leetKeys ∧ (LowerKeepsVisible U → r ∉ zeroWidthChars) := by
  obtain ⟨g2, hg2, _, _, hac⟩ := init_total hord dict
  rw [hg] at hg2
  simp only [Except.ok.injEq] at hg2
  subst hg2
  have hpat : ∀ out, findMatches U g.collapsedToOriginal T g.profanityMatcher = .ok out →
      ∀ mi ∈ out, ∀ r ∈ runesOf mi.pattern,
        r ∉ leetKeys ∧ (LowerKeepsVisible U → r ∉ zeroWidthChars) :=
    fun out hf mi hmi r hr => normalized_no_key U T r (match_pattern_runes hac hf mi hmi r hr)
  refine ⟨leetKeys_eq, normalized_no_key U T, hpat, ?_⟩
  intro ws hf w hw
  unfold FindProfanity at hf
  split_ifs at hf with h0
  · simp only [Except.ok.injEq] at hf
    subst hf
    simp at hw
  · obtain ⟨found, hfound, hf⟩ := bind_eq_ok hf
    split_ifs at hf with h1
    · simp only [pure_eq_ok, Except.ok.injEq] at hf
      subst hf
      simp at hw
    · simp only [pure_eq_ok, Except.ok.injEq] at hf
      subst hf
      rcases collectOriginals_mem _ found [] w hw with h | ⟨m, hm, e⟩
      · simp at h
      · obtain ⟨p, hp, hfind⟩ := init_lookup hg (findMatches_pattern_mem hfound m hm)
        rw [hp] at e
        simp only [Option.getD_some] at e
        subst e
        refine ⟨List.mem_of_find?_eq_some hfind, ?_⟩
        intro r hr
        have hcol : (collapseRepeats w).1 = m.pattern := by
          simpa using List.find?_some hfind
        apply hpat found hfound m hm r
        rw [← hcol, (collapse_kept w).2.2]
        exact mem_runsOf_fst _ hr

/-- The witness of `leet_keys_never_found`: the dictionary `["heaven", "as",
"ass"]` and the text "heaven as", which normalizes to "heauen as";
`FindProfanity` returns "as" and not "heaven". -/
theorem leet_keys_never_found_witness :
    IsMapOrder insertionOrder ∧ init insertionOrder dictHeaven = .ok (globalsOf insertionOrder dictHeaven) ∧
      LowerKeepsVisible unicodeSample ∧
      (normalizeText unicodeSample textHeaven).normalized =
        [0x68, 0x65, 0x61, 0x75, 0x65, 0x6E, 0x20, 0x61, 0x73] ∧
      FindProfanity unicodeSample (globalsOf insertionOrder dictHeaven) textHeaven =
        .ok [[0x61, 0x73]] ∧
      ∀ ws, FindProfanity unicodeSample (globalsOf insertionOrder dictHeaven) textHeaven = .ok ws →
        ∀ w ∈ ws, w ∈ dictHeaven ∧ ∀ r ∈ runesOf w,
          r ∉ leetKeys ∧ (LowerKeepsVisible unicodeSample → r ∉ zeroWidthChars) :=
  ⟨isMapOrder_insertionOrder, by decide!, fun _ h => h, by decide!, by decide!,
    (leet_keys_never_found unicodeSample insertionOrder isMapOrder_insertionOrder dictHeaven
      (globalsOf insertionOrder dictHeaven) (by decide!) textHeaven).2.2.2⟩

/-! ## The order of the matches of one scan -/

/-- The matches of a scan come by end offset, and those of one end offset in the
order of the output list of the node: whatever relation `Q` holds between
earlier and later entries of every output list holds between such
matches. -/
theorem searchLoop_ordered {ac : ahoCorasick} {L : Nat → List Nat}
    (hS : Shape ac.nodes L) (hSo : Sound ac.nodes L ac.patterns)
    (hl : ∀ n, 0 < n → n < ac.nodes.length → (getNode ac.nodes n).fail ≠ none)
    {Q : Nat → Nat → Prop} (hQ : ∀ n, (getNode ac.nodes n).output.Pairwise Q) :
    ∀ (rs pre : List Nat) (node : Nat) (acc : List acMatch),
      node < ac.nodes.length → L node <:+ pre →
      ∃ new, searchLoop ac (fun m found => (found ++ [m], true))
          (rangeSpec (stringOfRunes pre).length rs) node acc = .ok (acc ++ new) ∧
        new.Pairwise (Before Q) ∧ ∀ m ∈ new, (stringOfRunes pre).length < m.end_ := by
  intro rs
  induction rs with
  | nil =>
    intro pre node acc _ _
    exact ⟨[], by simp [rangeSpec, searchLoop], List.Pairwise.nil, by simp⟩
  | cons r rs ih =>
    intro pre node acc hn hsuf
    obtain ⟨n1, w1, w2, w3⟩ := walkToChild_spec hSo hl r pre ac.nodes.length node hn
      (by have := hS.label_le node hn; omega) hsuf
    have hlen : (stringOfRunes pre).length + (encodeRune r).length =
        (stringOfRunes (pre ++ [r])).length := by
      rw [stringOfRunes_append, List.length_append, stringOfRunes_cons, stringOfRunes_nil,
        List.append_nil]
    have hpos := encodeRune_length_pos r
    obtain ⟨n2, b1, b2, hstep⟩ : ∃ n2, n2 < ac.nodes.length ∧ L n2 <:+ pre ++ [r] ∧
        ∀ (acc : List acMatch),
          searchLoop ac (fun m found => (found ++ [m], true))
              (rangeSpec (stringOfRunes pre).length (r :: rs)) node acc =
            if (getNode ac.nodes n2).output.length > 0 then
              (emit ac (fun m found => (found ++ [m], true))
                ((stringOfRunes pre).length + (encodeRune r).length)
                (getNode ac.nodes n2).output acc >>=
                fun res => if res.2 then searchLoop ac (fun m found => (found ++ [m], true))
                  (rangeSpec ((stringOfRunes pre).length + (encodeRune r).length) rs) n2 res.1
                  else pure res.1)
            else searchLoop ac (fun m found => (found ++ [m], true))
              (rangeSpec ((stringOfRunes pre).length + (encodeRune r).length) rs) n2 acc := by
      cases hlk : (getNode ac.nodes n1).children.lookup r with
      | some next =>
        obtain ⟨_, e2, e3⟩ := hS.edge n1 r next (lookup_mem hlk)
        refine ⟨next, e2, by rw [e3]; exact suffix_snoc w3 r, ?_⟩
        intro acc
        rw [rangeSpec, searchLoop, w1, bind_ok]
        simp only [hlk]
      | none =>
        refine ⟨root, hS.pos, by rw [root, hS.root]; exact List.nil_suffix, ?_⟩
        intro acc
        rw [rangeSpec, searchLoop, w1, bind_ok]
        simp only [hlk]
    have hidx : ∀ j ∈ (getNode ac.nodes n2).output, ∃ pat, ac.patterns[j]? = some pat := by
      intro j hj
      obtain ⟨pat, p1, _⟩ := hSo.out n2 j hj
      exact ⟨pat, p1⟩
    by_cases hout : (getNode ac.nodes n2).output.length > 0
    · obtain ⟨new2, g1, g2, g3⟩ := ih (pre ++ [r]) n2
        (acc ++ (getNode ac.nodes n2).output.map
          (matchOf ac ((stringOfRunes pre).length + (encodeRune r).length))) b1 b2
      refine ⟨(getNode ac.nodes n2).output.map
        (matchOf ac ((stringOfRunes pre).length + (encodeRune r).length)) ++ new2, ?_, ?_, ?_⟩
      · rw [← hlen] at g1
        rw [hstep acc, if_pos hout, emit_feed ac _ _ _ acc hidx, bind_ok, feed_collect]
        dsimp only
        rw [if_pos (by
          generalize (getNode ac.nodes n2).output.map _ = ms
          clear g1
          induction ms generalizing acc with
          | nil => rfl
          | cons m ms ihm => simp only [goesOn, Bool.true_and]; exact ihm _), g1,
          List.append_assoc]
      · rw [List.pairwise_append]
        refine ⟨?_, g2, ?_⟩
        · rw [List.pairwise_map]
          exact (hQ n2).imp (fun h => Or.inr ⟨rfl, h⟩)
        · intro a ha b hb
          obtain ⟨j, _, rfl⟩ := List.mem_map.mp ha
          have := g3 b hb
          rw [← hlen] at this
          exact Or.inl this
      · intro m hm
        rcases List.mem_append.mp hm with hm | hm
        · obtain ⟨j, _, rfl⟩ := List.mem_map.mp hm
          show _ < (stringOfRunes pre).length + (encodeRune r).length
          omega
        · have := g3 m hm
          rw [← hlen] at this
          omega
    · obtain ⟨new2, g1, g2, g3⟩ := ih (pre ++ [r]) n2 acc b1 b2
      refine ⟨new2, ?_, g2, ?_⟩
      · rw [hstep acc, if_neg hout, hlen, g1]
      · intro m hm
        have := g3 m hm
        rw [← hlen] at this
        omega

theorem SearchAll_ordered {ac : ahoCorasick} (hac : ACInv ac) {Q : Nat → Nat → Prop}
    (hQ : ∀ n, (getNode ac.nodes n).output.Pairwise Q) (rs : List Nat) (hv : ValidRunes rs)
    {found : List acMatch} (h : SearchAll ac (stringOfRunes rs) = .ok found) :
    found.Pairwise (Before Q) := by
  obtain ⟨L, hS, hSo, hl⟩ := hac
  obtain ⟨new, h1, h2, _⟩ := searchLoop_ordered hS hSo hl hQ rs [] root [] hS.pos
    (by rw [root, hS.root])
  unfold SearchAll Search at h
  rw [rangeStr_stringOfRunes rs hv] at h
  rw [stringOfRunes_nil] at h1
  have h1b : searchLoop ac (fun m found => (found ++ [m], true)) (rangeSpec 0 rs) root [] =
      .ok ([] ++ new) := h1
  rw [h1b] at h
  simp only [List.nil_append, Except.ok.injEq] at h
  rw [← h]
  exact h2

/-- C31, as stated, fails: with the patterns `["a", "aaa"]` the scan of "aaa"
reports "a" at `[1, 2)` and after it "aaa" at `[0, 3)`, a smaller start
offset. No node of this automaton has two children, so the order in which
maps are visited plays no part. -/
theorem matches_start_not_ascending :
    (newAhoCorasick insertionOrder patternsAAaa).bind (fun ac => SearchAll ac textAaa) =
      .ok [{ patternIndex := 0, start := 0, end_ := 1 },
        { patternIndex := 0, start := 1, end_ := 2 },
        { patternIndex := 1, start := 0, end_ := 3 },
        { patternIndex := 0, start := 2, end_ := 3 }] := by
  decide!

/-- C31, amended. Emission order: for every pattern list (the automaton is built
from it in whatever order the maps are visited) and every well-formed UTF-8
text, the matches of one scan are emitted in ascending end offset: if the
match `a` comes before the match `b` in the list that `SearchAll(text)`
returns then `a.end <= b.end`. -/
theorem matches_end_ascending (ord : MapOrder) (hord : IsMapOrder ord)
    (patterns : List Str) (text : Str) (ht : ValidString text = true) :
    ∃ ac found, newAhoCorasick ord patterns = .ok ac ∧ SearchAll ac text = .ok found ∧
      found.Pairwise (fun a b => a.end_ ≤ b.end_) := by
  obtain ⟨ac, h1, _, hac⟩ := newAhoCorasick_spec hord patterns
  obtain ⟨found, h2, _⟩ := SearchAll_spec hac (runesOf text) (runesOf_valid text)
  refine ⟨ac, found, h1, by rw [← stringOfRunes_runesOf ht]; exact h2, ?_⟩
  have := SearchAll_ordered hac
    (fun n => List.pairwise_of_forall (R := fun _ _ => True) (fun _ _ => trivial))
    (runesOf text) (runesOf_valid text) h2
  refine this.imp ?_
  intro a b hab
  rcases hab with h | ⟨h, _⟩
  · exact Nat.le_of_lt h
  · exact Nat.le_of_eq h

/-- The witness of `matches_end_ascending`: the patterns `["he", "she", "his",
"hers"]` and the text "he said she said his hers". -/
theorem matches_end_ascending_witness :
    IsMapOrder insertionOrder ∧ ValidString textHeSaid = true ∧
      ∃ ac found, newAhoCorasick insertionOrder patternsHe = .ok ac ∧
        SearchAll ac textHeSaid = .ok found ∧
        found.Pairwise (fun a b => a.end_ ≤ b.end_) :=
  ⟨isMapOrder_insertionOrder, by decide!,
    matches_end_ascending insertionOrder isMapOrder_insertionOrder patternsHe textHeSaid
      (by decide!)⟩

/-! ## The longest pattern first in an output list -/

theorem getD_of_some {patterns : List Str} {i : Nat} {pat : Str}
    (h : patterns[i]? = some pat) : patterns.getD i [] = pat := by
  rw [List.getD_eq_getElem?_getD, h, Option.getD_some]

theorem insertPattern_osorted {nodes : List acNode} {L : Nat → List Nat} {patterns : List Str}
    {k : Nat} (hT : TrieInv nodes L patterns k) (hN : OSorted nodes patterns) {pat : Str}
    (hp : patterns[k]? = some pat)
    (hinj : ∀ (i j : Nat) (pi pj : Str), patterns[i]? = some pi → patterns[j]? = some pj →
      runesOf pi = runesOf pj → i = j) :
    OSorted (insertPattern nodes k pat) patterns := by
  obtain ⟨L1, h1, h2, h3⟩ := trieFold_inv (runesOf pat) nodes root L hT hT.shape.pos
  have ho := trieFold_output (runesOf pat) nodes root L hT hT.shape.pos
  unfold insertPattern
  dsimp only
  generalize ((runesOf pat).foldl trieStep (nodes, root)) = st at h1 h2 h3 ho
  intro n
  rw [getNode_set]
  split_ifs with c
  · show ((getNode st.1 st.2).output ++ [k]).Pairwise _
    rw [List.pairwise_append]
    refine ⟨by rw [ho]; exact hN _, List.pairwise_singleton _ _, ?_⟩
    intro i hi j _
    obtain ⟨hik, pat2, p1, p2⟩ := h1.out st.2 i hi
    rw [h3, root, hT.shape.root, List.nil_append] at p2
    have := hinj i k pat2 pat p1 hp p2
    omega
  · rw [ho]
    exact hN n

theorem insertAll_osorted {patterns : List Str} :
    ∀ (ps : List Str) (k : Nat) (nodes : List acNode) (L : Nat → List Nat),
      TrieInv nodes L patterns k → (∀ j pat, ps[j]? = some pat → patterns[k + j]? = some pat) →
      (∀ (i j : Nat) (pi pj : Str), patterns[i]? = some pi → patterns[j]? = some pj →
        runesOf pi = runesOf pj → i = j) →
      OSorted nodes patterns → OSorted (insertAll k ps nodes) patterns := by
  intro ps
  induction ps with
  | nil => intro k nodes L _ _ _ h; exact h
  | cons p ps ih =>
    intro k nodes L hT hidx hinj hN
    have hp : patterns[k]? = some p := by
      have := hidx 0 p (by simp)
      simpa using this
    obtain ⟨L1, h1⟩ := insertPattern_inv hT hp
    rw [insertAll]
    exact ih (k + 1) (insertPattern nodes k p) L1 h1 (by
      intro j pat hj
      have := hidx (j + 1) pat (by simpa using hj)
      rw [show k + 1 + j = k + (j + 1) by omega]
      exact this) hinj (insertPattern_osorted hT hN hp hinj)

theorem buildTrie_osorted (patterns : List Str)
    (hinj : ∀ (i j : Nat) (pi pj : Str), patterns[i]? = some pi → patterns[j]? = some pj →
      runesOf pi = runesOf pj → i = j) : OSorted (buildTrie patterns) patterns := by
  unfold buildTrie
  refine insertAll_osorted patterns 0 _ _ (trieInv_init patterns) (by
    intro j pat hj
    rw [Nat.zero_add]
    exact hj) hinj ?_
  intro n
  have : (getNode [newACNode 0] n).output = [] := by
    rcases n with _ | n
    · rfl
    · rw [getNode_of_le _ (by simp)]
      rfl
  rw [this]
  exact List.Pairwise.nil

theorem linkChild_osorted {trie nodes : List acNode} {L : Nat → List Nat} {patterns : List Str}
    {S : List Nat} {k : Nat} (hT : TrieInv trie L patterns k) (hk : KeysNodup trie)
    (hOwn : OwnOutputs trie patterns patterns.length)
    (hI : LInv trie nodes L patterns S) (h0 : 0 ∉ S) {current r child : Nat}
    (hcS : current ∈ S) (hc : (r, child) ∈ (getNode nodes current).children)
    (hnew : child ∉ S)
    (hlvl : ∀ m, 0 < m → m < nodes.length → (L m).length ≤ (L current).length → m ∈ S)
    (hSo : Sound nodes L patterns) (hN : OSorted nodes patterns) (queue : List Nat)
    {nodes2 : List acNode} {q2 : List Nat}
    (h : linkChild current (nodes, queue) (r, child) = .ok (nodes2, q2)) : OSorted nodes2 patterns := by
  obtain ⟨n1, e1, hI2⟩ := linkChild_full hT hk hOwn hI h0 hcS hc hnew hlvl queue
  rw [e1] at h
  simp only [Except.ok.injEq, Prod.mk.injEq] at h
  obtain ⟨h, _⟩ := h
  subst h
  obtain ⟨fl, hform⟩ := linkChild_form e1
  obtain ⟨_, hch, _⟩ := (hI.shape hT).edge current r child hc
  obtain ⟨⟨f, hf1, hf2⟩, _⟩ := hI2.ok child (List.mem_append_right _ (List.mem_singleton.mpr rfl))
  have hfl : f = fl := by
    rw [hform, getNode_set, if_pos ⟨rfl, hch⟩] at hf1
    simp only [Option.some.injEq] at hf1
    exact hf1.symm
  subst hfl
  have hlen := hf2.2.2.1
  rw [hform]
  intro n
  rw [getNode_set]
  split_ifs with c c2
  · show ((getNode nodes child).output ++ (getNode nodes f).output).Pairwise _
    rw [List.pairwise_append]
    refine ⟨hN child, hN f, ?_⟩
    intro i hi j hj
    rw [hI.fresh child hnew] at hi
    obtain ⟨_, pat, p1, p2⟩ := hT.out child i hi
    obtain ⟨pat2, q1, q2⟩ := hSo.out f j hj
    rw [getD_of_some p1, getD_of_some q1, p2]
    have := q2.length_le
    omega
  · exact hN child
  · exact hN n

theorem linkChildren_osorted {trie : List acNode} {L : Nat → List Nat} {patterns : List Str}
    {k : Nat} (hT : TrieInv trie L patterns k) (hk : KeysNodup trie)
    (hOwn : OwnOutputs trie patterns patterns.length) (current : Nat) :
    ∀ (ch : List (Nat × Nat)) (nodes : List acNode) (queue S : List Nat),
      LInv trie nodes L patterns S → 0 ∉ S → current ∈ S →
      (∀ rc ∈ ch, rc ∈ (getNode nodes current).children) →
      (ch.map Prod.snd).Nodup → (∀ rc ∈ ch, rc.2 ∉ S) →
      (∀ m, 0 < m → m < nodes.length → (L m).length ≤ (L current).length → m ∈ S) →
      Sound nodes L patterns → OSorted nodes patterns →
      ∀ (nodes2 : List acNode) (q2 : List Nat),
        ch.foldlM (linkChild current) (nodes, queue) = .ok (nodes2, q2) → OSorted nodes2 patterns := by
  intro ch
  induction ch with
  | nil =>
    intro nodes queue S _ _ _ _ _ _ _ _ hN nodes2 q2 h
    simp only [List.foldlM, pure_eq_ok, Except.ok.injEq, Prod.mk.injEq] at h
    rw [← h.1]
    exact hN
  | cons rc ch ih =>
    intro nodes queue S hI h0 hcS hmem hnd hnew hlvl hSo hN nodes2 q2 h
    obtain ⟨r, child⟩ := rc
    simp only [List.map_cons, List.nodup_cons] at hnd
    have hc := hmem (r, child) (List.mem_cons_self _ _)
    have hcn := hnew (r, child) (List.mem_cons_self _ _)
    obtain ⟨n1, h1, h2⟩ := linkChild_full hT hk hOwn hI h0 hcS hc hcn hlvl queue
    obtain ⟨n1b, s1, _, s3, _, _⟩ := linkChild_spec (hI.shape hT) hSo hc queue
    rw [h1] at s1
    simp only [Except.ok.injEq, Prod.mk.injEq, and_true] at s1
    subst s1
    have hN1 := linkChild_osorted hT hk hOwn hI h0 hcS hc hcn hlvl hSo hN queue h1
    have hss : SameShape nodes n1 := by
      have a := hI.same
      have b := h2.same
      exact ⟨by rw [b.1, a.1], fun p => by rw [b.2, a.2]⟩
    rw [List.foldlM_cons, h1, bind_ok] at h
    exact ih n1 (queue ++ [child]) (S ++ [child]) h2
      (by
        intro hc0
        rcases List.mem_append.mp hc0 with hc0 | hc0
        · exact h0 hc0
        · rw [List.mem_singleton] at hc0
          have := (hI.shape hT).edge current r child hc
          omega)
      (List.mem_append_left _ hcS)
      (by
        intro x hx
        rw [hss.2]
        exact hmem x (List.mem_cons_of_mem _ hx))
      hnd.2
      (by
        intro x hx hcx
        rcases List.mem_append.mp hcx with hcx | hcx
        · exact hnew x (List.mem_cons_of_mem _ hx) hcx
        · rw [List.mem_singleton] at hcx
          exact hnd.1 (hcx ▸ List.mem_map_of_mem _ hx))
      (by
        intro m a b c
        rw [hss.1] at b
        exact List.mem_append_left _ (hlvl m a b c))
      s3 hN1 nodes2 q2 h

theorem linkRoot_osorted :
    ∀ (ch : List (Nat × Nat)) (nodes : List acNode) (queue : List Nat),
      OSorted nodes patterns → OSorted (ch.foldl linkRootChild (nodes, queue)).1 patterns := by
  intro ch
  induction ch with
  | nil => intro nodes queue h; exact h
  | cons rc ch ih =>
    intro nodes queue h
    rw [List.foldl_cons]
    apply ih
    intro n
    show (getNode (nodes.set rc.2 { getNode nodes rc.2 with fail := some root }) n).output.Pairwise _
    rw [getNode_set]
    split_ifs
    · exact h rc.2
    · exact h n

theorem bfs_osorted {trie : List acNode} {L : Nat → List Nat} {patterns : List Str} {k : Nat}
    {ord : MapOrder} (hord : IsMapOrder ord) (hT : TrieInv trie L patterns k)
    (hk : KeysNodup trie) (hOwn : OwnOutputs trie patterns patterns.length) :
    ∀ (fuel : Nat) (done queue : List Nat) (nodes : List acNode),
      BInv nodes L patterns done queue → LInv trie nodes L patterns (done ++ queue) →
      (done ++ queue).Pairwise (fun a b => (L a).length ≤ (L b).length) →
      OSorted nodes patterns →
      ∀ nodes2, bfs ord fuel queue nodes = .ok nodes2 → OSorted nodes2 patterns := by
  intro fuel
  induction fuel with
  | zero =>
    intro done queue nodes _ _ _ hN nodes2 h
    rcases queue with _ | ⟨current, q⟩
    · rw [bfs_nil] at h
      simp only [Except.ok.injEq] at h
      rw [← h]
      exact hN
    · rw [bfs] at h
      cases h
  | succ fuel ih =>
    intro done queue nodes hB hI hs hN nodes2 h
    rcases queue with _ | ⟨current, q⟩
    · rw [bfs_nil] at h
      simp only [Except.ok.injEq] at h
      rw [← h]
      exact hN
    · have hperm := hord (getNode nodes current).children
      obtain ⟨n1, h1, h2, h3, h4, h5⟩ := linkChildren_spec current
        (ord (getNode nodes current).children) nodes q hB.shape hB.sound
        (fun _ hx => hperm.mem_iff.mp hx)
      have h00 : 0 ∉ done ++ current :: q := by
        intro hc
        have := (hB.range 0 hc).1
        omega
      have hndc : ((ord (getNode nodes current).children).map Prod.snd).Nodup :=
        (hperm.map Prod.snd).nodup_iff.mpr (hB.shape.nodupChildren current)
      obtain ⟨n1b, f1, f2⟩ := linkChildren_full hT hk hOwn current
        (ord (getNode nodes current).children) nodes q (done ++ current :: q) hI h00
        (by simp) (fun _ hx => hperm.mem_iff.mp hx) hndc
        (fun x hx => hB.child_fresh x (hperm.mem_iff.mp hx)) (hB.level hs)
      have hN1 := linkChildren_osorted hT hk hOwn current
        (ord (getNode nodes current).children) nodes q (done ++ current :: q) hI h00
        (by simp) (fun _ hx => hperm.mem_iff.mp hx) hndc
        (fun x hx => hB.child_fresh x (hperm.mem_iff.mp hx)) (hB.level hs) hB.sound hN _ _ h1
      rw [h1] at f1
      simp only [Except.ok.injEq, Prod.mk.injEq, and_true] at f1
      subst f1
      have hB2 := hB.step hperm h2 h3 h4 h5
      have hassoc : (done ++ [current]) ++ (q ++ (ord (getNode nodes current).children).map
          Prod.snd) = (done ++ current :: q) ++
          (ord (getNode nodes current).children).map Prod.snd := by simp
      rw [bfs, h1, bind_ok] at h
      exact ih (done ++ [current])
        (q ++ (ord (getNode nodes current).children).map Prod.snd) n1 hB2
        (by rw [hassoc]; exact f2)
        (hB.sorted_step hs (fun _ hx => hperm.mem_iff.mp hx)) hN1 nodes2 h

theorem buildFailLinks_osorted {trie : List acNode} {L : Nat → List Nat} {patterns : List Str}
    {ord : MapOrder} (hord : IsMapOrder ord)
    (hT : TrieInv trie L patterns patterns.length) (hk : KeysNodup trie)
    (hOwn : OwnOutputs trie patterns patterns.length) (hN : OSorted trie patterns)
    {nodes2 : List acNode} (h : buildFailLinks ord trie = .ok nodes2) : OSorted nodes2 patterns := by
  have hp := hord (getNode trie root).children
  obtain ⟨g1, g2, g3, g4, g5⟩ := linkRoot_spec (ord (getNode trie root).children) trie []
    hT.shape hT.sound (fun _ hx => hp.mem_iff.mp hx)
  have hnd : ((ord (getNode trie root).children).map Prod.snd).Nodup :=
    (hp.map Prod.snd).nodup_iff.mpr (hT.shape.nodupChildren root)
  have hI := linkRoot_full hT hk hOwn (ord (getNode trie root).children) trie [] []
    linvInit (fun _ hx => hp.mem_iff.mp hx) hnd (by simp)
  have hB : BInv ((ord (getNode trie root).children).foldl linkRootChild (trie, [])).1 L
      patterns [] ((ord (getNode trie root).children).foldl linkRootChild (trie, [])).2 := by
    rw [g1]
    refine ⟨hT.shape.of_sameShape g2, g3, ?_, ?_, ?_, ?_, ?_⟩
    · simpa using hnd
    · intro n hn
      simp only [List.nil_append, List.mem_map] at hn
      obtain ⟨x, hx, rfl⟩ := hn
      obtain ⟨e1, e2, _⟩ := hT.shape.edge root x.1 x.2 (hp.mem_iff.mp hx)
      rw [g2.1]
      exact ⟨by omega, e2⟩
    · intro n hn
      simp only [List.nil_append, List.mem_map] at hn
      obtain ⟨x, hx, rfl⟩ := hn
      exact g4 x hx
    · intro n hn
      simp only [List.nil_append, List.mem_map] at hn
      obtain ⟨x, hx, rfl⟩ := hn
      exact ⟨root, x.1, by rw [g2.2]; exact hp.mem_iff.mp hx, Or.inl rfl⟩
    · intro p hp2 rc hrc
      rcases hp2 with e | e
      · subst e
        rw [g2.2] at hrc
        simp only [List.nil_append, List.mem_map]
        exact ⟨rc, hp.mem_iff.mpr hrc, rfl⟩
      · simp at e
  have hsorted : (([] : List Nat) ++
      ((ord (getNode trie root).children).foldl linkRootChild (trie, [])).2).Pairwise
      (fun a b => (L a).length ≤ (L b).length) := by
    rw [g1]
    simp only [List.nil_append]
    rw [List.pairwise_iff_forall_sublist]
    intro a b hab
    have hd : ∀ c ∈ (ord (getNode trie root).children).map Prod.snd, (L c).length = 1 := by
      intro c hc
      obtain ⟨x, hx, rfl⟩ := List.mem_map.mp hc
      obtain ⟨_, _, e⟩ := hT.shape.edge root x.1 x.2 (hp.mem_iff.mp hx)
      rw [e, root, hT.shape.root]
      simp
    rw [hd a (hab.subset (by simp)), hd b (hab.subset (by simp))]
  unfold buildFailLinks at h
  exact bfs_osorted hord hT hk hOwn trie.length [] _ _ hB (by rw [g1]; exact hI) hsorted
    (linkRoot_osorted _ trie [] hN) nodes2 h

/-- In the automaton that `newAhoCorasick` builds from patterns no two of which
decode to the same runes, every output list holds the patterns in strictly
decreasing number of runes, in whatever order the maps are visited. -/
theorem newAhoCorasick_osorted {ord : MapOrder} (hord : IsMapOrder ord) {patterns : List Str}
    (hinj : ∀ (i j : Nat) (pi pj : Str), patterns[i]? = some pi → patterns[j]? = some pj →
      runesOf pi = runesOf pj → i = j)
    {ac : ahoCorasick} (h : newAhoCorasick ord patterns = .ok ac) :
    OSorted ac.nodes patterns := by
  obtain ⟨L, hT⟩ := buildTrie_inv patterns
  obtain ⟨hk, hOwn⟩ := buildTrie_full patterns
  unfold newAhoCorasick at h
  obtain ⟨nodes, h1, h2⟩ := bind_eq_ok h
  rw [pure_eq_ok] at h2
  simp only [Except.ok.injEq] at h2
  rw [← h2]
  exact buildFailLinks_osorted hord hT hk hOwn (buildTrie_osorted patterns hinj) h1

theorem runes_distinct {patterns : List Str} (hv : ∀ p ∈ patterns, ValidString p = true)
    (hd : patterns.Nodup) :
    ∀ (i j : Nat) (pi pj : Str), patterns[i]? = some pi → patterns[j]? = some pj →
      runesOf pi = runesOf pj → i = j := by
  intro i j pi pj h1 h2 e
  have e2 : pi = pj := by
    rw [← stringOfRunes_runesOf (hv pi (List.getElem?_mem h1)),
      ← stringOfRunes_runesOf (hv pj (List.getElem?_mem h2)), e]
  subst e2
  obtain ⟨hi, e1⟩ := List.getElem?_eq_some_iff.mp h1
  obtain ⟨hj, e3⟩ := List.getElem?_eq_some_iff.mp h2
  exact (List.Nodup.getElem_inj_iff hd).mp (e1.trans e3.symm)

/-- A proper suffix in runes is shorter in bytes. -/
theorem suffix_bytes_lt {xs ys : List Nat} (h : xs <:+ ys) (hl : xs.length < ys.length) :
    (stringOfRunes xs).length < (stringOfRunes ys).length := by
  obtain ⟨t, rfl⟩ := h
  rcases t with _ | ⟨r, t⟩
  · simp at hl
  · rw [List.cons_append, stringOfRunes_cons, List.length_append, stringOfRunes_append,
      List.length_append]
    have := encodeRune_length_pos r
    omega

/-- C40, as stated, fails when a pattern occurs twice in the list: with the
patterns `["a", "a"]`, non-empty and well-formed, the scan of "a" reports two
matches that end at 1, with equal pattern length and equal start offset. -/
theorem equal_patterns_tie :
    (∀ p ∈ patternsAA, p ≠ [] ∧ ValidString p = true) ∧ ValidString textA = true ∧
      (newAhoCorasick insertionOrder patternsAA).bind (fun ac => SearchAll ac textA) =
        .ok [{ patternIndex := 0, start := 0, end_ := 1 },
          { patternIndex := 1, start := 0, end_ := 1 }] :=
  ⟨by decide!, by decide!, by decide!⟩

/-- C40, amended. For every list of pairwise distinct well-formed UTF-8 patterns
(the automaton is built from it in whatever order the maps are visited) and
every well-formed UTF-8 text, `SearchAll(text)` lists matches in
non-decreasing end offset, and matches that share an end offset appear in
strictly decreasing pattern length and strictly increasing start offset: the
longest pattern ending at a position is reported first. -/
theorem longest_match_first (ord : MapOrder) (hord : IsMapOrder ord) (patterns : List Str)
    (hv : ∀ p ∈ patterns, ValidString p = true) (hd : patterns.Nodup) (text : Str)
    (ht : ValidString text = true) :
    ∃ ac found, newAhoCorasick ord patterns = .ok ac ∧ SearchAll ac text = .ok found ∧
      found.Pairwise (fun a b => a.end_ < b.end_ ∨ (a.end_ = b.end_ ∧
        (patterns.getD b.patternIndex []).length < (patterns.getD a.patternIndex []).length ∧
        a.start < b.start)) := by
  obtain ⟨ac, h1, hpat, hac⟩ := newAhoCorasick_spec hord patterns
  obtain ⟨found, h2, h3⟩ := SearchAll_spec hac (runesOf text) (runesOf_valid text)
  have hsort := newAhoCorasick_osorted hord (runes_distinct hv hd) h1
  have hord2 := SearchAll_ordered hac hsort (runesOf text) (runesOf_valid text) h2
  refine ⟨ac, found, h1, by rw [← stringOfRunes_runesOf ht]; exact h2, ?_⟩
  refine hord2.imp_of_mem ?_
  intro a b ha hb hab
  rcases hab with h | ⟨he, hq⟩
  · exact Or.inl h
  · right
    obtain ⟨pa, ka, a1, a2, a3, a4, a5⟩ := h3 a ha
    obtain ⟨pb, kb, b1, b2, b3, b4, b5⟩ := h3 b hb
    rw [hpat] at a1 b1
    rw [getD_of_some a1, getD_of_some b1] at hq ⊢
    have hk : ka = kb := by
      have e : offset (runesOf text) ka = offset (runesOf text) kb := by
        unfold offset
        rw [← a4, ← b4, he]
      exact Nat.le_antisymm (offset_le_of_le _ a3 (Nat.le_of_eq e))
        (offset_le_of_le _ b3 (Nat.le_of_eq e.symm))
    subst hk
    have hsuf : runesOf pb <:+ runesOf pa :=
      List.suffix_of_suffix_length_le b5 a5 (Nat.le_of_lt hq)
    have hlt := suffix_bytes_lt hsuf hq
    rw [stringOfRunes_runesOf (hv pa (List.getElem?_mem a1)),
      stringOfRunes_runesOf (hv pb (List.getElem?_mem b1))] at hlt
    refine ⟨he, hlt, ?_⟩
    rw [a2, b2, he]
    omega

/-- The witness of `longest_match_first`: the patterns `["a", "aaa"]` and the text
"aaa"; at the end offset 3 the scan reports "aaa" before "a". -/
theorem longest_match_first_witness :
    IsMapOrder insertionOrder ∧ (∀ p ∈ patternsAAaa, ValidString p = true) ∧
      patternsAAaa.Nodup ∧ ValidString textAaa = true ∧
      ∃ ac found, newAhoCorasick insertionOrder patternsAAaa = .ok ac ∧
        SearchAll ac textAaa = .ok found ∧
        found.Pairwise (fun a b => a.end_ < b.end_ ∨ (a.end_ = b.end_ ∧
          (patternsAAaa.getD b.patternIndex []).length <
            (patternsAAaa.getD a.patternIndex []).length ∧
          a.start < b.start)) :=
  ⟨isMapOrder_insertionOrder, by decide!, by decide, by decide!,
    longest_match_first insertionOrder isMapOrder_insertionOrder patternsAAaa (by decide!)
      (by decide) textAaa (by decide!)⟩

end GoshDarnit
